import Mathlib

/-!
dDNNFreasoner: a shallow embedding of the d-DNNF circuit engine

The development follows `src/programs/dDNNFreasoner/src`:

* `model.hpp`        : `Binding`, `Model`, `CompactModel`
* `weightvector.hpp` : `WeightVector`
* `node.hpp/.cpp`    : the node classes, `modelCount`, `validModel`, export
* `graph.hpp/.cpp`   : `Graph`, `updateWeights`, `modelCount`, `conditionTo`, `print`
* `linObjFunc.cpp`   : `LinObjFunc`
* `parser.cpp`       : the NNF reader

Conventions of the embedding.

* C++ `int` is `Int` (overflow is out of the specification's scope), `mpq_class` is `ℚ`,
  and a finite `double` weight is the rational it denotes (the source only multiplies
  and adds weights after converting them to `mpq_class`, which is exact).
* `std::vector` is `List`; an access outside the vector is undefined behaviour in the
  source and is modelled by `vecGet` / `vecSet` as reading a default value / writing nothing.
* `std::set<int>` is `Finset Int`; iterating it visits `Finset.sort (· ≤ ·)`.
* A node is a tree carrying the address of the object it stands for, so that a shared
  child is a repeated subtree with the same address.  Maps keyed by node pointers
  (`std::map<std::shared_ptr<Node>, _>`, `std::map<const Node*, _>`) are association
  lists keyed by that address.
-/

set_option autoImplicit false

/-! ## Vectors -/

/-- Read `v[i]` of a `std::vector`; outside the vector the default `d` is returned. -/
def vecGet {α : Type} (v : List α) (i : Int) (d : α) : α :=
  if 0 ≤ i then v.getD i.toNat d else d

/-- Write `v[i] = x` of a `std::vector`; outside the vector nothing is written. -/
def vecSet {α : Type} (v : List α) (i : Int) (x : α) : List α :=
  if 0 ≤ i then v.set i.toNat x else v

/-! ## model.hpp -/

/-- Binding: a boolean variable binding.  `Unsat` means the variable is both true and false. -/
inductive Binding where
  | False
  | True
  | Free
  | Unsat
  deriving DecidableEq, Repr

/-- The conversion `static_cast<Binding>(b)` of a `bool`: `false ↦ False`, `true ↦ True`. -/
def Binding.ofBool (b : Bool) : Binding :=
  if b then Binding.True else Binding.False

/-- A model is a list of bindings, one for each variable `1..nbVars`. -/
structure Model where
  content : List Binding
  deriving DecidableEq, Repr

namespace Model

/-- The constructor `Model(int nbVars)`: every variable is `Free`. -/
def free (nbVars : Nat) : Model :=
  ⟨List.replicate nbVars Binding.Free⟩

def nbVars (m : Model) : Nat :=
  m.content.length

/-- The accessor `bindingFor(var)`, i.e. `content[var-1]`. -/
def bindingFor (m : Model) (var : Int) : Binding :=
  vecGet m.content (var - 1) Binding.Free

/-- The method `setBindingFor(var, binding)`: a `True` over a `False` (or the converse)
stores `Unsat`, anything else overwrites. -/
def setBindingFor (m : Model) (var : Int) (binding : Binding) : Model :=
  let old := vecGet m.content (var - 1) Binding.Free
  if (old = Binding.True ∧ binding = Binding.False) ∨
      (old = Binding.False ∧ binding = Binding.True) then
    ⟨vecSet m.content (var - 1) Binding.Unsat⟩
  else
    ⟨vecSet m.content (var - 1) binding⟩

/-- The loop of `Model::mix` from index `i` on: `b1s`, `b2s` are what is left of
`m1.content` and `m2.content`, `out` is `mOut.content`.  Returns the success flag and
`mOut.content` as the loop leaves it. -/
def mixLoop : List Binding → List Binding → List Binding → Nat → Bool × List Binding
  | [], _, out, _ => (true, out)
  | b1 :: b1s, b2s, out, i =>
    let b2 := b2s.headD Binding.Free
    if b1 = Binding.Free then
      mixLoop b1s b2s.tail (out.set i b2) (i + 1)
    else if b2 = Binding.Free ∨ b1 = b2 then
      mixLoop b1s b2s.tail (out.set i b1) (i + 1)
    else
      (false, out)

/-- The static method `Model::mix(m1, m2, mOut)`: the flag it returns and the new `mOut`.
When `mOut` is the same object as `m1` (as in `AndNode::validModel`) index `i` is read
before it is written and no later read sees it, so the result is the one computed here. -/
def mix (m1 m2 mOut : Model) : Bool × Model :=
  let r := mixLoop m1.content m2.content mOut.content 0
  (r.1, ⟨r.2⟩)

end Model

/-- A CompactModel only holds bound variables: `content[v-1]` is the value of variable `v`. -/
structure CompactModel where
  content : List Bool
  deriving DecidableEq, Repr

namespace CompactModel

/-- The constructor `CompactModel(const Model&)`: a variable is true iff it is bound to `True`. -/
def ofModel (m : Model) : CompactModel :=
  ⟨m.content.map (fun b => decide (b = Binding.True))⟩

/-- The value `content[var-1]`. -/
def value (M : CompactModel) (var : Int) : Bool :=
  vecGet M.content (var - 1) false

/-- The accessor `bindingFor(var)`. -/
def bindingFor (M : CompactModel) (var : Int) : Binding :=
  if M.value var then Binding.True else Binding.False

end CompactModel

/-! ## weightvector.hpp -/

/-- A WeightVector associates a weight with each literal: the vector holds the weights of
`1, -1, 2, -2, …`. -/
structure WeightVector where
  vec : List ℚ

namespace WeightVector

/-- The constructor `WeightVector(int nbVars)`: every literal weighs `1`. -/
def uniform (nbVars : Nat) : WeightVector :=
  ⟨List.replicate (nbVars * 2) 1⟩

/-- The index of literal `lit` in the vector: `(v-1)*2 + (lit < 0)`. -/
def idx (lit : Int) : Int :=
  let v := if lit > 0 then lit else -lit
  (v - 1) * 2 + (if lit < 0 then 1 else 0)

def weightFor (w : WeightVector) (lit : Int) : ℚ :=
  vecGet w.vec (idx lit) 0

def weightForVar (w : WeightVector) (var : Int) : ℚ :=
  let i := (var - 1) * 2
  vecGet w.vec i 0 + vecGet w.vec (i + 1) 0

def setWeightFor (w : WeightVector) (lit : Int) (weight : ℚ) : WeightVector :=
  ⟨vecSet w.vec (idx lit) weight⟩

def nbVars (w : WeightVector) : Nat :=
  w.vec.length / 2

end WeightVector

/-! ## node.hpp -/

/-- The node classes `FalseNode`, `TrueNode`, `LitNode`, `OrNode`, `AndNode`.
`addr` is the address of the object.  An `OrNode` has two branches, each with its
`unitLits` and its `child`; `seen` is the field `_seenVars`. -/
inductive Node where
  | falseNode (addr : Nat)
  | trueNode (addr : Nat)
  | litNode (addr : Nat) (lit : Int)
  | orNode (addr : Nat) (var : Int) (unitLits0 : List Int) (child0 : Node)
      (unitLits1 : List Int) (child1 : Node) (seen : Finset Int)
  | andNode (addr : Nat) (children : List Node) (unitLits : List Int) (seen : Finset Int)

instance : Inhabited Node := ⟨Node.falseNode 0⟩

/-- The shared `falseNode` of node.hpp. -/
def falseNode : Node := Node.falseNode 0

/-- The shared `trueNode` of node.hpp. -/
def trueNode : Node := Node.trueNode 1

/-- The memo of `modelCount`, a `std::map` from node pointers to counts. -/
abbrev Cache := List (Nat × ℚ)

namespace Node

def addr : Node → Nat
  | falseNode a => a
  | trueNode a => a
  | litNode a _ => a
  | orNode a _ _ _ _ _ _ => a
  | andNode a _ _ _ => a

/-- The virtual method `seenVars()`. -/
def seenVars : Node → Finset Int
  | falseNode _ => ∅
  | trueNode _ => ∅
  | litNode _ lit => {|lit|}
  | orNode _ _ _ _ _ _ seen => seen
  | andNode _ _ _ seen => seen

end Node

/-- The smoothing loop shared by `OrNode::modelCount` and `Graph::modelCount`:
for each `var` of `vars` in turn, `factor` becomes
`factor * w(var) + factor * w(-var)` when `var` is not in `seenChild`, and the loop is
left as soon as `factor` is `0`. -/
def smoothLoop (weights : WeightVector) (seenChild : Finset Int) : List Int → ℚ → ℚ
  | [], factor => factor
  | var :: vars, factor =>
    let factor := if var ∉ seenChild then
        factor * weights.weightFor var + factor * weights.weightFor (-var)
      else factor
    if factor = 0 then factor else smoothLoop weights seenChild vars factor

namespace Node

/-- What `OrNode::modelCount` makes of the count `local` of one branch's child. -/
def orBranchCount (weights : WeightVector) (seen : Finset Int) (child : Node) (loc : ℚ) : ℚ :=
  if seen.card ≠ child.seenVars.card then
    loc * smoothLoop weights child.seenVars (seen.sort (· ≤ ·)) 1
  else loc

mutual
/-- The virtual method `modelCount(weights, cache)`; the cache is threaded through. -/
def modelCount (weights : WeightVector) : Node → Cache → ℚ × Cache
  | falseNode _, cache => (0, cache)
  | trueNode _, cache => (1, cache)
  | litNode _ lit, cache => (weights.weightFor lit, cache)
  | orNode _ _ _ child0 _ child1 seen, cache =>
    let r0 := modelCount weights child0 cache
    let res := 0 + orBranchCount weights seen child0 r0.1
    let r1 := modelCount weights child1 r0.2
    (res + orBranchCount weights seen child1 r1.1, r1.2)
  | andNode _ children unitLits _, cache =>
    let nb := unitLits.foldl (fun nb lit => nb * weights.weightFor lit) 1
    if nb = 0 then (0, cache) else modelCountChildren weights children nb cache
/-- The loop over the children in `AndNode::modelCount`. -/
def modelCountChildren (weights : WeightVector) : List Node → ℚ → Cache → ℚ × Cache
  | [], nb, cache => (nb, cache)
  | child :: rest, nb, cache =>
    match cache.lookup child.addr with
    | none =>
      let r := modelCount weights child cache
      let cache := (child.addr, r.1) :: r.2
      let nb := nb * r.1
      if nb = 0 then (0, cache) else modelCountChildren weights rest nb cache
    | some mc =>
      let nb := nb * mc
      if nb = 0 then (0, cache) else modelCountChildren weights rest nb cache
end

end Node

/-- The variable of a literal, `lit > 0 ? lit : -lit`. -/
def varOf (lit : Int) : Int :=
  if lit > 0 then lit else -lit

/-- The loop on unit literals of `OrNode::validModel` and `AndNode::validModel`:
`none` when a binding of the model is opposite to a literal. -/
def applyUnitLits : List Int → Model → Option Model
  | [], m => some m
  | lit :: lits, m =>
    let var := varOf lit
    let b := m.bindingFor var
    if b = Binding.Unsat ∨ b = Binding.ofBool (decide (lit < 0)) then none
    else applyUnitLits lits (m.setBindingFor var (Binding.ofBool (decide (lit > 0))))

namespace Node

mutual
/-- The virtual method `validModel(partialModel)`; `none` is `nullptr`. -/
def validModel : Node → Model → Option Model
  | falseNode _, _ => none
  | trueNode _, partialModel => some partialModel
  | litNode _ lit, partialModel =>
    let var := varOf lit
    let binding := partialModel.bindingFor var
    if binding = Binding.Free then
      some (partialModel.setBindingFor var (Binding.ofBool (decide (lit > 0))))
    else if binding = Binding.Unsat ∨ binding = Binding.ofBool (decide (lit < 0)) then
      none
    else
      some partialModel
  | orNode _ _ unitLits0 child0 unitLits1 child1 _, partialModel =>
    let r0 := match applyUnitLits unitLits0 partialModel with
      | none => none
      | some m => validModel child0 m
    match r0 with
    | some res => some res
    | none =>
      match applyUnitLits unitLits1 partialModel with
      | none => none
      | some m => validModel child1 m
  | andNode _ children unitLits _, partialModel =>
    match applyUnitLits unitLits partialModel with
    | none => none
    | some res => validModelChildren children res
/-- The loop over the children in `AndNode::validModel`. -/
def validModelChildren : List Node → Model → Option Model
  | [], res => some res
  | child :: rest, res =>
    match validModel child res with
    | none => none
    | some m =>
      let r := Model.mix res m res
      if r.1 then validModelChildren rest r.2 else none
end

end Node

/-! ## graph.hpp, graph.cpp -/

/-- The class `Graph`. -/
structure Graph where
  nbVars : Nat
  root : Node
  weights : WeightVector

/-- The variables `1, …, n` in increasing order, as the loops `for (var = 1; var <= n; var++)`
visit them. -/
def varsUpTo (n : Nat) : List Int :=
  (List.range n).map (fun (i : Nat) => (i : Int) + 1)

/-- The function `updateWeights`: every literal falsified by the model gets weight `0`. -/
def updateWeights (weights : WeightVector) (partialModel : Model) : WeightVector :=
  (varsUpTo weights.nbVars).foldl (fun w i =>
    match partialModel.bindingFor i with
    | Binding.True => w.setWeightFor (-i) 0
    | Binding.False => w.setWeightFor i 0
    | Binding.Unsat => (w.setWeightFor (-i) 0).setWeightFor i 0
    | Binding.Free => w) weights

namespace Graph

/-- The constructor `Graph(nbVars, root)`: the weights are uniform. -/
def make (nbVars : Nat) (root : Node) : Graph :=
  ⟨nbVars, root, WeightVector.uniform nbVars⟩

def setWeights (g : Graph) (newWeights : WeightVector) : Graph :=
  { g with weights := newWeights }

/-- The method `Graph::modelCount(partialModel)`. -/
def modelCount (g : Graph) (partialModel : Model) : ℚ :=
  let cache : Cache := []
  let localWeights := updateWeights g.weights partialModel
  let mc := (g.root.modelCount localWeights cache).1
  let vars := g.root.seenVars
  if vars.card = g.nbVars then mc
  else mc * smoothLoop localWeights vars (varsUpTo g.nbVars) 1

/-- The method `Graph::validModel(partialModel)`. -/
def validModel (g : Graph) (partialModel : Model) : Option Model :=
  g.root.validModel partialModel

end Graph

/-! ## The circuit as a boolean formula -/

/-- The truth value of literal `lit` when variable `v` has value `ρ v`. -/
def litVal (ρ : Int → Bool) (lit : Int) : Bool :=
  if lit > 0 then ρ lit else !(ρ (-lit))

/-- The set of the variables of a list of literals. -/
def litVars (lits : List Int) : Finset Int :=
  (lits.map (fun l => |l|)).toFinset

namespace Node

mutual
/-- The circuit read as a boolean formula: an And is the conjunction of its unit literals
and its children, a branch of an Or is the conjunction of its unit literals and its
child, an Or is the disjunction of its two branches. -/
def eval (ρ : Int → Bool) : Node → Bool
  | falseNode _ => false
  | trueNode _ => true
  | litNode _ lit => litVal ρ lit
  | orNode _ _ unitLits0 child0 unitLits1 child1 _ =>
    (unitLits0.all (litVal ρ) && eval ρ child0) || (unitLits1.all (litVal ρ) && eval ρ child1)
  | andNode _ children unitLits _ => unitLits.all (litVal ρ) && evalAll ρ children
/-- The conjunction of a list of nodes. -/
def evalAll (ρ : Int → Bool) : List Node → Bool
  | [] => true
  | child :: rest => eval ρ child && evalAll ρ rest
end

mutual
/-- The variables mentioned in the subgraph of a node. -/
def vars : Node → Finset Int
  | falseNode _ => ∅
  | trueNode _ => ∅
  | litNode _ lit => {|lit|}
  | orNode _ _ unitLits0 child0 unitLits1 child1 _ =>
    (litVars unitLits0 ∪ vars child0) ∪ (litVars unitLits1 ∪ vars child1)
  | andNode _ children unitLits _ => litVars unitLits ∪ varsAll children
/-- The variables mentioned in a list of nodes. -/
def varsAll : List Node → Finset Int
  | [] => ∅
  | child :: rest => vars child ∪ varsAll rest
end

/-- The union of the `seenVars()` of a list of nodes. -/
def seenVarsAll : List Node → Finset Int
  | [] => ∅
  | child :: rest => child.seenVars ∪ seenVarsAll rest

mutual
/-- Every And and Or node carries the `_seenVars` the parser computes (`parseAnd`,
`parseOr`): for an And the variables of its unit literals and the `seenVars()` of its
children, for an Or the `seenVars()` of the two branch children. -/
def SeenOk : Node → Prop
  | falseNode _ => True
  | trueNode _ => True
  | litNode _ _ => True
  | orNode _ _ _ child0 _ child1 seen =>
    seen = child0.seenVars ∪ child1.seenVars ∧ SeenOk child0 ∧ SeenOk child1
  | andNode _ children unitLits seen =>
    seen = litVars unitLits ∪ seenVarsAll children ∧ SeenOkAll children
def SeenOkAll : List Node → Prop
  | [] => True
  | child :: rest => SeenOk child ∧ SeenOkAll rest
end

mutual
/-- No branch of an Or node carries unit literals (the parser never fills them: the
literals of a branch are the unit literals of the And node that is the branch's child). -/
def NoOrUnits : Node → Prop
  | falseNode _ => True
  | trueNode _ => True
  | litNode _ _ => True
  | orNode _ _ unitLits0 child0 unitLits1 child1 _ =>
    unitLits0 = [] ∧ unitLits1 = [] ∧ NoOrUnits child0 ∧ NoOrUnits child1
  | andNode _ children _ _ => NoOrUnitsAll children
def NoOrUnitsAll : List Node → Prop
  | [] => True
  | child :: rest => NoOrUnits child ∧ NoOrUnitsAll rest
end

/-- The variable sets of the conjuncts of an And (or of a branch of an Or): one singleton
for each unit literal, then the variables of each child. -/
def conjunctVars (unitLits : List Int) (children : List Node) : List (Finset Int) :=
  unitLits.map (fun l => {|l|}) ++ children.map vars

mutual
/-- Decomposability: the conjuncts of every And node, and of every branch of an Or node,
mention pairwise disjoint sets of variables. -/
def Decomposable : Node → Prop
  | falseNode _ => True
  | trueNode _ => True
  | litNode _ _ => True
  | orNode _ _ unitLits0 child0 unitLits1 child1 _ =>
    (conjunctVars unitLits0 [child0]).Pairwise Disjoint ∧
    (conjunctVars unitLits1 [child1]).Pairwise Disjoint ∧
    Decomposable child0 ∧ Decomposable child1
  | andNode _ children unitLits _ =>
    (conjunctVars unitLits children).Pairwise Disjoint ∧ DecomposableAll children
def DecomposableAll : List Node → Prop
  | [] => True
  | child :: rest => Decomposable child ∧ DecomposableAll rest
end

mutual
/-- Determinism: no assignment satisfies both branches of an Or node. -/
def Deterministic : Node → Prop
  | falseNode _ => True
  | trueNode _ => True
  | litNode _ _ => True
  | orNode _ _ unitLits0 child0 unitLits1 child1 _ =>
    (∀ ρ : Int → Bool, ¬ ((unitLits0.all (litVal ρ) && eval ρ child0) = true ∧
        (unitLits1.all (litVal ρ) && eval ρ child1) = true)) ∧
    Deterministic child0 ∧ Deterministic child1
  | andNode _ children _ _ => DeterministicAll children
def DeterministicAll : List Node → Prop
  | [] => True
  | child :: rest => Deterministic child ∧ DeterministicAll rest
end

/-- A literal of variable `1..nbVars`. -/
def litInRange (nbVars : Nat) (lit : Int) : Prop :=
  1 ≤ |lit| ∧ |lit| ≤ (nbVars : Int)

mutual
/-- Every literal of the subgraph is a literal of a variable in `1..nbVars`. -/
def LitsInRange (nbVars : Nat) : Node → Prop
  | falseNode _ => True
  | trueNode _ => True
  | litNode _ lit => litInRange nbVars lit
  | orNode _ _ unitLits0 child0 unitLits1 child1 _ =>
    (∀ l ∈ unitLits0, litInRange nbVars l) ∧ LitsInRange nbVars child0 ∧
    (∀ l ∈ unitLits1, litInRange nbVars l) ∧ LitsInRange nbVars child1
  | andNode _ children unitLits _ =>
    (∀ l ∈ unitLits, litInRange nbVars l) ∧ LitsInRangeAll nbVars children
def LitsInRangeAll (nbVars : Nat) : List Node → Prop
  | [] => True
  | child :: rest => LitsInRange nbVars child ∧ LitsInRangeAll nbVars rest
end

mutual
/-- The nodes of a subgraph, the root first; a shared node is listed once for each path
that leads to it. -/
def subnodes : Node → List Node
  | falseNode a => [falseNode a]
  | trueNode a => [trueNode a]
  | litNode a lit => [litNode a lit]
  | orNode a v unitLits0 child0 unitLits1 child1 seen =>
    orNode a v unitLits0 child0 unitLits1 child1 seen :: (subnodes child0 ++ subnodes child1)
  | andNode a children unitLits seen =>
    andNode a children unitLits seen :: subnodesAll children
def subnodesAll : List Node → List Node
  | [] => []
  | child :: rest => subnodes child ++ subnodesAll rest
end

/-- Addresses identify nodes: two nodes of the subgraph at the same address are the same
object, hence the same subtree. -/
def AddrOk (root : Node) : Prop :=
  ∀ a ∈ subnodes root, ∀ b ∈ subnodes root, a.addr = b.addr → a = b

mutual
/-- What `modelCount` computes, without the memo and without the early exits. -/
def count (weights : WeightVector) : Node → ℚ
  | falseNode _ => 0
  | trueNode _ => 1
  | litNode _ lit => weights.weightFor lit
  | orNode _ _ _ child0 _ child1 seen =>
    orBranchCount weights seen child0 (count weights child0) +
      orBranchCount weights seen child1 (count weights child1)
  | andNode _ children unitLits _ =>
    (unitLits.map weights.weightFor).prod * countAll weights children
def countAll (weights : WeightVector) : List Node → ℚ
  | [] => 1
  | child :: rest => count weights child * countAll weights rest
end

end Node

/-! ## Auxiliary notions for the proofs -/

/-- The memo is sound for the subgraph of `root`: what it stores for the address of a node
is the count of that node. -/
def CacheOk (weights : WeightVector) (root : Node) (cache : Cache) : Prop :=
  ∀ n ∈ root.subnodes, ∀ q, cache.lookup n.addr = some q → q = n.count weights

/-- The assignment that makes exactly the variables of `T` true. -/
def assignOf (T : Finset Int) : Int → Bool :=
  fun v => decide (v ∈ T)

/-- The weight of the literal that the assignment `assignOf T` chooses for variable `v`. -/
def litWeight (w : WeightVector) (T : Finset Int) (v : Int) : ℚ :=
  if v ∈ T then w.weightFor v else w.weightFor (-v)

/-- The weighted count of the assignments of the variables `V` that satisfy `φ`. -/
def wmc (w : WeightVector) (φ : (Int → Bool) → Bool) (V : Finset Int) : ℚ :=
  ∑ T ∈ V.powerset, if φ (assignOf T) = true then ∏ v ∈ V, litWeight w T v else 0

/-- The formula `φ` only reads the variables of `V`. -/
def DependsOn (φ : (Int → Bool) → Bool) (V : Finset Int) : Prop :=
  ∀ ρ ρ' : Int → Bool, (∀ v ∈ V, ρ v = ρ' v) → φ ρ = φ ρ'

/-- The weight a free variable contributes: `w(v) + w(-v)`. -/
def varWeight (w : WeightVector) (v : Int) : ℚ :=
  w.weightFor v + w.weightFor (-v)

/-- The partial model binds the variable of `lit` against `lit`: to the opposite polarity,
or to `Unsat`. -/
def Model.falsifies (m : Model) (lit : Int) : Prop :=
  match m.bindingFor |lit| with
  | Binding.True => lit < 0
  | Binding.False => lit > 0
  | Binding.Unsat => True
  | Binding.Free => False

instance (m : Model) (lit : Int) : Decidable (m.falsifies lit) := by
  unfold Model.falsifies
  cases m.bindingFor |lit| <;> infer_instance

/-! ## Total assignments -/

/-- All the total models of `n` variables. -/
def CompactModel.all : Nat → List CompactModel
  | 0 => [⟨[]⟩]
  | n + 1 =>
    (CompactModel.all n).map (fun M => ⟨M.content ++ [true]⟩) ++
      (CompactModel.all n).map (fun M => ⟨M.content ++ [false]⟩)

/-- The assignment `ρ` agrees with the partial model on every non-`Free` binding of the
variables `1..nbVars` (no assignment agrees with an `Unsat` binding). -/
def agreesWith (partialModel : Model) (nbVars : Nat) (ρ : Int → Bool) : Bool :=
  (varsUpTo nbVars).all (fun v =>
    match partialModel.bindingFor v with
    | Binding.Free => true
    | Binding.True => ρ v
    | Binding.False => !(ρ v)
    | Binding.Unsat => false)

/-- The total model `M` agrees with the partial model `m`. -/
def CompactModel.agrees (M : CompactModel) (partialModel : Model) (nbVars : Nat) : Bool :=
  agreesWith partialModel nbVars M.value

/-- The total model `M` satisfies the circuit rooted at `n`. -/
def Node.sat (n : Node) (M : CompactModel) : Bool :=
  Node.eval M.value n

/-- The weight of a total model: the product over the variables `1..nbVars` of the weight
of the literal the model makes true. -/
def CompactModel.weight (w : WeightVector) (nbVars : Nat) (M : CompactModel) : ℚ :=
  ((varsUpTo nbVars).map (fun v => w.weightFor (if M.value v then v else -v))).prod

/-- The weighted sum the model count stands for: over the total models of `1..nbVars`
that agree with the partial model and satisfy the circuit, of the weight of the model. -/
def Graph.weightedModelSum (g : Graph) (partialModel : Model) : ℚ :=
  (((CompactModel.all g.nbVars).filter
    (fun M => M.agrees partialModel g.nbVars && g.root.sat M)).map
    (CompactModel.weight g.weights g.nbVars)).sum

/-- The conditions under which `Graph::modelCount` is exact: the circuit is decomposable
and deterministic, its And and Or nodes carry the `seenVars` the parser computes, its
literals are literals of `1..nbVars`, the weight vector has `2 * nbVars` entries, and
addresses identify nodes. -/
structure Graph.Valid (g : Graph) : Prop where
  decomposable : g.root.Decomposable
  deterministic : g.root.Deterministic
  seenOk : g.root.SeenOk
  litsInRange : g.root.LitsInRange g.nbVars
  weightsSize : g.weights.vec.length = 2 * g.nbVars
  addrOk : g.root.AddrOk

/-! ## Example graphs -/

/-- Scenario 2 of the specification:
`Or(1, [branch{units=[1], True}, branch{units=[-1], True}])` with `nbVars = 1`. -/
def orUnitsGraph : Graph :=
  Graph.make 1 (Node.orNode 2 1 [1] trueNode [-1] trueNode ∅)

/-- The same formula as the parser builds it: the literals of each branch are the unit
literals of an And node.  With a second variable that only the root smoothing sees. -/
def orAndGraph : Graph :=
  Graph.make 2 (Node.orNode 4 1 [] (Node.andNode 2 [] [1] {1}) []
    (Node.andNode 3 [] [-1] {1}) {1})

/-! ## Partial models -/

/-- The model `mOut` extends `m`: same length, and every binding of `m` that is not `Free`
is kept. -/
def Model.Extends (mOut m : Model) : Prop :=
  mOut.content.length = m.content.length ∧
    ∀ v : Int, m.bindingFor v ≠ Binding.Free → mOut.bindingFor v = m.bindingFor v

/-- The assignment `ρ` completes the partial model: it gives every variable bound to
`True` or `False` that value. -/
def Model.CompletedBy (m : Model) (ρ : Int → Bool) : Prop :=
  ∀ v : Int, (m.bindingFor v = Binding.True → ρ v = true) ∧
    (m.bindingFor v = Binding.False → ρ v = false)

/-- No variable is bound to `Unsat`. -/
def Model.NoUnsat (m : Model) : Prop :=
  ∀ v : Int, m.bindingFor v ≠ Binding.Unsat

mutual
/-- Smoothness: the two branches of every Or node mention the same variables. -/
def Node.Smooth : Node → Prop
  | Node.falseNode _ => True
  | Node.trueNode _ => True
  | Node.litNode _ _ => True
  | Node.orNode _ _ unitLits0 child0 unitLits1 child1 _ =>
    litVars unitLits0 ∪ child0.vars = litVars unitLits1 ∪ child1.vars ∧
      Node.Smooth child0 ∧ Node.Smooth child1
  | Node.andNode _ children _ _ => Node.SmoothAll children
def Node.SmoothAll : List Node → Prop
  | [] => True
  | child :: rest => Node.Smooth child ∧ Node.SmoothAll rest
end

/-- The decision on variable `1` as the parser builds it, with `nbVars = 1`. -/
def decisionGraph : Graph :=
  Graph.make 1 (Node.orNode 4 1 [] (Node.andNode 2 [] [1] {1}) []
    (Node.andNode 3 [] [-1] {1}) {1})

/-- The circuit `True` over one variable. -/
def trueGraph : Graph :=
  Graph.make 1 trueNode

/-- A decision whose second branch is `False`, with unit literals on the branches:
`Or(1, [branch{units=[1], True}, branch{units=[-1], False}])`. -/
def orUnitsFalseGraph : Graph :=
  Graph.make 1 (Node.orNode 2 1 [1] trueNode [-1] falseNode ∅)

/-! ## graph.cpp: `Graph::conditionTo` -/

/-- The loop of `Graph::conditionTo` over the variables: the unit literals and the
`_seenVars` of the new And node. -/
def conditionLits (partialModel : Model) (vars : List Int) : List Int × Finset Int :=
  vars.foldl (fun (acc : List Int × Finset Int) var =>
    match partialModel.bindingFor var with
    | Binding.True => (acc.1 ++ [var], insert var acc.2)
    | Binding.False => (acc.1 ++ [-var], insert var acc.2)
    | Binding.Unsat => (acc.1 ++ [var, -var], insert var acc.2)
    | Binding.Free => acc) ([], ∅)

/-- The method `Graph::conditionTo(partialModel)`: the weights are updated and the root
becomes a new And node, at address `addr`, with the literals of the model as unit literals
and the former root as only child. -/
def Graph.conditionTo (g : Graph) (partialModel : Model) (addr : Nat) : Graph :=
  let weights := updateWeights g.weights partialModel
  let r := conditionLits partialModel (varsUpTo weights.nbVars)
  { nbVars := g.nbVars
    root := Node.andNode addr [g.root] r.1 (r.2 ∪ g.root.seenVars)
    weights := weights }

/-- The circuit `Lit(1)` over one variable, with `w(1) = 2` and `w(-1) = 1`. -/
def litGraphWeighted : Graph :=
  { nbVars := 1, root := Node.litNode 2 1, weights := ⟨[2, 1]⟩ }

/-- The unit literals `Graph::conditionTo` pushes for variable `var`. -/
def condLitsOf (partialModel : Model) (var : Int) : List Int :=
  match partialModel.bindingFor var with
  | Binding.True => [var]
  | Binding.False => [-var]
  | Binding.Unsat => [var, -var]
  | Binding.Free => []

/-! ## linObjFunc.hpp, linObjFunc.cpp -/

/-- The class `LinObjFunc`: the vector holds the integer weights of the literals
`1, -1, 2, -2, …`. -/
structure LinObjFunc where
  weights : List Int
  deriving Repr

/-- The pair `VecNodePair` of a list of forced literals and a replacement node. -/
abbrev VecNodePair := List Int × Node

namespace Node

/-- The test `typeid(node) == typeid(FalseNode)`. -/
def isFalseNode : Node → Bool
  | falseNode _ => true
  | _ => false

end Node

namespace LinObjFunc

/-- The constructor `LinObjFunc(int nbVars)`: the function `0`. -/
def make (nbVars : Nat) : LinObjFunc :=
  ⟨List.replicate (nbVars * 2) 0⟩

/-- The index of a literal: `lit>0 ? (lit-1)<<1 : 1+((-lit-1)<<1)`. -/
def idx (lit : Int) : Int :=
  if lit > 0 then (lit - 1) * 2 else 1 + (-lit - 1) * 2

def get (f : LinObjFunc) (lit : Int) : Int :=
  vecGet f.weights (idx lit) 0

def set (f : LinObjFunc) (lit weight : Int) : LinObjFunc :=
  ⟨vecSet f.weights (idx lit) weight⟩

/-- The number of variables, `(int)weights.size()>>1`. -/
def nbVars (f : LinObjFunc) : Nat :=
  f.weights.length / 2

/-- The first loop of `minWeight(lits)` and of `optimizeUnderConstraint`: the sum of the
weights of the literals and the vector `assigned`. -/
def sumAssigned (f : LinObjFunc) (lits : List Int) : Int × List Bool :=
  lits.foldl (fun (acc : Int × List Bool) val =>
    (acc.1 + f.get val, vecSet acc.2 (if val > 0 then val - 1 else -val - 1) true))
    (0, List.replicate f.nbVars false)

/-- The method `minWeight(lits)`: the literals of `lits` at their weight, every variable
that is not assigned in `lits` at the weight of its cheaper literal. -/
def minWeight (f : LinObjFunc) (lits : List Int) : Int :=
  let r := f.sumAssigned lits
  (List.range r.2.length).foldl (fun value i =>
    if !(r.2.getD i false) then
      let valPos := f.get ((i : Int) + 1)
      let valNeg := f.get (-(i : Int) - 1)
      value + (if valNeg > valPos then valPos else valNeg)
    else value) r.1

mutual
/-- The method `optimizeUnderConstraints(root)` with `optimizeUnderAndConstraint`,
`optimizeUnderOrConstraint` and `branchAssigns`; `none` is `nullptr`. -/
def optimizeUnderConstraints (f : LinObjFunc) : Node → Option (List Int)
  | Node.andNode _ children unitLits _ => optimizeUnderAndLoop f children unitLits
  | Node.orNode _ _ unitLits0 child0 unitLits1 child1 _ =>
    let assigns0 := unitLits0 ++
      (match optimizeUnderConstraints f child0 with
        | some childAssigns => childAssigns
        | none => [])
    let assigns1 := unitLits1 ++
      (match optimizeUnderConstraints f child1 with
        | some childAssigns => childAssigns
        | none => [])
    some (if f.minWeight assigns0 ≤ f.minWeight assigns1 then assigns0 else assigns1)
  | Node.litNode _ lit => some [lit]
  | Node.trueNode _ => some []
  | Node.falseNode _ => none
/-- The loop over the children in `optimizeUnderAndConstraint`. -/
def optimizeUnderAndLoop (f : LinObjFunc) : List Node → List Int → Option (List Int)
  | [], assigns => some assigns
  | child :: rest, assigns =>
    match optimizeUnderConstraints f child with
    | none => none
    | some childAssigns => optimizeUnderAndLoop f rest (assigns ++ childAssigns)
end

/-- The first loop of `optimizeUnderConstraint`, on the model. -/
def bindAssigns (assigns : List Int) (model : Model) : Model :=
  assigns.foldl (fun model val =>
    model.setBindingFor (if val > 0 then val else -val)
      (if val < 0 then Binding.False else Binding.True)) model

/-- The second loop of `optimizeUnderConstraint`: every variable that is not assigned gets
its cheaper literal. -/
def completeAssigns (f : LinObjFunc) (assigned : List Bool) (value : Int) (model : Model) :
    Int × Model :=
  (List.range assigned.length).foldl (fun (acc : Int × Model) i =>
    if !(assigned.getD i false) then
      let valPos := f.get ((i : Int) + 1)
      let valNeg := f.get (-(i : Int) - 1)
      (acc.1 + (if valPos > valNeg then valNeg else valPos),
        acc.2.setBindingFor ((i : Int) + 1)
          (if valPos > valNeg then Binding.False else Binding.True))
    else acc) (value, model)

/-- The method `optimizeUnderConstraint(g)`; `none` stands for the dereference of the null
pointer that `optimizeUnderConstraints` returns on an infeasible root. -/
def optimizeUnderConstraint (f : LinObjFunc) (g : Graph) : Option (Int × Model) :=
  match f.optimizeUnderConstraints g.root with
  | none => none
  | some assigns =>
    let r := f.sumAssigned assigns
    some (f.completeAssigns r.2 r.1 (bindAssigns assigns (Model.free f.nbVars)))

/-- The function `makeFalseNodePair`. -/
def makeFalseNodePair : VecNodePair :=
  ([], falseNode)

mutual
/-- The method `keepBoundedWeightModels(n, bound)` on nodes, with the `…AndRooted`,
`…OrRooted`, `…OrBranch`, `…LitRooted`, `…TrueRooted` and `…FalseRooted` methods it
dispatches to.  `next` is the first address the allocator has not handed out: every
`make_shared` takes it and moves it on (an `OrNode` is built with two `TrueNode` children
of its own, hence three addresses).  The new And and Or nodes have empty `_seenVars`. -/
def keepBoundedNode (f : LinObjFunc) (bound : Int) : Node → Nat → VecNodePair × Nat
  | Node.andNode _ children unitLits _, next =>
    keepBoundedAndLoop f bound children unitLits unitLits [] next (next + 1)
  | Node.orNode _ var unitLits0 child0 unitLits1 child1 _, next =>
    let r0 := keepBoundedNode f bound child0 next
    let q0 : VecNodePair × Nat :=
      if unitLits0.length > 0 then
        ((r0.1.1 ++ unitLits0, Node.andNode r0.2 [r0.1.2] unitLits0 ∅), r0.2 + 1)
      else r0
    let p0 : VecNodePair := if f.minWeight q0.1.1 > bound then makeFalseNodePair else q0.1
    let r1 := keepBoundedNode f bound child1 q0.2
    let q1 : VecNodePair × Nat :=
      if unitLits1.length > 0 then
        ((r1.1.1 ++ unitLits1, Node.andNode r1.2 [r1.1.2] unitLits1 ∅), r1.2 + 1)
      else r1
    let p1 : VecNodePair := if f.minWeight q1.1.1 > bound then makeFalseNodePair else q1.1
    let mw0 := f.minWeight p0.1
    let mw1 := f.minWeight p1.1
    if p0.2.isFalseNode then (p1, q1.2)
    else if p1.2.isFalseNode then (p0, q1.2)
    else if mw0 > mw1 then (p1, q1.2)
    else if mw1 > mw0 then (p0, q1.2)
    else ((p0.1, Node.orNode q1.2 var [] p0.2 [] p1.2 ∅), q1.2 + 3)
  | Node.litNode _ lit, next =>
    if f.minWeight [lit] ≤ bound then (([lit], Node.litNode next lit), next + 1)
    else (makeFalseNodePair, next)
  | Node.trueNode _, next =>
    if f.minWeight [] ≤ bound then (([], trueNode), next) else (makeFalseNodePair, next)
  | Node.falseNode _, next => (makeFalseNodePair, next)
/-- The loop over the children in `keepBoundedWeightModelsAndRooted`: `unitLits` are the
unit literals of the new And node, at address `addr`, `assigns` and `newChildren` what
the loop has collected. -/
def keepBoundedAndLoop (f : LinObjFunc) (bound : Int) :
    List Node → List Int → List Int → List Node → Nat → Nat → VecNodePair × Nat
  | [], unitLits, assigns, newChildren, addr, next =>
    if f.minWeight assigns ≤ bound then
      ((assigns, Node.andNode addr newChildren unitLits ∅), next)
    else (makeFalseNodePair, next)
  | child :: rest, unitLits, assigns, newChildren, addr, next =>
    let r := keepBoundedNode f bound child next
    if r.1.2.isFalseNode then (makeFalseNodePair, r.2)
    else keepBoundedAndLoop f bound rest unitLits (assigns ++ r.1.1) (newChildren ++ [r.1.2])
      addr r.2
end

/-- The method `keepBoundedWeightModels(g, bound)`; `next` is the first free address. -/
def keepBoundedWeightModels (f : LinObjFunc) (g : Graph) (bound : Int) (next : Nat) : Graph :=
  Graph.make f.nbVars (f.keepBoundedNode bound g.root next).1.2

/-- The value of the objective on a total assignment: the sum over the variables
`1..nbVars` of the weight of the literal the assignment makes true. -/
def value (f : LinObjFunc) (nbVars : Nat) (ρ : Int → Bool) : Int :=
  ((varsUpTo nbVars).map (fun v => f.get (if ρ v then v else -v))).sum

end LinObjFunc

/-- The circuit `Or(1, False, Lit(-1))` over one variable, as the parser builds it from
`O 0 0`, `L -1`, `O 1 2 0 1`. -/
def orFalseGraph : Graph :=
  Graph.make 1 (Node.orNode 3 1 [] falseNode [] (Node.litNode 2 (-1)) {1})

/-- The objective `obj(1) = 0`, `obj(-1) = 5`. -/
def objZeroFive : LinObjFunc :=
  ⟨[0, 5]⟩

/-- The objective `obj(1) = 5`, `obj(-1) = 2` of scenario 5. -/
def objFiveTwo : LinObjFunc :=
  ⟨[5, 2]⟩

/-! ## The NNF text: export (`indexNodes`, `printNNF`, `Graph::print`) and parser -/

/-- A line of an NNF text after the header: the letter that starts it (`L`, `A` or `O`) and
the integers that follow. -/
structure NNFLine where
  kind : Char
  args : List Int
  deriving DecidableEq, Repr

/-- An NNF text: the three integers of the header line `nnf <nodes> <edges> <vars>` and the
lines that follow. -/
structure NNFText where
  nbNodes : Int
  nbEdges : Int
  nbVars : Int
  lines : List NNFLine
  deriving DecidableEq, Repr

/-- The state of `indexNodes`: the map `nodeToLine`, keyed by the address of the node, the
vector `allNodes` and the counter `lineIndex`. -/
structure IndexState where
  nodeToLine : List (Nat × Int)
  allNodes : List Node
  lineIndex : Int

namespace Node

/-- The test `typeid(node) == typeid(TrueNode)`. -/
def isTrueNode : Node → Bool
  | trueNode _ => true
  | _ => false

/-- The test `typeid(node) == typeid(LitNode)`. -/
def isLitNode : Node → Bool
  | litNode _ _ => true
  | _ => false

mutual
/-- The virtual method `nbDescendants()`. -/
def nbDescendants : Node → Int
  | falseNode _ => 0
  | trueNode _ => 0
  | litNode _ _ => 0
  | orNode _ _ unitLits0 child0 unitLits1 child1 _ =>
    let cpt := 0 + 1 + (unitLits0.length : Int)
    let cpt := if !child0.isTrueNode then cpt + 1 + nbDescendants child0 else cpt
    let cpt := cpt + 1 + (unitLits1.length : Int)
    if !child1.isTrueNode then cpt + 1 + nbDescendants child1 else cpt
  | andNode _ children unitLits _ => nbDescendantsLoop children (unitLits.length : Int)
/-- The loop over the children in `AndNode::nbDescendants`. -/
def nbDescendantsLoop : List Node → Int → Int
  | [], cpt => cpt
  | child :: rest, cpt => nbDescendantsLoop rest (cpt + (1 + nbDescendants child))
end

mutual
/-- The function `indexNodes`: a node that is already indexed is skipped, the `True` and
`False` nodes are not indexed. -/
def indexNodes : Node → IndexState → IndexState
  | falseNode a, st =>
    if (st.nodeToLine.lookup a).isSome then st else st
  | trueNode a, st =>
    if (st.nodeToLine.lookup a).isSome then st else st
  | litNode a lit, st =>
    if (st.nodeToLine.lookup a).isSome then st
    else
      { nodeToLine := (a, st.lineIndex) :: st.nodeToLine
        allNodes := st.allNodes ++ [litNode a lit]
        lineIndex := st.lineIndex + 1 }
  | orNode a var unitLits0 child0 unitLits1 child1 seen, st =>
    if (st.nodeToLine.lookup a).isSome then st
    else
      let st := indexNodes child0 st
      let st := indexNodes child1 st
      let lineIndex := st.lineIndex + ((unitLits0.length : Int) + 1)
      let lineIndex := lineIndex + ((unitLits1.length : Int) + 1)
      { nodeToLine := (a, lineIndex) :: st.nodeToLine
        allNodes := st.allNodes ++ [orNode a var unitLits0 child0 unitLits1 child1 seen]
        lineIndex := lineIndex + 1 }
  | andNode a children unitLits seen, st =>
    if (st.nodeToLine.lookup a).isSome then st
    else
      let st := indexNodesAll children st
      let lineIndex := st.lineIndex + (unitLits.length : Int)
      { nodeToLine := (a, lineIndex) :: st.nodeToLine
        allNodes := st.allNodes ++ [andNode a children unitLits seen]
        lineIndex := lineIndex + 1 }
/-- The loop over the children in `indexNodes`. -/
def indexNodesAll : List Node → IndexState → IndexState
  | [], st => st
  | child :: rest, st => indexNodesAll rest (indexNodes child st)
end

/-- The function `lineIndexFor`: `0` for a `False` node, `1` for a `True` node, the line of
the map otherwise; `none` is the `throw "Invalid node!"`. -/
def lineIndexFor (nodeToLine : List (Nat × Int)) (node : Node) : Option Int :=
  if node.isFalseNode then some 0
  else if node.isTrueNode then some 1
  else nodeToLine.lookup node.addr

/-- The lines `L <lit>` of a list of unit literals. -/
def litLines (unitLits : List Int) : List NNFLine :=
  unitLits.map (fun lit => ⟨'L', [lit]⟩)

/-- The line numbers `base - size + j` of the unit literals written before line `base`. -/
def litLineIndexes (unitLits : List Int) (base : Int) : List Int :=
  (List.range unitLits.length).map (fun (j : Nat) => base - (unitLits.length : Int) + (j : Int))

/-- What `OrNode::printNNF` writes for one branch whose implicit And node is at line
`branchLine`: the unit literals, then the line of the And node. -/
def printBranch (nodeToLine : List (Nat × Int)) (unitLits : List Int) (child : Node)
    (branchLine : Int) : Option (List NNFLine) :=
  if child.isTrueNode then
    some (litLines unitLits ++
      [⟨'A', [(unitLits.length : Int)] ++ litLineIndexes unitLits branchLine⟩])
  else
    match lineIndexFor nodeToLine child with
    | none => none
    | some childLine =>
      some (litLines unitLits ++
        [⟨'A', [(unitLits.length : Int) + 1, childLine] ++ litLineIndexes unitLits branchLine⟩])

/-- The lines of the children of an And node, in order. -/
def childLineIndexes (nodeToLine : List (Nat × Int)) : List Node → Option (List Int)
  | [] => some []
  | child :: rest =>
    match lineIndexFor nodeToLine child with
    | none => none
    | some childLine =>
      match childLineIndexes nodeToLine rest with
      | none => none
      | some lines => some (childLine :: lines)

/-- The virtual method `printNNF(out, nodeToLine)`: the lines it writes. -/
def printNNF (nodeToLine : List (Nat × Int)) : Node → Option (List NNFLine)
  | falseNode _ => some [⟨'O', [0, 0]⟩]
  | trueNode _ => some [⟨'A', [0]⟩]
  | litNode _ lit => some [⟨'L', [lit]⟩]
  | orNode a var unitLits0 child0 unitLits1 child1 _ =>
    let line := (nodeToLine.lookup a).getD 0
    let nbLines0 := (unitLits0.length : Int) + 1
    let branchLine0 := line - 1
    let branchLine1 := line - nbLines0 - 1
    match printBranch nodeToLine unitLits1 child1 branchLine1 with
    | none => none
    | some lines1 =>
      match printBranch nodeToLine unitLits0 child0 branchLine0 with
      | none => none
      | some lines0 =>
        some (lines1 ++ lines0 ++ [⟨'O', [var, 2, branchLine0, branchLine1]⟩])
  | andNode a children unitLits _ =>
    let line := (nodeToLine.lookup a).getD 0
    match childLineIndexes nodeToLine children with
    | none => none
    | some childLines =>
      some (litLines unitLits ++
        [⟨'A', [(unitLits.length : Int) + (children.length : Int)] ++ childLines ++
          litLineIndexes unitLits line⟩])

/-- The loop of `Graph::print` over `allNodes`. -/
def printAll (nodeToLine : List (Nat × Int)) : List Node → Option (List NNFLine)
  | [] => some []
  | node :: rest =>
    match printNNF nodeToLine node with
    | none => none
    | some lines =>
      match printAll nodeToLine rest with
      | none => none
      | some more => some (lines ++ more)

end Node

/-- The method `Graph::print(out)`: the text it writes. -/
def Graph.print (g : Graph) : Option NNFText :=
  let st := g.root.indexNodes ⟨[], [], 2⟩
  match Node.printAll st.nodeToLine st.allNodes with
  | none => none
  | some lines =>
    some { nbNodes := st.lineIndex, nbEdges := g.root.nbDescendants, nbVars := g.nbVars,
           lines := [⟨'O', [0, 0]⟩, ⟨'A', [0]⟩] ++ lines }

/-- The loop of `parseAnd` over the fields after the size: a literal child becomes a unit
literal, any other child a child; `none` when a field is not the index of a parsed node. -/
def parseAndLoop (allNodes : List Node) :
    List Int → List Node → List Int → Finset Int → Option (List Node × List Int × Finset Int)
  | [], children, unitLits, seen => some (children, unitLits, seen)
  | idx :: rest, children, unitLits, seen =>
    if idx < 0 then none
    else
      match allNodes[idx.toNat]? with
      | none => none
      | some (Node.litNode _ lit) =>
        parseAndLoop allNodes rest children (unitLits ++ [lit]) (insert |lit| seen)
      | some child =>
        parseAndLoop allNodes rest (children ++ [child]) unitLits (seen ∪ child.seenVars)

/-- One line of the NNF text (`parseLit`, `parseAnd`, `parseOr`): the new `allNodes` and
the next free address.  `none` is a `ParserException` or an access outside a vector. -/
def parseLine (allNodes : List Node) (next : Nat) (line : NNFLine) : Option (List Node × Nat) :=
  if line.kind = 'A' then
    match line.args with
    | [] => none
    | size :: fields =>
      if size = 0 then some (allNodes ++ [trueNode], next)
      else
        match parseAndLoop allNodes fields [] [] ∅ with
        | none => none
        | some (children, unitLits, seen) =>
          some (allNodes ++ [Node.andNode next children unitLits seen], next + 1)
  else if line.kind = 'O' then
    match line.args with
    | [] => none
    | var :: fields =>
      if var = 0 then some (allNodes ++ [falseNode], next)
      else
        match fields with
        | [_, left, right] =>
          if left < 0 ∨ right < 0 then none
          else
            match allNodes[left.toNat]?, allNodes[right.toNat]? with
            | some child0, some child1 =>
              some (allNodes ++
                [Node.orNode next var [] child0 [] child1 (child0.seenVars ∪ child1.seenVars)],
                next + 3)
            | _, _ => none
        | _ => none
  else if line.kind = 'L' then
    match line.args with
    | [] => none
    | lit :: _ => some (allNodes ++ [Node.litNode next lit], next + 1)
  else none

/-- The loop of `doParseNNF` over the lines. -/
def parseLines : List NNFLine → List Node → Nat → Option (List Node)
  | [], allNodes, _ => some allNodes
  | line :: rest, allNodes, next =>
    match parseLine allNodes next line with
    | none => none
    | some (allNodes, next) => parseLines rest allNodes next

/-- The function `parseNNF`: the graph of the last node of the text, with `nbVars` of the
header; `next` is the first free address. -/
def parseNNF (text : NNFText) (next : Nat) : Option Graph :=
  match parseLines text.lines [] next with
  | none => none
  | some allNodes =>
    match allNodes.getLast? with
    | none => none
    | some root => some (Graph.make text.nbVars.toNat root)

/-- The circuit `False` over one variable. -/
def falseGraph : Graph :=
  Graph.make 1 falseNode

/-! ## Auxiliary notions for the linear objective -/

/-- The weight of the cheaper literal of variable `v`, as `minWeight` picks it. -/
def LinObjFunc.minOf (f : LinObjFunc) (v : Int) : Int :=
  if f.get (-v) > f.get v then f.get v else f.get (-v)

/-- The weight of the literals of `lits` plus, for every variable of `V` that is not a
variable of `lits`, the weight of its cheaper literal. -/
def LinObjFunc.localMin (f : LinObjFunc) (lits : List Int) (V : Finset Int) : Int :=
  (lits.map f.get).sum + ∑ v ∈ V \ litVars lits, f.minOf v

/-- The value of the objective on the variables of `V` under the assignment `ρ`. -/
def LinObjFunc.cost (f : LinObjFunc) (ρ : Int → Bool) (V : Finset Int) : Int :=
  ∑ v ∈ V, f.get (if ρ v = true then v else -v)

/-- The assignment `ρ` is a cheapest assignment of the variables `V` among those that
satisfy `φ`. -/
def LinObjFunc.Cheapest (f : LinObjFunc) (ρ : Int → Bool) (φ : (Int → Bool) → Bool)
    (V : Finset Int) : Prop :=
  ∀ ρ' : Int → Bool, φ ρ' = true → f.cost ρ V ≤ f.cost ρ' V

/-- The assignment that gives every variable its cheaper literal, as `minWeight` picks it. -/
def LinObjFunc.cheapAssign (f : LinObjFunc) : Int → Bool :=
  fun v => decide (f.get (-v) > f.get v)

/-- The weight of the cheaper literals of the variables of `1..nbVars` outside `V`. -/
def LinObjFunc.restMin (f : LinObjFunc) (nbVars : Nat) (V : Finset Int) : Int :=
  ∑ v ∈ Finset.Icc (1 : Int) nbVars \ V, f.minOf v

/-- The total model of `n` variables that gives variable `v` the value `ρ v`. -/
def CompactModel.ofFun (n : Nat) (ρ : Int → Bool) : CompactModel :=
  ⟨(List.range n).map (fun (i : Nat) => ρ ((i : Int) + 1))⟩

/-- What `keepBoundedNode` returns for a subcircuit of formula `φ` over the variables `V`,
as far as the cheapest models of `φ` are concerned: the forced literals `lits` are literals
of variables of `V`; when the replacement `r` is not the `False` node, `lits` is the cost
of a model of `φ`; and a cheapest model of `φ` that can be completed within `bound`
satisfies `r`, at the cost of `lits`. -/
structure LinObjFunc.KeepOn (f : LinObjFunc) (bound : Int) (nbVars : Nat)
    (φ : (Int → Bool) → Bool) (V : Finset Int) (lits : List Int) (r : Node) : Prop where
  sub : litVars lits ⊆ V
  real : r.isFalseNode = false →
    ∃ ρ' : Int → Bool, φ ρ' = true ∧ f.cost ρ' V = f.localMin lits V
  keep : ∀ ρ : Int → Bool, φ ρ = true → f.Cheapest ρ φ V →
    f.cost ρ V + f.restMin nbVars V ≤ bound →
    r.isFalseNode = false ∧ Node.eval ρ r = true ∧ f.localMin lits V = f.cost ρ V

/-- The specification `KeepOn` for the node `n`. -/
abbrev LinObjFunc.KeepSpec (f : LinObjFunc) (bound : Int) (nbVars : Nat) (n : Node)
    (lits : List Int) (r : Node) : Prop :=
  f.KeepOn bound nbVars (fun ρ => Node.eval ρ n) n.vars lits r

/-- The choice `keepBoundedWeightModelsOrRooted` makes between the results `q0`, `q1` of
its two branches; `addr` is the address of the new Or node. -/
def LinObjFunc.orSelect (f : LinObjFunc) (bound : Int) (var : Int) (addr : Nat)
    (q0 q1 : VecNodePair) : VecNodePair :=
  let p0 : VecNodePair := if f.minWeight q0.1 > bound then LinObjFunc.makeFalseNodePair else q0
  let p1 : VecNodePair := if f.minWeight q1.1 > bound then LinObjFunc.makeFalseNodePair else q1
  if p0.2.isFalseNode then p1
  else if p1.2.isFalseNode then p0
  else if f.minWeight p0.1 > f.minWeight p1.1 then p1
  else if f.minWeight p1.1 > f.minWeight p0.1 then p0
  else (p0.1, Node.orNode addr var [] p0.2 [] p1.2 ∅)

/-! ## More example graphs -/

/-- The circuit `Lit(1)` over two variables, as the parser reads it from `nnf 1 0 2`, `L 1`. -/
def litTwoGraph : Graph :=
  Graph.make 2 (Node.litNode 2 1)

/-- The circuit `Or(1, True, True)` over one variable, as the parser reads it from
`nnf 2 0 1`, `A 0`, `O 1 2 0 0`: its two branches are not mutually exclusive. -/
def orTrueTrueGraph : Graph :=
  Graph.make 1 (Node.orNode 2 1 [] trueNode [] trueNode ∅)

namespace Node

mutual
/-- Every stored `_seenVars` of the subgraph is a set of variables of `1..nbVars`. -/
def SeenInRange (nbVars : Nat) : Node → Prop
  | falseNode _ => True
  | trueNode _ => True
  | litNode _ _ => True
  | orNode _ _ _ child0 _ child1 seen =>
    seen ⊆ Finset.Icc (1 : Int) nbVars ∧ SeenInRange nbVars child0 ∧ SeenInRange nbVars child1
  | andNode _ children _ seen =>
    seen ⊆ Finset.Icc (1 : Int) nbVars ∧ SeenInRangeAll nbVars children
def SeenInRangeAll (nbVars : Nat) : List Node → Prop
  | [] => True
  | child :: rest => SeenInRange nbVars child ∧ SeenInRangeAll nbVars rest
end

end Node

/-- The graph over one more variable: the same circuit, the weights `a`, `b` for the
literals `nbVars + 1`, `-(nbVars + 1)` at the end of the weight vector. -/
def Graph.addVar (g : Graph) (a b : ℚ) : Graph :=
  ⟨g.nbVars + 1, g.root, ⟨g.weights.vec ++ [a, b]⟩⟩

/-- The partial model over one more variable, `Free`. -/
def Model.addFree (m : Model) : Model :=
  ⟨m.content ++ [Binding.Free]⟩

/-! ## graph.cpp: `nbNodes` -/

mutual
/-- The function `nbNodesRec`: a node is counted once for each path that leads to it, the
unit literals are not counted. -/
def nbNodesRec : Node → Int
  | Node.andNode _ children _ _ => nbNodesRecLoop children 1
  | Node.orNode _ _ _ child0 _ child1 _ => 1 + nbNodesRec child0 + nbNodesRec child1
  | Node.litNode _ _ => 1
  | Node.trueNode _ => 1
  | Node.falseNode _ => 1
/-- The loop over the children of an And node in `nbNodesRec`. -/
def nbNodesRecLoop : List Node → Int → Int
  | [], nb => nb
  | child :: rest, nb => nbNodesRecLoop rest (nb + nbNodesRec child)
end

/-- The method `Graph::nbNodes()`. -/
def Graph.nbNodes (g : Graph) : Int :=
  nbNodesRec g.root

/-- The number of lines `printNNF` writes for a node: one for each unit literal, one for
the implicit And node of each branch of an Or node, one for the node. -/
def Node.nbLines : Node → Nat
  | Node.falseNode _ => 1
  | Node.trueNode _ => 1
  | Node.litNode _ _ => 1
  | Node.orNode _ _ unitLits0 _ unitLits1 _ _ =>
    (unitLits1.length + 1) + (unitLits0.length + 1) + 1
  | Node.andNode _ _ unitLits _ => unitLits.length + 1

namespace Node

mutual
/-- A subgraph without `False` node, whose literals (those of the Lit nodes and the unit
literals of the And nodes) are literals of `1..nbVars` and whose Or nodes have seen
variables of `1..nbVars` only: every such node counts a positive number under positive
weights. -/
def PosShape (nbVars : Nat) : Node → Prop
  | falseNode _ => False
  | trueNode _ => True
  | litNode _ lit => litInRange nbVars lit
  | orNode _ _ _ child0 _ child1 seen =>
    seen ⊆ Finset.Icc (1 : Int) nbVars ∧ PosShape nbVars child0 ∧ PosShape nbVars child1
  | andNode _ children unitLits _ =>
    (∀ l ∈ unitLits, litInRange nbVars l) ∧ PosShapeAll nbVars children
def PosShapeAll (nbVars : Nat) : List Node → Prop
  | [] => True
  | child :: rest => PosShape nbVars child ∧ PosShapeAll nbVars rest
end

end Node

/-- Every count of the memo is positive. -/
def CachePos (cache : Cache) : Prop :=
  ∀ e ∈ cache, 0 < e.2

/-! ## More of model.hpp, model.cpp and prompt.cpp -/

/-- Two bindings that `Model::mix` accepts: one of them is `Free`, or they are equal. -/
def Binding.Compatible (b1 b2 : Binding) : Prop :=
  b1 = Binding.Free ∨ b2 = Binding.Free ∨ b1 = b2

/-- What `Model::mix` stores for two bindings: the second where the first is `Free`, the
first otherwise. -/
def Binding.mixed (b1 b2 : Binding) : Binding :=
  if b1 = Binding.Free then b2 else b1

/-- How a run of `readPartialModel` ends: with a model, with the exception
`invalid_argument("invalid literal")`, with the exception `out_of_range` of `stoi`, or with
an access to `content[var-1]` outside the vector of the model (undefined behaviour). -/
inductive ReadOutcome where
  | model (m : Model)
  | invalidArgument
  | outOfRange
  | outOfBounds
  deriving DecidableEq, Repr

/-- The value an `int` holds after a computation: the result modulo `2 ^ 32`, between
`-2 ^ 31` and `2 ^ 31 - 1`. -/
def wrapInt32 (x : Int) : Int :=
  (x + 2 ^ 31) % 2 ^ 32 - 2 ^ 31

/-- The function `stoi` on a field that holds the decimal integer `field`: the `int` it
returns, `none` (the exception `out_of_range`) when an `int` cannot hold the integer. -/
def stoi (field : Int) : Option Int :=
  if -2 ^ 31 ≤ field ∧ field < 2 ^ 31 then some field else none

/-- The loop of `readPartialModel` over the fields, from field `i` on.  A field is given by
the decimal integer written in it; field `0`, the command, is skipped and never read.  The
variables `lit` and `var` are `int`s: `-lit` wraps.  `setBindingFor` reads and writes
`content[var-1]` without a test: the access outside the vector is `outOfBounds`. -/
def readPartialModelLoop (nbVars : Nat) : List Int → Nat → Model → ReadOutcome
  | [], _, partialModel => ReadOutcome.model partialModel
  | field :: rest, i, partialModel =>
    if i = 0 then readPartialModelLoop nbVars rest (i + 1) partialModel
    else
      match stoi field with
      | none => ReadOutcome.outOfRange
      | some lit =>
        if lit = 0 then ReadOutcome.model partialModel
        else
          let var := if lit > 0 then lit else wrapInt32 (-lit)
          if var > (nbVars : Int) then ReadOutcome.invalidArgument
          else if var - 1 < 0 ∨ (partialModel.content.length : Int) ≤ var - 1 then
            ReadOutcome.outOfBounds
          else
            readPartialModelLoop nbVars rest (i + 1)
              (partialModel.setBindingFor var
                (if lit > 0 then Binding.True else Binding.False))

/-- The function `readPartialModel(nbVars, fields)` of prompt.cpp. -/
def readPartialModel (nbVars : Nat) (fields : List Int) : ReadOutcome :=
  readPartialModelLoop nbVars fields 0 (Model.free nbVars)

/-- The circuit `Or(1, [branch{units=[1], False}, branch{units=[-1], True}])` over one
variable: its only model is `{1 = False}`. -/
def orUnitsDeadGraph : Graph :=
  Graph.make 1 (Node.orNode 2 1 [1] falseNode [-1] trueNode ∅)

namespace Model

/-- The loop of `firstFreeVar` from index `i` on. -/
def firstFreeVarFrom : List Binding → Nat → Int
  | [], _ => -1
  | b :: bs, i => if b = Binding.Free then (i : Int) + 1 else firstFreeVarFrom bs (i + 1)

/-- The method `firstFreeVar()`: the first variable bound to `Free`, `-1` if there is none. -/
def firstFreeVar (m : Model) : Int :=
  firstFreeVarFrom m.content 0

/-- The number of variables bound to `Free`. -/
def nbFree (m : Model) : Nat :=
  m.content.count Binding.Free

/-- The loop `while (i < models.size())` of `Model::expanded`, with the vector `models`, the
index `i` and the result `res`.  `fuel` bounds the number of iterations: `none` when it is
used up before the loop is left. -/
def expandedLoop : Nat → List Model → Nat → List CompactModel → Option (List CompactModel)
  | 0, models, i, res => if i < models.length then none else some res
  | fuel + 1, models, i, res =>
    if i < models.length then
      let m := models.getD i ⟨[]⟩
      let fVar := m.firstFreeVar
      if fVar = -1 then
        expandedLoop fuel models (i + 1) (res ++ [CompactModel.ofModel m])
      else
        let mToTrue := m.setBindingFor fVar Binding.True
        let mToFalse := m.setBindingFor fVar Binding.False
        expandedLoop fuel (models.set i mToTrue ++ [mToFalse]) i res
    else some res

/-- The method `Model::expanded()`.  The loop runs `2 ^ (n + 1) - 1` times for a model with
`n` free variables: the fuel is enough. -/
def expanded (m : Model) : Option (List CompactModel) :=
  expandedLoop (2 ^ (m.nbFree + 1)) [m] 0 []

end Model

/-- The total assignment `bs` agrees with the bindings `xs`, variable by variable: `true`
on `True`, `false` on `False`, anything on `Free`, and nothing agrees with `Unsat`. -/
def extendsList : List Bool → List Binding → Bool
  | [], [] => true
  | b :: bs, x :: xs =>
    (match x with
      | Binding.True => b
      | Binding.False => !b
      | Binding.Free => true
      | Binding.Unsat => false) && extendsList bs xs
  | _, _ => false

/-! ## Invariants of `indexNodes` -/

/-- The nodes a node points to: the children of the two branches of an Or node, the
children of an And node. -/
def Node.childNodes : Node → List Node
  | Node.orNode _ _ _ child0 _ child1 _ => [child0, child1]
  | Node.andNode _ children _ _ => children
  | _ => []

/-- The node has a line: it is the `True` or the `False` node, or it is in `nodeToLine`. -/
def IndexState.Indexed (st : IndexState) (x : Node) : Prop :=
  x.isTrueNode = true ∨ x.isFalseNode = true ∨ (st.nodeToLine.lookup x.addr).isSome = true

/-- What `indexNodes` keeps true of its state while it walks the subgraph of `root`: the
nodes of `allNodes` are nodes of the subgraph other than `True` and `False`; the keys of
`nodeToLine` are their addresses; the line of the node at position `i` of `allNodes` is the
last of the lines of the first `i + 1` nodes, counted after the two reserved lines;
`lineIndex` is the next line; and what a node of `allNodes` points to has a line. -/
structure IndexOk (root : Node) (st : IndexState) : Prop where
  sub : ∀ x ∈ st.allNodes, x ∈ root.subnodes ∧ x.isTrueNode = false ∧ x.isFalseNode = false
  keys : ∀ a, (st.nodeToLine.lookup a).isSome = true → ∃ x ∈ st.allNodes, x.addr = a
  pos : ∀ (i : Nat) (x : Node), st.allNodes[i]? = some x →
    st.nodeToLine.lookup x.addr =
      some (1 + ((((st.allNodes.take (i + 1)).map Node.nbLines).sum : Nat) : Int))
  line : st.lineIndex = 2 + (((st.allNodes.map Node.nbLines).sum : Nat) : Int)
  closed : ∀ x ∈ st.allNodes, ∀ c ∈ x.childNodes, st.Indexed c

/-! ## node.cpp: `condition` -/

/-- The test `binding != Binding::Free && (binding == Binding::True) != (lit > 0)` of
`conditionOr` and `conditionAnd`: the model binds the variable of the literal against the
literal (an `Unsat` binding is against the positive literal only). -/
def Model.contradicts (partialModel : Model) (lit : Int) : Bool :=
  let binding := partialModel.bindingFor (varOf lit)
  decide (binding ≠ Binding.Free) && (decide (binding = Binding.True) != decide (lit > 0))

/-- The loop of `conditionOr` and `conditionAnd` that erases from `_seenVars` every variable
of `1..partialModel.nbVars()` that the model binds. -/
def eraseBound (partialModel : Model) (seen : Finset Int) : Finset Int :=
  (varsUpTo partialModel.nbVars).foldl (fun s var =>
    if partialModel.bindingFor var ≠ Binding.Free then s.erase var else s) seen

/-- The visited set of `condition`, keyed by the address of the node.  `condition` rewrites
the nodes in place: with each visited address the set keeps the node as the visit left it,
which is what a second pointer to the same object sees. -/
abbrev Visited := List (Nat × Node)

/-- The visit of a node `condition` does not go down from (`True`, `False`, Lit): the node
is entered in the visited set and left as it is. -/
def visitLeaf (node : Node) (cache : Visited) : Node × Visited :=
  match cache.lookup node.addr with
  | some visited => (visited, cache)
  | none => (node, (node.addr, node) :: cache)

mutual
/-- The function `condition(node, partialModel, cache)` with `conditionOr` and
`conditionAnd`: the node as the call leaves it and the visited set.  A visited node is left
alone.  A branch of an Or node with a unit literal against the model gets `falseNode` as
child and loses its unit literals; an And node with such a unit literal gets `[falseNode]`
as children and loses its unit literals, and its former children are not visited.  The node
is entered in the visited set when its visit ends (the C++ enters it first, which makes no
difference as a node is not below itself). -/
def condition (partialModel : Model) : Node → Visited → Node × Visited
  | Node.falseNode a, cache => visitLeaf (Node.falseNode a) cache
  | Node.trueNode a, cache => visitLeaf (Node.trueNode a) cache
  | Node.litNode a lit, cache => visitLeaf (Node.litNode a lit) cache
  | Node.orNode a var unitLits0 child0 unitLits1 child1 seen, cache =>
    match cache.lookup a with
    | some visited => (visited, cache)
    | none =>
      let dead0 := unitLits0.any partialModel.contradicts
      let r0 := if dead0 then visitLeaf falseNode cache
        else condition partialModel child0 cache
      let dead1 := unitLits1.any partialModel.contradicts
      let r1 := if dead1 then visitLeaf falseNode r0.2
        else condition partialModel child1 r0.2
      let node := Node.orNode a var (if dead0 then [] else unitLits0) r0.1
        (if dead1 then [] else unitLits1) r1.1 (eraseBound partialModel seen)
      (node, (a, node) :: r1.2)
  | Node.andNode a children unitLits seen, cache =>
    match cache.lookup a with
    | some visited => (visited, cache)
    | none =>
      if unitLits.any partialModel.contradicts then
        let node := Node.andNode a [falseNode] [] (eraseBound partialModel seen)
        (node, (a, node) :: cache)
      else
        let r := conditionAll partialModel children cache
        let node := Node.andNode a r.1 unitLits (eraseBound partialModel seen)
        (node, (a, node) :: r.2)
/-- The loop of `conditionAnd` over the children. -/
def conditionAll (partialModel : Model) : List Node → Visited → List Node × Visited
  | [], cache => ([], cache)
  | child :: rest, cache =>
    let r := condition partialModel child cache
    let rs := conditionAll partialModel rest r.2
    (r.1 :: rs.1, rs.2)
end

/-- The graph after `condition(root, partialModel, cache)` has run on its root with an
empty visited set. -/
def Graph.conditionRoot (g : Graph) (partialModel : Model) : Graph :=
  { g with root := (condition partialModel g.root []).1 }

mutual
/-- What `condition` makes of a node, without the visited set. -/
def conditioned (partialModel : Model) : Node → Node
  | Node.falseNode a => Node.falseNode a
  | Node.trueNode a => Node.trueNode a
  | Node.litNode a lit => Node.litNode a lit
  | Node.orNode a var unitLits0 child0 unitLits1 child1 seen =>
    Node.orNode a var
      (if unitLits0.any partialModel.contradicts then [] else unitLits0)
      (if unitLits0.any partialModel.contradicts then falseNode
        else conditioned partialModel child0)
      (if unitLits1.any partialModel.contradicts then [] else unitLits1)
      (if unitLits1.any partialModel.contradicts then falseNode
        else conditioned partialModel child1)
      (eraseBound partialModel seen)
  | Node.andNode a children unitLits seen =>
    if unitLits.any partialModel.contradicts then
      Node.andNode a [falseNode] [] (eraseBound partialModel seen)
    else
      Node.andNode a (conditionedAll partialModel children) unitLits
        (eraseBound partialModel seen)
/-- The same for a list of children. -/
def conditionedAll (partialModel : Model) : List Node → List Node
  | [] => []
  | child :: rest =>
    conditioned partialModel child :: conditionedAll partialModel rest
end

mutual
/-- An Or node with a Lit node as the child of a branch has seen the variable of that
literal only (the other branch is over the same variable). -/
def Node.LitBranchSmooth : Node → Prop
  | Node.falseNode _ => True
  | Node.trueNode _ => True
  | Node.litNode _ _ => True
  | Node.orNode _ _ _ child0 _ child1 seen =>
    (child0.isLitNode = true → seen = child0.seenVars) ∧
      (child1.isLitNode = true → seen = child1.seenVars) ∧
      Node.LitBranchSmooth child0 ∧ Node.LitBranchSmooth child1
  | Node.andNode _ children _ _ => Node.LitBranchSmoothAll children
/-- The same for a list of children. -/
def Node.LitBranchSmoothAll : List Node → Prop
  | [] => True
  | child :: rest => Node.LitBranchSmooth child ∧ Node.LitBranchSmoothAll rest
end

/-- The visited set holds, for the nodes of the subgraph of `root` and for `falseNode`, the
node as `condition` leaves it. -/
def VisitedOk (partialModel : Model) (root : Node) (cache : Visited) : Prop :=
  ∀ x : Node, (x ∈ root.subnodes ∨ x = falseNode) →
    ∀ n : Node, cache.lookup x.addr = some n → n = conditioned partialModel x

/-- The circuit `And([1])` over one variable, as the parser builds it from `L 1`, `A 1 2`. -/
def andLitGraph : Graph :=
  Graph.make 1 (Node.andNode 2 [] [1] {1})

/-- The circuit `Or(1, Lit(1), And([-1, 2]))` over two variables: `x1 ∨ (¬x1 ∧ x2)`, with a
Lit node as the child of the first branch. -/
def litBranchGraph : Graph :=
  Graph.make 2 (Node.orNode 4 1 [] (Node.litNode 2 1) [] (Node.andNode 3 [] [-1, 2] {1, 2})
    {1, 2})

/-- The decision on variable `1` with `w(1) = 3` and `w(-1) = 1`. -/
def decisionGraphWeighted : Graph :=
  { decisionGraph with weights := ⟨[3, 1]⟩ }

/-! ## linObjFunc.cpp: the branches of an Or node in `keepBoundedWeightModels` -/

/-- The end of `keepBoundedWeightModelsOrBranch`, from the pair `r` the dispatch on the
child of the branch returned: a branch with unit literals wraps the node in a new And node
that carries them and appends them to the forced literals; a pair whose `minWeight` is
above the bound is replaced by `makeFalseNodePair()`. -/
def LinObjFunc.orBranchResult (f : LinObjFunc) (bound : Int) (unitLits : List Int)
    (r : VecNodePair × Nat) : VecNodePair × Nat :=
  let q : VecNodePair × Nat :=
    if unitLits.length > 0 then
      ((r.1.1 ++ unitLits, Node.andNode r.2 [r.1.2] unitLits ∅), r.2 + 1)
    else r
  (if f.minWeight q.1.1 > bound then LinObjFunc.makeFalseNodePair else q.1, q.2)

/-- The pair `keepBoundedWeightModelsOrBranch(o.branches[0], bound)` for the Or node
`Or(var, [branch{unitLits0, child0}, …])`, with the next free address. -/
def LinObjFunc.keepBoundedBranch0 (f : LinObjFunc) (bound : Int) (unitLits0 : List Int)
    (child0 : Node) (next : Nat) : VecNodePair × Nat :=
  f.orBranchResult bound unitLits0 (f.keepBoundedNode bound child0 next)

/-- The pair `keepBoundedWeightModelsOrBranch(o.branches[1], bound)`: the second branch is
rewritten after the first. -/
def LinObjFunc.keepBoundedBranch1 (f : LinObjFunc) (bound : Int) (unitLits0 : List Int)
    (child0 : Node) (unitLits1 : List Int) (child1 : Node) (next : Nat) : VecNodePair × Nat :=
  f.orBranchResult bound unitLits1
    (f.keepBoundedNode bound child1 (f.keepBoundedBranch0 bound unitLits0 child0 next).2)

/-- The circuit `Or(1, False, False)` over one variable, as the parser builds it from
`O 0 0`, `O 1 2 0 0`: no assignment satisfies it. -/
def orFalseFalseGraph : Graph :=
  Graph.make 1 (Node.orNode 3 1 [] falseNode [] falseNode ∅)

/-! ## linObjFunc.cpp: `optimizeUnderConstraint` with its accesses checked -/

/-- The accessor `get(lit)`, `none` when the index is outside the vector `weights`. -/
def LinObjFunc.getChecked (f : LinObjFunc) (lit : Int) : Option Int :=
  if 0 ≤ LinObjFunc.idx lit ∧ LinObjFunc.idx lit < (f.weights.length : Int) then
    some (f.get lit)
  else none

/-- The first loop of `optimizeUnderConstraint` on `value`, `assigned` and `model`; `none`
when `get(val)`, `assigned[var-1]` or `model.setBindingFor(var, …)` is outside its vector. -/
def LinObjFunc.assignLoopChecked (f : LinObjFunc) :
    List Int → Int × List Bool × Model → Option (Int × List Bool × Model)
  | [], st => some st
  | val :: rest, (value, assigned, model) =>
    match f.getChecked val with
    | none => none
    | some weight =>
      let var := if val > 0 then val else -val
      if 1 ≤ var ∧ var ≤ (assigned.length : Int) ∧ var ≤ (model.content.length : Int) then
        LinObjFunc.assignLoopChecked f rest
          (value + weight, vecSet assigned (var - 1) true,
            model.setBindingFor var (if val < 0 then Binding.False else Binding.True))
      else none

/-- The second loop of `optimizeUnderConstraint`, over the indexes of `assigned`; `none`
when `get(i+1)`, `get(-i-1)` or `model.setBindingFor(i+1, …)` is outside its vector. -/
def LinObjFunc.completeLoopChecked (f : LinObjFunc) (assigned : List Bool) :
    List Nat → Int × Model → Option (Int × Model)
  | [], st => some st
  | i :: rest, (value, model) =>
    if !(assigned.getD i false) then
      match f.getChecked ((i : Int) + 1), f.getChecked (-(i : Int) - 1) with
      | some valPos, some valNeg =>
        if (i : Int) + 1 ≤ (model.content.length : Int) then
          LinObjFunc.completeLoopChecked f assigned rest
            (value + (if valPos > valNeg then valNeg else valPos),
              model.setBindingFor ((i : Int) + 1)
                (if valPos > valNeg then Binding.False else Binding.True))
        else none
      | _, _ => none
    else LinObjFunc.completeLoopChecked f assigned rest (value, model)

/-- The first loop of `minWeight(lits)` on `value` and `assigned`; `none` when `get(val)` or
`assigned[val>0 ? val-1 : -val-1]` is outside its vector. -/
def LinObjFunc.sumAssignedChecked (f : LinObjFunc) :
    List Int → Int × List Bool → Option (Int × List Bool)
  | [], st => some st
  | val :: rest, (value, assigned) =>
    match f.getChecked val with
    | none => none
    | some weight =>
      let i := if val > 0 then val - 1 else -val - 1
      if 0 ≤ i ∧ i < (assigned.length : Int) then
        LinObjFunc.sumAssignedChecked f rest (value + weight, vecSet assigned i true)
      else none

/-- The second loop of `minWeight(lits)`, over the indexes of `assigned`; `none` when
`get(i+1)` or `get(-i-1)` is outside the vector `weights`. -/
def LinObjFunc.minLoopChecked (f : LinObjFunc) (assigned : List Bool) :
    List Nat → Int → Option Int
  | [], value => some value
  | i :: rest, value =>
    if !(assigned.getD i false) then
      match f.getChecked ((i : Int) + 1), f.getChecked (-(i : Int) - 1) with
      | some valPos, some valNeg =>
        LinObjFunc.minLoopChecked f assigned rest
          (value + (if valNeg > valPos then valPos else valNeg))
      | _, _ => none
    else LinObjFunc.minLoopChecked f assigned rest value

/-- The method `minWeight(lits)` with every access checked: `none` when an access is
outside its vector. -/
def LinObjFunc.minWeightChecked (f : LinObjFunc) (lits : List Int) : Option Int :=
  match f.sumAssignedChecked lits (0, List.replicate f.nbVars false) with
  | none => none
  | some (value, assigned) => f.minLoopChecked assigned (List.range assigned.length) value

mutual
/-- The method `optimizeUnderConstraints(root)` with `optimizeUnderAndConstraint`,
`optimizeUnderOrConstraint` and `branchAssigns`, with the accesses of the two calls of
`minWeight` at an Or node checked: the outer `none` is an access outside a vector, the
inner `none` is `nullptr`. -/
def LinObjFunc.optimizeUnderConstraintsChecked (f : LinObjFunc) :
    Node → Option (Option (List Int))
  | Node.andNode _ children unitLits _ =>
    LinObjFunc.optimizeUnderAndLoopChecked f children unitLits
  | Node.orNode _ _ unitLits0 child0 unitLits1 child1 _ =>
    match LinObjFunc.optimizeUnderConstraintsChecked f child0 with
    | none => none
    | some res0 =>
      let assigns0 := unitLits0 ++
        (match res0 with
          | some childAssigns => childAssigns
          | none => [])
      match LinObjFunc.optimizeUnderConstraintsChecked f child1 with
      | none => none
      | some res1 =>
        let assigns1 := unitLits1 ++
          (match res1 with
            | some childAssigns => childAssigns
            | none => [])
        match f.minWeightChecked assigns0, f.minWeightChecked assigns1 with
        | some w0, some w1 => some (some (if w0 ≤ w1 then assigns0 else assigns1))
        | _, _ => none
  | Node.litNode _ lit => some (some [lit])
  | Node.trueNode _ => some (some [])
  | Node.falseNode _ => some none
/-- The loop over the children in `optimizeUnderAndConstraint`, with the accesses
checked. -/
def LinObjFunc.optimizeUnderAndLoopChecked (f : LinObjFunc) :
    List Node → List Int → Option (Option (List Int))
  | [], assigns => some (some assigns)
  | child :: rest, assigns =>
    match LinObjFunc.optimizeUnderConstraintsChecked f child with
    | none => none
    | some none => some none
    | some (some childAssigns) =>
      LinObjFunc.optimizeUnderAndLoopChecked f rest (assigns ++ childAssigns)
end

/-- The method `optimizeUnderConstraint(g)` with every access checked, those of
`optimizeUnderConstraints(g->root)` and of its calls of `minWeight` included: `none` when
the pointer `optimizeUnderConstraints` returns is null or when an access is outside its
vector. -/
def LinObjFunc.optimizeUnderConstraintChecked (f : LinObjFunc) (g : Graph) :
    Option (Int × Model) :=
  match f.optimizeUnderConstraintsChecked g.root with
  | none => none
  | some none => none
  | some (some assigns) =>
    match f.assignLoopChecked assigns (0, List.replicate f.nbVars false, Model.free f.nbVars) with
    | none => none
    | some (value, assigned, model) =>
      f.completeLoopChecked assigned (List.range assigned.length) (value, model)

/-! ## What the parser builds -/

mutual
/-- No And node has a Lit node among its children: `parseAnd` makes a literal child a unit
literal. -/
def Node.NoLitChild : Node → Prop
  | Node.falseNode _ => True
  | Node.trueNode _ => True
  | Node.litNode _ _ => True
  | Node.orNode _ _ _ child0 _ child1 _ => Node.NoLitChild child0 ∧ Node.NoLitChild child1
  | Node.andNode _ children _ _ =>
    (∀ c ∈ children, c.isLitNode = false) ∧ Node.NoLitChildAll children
/-- The same for a list of children. -/
def Node.NoLitChildAll : List Node → Prop
  | [] => True
  | child :: rest => Node.NoLitChild child ∧ Node.NoLitChildAll rest
end

/-- What holds of a node the parser has built: it carries the `seenVars` `parseAnd` and
`parseOr` compute, no branch of an Or node has unit literals, and no And node has a Lit
child. -/
def Node.Parsed (x : Node) : Prop :=
  x.SeenOk ∧ x.NoOrUnits ∧ x.NoLitChild

/-! ## node.cpp: `modelCount` without the cache -/

mutual
/-- The recursion of `modelCount(weights, cache)` run without the cache: every child is
counted anew. -/
def Node.modelCountNoCache (weights : WeightVector) : Node → ℚ
  | Node.falseNode _ => 0
  | Node.trueNode _ => 1
  | Node.litNode _ lit => weights.weightFor lit
  | Node.orNode _ _ _ child0 _ child1 seen =>
    let res := 0 + Node.orBranchCount weights seen child0 (Node.modelCountNoCache weights child0)
    res + Node.orBranchCount weights seen child1 (Node.modelCountNoCache weights child1)
  | Node.andNode _ children unitLits _ =>
    let nb := unitLits.foldl (fun nb lit => nb * weights.weightFor lit) 1
    if nb = 0 then 0 else Node.modelCountChildrenNoCache weights children nb
/-- The loop over the children in `AndNode::modelCount`, without the cache. -/
def Node.modelCountChildrenNoCache (weights : WeightVector) : List Node → ℚ → ℚ
  | [], nb => nb
  | child :: rest, nb =>
    let nb := nb * Node.modelCountNoCache weights child
    if nb = 0 then 0 else Node.modelCountChildrenNoCache weights rest nb
end

/-- The And node with the same child twice: the And node `And([1])` at address `2` is
shared. -/
def sharedChildNode : Node :=
  Node.andNode 3 [Node.andNode 2 [] [1] {1}, Node.andNode 2 [] [1] {1}] [] {1}

/-! ## The line indexes an NNF text refers to -/

/-- The line indexes a line refers to: the fields after the size of an `A` line, the two
fields after the variable and the size of an `O` line. -/
def NNFLine.refs (line : NNFLine) : List Int :=
  if line.kind = 'A' then line.args.drop 1
  else if line.kind = 'O' then line.args.drop 2
  else []

/-- In a run of lines whose first line has the index `first`, every line index a line
refers to is the index of a line before that line. -/
def RefsBelowFrom (first : Nat) (lines : List NNFLine) : Prop :=
  ∀ (i : Nat) (line : NNFLine), lines[i]? = some line →
    ∀ r ∈ line.refs, 0 ≤ r ∧ r < ((first + i : Nat) : Int)

/-- The shapes of the lines `Graph::print` writes: `L <lit>`, `A <size> ...`, `O 0 0` and
`O <var> 2 <left> <right>`. -/
def NNFLine.Shape (line : NNFLine) : Prop :=
  (line.kind = 'L' ∧ line.args.length = 1) ∨ (line.kind = 'A' ∧ 1 ≤ line.args.length) ∨
    (line.kind = 'O' ∧ (line.args = [0, 0] ∨ line.args.length = 4))

/-- The line indexes `litIdx` are, in the order of the unit literals, the indexes of the
lines `L <lit>` of the unit literals, all before the line `base`. -/
def LitRefsAt (lines : List NNFLine) (unitLits : List Int) (litIdx : List Int) (base : Int) :
    Prop :=
  litIdx.length = unitLits.length ∧
    ∀ (j : Nat) (lit : Int), unitLits[j]? = some lit →
      ∃ r, litIdx[j]? = some r ∧ 0 ≤ r ∧ r < base ∧ lines[r.toNat]? = some ⟨'L', [lit]⟩

/-- The line indexes `childIdx` are, in the order of the children, the line indexes of the
children (`0` for `False`, `1` for `True`, the line of `nodeToLine` otherwise), all before
the line `base`. -/
def ChildRefsAt (nodeToLine : List (Nat × Int)) (children : List Node) (childIdx : List Int)
    (base : Int) : Prop :=
  List.Forall₂ (fun c r => Node.lineIndexFor nodeToLine c = some r ∧ 0 ≤ r ∧ r < base)
    children childIdx

/-- Line `base` of the text is the `A` line of an And node with the children `children` and
the unit literals `unitLits`: its size, then the line indexes of the children, then the
line indexes of the lines of the unit literals. -/
def AndLineAt (lines : List NNFLine) (nodeToLine : List (Nat × Int)) (children : List Node)
    (unitLits : List Int) (base : Int) : Prop :=
  ∃ childIdx litIdx, 0 ≤ base ∧
    lines[base.toNat]? =
      some ⟨'A', ((unitLits.length : Int) + (children.length : Int)) :: (childIdx ++ litIdx)⟩ ∧
    ChildRefsAt nodeToLine children childIdx base ∧ LitRefsAt lines unitLits litIdx base

/-- The children of the implicit And node of a branch of an Or node: the child of the
branch unless it is the `True` node. -/
def Node.branchChildren (c : Node) : List Node :=
  if c.isTrueNode then [] else [c]

/-- Line `k` of the text is the line of the node, and the line indexes it holds are the
indexes of the lines of what the node points to: for an Or node the `A` lines of its two
branches, for an And node (and each branch of an Or node) the lines of the children and of
the unit literals. -/
def Node.LineAt (lines : List NNFLine) (nodeToLine : List (Nat × Int)) : Node → Int → Prop
  | Node.falseNode _, k => k = 0 ∧ lines[0]? = some ⟨'O', [0, 0]⟩
  | Node.trueNode _, k => k = 1 ∧ lines[1]? = some ⟨'A', [0]⟩
  | Node.litNode _ lit, k => 0 ≤ k ∧ lines[k.toNat]? = some ⟨'L', [lit]⟩
  | Node.orNode _ var unitLits0 child0 unitLits1 child1 _, k =>
    ∃ b0 b1, 0 ≤ k ∧ lines[k.toNat]? = some ⟨'O', [var, 2, b0, b1]⟩ ∧ b0 < k ∧ b1 < k ∧
      AndLineAt lines nodeToLine child0.branchChildren unitLits0 b0 ∧
      AndLineAt lines nodeToLine child1.branchChildren unitLits1 b1
  | Node.andNode _ children unitLits _, k => AndLineAt lines nodeToLine children unitLits k

/-- The lines of what a node of `allNodes` points to are before the lines of the node. -/
def IndexState.Ordered (st : IndexState) : Prop :=
  ∀ x ∈ st.allNodes, ∀ k, st.nodeToLine.lookup x.addr = some k →
    ∀ c ∈ x.childNodes, ∀ r, Node.lineIndexFor st.nodeToLine c = some r →
      0 ≤ r ∧ r + (x.nbLines : Int) ≤ k

/-- The graph `And([Or(1, And([2]), And([-2])), Lit(3)], unit literals [4])`: an And node
with a unit literal, over an Or node whose branches hold unit literals. -/
def andOverOrGraph : Graph :=
  Graph.make 4 (Node.andNode 5
    [Node.orNode 3 1 [1] (Node.andNode 1 [] [2] {2}) [-1] (Node.andNode 2 [] [-2] {2}) {1, 2},
     Node.litNode 4 3] [4] {1, 2, 3, 4})

/-! # Theorems -/

/-! ## The memo of `modelCount` is transparent -/

theorem foldl_mul_weightFor (w : WeightVector) (lits : List Int) (a : ℚ) :
    lits.foldl (fun nb lit => nb * w.weightFor lit) a = a * (lits.map w.weightFor).prod := by
  induction lits generalizing a with
  | nil => simp
  | cons l ls ih => simp [List.foldl_cons, ih, mul_assoc]

theorem Node.self_mem_subnodes (n : Node) : n ∈ n.subnodes := by
  cases n <;> simp [Node.subnodes]

theorem Node.subnodes_subset_subnodesAll (cs : List Node) (c : Node) (hc : c ∈ cs) :
    ∀ x ∈ c.subnodes, x ∈ Node.subnodesAll cs := by
  induction cs with
  | nil => cases hc
  | cons d ds ih =>
    intro x hx
    simp only [Node.subnodesAll, List.mem_append]
    rcases List.mem_cons.1 hc with h | h
    · subst h; exact Or.inl hx
    · exact Or.inr (ih h x hx)

mutual
theorem Node.subnodes_trans : ∀ (b a : Node), a ∈ b.subnodes → ∀ x ∈ a.subnodes, x ∈ b.subnodes
  | .falseNode _, a, ha, x, hx => by
    simp only [Node.subnodes, List.mem_singleton] at ha; subst ha; exact hx
  | .trueNode _, a, ha, x, hx => by
    simp only [Node.subnodes, List.mem_singleton] at ha; subst ha; exact hx
  | .litNode _ _, a, ha, x, hx => by
    simp only [Node.subnodes, List.mem_singleton] at ha; subst ha; exact hx
  | .orNode ad v u0 c0 u1 c1 s, a, ha, x, hx => by
    simp only [Node.subnodes, List.mem_cons, List.mem_append] at ha
    rcases ha with h | h | h
    · subst h; exact hx
    · simp only [Node.subnodes, List.mem_cons, List.mem_append]
      exact Or.inr (Or.inl (Node.subnodes_trans c0 a h x hx))
    · simp only [Node.subnodes, List.mem_cons, List.mem_append]
      exact Or.inr (Or.inr (Node.subnodes_trans c1 a h x hx))
  | .andNode ad cs u s, a, ha, x, hx => by
    simp only [Node.subnodes, List.mem_cons] at ha
    rcases ha with h | h
    · subst h; exact hx
    · simp only [Node.subnodes, List.mem_cons]
      exact Or.inr (Node.subnodesAll_trans cs a h x hx)
theorem Node.subnodesAll_trans : ∀ (bs : List Node) (a : Node), a ∈ Node.subnodesAll bs →
    ∀ x ∈ a.subnodes, x ∈ Node.subnodesAll bs
  | [], a, ha, x, hx => by simp [Node.subnodesAll] at ha
  | b :: bs, a, ha, x, hx => by
    simp only [Node.subnodesAll, List.mem_append] at ha ⊢
    rcases ha with h | h
    · exact Or.inl (Node.subnodes_trans b a h x hx)
    · exact Or.inr (Node.subnodesAll_trans bs a h x hx)
end

theorem Node.child_mem_subnodes_and (ad : Nat) (cs : List Node) (u : List Int) (s : Finset Int)
    (c : Node) (hc : c ∈ cs) : c ∈ (Node.andNode ad cs u s).subnodes := by
  simp only [Node.subnodes, List.mem_cons]
  exact Or.inr (Node.subnodes_subset_subnodesAll cs c hc c c.self_mem_subnodes)

theorem CacheOk.nil (w : WeightVector) (root : Node) : CacheOk w root [] := by
  intro n _ q h; simp at h

theorem CacheOk.insert {w : WeightVector} {root : Node} (hroot : root.AddrOk) {cache : Cache}
    (h : CacheOk w root cache) {c : Node} (hc : c ∈ root.subnodes) :
    CacheOk w root ((c.addr, c.count w) :: cache) := by
  intro n hn q hq
  simp only [List.lookup_cons] at hq
  by_cases e : n.addr = c.addr
  · have hnc : n = c := hroot n hn c hc e
    subst hnc
    simp at hq
    exact hq.symm
  · have : (n.addr == c.addr) = false := by simpa using e
    rw [this] at hq
    exact h n hn q hq

mutual
theorem Node.modelCount_fst_eq_count (w : WeightVector) (root : Node) (hroot : root.AddrOk) :
    ∀ (n : Node) (cache : Cache), n ∈ root.subnodes → CacheOk w root cache →
      (n.modelCount w cache).1 = n.count w ∧ CacheOk w root (n.modelCount w cache).2
  | .falseNode _, cache, _, hc => by simpa [Node.modelCount, Node.count] using hc
  | .trueNode _, cache, _, hc => by simpa [Node.modelCount, Node.count] using hc
  | .litNode _ _, cache, _, hc => by simpa [Node.modelCount, Node.count] using hc
  | .orNode ad v u0 c0 u1 c1 s, cache, hn, hc => by
    have h0 : c0 ∈ root.subnodes :=
      Node.subnodes_trans root _ hn c0 (by simp [Node.subnodes, c0.self_mem_subnodes])
    have h1 : c1 ∈ root.subnodes :=
      Node.subnodes_trans root _ hn c1 (by simp [Node.subnodes, c1.self_mem_subnodes])
    have r0 := Node.modelCount_fst_eq_count w root hroot c0 cache h0 hc
    have r1 := Node.modelCount_fst_eq_count w root hroot c1 _ h1 r0.2
    simp only [Node.modelCount, Node.count, r0.1, r1.1, zero_add]
    exact ⟨trivial, r1.2⟩
  | .andNode ad cs u s, cache, hn, hc => by
    have hcs : ∀ c ∈ cs, c ∈ root.subnodes := fun c hcm =>
      Node.subnodes_trans root _ hn c (Node.child_mem_subnodes_and ad cs u s c hcm)
    simp only [Node.modelCount, Node.count, foldl_mul_weightFor, one_mul]
    by_cases hz : (u.map w.weightFor).prod = 0
    · simp [hz, hc]
    · simp only [hz, if_false]
      exact Node.modelCountChildren_eq_countAll w root hroot cs _ cache hcs hc
theorem Node.modelCountChildren_eq_countAll (w : WeightVector) (root : Node)
    (hroot : root.AddrOk) :
    ∀ (cs : List Node) (nb : ℚ) (cache : Cache), (∀ c ∈ cs, c ∈ root.subnodes) →
      CacheOk w root cache →
      (Node.modelCountChildren w cs nb cache).1 = nb * Node.countAll w cs ∧
        CacheOk w root (Node.modelCountChildren w cs nb cache).2
  | [], nb, cache, _, hc => by simpa [Node.modelCountChildren, Node.countAll] using hc
  | c :: cs, nb, cache, hcs, hc => by
    have hcm : c ∈ root.subnodes := hcs c (List.mem_cons_self _ _)
    have hrest : ∀ d ∈ cs, d ∈ root.subnodes := fun d hd => hcs d (List.mem_cons_of_mem _ hd)
    rw [Node.modelCountChildren]
    cases hl : List.lookup c.addr cache with
    | none =>
      have r := Node.modelCount_fst_eq_count w root hroot c cache hcm hc
      have hc2 : CacheOk w root ((c.addr, c.count w) :: (c.modelCount w cache).2) :=
        CacheOk.insert hroot r.2 hcm
      simp only [r.1, Node.countAll]
      by_cases hz : nb * c.count w = 0
      · simp only [hz, if_true]
        refine ⟨?_, hc2⟩
        rw [← mul_assoc, hz, zero_mul]
      · simp only [hz, if_false]
        have r2 := Node.modelCountChildren_eq_countAll w root hroot cs (nb * c.count w) _ hrest hc2
        refine ⟨?_, r2.2⟩
        rw [r2.1, mul_assoc]
    | some mc =>
      have hmc : mc = c.count w := hc c hcm mc hl
      subst hmc
      simp only [Node.countAll]
      by_cases hz : nb * c.count w = 0
      · simp only [hz, if_true]
        refine ⟨?_, hc⟩
        rw [← mul_assoc, hz, zero_mul]
      · simp only [hz, if_false]
        have r2 := Node.modelCountChildren_eq_countAll w root hroot cs (nb * c.count w) _ hrest hc
        refine ⟨?_, r2.2⟩
        rw [r2.1, mul_assoc]
end

theorem Node.modelCount_nil_eq_count (w : WeightVector) (root : Node) (hroot : root.AddrOk) :
    (root.modelCount w []).1 = root.count w :=
  (Node.modelCount_fst_eq_count w root hroot root [] root.self_mem_subnodes (CacheOk.nil w root)).1

/-! ## Weighted counts over sets of variables -/

theorem sum_powerset_union_mul (V1 : Finset Int) (f : Finset Int → ℚ) :
    ∀ (V2 : Finset Int) (g : Finset Int → ℚ), Disjoint V1 V2 →
      ∑ T ∈ (V1 ∪ V2).powerset, f (T ∩ V1) * g (T ∩ V2) =
        (∑ T ∈ V1.powerset, f T) * (∑ T ∈ V2.powerset, g T) := by
  intro V2
  induction V2 using Finset.induction_on with
  | empty =>
    intro g _
    simp only [Finset.union_empty, Finset.inter_empty, Finset.powerset_empty,
      Finset.sum_singleton]
    rw [Finset.sum_mul]
    refine Finset.sum_congr rfl fun T hT => ?_
    rw [Finset.inter_eq_left.2 (Finset.mem_powerset.1 hT)]
  | @insert a S ha ih =>
    intro g hd
    have haV1 : a ∉ V1 := fun h => (Finset.disjoint_left.1 hd h) (Finset.mem_insert_self a S)
    have hdS : Disjoint V1 S := hd.mono_right (Finset.subset_insert a S)
    have haU : a ∉ V1 ∪ S := by simp [haV1, ha]
    have hU : V1 ∪ insert a S = insert a (V1 ∪ S) := by
      ext x; simp only [Finset.mem_union, Finset.mem_insert]; tauto
    rw [hU, Finset.sum_powerset_insert haU, Finset.sum_powerset_insert ha, ← Finset.sum_add_distrib,
      ← Finset.sum_add_distrib, ← ih (fun X => g X + g (insert a X)) hdS]
    refine Finset.sum_congr rfl fun T hT => ?_
    have hTU : T ⊆ V1 ∪ S := Finset.mem_powerset.1 hT
    have haT : a ∉ T := fun h => haU (hTU h)
    have e1 : T ∩ insert a S = T ∩ S := by
      ext x; simp only [Finset.mem_inter, Finset.mem_insert]
      constructor
      · rintro ⟨hx, h | h⟩
        · subst h; exact absurd hx haT
        · exact ⟨hx, h⟩
      · rintro ⟨hx, h⟩; exact ⟨hx, Or.inr h⟩
    have e2 : insert a T ∩ V1 = T ∩ V1 := by
      ext x; simp only [Finset.mem_inter, Finset.mem_insert]
      constructor
      · rintro ⟨h | h, hx⟩
        · subst h; exact absurd hx haV1
        · exact ⟨h, hx⟩
      · rintro ⟨h, hx⟩; exact ⟨Or.inr h, hx⟩
    have e3 : insert a T ∩ insert a S = insert a (T ∩ S) := by
      ext x; simp only [Finset.mem_inter, Finset.mem_insert]
      constructor
      · rintro ⟨h | h, h' | h'⟩
        · exact Or.inl h
        · exact Or.inl h
        · exact Or.inl h'
        · exact Or.inr ⟨h, h'⟩
      · rintro (h | ⟨h, h'⟩)
        · exact ⟨Or.inl h, Or.inl h⟩
        · exact ⟨Or.inr h, Or.inr h'⟩
    rw [e1, e2, e3, mul_add]

theorem litWeight_congr (w : WeightVector) {T T' : Finset Int} {v : Int}
    (h : v ∈ T ↔ v ∈ T') : litWeight w T v = litWeight w T' v := by
  unfold litWeight
  by_cases hv : v ∈ T
  · rw [if_pos hv, if_pos (h.1 hv)]
  · rw [if_neg hv, if_neg (fun h' => hv (h.2 h'))]

theorem DependsOn.assignOf_inter {φ : (Int → Bool) → Bool} {V : Finset Int}
    (h : DependsOn φ V) (T : Finset Int) : φ (assignOf (T ∩ V)) = φ (assignOf T) := by
  apply h
  intro v hv
  simp [assignOf, hv]

theorem DependsOn.mono {φ : (Int → Bool) → Bool} {V U : Finset Int}
    (h : DependsOn φ V) (hVU : V ⊆ U) : DependsOn φ U :=
  fun ρ ρ' hag => h ρ ρ' (fun v hv => hag v (hVU hv))

theorem wmc_and (w : WeightVector) (φ1 φ2 : (Int → Bool) → Bool) (V1 V2 : Finset Int)
    (hd : Disjoint V1 V2) (h1 : DependsOn φ1 V1) (h2 : DependsOn φ2 V2) :
    wmc w (fun ρ => φ1 ρ && φ2 ρ) (V1 ∪ V2) = wmc w φ1 V1 * wmc w φ2 V2 := by
  unfold wmc
  rw [← sum_powerset_union_mul V1
    (fun T => if φ1 (assignOf T) = true then ∏ v ∈ V1, litWeight w T v else 0) V2
    (fun T => if φ2 (assignOf T) = true then ∏ v ∈ V2, litWeight w T v else 0) hd]
  refine Finset.sum_congr rfl fun T _ => ?_
  simp only [h1.assignOf_inter T, h2.assignOf_inter T]
  have p1 : ∏ v ∈ V1, litWeight w (T ∩ V1) v = ∏ v ∈ V1, litWeight w T v :=
    Finset.prod_congr rfl fun v hv => litWeight_congr w (by simp [hv])
  have p2 : ∏ v ∈ V2, litWeight w (T ∩ V2) v = ∏ v ∈ V2, litWeight w T v :=
    Finset.prod_congr rfl fun v hv => litWeight_congr w (by simp [hv])
  rw [p1, p2, Finset.prod_union hd]
  by_cases a : φ1 (assignOf T) = true <;> by_cases b : φ2 (assignOf T) = true <;> simp [a, b]

theorem wmc_or (w : WeightVector) (φ1 φ2 : (Int → Bool) → Bool) (V : Finset Int)
    (hx : ∀ ρ, ¬ (φ1 ρ = true ∧ φ2 ρ = true)) :
    wmc w (fun ρ => φ1 ρ || φ2 ρ) V = wmc w φ1 V + wmc w φ2 V := by
  unfold wmc
  rw [← Finset.sum_add_distrib]
  refine Finset.sum_congr rfl fun T _ => ?_
  have hT := hx (assignOf T)
  by_cases a : φ1 (assignOf T) = true <;> by_cases b : φ2 (assignOf T) = true
  · exact absurd ⟨a, b⟩ hT
  · simp [a, b]
  · simp [a, b]
  · simp [a, b]

theorem wmc_congr (w : WeightVector) {φ1 φ2 : (Int → Bool) → Bool} (V : Finset Int)
    (h : ∀ ρ, φ1 ρ = φ2 ρ) : wmc w φ1 V = wmc w φ2 V := by
  have : φ1 = φ2 := funext h
  rw [this]

theorem wmc_true_empty (w : WeightVector) : wmc w (fun _ => true) ∅ = 1 := by
  simp [wmc]

theorem wmc_false (w : WeightVector) (V : Finset Int) : wmc w (fun _ => false) V = 0 := by
  simp [wmc]

theorem wmc_free_var (w : WeightVector) (a : Int) :
    wmc w (fun _ => true) {a} = varWeight w a := by
  have h : ({a} : Finset Int) = insert a ∅ := by simp
  unfold wmc
  rw [h, Finset.sum_powerset_insert (Finset.not_mem_empty a)]
  simp [litWeight, varWeight, add_comm]

theorem wmc_lit (w : WeightVector) (l : Int) :
    wmc w (fun ρ => litVal ρ l) {|l|} = w.weightFor l := by
  have h : ({|l|} : Finset Int) = insert |l| ∅ := by simp
  unfold wmc
  rw [h, Finset.sum_powerset_insert (Finset.not_mem_empty _)]
  simp only [Finset.powerset_empty, Finset.sum_singleton, litVal, assignOf, litWeight]
  rcases lt_trichotomy l 0 with hl | hl | hl
  · have h1 : ¬ l > 0 := by omega
    have h2 : |l| = -l := abs_of_neg hl
    simp [h1, h2]
  · subst hl; simp
  · have h2 : |l| = l := abs_of_pos hl
    simp [hl, h2]

theorem wmc_smooth (w : WeightVector) (φ : (Int → Bool) → Bool) (V : Finset Int)
    (h : DependsOn φ V) (S : Finset Int) (hd : Disjoint V S) :
    wmc w φ (V ∪ S) = wmc w φ V * ∏ v ∈ S, varWeight w v := by
  have hS : wmc w (fun _ => true) S = ∏ v ∈ S, varWeight w v := by
    induction S using Finset.induction_on with
    | empty => simp [wmc]
    | @insert a S ha ih =>
      have hdS : Disjoint V S := hd.mono_right (Finset.subset_insert a S)
      have e : insert a S = {a} ∪ S := by
        ext x; simp
      have hda : Disjoint ({a} : Finset Int) S := by simpa using ha
      rw [Finset.prod_insert ha, ← ih hdS, ← wmc_free_var, e,
        ← wmc_and w (fun _ => true) (fun _ => true) {a} S hda (fun _ _ _ => rfl)
          (fun _ _ _ => rfl)]
      rfl
  rw [← hS, ← wmc_and w φ (fun _ => true) V S hd h (fun _ _ _ => rfl)]
  exact wmc_congr w _ (fun ρ => by simp)

/-! ## The smoothing loops -/

theorem smoothLoop_eq (w : WeightVector) (seenChild : Finset Int) :
    ∀ (vars : List Int) (factor : ℚ),
      smoothLoop w seenChild vars factor =
        factor * ((vars.filter (fun v => decide (v ∉ seenChild))).map (varWeight w)).prod
  | [], factor => by simp [smoothLoop]
  | v :: vs, factor => by
    rw [smoothLoop]
    by_cases hv : v ∉ seenChild
    · simp only [hv, not_false_eq_true, if_true, List.filter_cons, decide_True, List.map_cons,
        List.prod_cons]
      have e : factor * w.weightFor v + factor * w.weightFor (-v) = factor * varWeight w v := by
        unfold varWeight; ring
      rw [e]
      by_cases hz : factor * varWeight w v = 0
      · rw [if_pos hz, ← mul_assoc, hz, zero_mul]
      · rw [if_neg hz, smoothLoop_eq w seenChild vs, mul_assoc]
    · have hv' : v ∈ seenChild := not_not.1 hv
      simp only [hv, if_false, List.filter_cons, hv', not_true_eq_false, decide_False]
      by_cases hz : factor = 0
      · rw [if_pos hz, hz, zero_mul]
      · rw [if_neg hz, smoothLoop_eq w seenChild vs]
        simp

theorem prod_filter_not_mem (f : Int → ℚ) (l : List Int) (hl : l.Nodup) (S : Finset Int) :
    ((l.filter (fun v => decide (v ∉ S))).map f).prod = ∏ v ∈ l.toFinset \ S, f v := by
  rw [← List.prod_toFinset f (hl.filter _)]
  congr 1
  ext x
  simp [List.mem_filter]

theorem smoothLoop_sort (w : WeightVector) (seenChild seen : Finset Int) (factor : ℚ) :
    smoothLoop w seenChild (seen.sort (· ≤ ·)) factor =
      factor * ∏ v ∈ seen \ seenChild, varWeight w v := by
  rw [smoothLoop_eq, prod_filter_not_mem _ _ (Finset.sort_nodup _ _), Finset.sort_toFinset]

theorem varsUpTo_nodup (n : Nat) : (varsUpTo n).Nodup := by
  unfold varsUpTo
  refine List.Nodup.map ?_ (List.nodup_range n)
  intro a b h
  simp only at h
  omega

theorem mem_varsUpTo (n : Nat) (v : Int) : v ∈ varsUpTo n ↔ 1 ≤ v ∧ v ≤ (n : Int) := by
  unfold varsUpTo
  simp only [List.mem_map, List.mem_range]
  constructor
  · rintro ⟨i, hi, rfl⟩; omega
  · rintro ⟨h1, h2⟩
    exact ⟨(v - 1).toNat, by omega, by omega⟩

theorem varsUpTo_toFinset (n : Nat) : (varsUpTo n).toFinset = Finset.Icc (1 : Int) n := by
  ext v
  simp [mem_varsUpTo]

theorem smoothLoop_varsUpTo (w : WeightVector) (seen : Finset Int) (n : Nat) (factor : ℚ) :
    smoothLoop w seen (varsUpTo n) factor =
      factor * ∏ v ∈ Finset.Icc (1 : Int) n \ seen, varWeight w v := by
  rw [smoothLoop_eq, prod_filter_not_mem _ _ (varsUpTo_nodup n), varsUpTo_toFinset]

theorem Node.orBranchCount_eq (w : WeightVector) (seen : Finset Int) (child : Node) (loc : ℚ)
    (hsub : child.seenVars ⊆ seen) :
    Node.orBranchCount w seen child loc = loc * ∏ v ∈ seen \ child.seenVars, varWeight w v := by
  unfold Node.orBranchCount
  by_cases hc : seen.card ≠ child.seenVars.card
  · rw [if_pos hc, smoothLoop_sort, one_mul]
  · rw [if_neg hc]
    have heq : child.seenVars = seen :=
      Finset.eq_of_subset_of_card_le hsub (le_of_eq (not_not.1 hc))
    rw [heq]
    simp

/-! ## The circuit only reads its variables -/

theorem litVal_congr {ρ ρ' : Int → Bool} (l : Int) (h : ρ |l| = ρ' |l|) :
    litVal ρ l = litVal ρ' l := by
  unfold litVal
  rcases lt_trichotomy l 0 with hl | hl | hl
  · have h1 : ¬ l > 0 := by omega
    rw [abs_of_neg hl] at h
    simp [h1, h]
  · subst hl; simpa using h
  · rw [abs_of_pos hl] at h
    simp [hl, h]

theorem mem_litVars {lits : List Int} {v : Int} : v ∈ litVars lits ↔ ∃ l ∈ lits, |l| = v := by
  simp [litVars]

theorem litVars_cons (l : Int) (ls : List Int) : litVars (l :: ls) = {|l|} ∪ litVars ls := by
  ext v; simp [litVars]

theorem all_litVal_congr {ρ ρ' : Int → Bool} (lits : List Int)
    (h : ∀ v ∈ litVars lits, ρ v = ρ' v) : lits.all (litVal ρ) = lits.all (litVal ρ') := by
  induction lits with
  | nil => rfl
  | cons l ls ih =>
    simp only [List.all_cons]
    rw [litVal_congr l (h _ (mem_litVars.2 ⟨l, List.mem_cons_self _ _, rfl⟩)),
      ih (fun v hv => h v (by
        rcases mem_litVars.1 hv with ⟨x, hx, e⟩
        exact mem_litVars.2 ⟨x, List.mem_cons_of_mem _ hx, e⟩))]

mutual
theorem Node.eval_congr (ρ ρ' : Int → Bool) :
    ∀ n : Node, (∀ v ∈ n.vars, ρ v = ρ' v) → Node.eval ρ n = Node.eval ρ' n
  | .falseNode _, _ => rfl
  | .trueNode _, _ => rfl
  | .litNode _ l, h => by
    simp only [Node.eval]
    exact litVal_congr l (h _ (by simp [Node.vars]))
  | .orNode _ _ u0 c0 u1 c1 _, h => by
    simp only [Node.eval]
    rw [all_litVal_congr u0 (fun v hv => h v (by simp [Node.vars, hv])),
      all_litVal_congr u1 (fun v hv => h v (by simp [Node.vars, hv])),
      Node.eval_congr ρ ρ' c0 (fun v hv => h v (by simp [Node.vars, hv])),
      Node.eval_congr ρ ρ' c1 (fun v hv => h v (by simp [Node.vars, hv]))]
  | .andNode _ cs u _, h => by
    simp only [Node.eval]
    rw [all_litVal_congr u (fun v hv => h v (by simp [Node.vars, hv])),
      Node.evalAll_congr ρ ρ' cs (fun v hv => h v (by simp [Node.vars, hv]))]
theorem Node.evalAll_congr (ρ ρ' : Int → Bool) :
    ∀ cs : List Node, (∀ v ∈ Node.varsAll cs, ρ v = ρ' v) →
      Node.evalAll ρ cs = Node.evalAll ρ' cs
  | [], _ => rfl
  | c :: cs, h => by
    simp only [Node.evalAll]
    rw [Node.eval_congr ρ ρ' c (fun v hv => h v (by simp [Node.varsAll, hv])),
      Node.evalAll_congr ρ ρ' cs (fun v hv => h v (by simp [Node.varsAll, hv]))]
end

theorem Node.dependsOn_eval (n : Node) : DependsOn (fun ρ => Node.eval ρ n) n.vars :=
  fun ρ ρ' h => Node.eval_congr ρ ρ' n h

theorem Node.dependsOn_evalAll (cs : List Node) :
    DependsOn (fun ρ => Node.evalAll ρ cs) (Node.varsAll cs) :=
  fun ρ ρ' h => Node.evalAll_congr ρ ρ' cs h

theorem dependsOn_all_litVal (lits : List Int) :
    DependsOn (fun ρ => lits.all (litVal ρ)) (litVars lits) :=
  fun _ _ h => all_litVal_congr lits h

/-! ## Stored `seenVars` and mentioned variables -/

mutual
theorem Node.seenVars_eq_vars : ∀ n : Node, n.SeenOk → n.NoOrUnits → n.seenVars = n.vars
  | .falseNode _, _, _ => rfl
  | .trueNode _, _, _ => rfl
  | .litNode _ _, _, _ => rfl
  | .orNode _ _ u0 c0 u1 c1 s, hs, hn => by
    simp only [Node.SeenOk] at hs
    simp only [Node.NoOrUnits] at hn
    obtain ⟨h0, h1, hn0, hn1⟩ := hn
    subst h0 h1
    have e0 := Node.seenVars_eq_vars c0 hs.2.1 hn0
    have e1 := Node.seenVars_eq_vars c1 hs.2.2 hn1
    show s = Node.vars (Node.orNode _ _ [] c0 [] c1 s)
    rw [hs.1, e0, e1]
    simp [Node.vars, litVars]
  | .andNode _ cs u s, hs, hn => by
    simp only [Node.SeenOk] at hs
    simp only [Node.NoOrUnits] at hn
    have e := Node.seenVarsAll_eq_varsAll cs hs.2 hn
    show s = Node.vars (Node.andNode _ cs u s)
    rw [hs.1, e]
    simp [Node.vars]
theorem Node.seenVarsAll_eq_varsAll : ∀ cs : List Node, Node.SeenOkAll cs →
    Node.NoOrUnitsAll cs → Node.seenVarsAll cs = Node.varsAll cs
  | [], _, _ => rfl
  | c :: cs, hs, hn => by
    simp only [Node.SeenOkAll] at hs
    simp only [Node.NoOrUnitsAll] at hn
    have e0 := Node.seenVars_eq_vars c hs.1 hn.1
    have e1 := Node.seenVarsAll_eq_varsAll cs hs.2 hn.2
    show c.seenVars ∪ Node.seenVarsAll cs = c.vars ∪ Node.varsAll cs
    rw [e0, e1]
end

/-! ## The count of a node is the weighted count of its models -/

theorem pairwise_conjunctVars_cons_unit {l : Int} {ls : List Int} {cs : List Node}
    (h : (Node.conjunctVars (l :: ls) cs).Pairwise Disjoint) :
    Disjoint ({|l|} : Finset Int) (litVars ls ∪ Node.varsAll cs) ∧
      (Node.conjunctVars ls cs).Pairwise Disjoint := by
  simp only [Node.conjunctVars, List.map_cons, List.cons_append, List.pairwise_cons] at h
  refine ⟨?_, h.2⟩
  rw [Finset.disjoint_union_right]
  constructor
  · rw [Finset.disjoint_left]
    intro v hv hv'
    rcases mem_litVars.1 hv' with ⟨x, hx, e⟩
    have := h.1 {|x|} (List.mem_append_left _ (List.mem_map.2 ⟨x, hx, rfl⟩))
    exact (Finset.disjoint_left.1 this hv) (by simp [e])
  · rw [Finset.disjoint_left]
    intro v hv hv'
    have key : ∀ (ds : List Node), (∀ d ∈ ds, Disjoint ({|l|} : Finset Int) d.vars) →
        v ∈ Node.varsAll ds → False := by
      intro ds
      induction ds with
      | nil => intro _ h0; simp [Node.varsAll] at h0
      | cons d ds ih =>
        intro hall h0
        simp only [Node.varsAll, Finset.mem_union] at h0
        rcases h0 with h0 | h0
        · exact (Finset.disjoint_left.1 (hall d (List.mem_cons_self _ _)) hv) h0
        · exact ih (fun e he => hall e (List.mem_cons_of_mem _ he)) h0
    exact key cs (fun d hd => h.1 d.vars (List.mem_append_right _ (List.mem_map.2 ⟨d, hd, rfl⟩)))
      hv'

theorem pairwise_conjunctVars_cons_child {c : Node} {cs : List Node}
    (h : (Node.conjunctVars [] (c :: cs)).Pairwise Disjoint) :
    Disjoint c.vars (Node.varsAll cs) ∧ (Node.conjunctVars [] cs).Pairwise Disjoint := by
  simp only [Node.conjunctVars, List.map_nil, List.nil_append, List.map_cons,
    List.pairwise_cons] at h
  refine ⟨?_, by simpa [Node.conjunctVars] using h.2⟩
  rw [Finset.disjoint_left]
  intro v hv hv'
  have key : ∀ (ds : List Node), (∀ d ∈ ds, Disjoint c.vars d.vars) →
      v ∈ Node.varsAll ds → False := by
    intro ds
    induction ds with
    | nil => intro _ h0; simp [Node.varsAll] at h0
    | cons d ds ih =>
      intro hall h0
      simp only [Node.varsAll, Finset.mem_union] at h0
      rcases h0 with h0 | h0
      · exact (Finset.disjoint_left.1 (hall d (List.mem_cons_self _ _)) hv) h0
      · exact ih (fun e he => hall e (List.mem_cons_of_mem _ he)) h0
  exact key cs (fun d hd => h.1 d.vars (List.mem_map.2 ⟨d, hd, rfl⟩)) hv'

/-- The weighted count of a conjunction of unit literals and a further conjunct. -/
theorem wmc_units_and (w : WeightVector) (φ : (Int → Bool) → Bool) (cs : List Node)
    (hφ : DependsOn φ (Node.varsAll cs)) :
    ∀ (lits : List Int), (Node.conjunctVars lits cs).Pairwise Disjoint →
      wmc w (fun ρ => lits.all (litVal ρ) && φ ρ) (litVars lits ∪ Node.varsAll cs) =
        (lits.map w.weightFor).prod * wmc w φ (Node.varsAll cs)
  | [], _ => by
    simp only [List.all_nil, Bool.true_and, List.map_nil, List.prod_nil, one_mul]
    have : litVars [] = ∅ := rfl
    rw [this, Finset.empty_union]
  | l :: ls, h => by
    obtain ⟨hd, hrest⟩ := pairwise_conjunctVars_cons_unit h
    have ih := wmc_units_and w φ cs hφ ls hrest
    rw [litVars_cons, Finset.union_assoc, List.map_cons, List.prod_cons, mul_assoc, ← ih,
      ← wmc_lit w l,
      ← wmc_and w (fun ρ => litVal ρ l) (fun ρ => ls.all (litVal ρ) && φ ρ) _ _ hd]
    · exact wmc_congr w _ (fun ρ => by simp [List.all_cons, Bool.and_assoc])
    · intro ρ ρ' hag
      exact litVal_congr l (hag _ (by simp))
    · intro ρ ρ' hag
      simp only
      rw [all_litVal_congr ls (fun v hv => hag v (by simp [hv])),
        hφ ρ ρ' (fun v hv => hag v (by simp [hv]))]

mutual
theorem Node.count_eq_wmc (w : WeightVector) :
    ∀ n : Node, n.Decomposable → n.Deterministic → n.SeenOk → n.NoOrUnits →
      n.count w = wmc w (fun ρ => Node.eval ρ n) n.vars
  | .falseNode _, _, _, _, _ => by
    simp only [Node.count, Node.eval]; exact (wmc_false w _).symm
  | .trueNode _, _, _, _, _ => by
    simp only [Node.count, Node.eval, Node.vars]; exact (wmc_true_empty w).symm
  | .litNode _ l, _, _, _, _ => by
    simp only [Node.count, Node.eval, Node.vars]; exact (wmc_lit w l).symm
  | .orNode ad x u0 c0 u1 c1 s, hdec, hdet, hs, hn => by
    simp only [Node.SeenOk] at hs
    simp only [Node.NoOrUnits] at hn
    simp only [Node.Decomposable] at hdec
    simp only [Node.Deterministic] at hdet
    obtain ⟨h0, h1, hn0, hn1⟩ := hn
    subst h0 h1
    have e0 := Node.seenVars_eq_vars c0 hs.2.1 hn0
    have e1 := Node.seenVars_eq_vars c1 hs.2.2 hn1
    have hsv : s = c0.vars ∪ c1.vars := by rw [hs.1, e0, e1]
    have i0 := Node.count_eq_wmc w c0 hdec.2.2.1 hdet.2.1 hs.2.1 hn0
    have i1 := Node.count_eq_wmc w c1 hdec.2.2.2 hdet.2.2 hs.2.2 hn1
    have hv : (Node.orNode ad x [] c0 [] c1 s).vars = s := by
      rw [hsv]; simp [Node.vars, litVars]
    have b0 : Node.orBranchCount w s c0 (c0.count w) = wmc w (fun ρ => Node.eval ρ c0) s := by
      rw [Node.orBranchCount_eq w s c0 _ (by rw [e0, hsv]; exact Finset.subset_union_left), e0,
        i0, ← wmc_smooth w _ _ c0.dependsOn_eval _ Finset.disjoint_sdiff,
        Finset.union_sdiff_of_subset (by rw [hsv]; exact Finset.subset_union_left)]
    have b1 : Node.orBranchCount w s c1 (c1.count w) = wmc w (fun ρ => Node.eval ρ c1) s := by
      rw [Node.orBranchCount_eq w s c1 _ (by rw [e1, hsv]; exact Finset.subset_union_right), e1,
        i1, ← wmc_smooth w _ _ c1.dependsOn_eval _ Finset.disjoint_sdiff,
        Finset.union_sdiff_of_subset (by rw [hsv]; exact Finset.subset_union_right)]
    rw [hv]
    simp only [Node.count, b0, b1]
    rw [← wmc_or w _ _ s (fun ρ hρ => hdet.1 ρ (by simpa using hρ))]
    exact wmc_congr w _ (fun ρ => by simp [Node.eval])
  | .andNode _ cs u s, hdec, hdet, hs, hn => by
    simp only [Node.SeenOk] at hs
    simp only [Node.NoOrUnits] at hn
    simp only [Node.Decomposable] at hdec
    simp only [Node.Deterministic] at hdet
    have hpc : (Node.conjunctVars [] cs).Pairwise Disjoint := by
      have := hdec.1
      simp only [Node.conjunctVars, List.pairwise_append] at this
      simpa [Node.conjunctVars] using this.2.1
    have ih := Node.countAll_eq_wmc w cs hpc hdec.2 hdet hs.2 hn
    simp only [Node.count, Node.eval, Node.vars]
    rw [ih, wmc_units_and w _ cs (Node.dependsOn_evalAll cs) u hdec.1]
theorem Node.countAll_eq_wmc (w : WeightVector) :
    ∀ cs : List Node, (Node.conjunctVars [] cs).Pairwise Disjoint → Node.DecomposableAll cs →
      Node.DeterministicAll cs → Node.SeenOkAll cs → Node.NoOrUnitsAll cs →
      Node.countAll w cs = wmc w (fun ρ => Node.evalAll ρ cs) (Node.varsAll cs)
  | [], _, _, _, _, _ => by
    simp only [Node.countAll, Node.evalAll, Node.varsAll]; exact (wmc_true_empty w).symm
  | c :: cs, hp, hdec, hdet, hs, hn => by
    simp only [Node.SeenOkAll] at hs
    simp only [Node.NoOrUnitsAll] at hn
    simp only [Node.DecomposableAll] at hdec
    simp only [Node.DeterministicAll] at hdet
    obtain ⟨hd, hrest⟩ := pairwise_conjunctVars_cons_child hp
    have i0 := Node.count_eq_wmc w c hdec.1 hdet.1 hs.1 hn.1
    have i1 := Node.countAll_eq_wmc w cs hrest hdec.2 hdet.2 hs.2 hn.2
    simp only [Node.countAll, Node.evalAll, Node.varsAll]
    rw [i0, i1, wmc_and w _ _ _ _ hd c.dependsOn_eval (Node.dependsOn_evalAll cs)]
end

/-! ## `updateWeights` -/

theorem vecGet_vecSet {α : Type} (v : List α) (i j : Int) (x d : α) :
    vecGet (vecSet v i x) j d =
      if i = j ∧ 0 ≤ i ∧ i.toNat < v.length then x else vecGet v j d := by
  unfold vecGet vecSet
  by_cases hi : 0 ≤ i
  · by_cases hj : 0 ≤ j
    · simp only [hi, hj, if_true, true_and]
      by_cases e : i = j
      · subst e
        by_cases hl : i.toNat < v.length
        · simp [hl, List.getD_eq_getElem?_getD, List.getElem?_set]
        · have hn : v[i.toNat]? = none := List.getElem?_eq_none (by omega)
          simp [hl, List.getD_eq_getElem?_getD, List.getElem?_set, hn]
      · have ne : i.toNat ≠ j.toNat := by omega
        simp [e, List.getD_eq_getElem?_getD, List.getElem?_set, ne]
    · have e : i ≠ j := by omega
      simp [hi, hj, e]
  · simp [hi]

theorem vecSet_length {α : Type} (v : List α) (i : Int) (x : α) :
    (vecSet v i x).length = v.length := by
  unfold vecSet; split <;> simp

theorem WeightVector.idx_inj {l l' : Int} (h : WeightVector.idx l = WeightVector.idx l') :
    l = l' := by
  unfold WeightVector.idx at h
  simp only at h
  split_ifs at h <;> omega

theorem WeightVector.idx_bounds {l : Int} {n : Nat} (hl : 1 ≤ |l| ∧ |l| ≤ (n : Int)) :
    0 ≤ WeightVector.idx l ∧ (WeightVector.idx l).toNat < 2 * n := by
  unfold WeightVector.idx
  simp only
  rcases abs_cases l with ⟨e, _⟩ | ⟨e, _⟩ <;> rw [e] at hl <;> split_ifs <;> omega

theorem WeightVector.weightFor_setWeightFor (w : WeightVector) (x l : Int) (q : ℚ) (n : Nat)
    (hlen : w.vec.length = 2 * n) (hx : 1 ≤ |x| ∧ |x| ≤ (n : Int)) :
    (w.setWeightFor x q).weightFor l = if l = x then q else w.weightFor l := by
  unfold WeightVector.setWeightFor WeightVector.weightFor
  rw [vecGet_vecSet]
  have hb := WeightVector.idx_bounds hx
  by_cases e : l = x
  · subst e
    simp [hb.1, hlen, hb.2]
  · have : ¬ WeightVector.idx x = WeightVector.idx l := fun h => e (WeightVector.idx_inj h).symm
    simp [this, e]

theorem WeightVector.setWeightFor_length (w : WeightVector) (x : Int) (q : ℚ) :
    (w.setWeightFor x q).vec.length = w.vec.length := by
  unfold WeightVector.setWeightFor
  exact vecSet_length _ _ _

/-- The step of `updateWeights` for variable `i`. -/
theorem updateWeights_step (m : Model) (w : WeightVector) (i : Int) (n : Nat)
    (hlen : w.vec.length = 2 * n) (hi : 1 ≤ i ∧ i ≤ (n : Int)) (l : Int) :
    (match m.bindingFor i with
      | Binding.True => w.setWeightFor (-i) 0
      | Binding.False => w.setWeightFor i 0
      | Binding.Unsat => (w.setWeightFor (-i) 0).setWeightFor i 0
      | Binding.Free => w).vec.length = 2 * n ∧
    (match m.bindingFor i with
      | Binding.True => w.setWeightFor (-i) 0
      | Binding.False => w.setWeightFor i 0
      | Binding.Unsat => (w.setWeightFor (-i) 0).setWeightFor i 0
      | Binding.Free => w).weightFor l =
        if |l| = i ∧ m.falsifies l then 0 else w.weightFor l := by
  have hi1 : 1 ≤ |i| ∧ |i| ≤ (n : Int) := by rw [abs_of_pos (by omega)]; exact hi
  have hi2 : 1 ≤ |(-i)| ∧ |(-i)| ≤ (n : Int) := by rw [abs_neg]; exact hi1
  have habs : |l| = i ↔ (l = i ∨ l = -i) := by
    rcases abs_cases l with ⟨e, _⟩ | ⟨e, _⟩ <;> rw [e] <;> constructor <;> intro h <;> omega
  have hlen2 : (w.setWeightFor (-i) 0).vec.length = 2 * n := by
    rw [WeightVector.setWeightFor_length]; exact hlen
  have hlen1 : (w.setWeightFor i 0).vec.length = 2 * n := by
    rw [WeightVector.setWeightFor_length]; exact hlen
  have hlen3 : ((w.setWeightFor (-i) 0).setWeightFor i 0).vec.length = 2 * n := by
    rw [WeightVector.setWeightFor_length]; exact hlen2
  by_cases e2 : |l| = i
  · have hfal : m.falsifies l ↔ (m.bindingFor i = Binding.True ∧ l < 0) ∨
        (m.bindingFor i = Binding.False ∧ l > 0) ∨ m.bindingFor i = Binding.Unsat := by
      unfold Model.falsifies
      rw [e2]
      cases m.bindingFor i <;> simp
    cases hb : m.bindingFor i with
    | True =>
      simp only [hb] at hfal ⊢
      refine ⟨hlen2, ?_⟩
      rw [WeightVector.weightFor_setWeightFor w _ l 0 n hlen hi2]
      rcases habs.1 e2 with h | h
      · have h1 : ¬ l = -i := by omega
        have h2 : ¬ m.falsifies l := by rw [hfal]; simp; omega
        simp [h1, h2]
      · have h2 : m.falsifies l := by rw [hfal]; simp; omega
        have hR : (if |l| = i ∧ m.falsifies l then (0 : ℚ) else w.weightFor l) = 0 :=
          if_pos ⟨e2, h2⟩
        rw [hR, if_pos h]
    | False =>
      simp only [hb] at hfal ⊢
      refine ⟨hlen1, ?_⟩
      rw [WeightVector.weightFor_setWeightFor w _ l 0 n hlen hi1]
      rcases habs.1 e2 with h | h
      · have h2 : m.falsifies l := by rw [hfal]; simp; omega
        have hR : (if |l| = i ∧ m.falsifies l then (0 : ℚ) else w.weightFor l) = 0 :=
          if_pos ⟨e2, h2⟩
        rw [hR, if_pos h]
      · have h1 : ¬ l = i := by omega
        have h2 : ¬ m.falsifies l := by rw [hfal]; simp; omega
        have hR : (if |l| = i ∧ m.falsifies l then (0 : ℚ) else w.weightFor l) = w.weightFor l :=
          if_neg (fun hh => h2 hh.2)
        rw [hR, if_neg h1]
    | Unsat =>
      simp only [hb] at hfal ⊢
      refine ⟨hlen3, ?_⟩
      have h2 : m.falsifies l := by rw [hfal]; simp
      have hR : (if |l| = i ∧ m.falsifies l then (0 : ℚ) else w.weightFor l) = 0 :=
        if_pos ⟨e2, h2⟩
      rw [WeightVector.weightFor_setWeightFor _ _ l 0 n hlen2 hi1,
        WeightVector.weightFor_setWeightFor w _ l 0 n hlen hi2, hR]
      rcases habs.1 e2 with h | h
      · rw [if_pos h]
      · rw [if_pos h]; simp
    | Free =>
      simp only [hb] at hfal ⊢
      refine ⟨hlen, ?_⟩
      have h2 : ¬ m.falsifies l := by rw [hfal]; simp
      rw [if_neg (fun hh => h2 hh.2)]
  · have n1 : ¬ l = i := fun h => e2 (habs.2 (Or.inl h))
    have n2 : ¬ l = -i := fun h => e2 (habs.2 (Or.inr h))
    rw [if_neg (fun hh => e2 hh.1)]
    cases hb : m.bindingFor i with
    | True =>
      exact ⟨hlen2, by rw [WeightVector.weightFor_setWeightFor w _ l 0 n hlen hi2, if_neg n2]⟩
    | False =>
      exact ⟨hlen1, by rw [WeightVector.weightFor_setWeightFor w _ l 0 n hlen hi1, if_neg n1]⟩
    | Unsat =>
      exact ⟨hlen3, by
        rw [WeightVector.weightFor_setWeightFor _ _ l 0 n hlen2 hi1, if_neg n1,
          WeightVector.weightFor_setWeightFor w _ l 0 n hlen hi2, if_neg n2]⟩
    | Free => exact ⟨hlen, rfl⟩

theorem updateWeights_foldl (m : Model) (n : Nat) :
    ∀ (vs : List Int) (w : WeightVector), w.vec.length = 2 * n →
      (∀ v ∈ vs, 1 ≤ v ∧ v ≤ (n : Int)) →
      (vs.foldl (fun w i =>
        match m.bindingFor i with
        | Binding.True => w.setWeightFor (-i) 0
        | Binding.False => w.setWeightFor i 0
        | Binding.Unsat => (w.setWeightFor (-i) 0).setWeightFor i 0
        | Binding.Free => w) w).vec.length = 2 * n ∧
      ∀ l, (vs.foldl (fun w i =>
        match m.bindingFor i with
        | Binding.True => w.setWeightFor (-i) 0
        | Binding.False => w.setWeightFor i 0
        | Binding.Unsat => (w.setWeightFor (-i) 0).setWeightFor i 0
        | Binding.Free => w) w).weightFor l =
          if |l| ∈ vs ∧ m.falsifies l then 0 else w.weightFor l
  | [], w, hlen, _ => by simp [hlen]
  | i :: vs, w, hlen, hvs => by
    have hi := hvs i (List.mem_cons_self _ _)
    have hrest : ∀ v ∈ vs, 1 ≤ v ∧ v ≤ (n : Int) := fun v hv => hvs v (List.mem_cons_of_mem _ hv)
    have hlen' := fun l => (updateWeights_step m w i n hlen hi l).1
    have ih := updateWeights_foldl m n vs _ (hlen' 0) hrest
    rw [List.foldl_cons]
    refine ⟨ih.1, fun l => ?_⟩
    rw [ih.2 l, (updateWeights_step m w i n hlen hi l).2]
    by_cases h1 : |l| ∈ vs ∧ m.falsifies l
    · rw [if_pos h1, if_pos ⟨List.mem_cons_of_mem _ h1.1, h1.2⟩]
    · rw [if_neg h1]
      by_cases h2 : |l| = i ∧ m.falsifies l
      · rw [if_pos h2, if_pos ⟨by rw [h2.1]; exact List.mem_cons_self _ _, h2.2⟩]
      · rw [if_neg h2, if_neg]
        rintro ⟨hmem, hf⟩
        rcases List.mem_cons.1 hmem with h | h
        · exact h2 ⟨h, hf⟩
        · exact h1 ⟨h, hf⟩

theorem WeightVector.nbVars_eq (w : WeightVector) (n : Nat) (hlen : w.vec.length = 2 * n) :
    w.nbVars = n := by
  unfold WeightVector.nbVars
  omega

theorem updateWeights_length (w : WeightVector) (m : Model) (n : Nat)
    (hlen : w.vec.length = 2 * n) : (updateWeights w m).vec.length = 2 * n := by
  unfold updateWeights
  rw [w.nbVars_eq n hlen]
  exact (updateWeights_foldl m n (varsUpTo n) w hlen (fun v hv => (mem_varsUpTo n v).1 hv)).1

/-- After `updateWeights` a literal of `1..nbVars` weighs `0` when the model falsifies it
and keeps its weight otherwise. -/
theorem updateWeights_weightFor (w : WeightVector) (m : Model) (n : Nat)
    (hlen : w.vec.length = 2 * n) (l : Int) (hl : 1 ≤ |l| ∧ |l| ≤ (n : Int)) :
    (updateWeights w m).weightFor l = if m.falsifies l then 0 else w.weightFor l := by
  unfold updateWeights
  rw [w.nbVars_eq n hlen,
    (updateWeights_foldl m n (varsUpTo n) w hlen (fun v hv => (mem_varsUpTo n v).1 hv)).2 l]
  have hmem : |l| ∈ varsUpTo n := (mem_varsUpTo n _).2 hl
  by_cases hf : m.falsifies l
  · rw [if_pos ⟨hmem, hf⟩, if_pos hf]
  · rw [if_neg (fun h => hf h.2), if_neg hf]

/-! ## `Graph::modelCount` -/

theorem mem_litVars_range {n : Nat} {lits : List Int} (h : ∀ l ∈ lits, Node.litInRange n l) :
    litVars lits ⊆ Finset.Icc (1 : Int) n := by
  intro v hv
  rcases mem_litVars.1 hv with ⟨l, hl, e⟩
  have := h l hl
  unfold Node.litInRange at this
  rw [Finset.mem_Icc, ← e]
  exact this

mutual
theorem Node.vars_subset_range (n : Nat) :
    ∀ x : Node, x.LitsInRange n → x.vars ⊆ Finset.Icc (1 : Int) n
  | .falseNode _, _ => by simp [Node.vars]
  | .trueNode _, _ => by simp [Node.vars]
  | .litNode _ l, h => by
    simp only [Node.LitsInRange, Node.litInRange] at h
    simp only [Node.vars, Finset.singleton_subset_iff, Finset.mem_Icc]
    exact h
  | .orNode _ _ u0 c0 u1 c1 _, h => by
    simp only [Node.LitsInRange] at h
    simp only [Node.vars]
    exact Finset.union_subset
      (Finset.union_subset (mem_litVars_range h.1) (Node.vars_subset_range n c0 h.2.1))
      (Finset.union_subset (mem_litVars_range h.2.2.1) (Node.vars_subset_range n c1 h.2.2.2))
  | .andNode _ cs u _, h => by
    simp only [Node.LitsInRange] at h
    simp only [Node.vars]
    exact Finset.union_subset (mem_litVars_range h.1) (Node.varsAll_subset_range n cs h.2)
theorem Node.varsAll_subset_range (n : Nat) :
    ∀ cs : List Node, Node.LitsInRangeAll n cs → Node.varsAll cs ⊆ Finset.Icc (1 : Int) n
  | [], _ => by simp [Node.varsAll]
  | c :: cs, h => by
    simp only [Node.LitsInRangeAll] at h
    simp only [Node.varsAll]
    exact Finset.union_subset (Node.vars_subset_range n c h.1) (Node.varsAll_subset_range n cs h.2)
end

theorem card_Icc_one (n : Nat) : (Finset.Icc (1 : Int) n).card = n := by
  simp

/-- The method `Graph::modelCount` is the count of the root smoothed over the variables `1..nbVars`. -/
theorem Graph.modelCount_eq_count (g : Graph) (m : Model) (haddr : g.root.AddrOk)
    (hsub : g.root.seenVars ⊆ Finset.Icc (1 : Int) g.nbVars) :
    g.modelCount m = g.root.count (updateWeights g.weights m) *
      ∏ v ∈ Finset.Icc (1 : Int) g.nbVars \ g.root.seenVars,
        varWeight (updateWeights g.weights m) v := by
  unfold Graph.modelCount
  simp only [Node.modelCount_nil_eq_count _ _ haddr]
  by_cases hc : g.root.seenVars.card = g.nbVars
  · rw [if_pos hc]
    have heq : g.root.seenVars = Finset.Icc (1 : Int) g.nbVars :=
      Finset.eq_of_subset_of_card_le hsub (by rw [card_Icc_one, hc])
    rw [heq]
    simp
  · rw [if_neg hc, smoothLoop_varsUpTo, one_mul]

theorem Graph.modelCount_eq_wmc (g : Graph) (m : Model) (hv : g.Valid)
    (hn : g.root.NoOrUnits) :
    g.modelCount m = wmc (updateWeights g.weights m) (fun ρ => Node.eval ρ g.root)
      (Finset.Icc (1 : Int) g.nbVars) := by
  have e := Node.seenVars_eq_vars g.root hv.seenOk hn
  have hsub := Node.vars_subset_range g.nbVars g.root hv.litsInRange
  rw [Graph.modelCount_eq_count g m hv.addrOk (by rw [e]; exact hsub), e,
    Node.count_eq_wmc _ g.root hv.decomposable hv.deterministic hv.seenOk hn,
    ← wmc_smooth _ _ _ g.root.dependsOn_eval _ Finset.disjoint_sdiff,
    Finset.union_sdiff_of_subset hsub]

/-! ## Total models and sets of true variables -/

theorem CompactModel.length_of_mem_all :
    ∀ (n : Nat) (M : CompactModel), M ∈ CompactModel.all n → M.content.length = n
  | 0, M, h => by
    simp only [CompactModel.all, List.mem_singleton] at h
    rw [h]; rfl
  | n + 1, M, h => by
    simp only [CompactModel.all, List.mem_append, List.mem_map] at h
    rcases h with ⟨M', hM', rfl⟩ | ⟨M', hM', rfl⟩ <;>
      simp [CompactModel.length_of_mem_all n M' hM']

theorem CompactModel.value_snoc (M : CompactModel) (n : Nat) (hlen : M.content.length = n)
    (b : Bool) :
    CompactModel.value ⟨M.content ++ [b]⟩ =
      fun v => if v = (n : Int) + 1 then b else M.value v := by
  funext v
  unfold CompactModel.value vecGet
  by_cases h0 : 0 ≤ v - 1
  · obtain ⟨k, hk⟩ : ∃ k : Nat, v - 1 = (k : Int) := ⟨(v - 1).toNat, by omega⟩
    simp only [hk, Int.toNat_ofNat, Int.ofNat_nonneg, if_true, List.getD_eq_getElem?_getD]
    by_cases e : v = (n : Int) + 1
    · have hkn : k = M.content.length := by omega
      subst hkn
      simp [e]
    · simp only [e, if_false]
      by_cases hlt : k < M.content.length
      · rw [List.getElem?_append_left hlt]
      · have h1 : M.content.length ≤ k := by omega
        have h2 : (M.content ++ [b]).length ≤ k := by
          simp only [List.length_append, List.length_singleton]; omega
        rw [List.getElem?_eq_none h1, List.getElem?_eq_none h2]
  · have e : ¬ v = (n : Int) + 1 := by omega
    simp [h0, e]

theorem Icc_succ (n : Nat) :
    Finset.Icc (1 : Int) ((n + 1 : Nat) : Int) = insert ((n : Int) + 1) (Finset.Icc (1 : Int) n) := by
  ext v
  simp only [Finset.mem_Icc, Finset.mem_insert, Nat.cast_add, Nat.cast_one]
  omega

theorem sum_all_eq_sum_powerset :
    ∀ (n : Nat) (G : (Int → Bool) → ℚ),
      ((CompactModel.all n).map (fun M => G M.value)).sum =
        ∑ T ∈ (Finset.Icc (1 : Int) n).powerset, G (assignOf T)
  | 0, G => by
    have e1 : CompactModel.value ⟨[]⟩ = assignOf ∅ := by
      funext v; simp [CompactModel.value, vecGet, assignOf]
    simp [CompactModel.all, e1]
  | n + 1, G => by
    have hnot : ((n : Int) + 1) ∉ Finset.Icc (1 : Int) n := by
      simp only [Finset.mem_Icc]; omega
    rw [Icc_succ, Finset.sum_powerset_insert hnot]
    simp only [CompactModel.all, List.map_append, List.sum_append, List.map_map]
    have hT : ((CompactModel.all n).map
        ((fun M => G M.value) ∘ fun M => (⟨M.content ++ [true]⟩ : CompactModel))).sum =
        ∑ T ∈ (Finset.Icc (1 : Int) n).powerset,
          G (fun v => if v = (n : Int) + 1 then true else assignOf T v) := by
      rw [← sum_all_eq_sum_powerset n
        (fun ρ => G (fun v => if v = (n : Int) + 1 then true else ρ v))]
      congr 1
      refine List.map_congr_left fun M hM => ?_
      simp only [Function.comp]
      rw [CompactModel.value_snoc M n (CompactModel.length_of_mem_all n M hM)]
    have hF : ((CompactModel.all n).map
        ((fun M => G M.value) ∘ fun M => (⟨M.content ++ [false]⟩ : CompactModel))).sum =
        ∑ T ∈ (Finset.Icc (1 : Int) n).powerset,
          G (fun v => if v = (n : Int) + 1 then false else assignOf T v) := by
      rw [← sum_all_eq_sum_powerset n
        (fun ρ => G (fun v => if v = (n : Int) + 1 then false else ρ v))]
      congr 1
      refine List.map_congr_left fun M hM => ?_
      simp only [Function.comp]
      rw [CompactModel.value_snoc M n (CompactModel.length_of_mem_all n M hM)]
    rw [hT, hF, add_comm]
    congr 1
    · refine Finset.sum_congr rfl fun T hT' => ?_
      congr 1
      funext v
      have : ((n : Int) + 1) ∉ T := fun h => hnot (Finset.mem_powerset.1 hT' h)
      by_cases e : v = (n : Int) + 1
      · subst e; simp [assignOf, this]
      · simp [e]
    · refine Finset.sum_congr rfl fun T _ => ?_
      congr 1
      funext v
      by_cases e : v = (n : Int) + 1
      · subst e; simp [assignOf]
      · simp [assignOf, e]

theorem sum_filter_map {α : Type} (l : List α) (p : α → Bool) (f : α → ℚ) :
    ((l.filter p).map f).sum = (l.map (fun x => if p x = true then f x else 0)).sum := by
  induction l with
  | nil => rfl
  | cons a l ih =>
    by_cases h : p a = true
    · simp [List.filter_cons, h, ih]
    · simp [List.filter_cons, h, ih]

theorem prod_varsUpTo (n : Nat) (f : Int → ℚ) :
    ((varsUpTo n).map f).prod = ∏ v ∈ Finset.Icc (1 : Int) n, f v := by
  rw [← List.prod_toFinset f (varsUpTo_nodup n), varsUpTo_toFinset]

theorem agreesWith_iff (m : Model) (n : Nat) (ρ : Int → Bool) :
    agreesWith m n ρ = true ↔
      ∀ v ∈ Finset.Icc (1 : Int) n, ¬ m.falsifies (if ρ v = true then v else -v) := by
  unfold agreesWith
  rw [List.all_eq_true]
  constructor
  · intro h v hv
    have hv' : 1 ≤ v ∧ v ≤ (n : Int) := Finset.mem_Icc.1 hv
    have := h v ((mem_varsUpTo n v).2 hv')
    unfold Model.falsifies
    by_cases hρ : ρ v = true
    · rw [if_pos hρ, abs_of_pos (by omega)]
      revert this
      cases m.bindingFor v <;> simp [hρ] <;> omega
    · rw [if_neg hρ, abs_neg, abs_of_pos (by omega)]
      revert this
      cases m.bindingFor v <;> simp [hρ] <;> omega
  · intro h v hv
    have hv' := (mem_varsUpTo n v).1 hv
    have := h v (Finset.mem_Icc.2 hv')
    unfold Model.falsifies at this
    by_cases hρ : ρ v = true
    · rw [if_pos hρ, abs_of_pos (by omega)] at this
      revert this
      cases m.bindingFor v <;> simp [hρ] <;> omega
    · rw [if_neg hρ, abs_neg, abs_of_pos (by omega)] at this
      revert this
      cases m.bindingFor v <;> simp [hρ] <;> omega

/-- The weighted count under the updated weights only keeps the assignments that agree
with the partial model. -/
theorem wmc_updateWeights (w : WeightVector) (m : Model) (n : Nat)
    (hlen : w.vec.length = 2 * n) (φ : (Int → Bool) → Bool) :
    wmc (updateWeights w m) φ (Finset.Icc (1 : Int) n) =
      ∑ T ∈ (Finset.Icc (1 : Int) n).powerset,
        if (agreesWith m n (assignOf T) && φ (assignOf T)) = true then
          ∏ v ∈ Finset.Icc (1 : Int) n, w.weightFor (if assignOf T v = true then v else -v)
        else 0 := by
  unfold wmc
  refine Finset.sum_congr rfl fun T _ => ?_
  have hprod : ∏ v ∈ Finset.Icc (1 : Int) n, litWeight (updateWeights w m) T v =
      if agreesWith m n (assignOf T) = true then
        ∏ v ∈ Finset.Icc (1 : Int) n, w.weightFor (if assignOf T v = true then v else -v)
      else 0 := by
    have hterm : ∀ v ∈ Finset.Icc (1 : Int) n, litWeight (updateWeights w m) T v =
        if ¬ m.falsifies (if assignOf T v = true then v else -v) then
          w.weightFor (if assignOf T v = true then v else -v) else 0 := by
      intro v hv
      have hv' : 1 ≤ v ∧ v ≤ (n : Int) := Finset.mem_Icc.1 hv
      unfold litWeight
      by_cases hT : v ∈ T
      · have ha : assignOf T v = true := by simp [assignOf, hT]
        rw [if_pos hT, if_pos ha,
          updateWeights_weightFor w m n hlen v (by rw [abs_of_pos (by omega)]; exact hv')]
        by_cases hf : m.falsifies v <;> simp [hf]
      · have ha : ¬ assignOf T v = true := by simp [assignOf, hT]
        rw [if_neg hT, if_neg ha,
          updateWeights_weightFor w m n hlen (-v)
            (by rw [abs_neg, abs_of_pos (by omega)]; exact hv')]
        by_cases hf : m.falsifies (-v) <;> simp [hf]
    rw [Finset.prod_congr rfl hterm, Finset.prod_ite_zero]
    by_cases hag : agreesWith m n (assignOf T) = true
    · rw [if_pos hag, if_pos ((agreesWith_iff m n _).1 hag)]
    · rw [if_neg hag, if_neg (fun h => hag ((agreesWith_iff m n _).2 h))]
  rw [hprod]
  by_cases h1 : φ (assignOf T) = true <;> by_cases h2 : agreesWith m n (assignOf T) = true <;>
    simp [h1, h2]

/-! ## C1: the model count is the weighted sum over the models -/

theorem CompactModel.weight_eq (w : WeightVector) (n : Nat) (M : CompactModel) :
    CompactModel.weight w n M =
      ∏ v ∈ Finset.Icc (1 : Int) n, w.weightFor (if M.value v = true then v else -v) := by
  unfold CompactModel.weight
  exact prod_varsUpTo n _

theorem Graph.weightedModelSum_eq_sum_powerset (g : Graph) (m : Model) :
    g.weightedModelSum m =
      ∑ T ∈ (Finset.Icc (1 : Int) g.nbVars).powerset,
        if (agreesWith m g.nbVars (assignOf T) && Node.eval (assignOf T) g.root) = true then
          ∏ v ∈ Finset.Icc (1 : Int) g.nbVars,
            g.weights.weightFor (if assignOf T v = true then v else -v)
        else 0 := by
  unfold Graph.weightedModelSum
  rw [sum_filter_map, ← sum_all_eq_sum_powerset g.nbVars
    (fun ρ => if (agreesWith m g.nbVars ρ && Node.eval ρ g.root) = true then
      ∏ v ∈ Finset.Icc (1 : Int) g.nbVars, g.weights.weightFor (if ρ v = true then v else -v)
      else 0)]
  congr 1
  refine List.map_congr_left fun M _ => ?_
  simp only [CompactModel.agrees, Node.sat, CompactModel.weight_eq]

/-- Where no Or branch carries unit literals the count is the weighted sum of the models:
for every graph that is decomposable and deterministic, whose And and Or
nodes carry the `seenVars` the parser computes, whose literals lie in `1..nbVars` and whose
Or branches carry no unit literals, for every weight vector and every partial model `m`,
`Graph::modelCount(m)` is the sum, over the total assignments of `1..nbVars` that agree
with `m` on every non-`Free` binding and satisfy the circuit, of the product over the
variables of the weight of the literal the assignment chooses. -/
theorem Graph.modelCount_eq_weightedModelSum (g : Graph) (m : Model) (hv : g.Valid)
    (hn : g.root.NoOrUnits) : g.modelCount m = g.weightedModelSum m := by
  rw [Graph.modelCount_eq_wmc g m hv hn, Graph.weightedModelSum_eq_sum_powerset,
    wmc_updateWeights g.weights m g.nbVars hv.weightsSize]

theorem orAndGraph_valid : orAndGraph.Valid where
  decomposable := by
    simp [orAndGraph, Graph.make, Node.Decomposable, Node.DecomposableAll, Node.conjunctVars,
      Node.vars, Node.varsAll, litVars]
  deterministic := by
    simp [orAndGraph, Graph.make, Node.Deterministic, Node.DeterministicAll, Node.eval,
      Node.evalAll, litVal]
  seenOk := by
    simp [orAndGraph, Graph.make, Node.SeenOk, Node.SeenOkAll, Node.seenVars, Node.seenVarsAll,
      litVars]
  litsInRange := by
    simp [orAndGraph, Graph.make, Node.LitsInRange, Node.LitsInRangeAll, Node.litInRange]
  weightsSize := by
    simp [orAndGraph, Graph.make, WeightVector.uniform]
  addrOk := by
    intro a ha b hb
    simp only [orAndGraph, Graph.make, Node.subnodes, Node.subnodesAll, List.mem_cons,
      List.mem_append, List.mem_singleton, List.not_mem_nil, or_false] at ha hb
    rcases ha with rfl | rfl | rfl <;> rcases hb with rfl | rfl | rfl <;> simp [Node.addr]

theorem orAndGraph_noOrUnits : orAndGraph.root.NoOrUnits := by
  simp [orAndGraph, Graph.make, Node.NoOrUnits, Node.NoOrUnitsAll]

theorem Graph.modelCount_eq_weightedModelSum_witness :
    orAndGraph.modelCount ⟨[Binding.Free, Binding.True]⟩ =
      orAndGraph.weightedModelSum ⟨[Binding.Free, Binding.True]⟩ :=
  Graph.modelCount_eq_weightedModelSum orAndGraph ⟨[Binding.Free, Binding.True]⟩
    orAndGraph_valid orAndGraph_noOrUnits

theorem orUnitsGraph_valid : orUnitsGraph.Valid where
  decomposable := by
    simp [orUnitsGraph, Graph.make, Node.Decomposable, Node.conjunctVars, trueNode,
      Node.vars]
  deterministic := by
    simp [orUnitsGraph, Graph.make, Node.Deterministic, trueNode, Node.eval, litVal]
  seenOk := by
    simp [orUnitsGraph, Graph.make, Node.SeenOk, trueNode, Node.seenVars]
  litsInRange := by
    simp [orUnitsGraph, Graph.make, Node.LitsInRange, trueNode, Node.litInRange]
  weightsSize := by
    simp [orUnitsGraph, Graph.make, WeightVector.uniform]
  addrOk := by
    intro a ha b hb
    simp only [orUnitsGraph, Graph.make, trueNode, Node.subnodes, List.mem_cons,
      List.mem_append, List.mem_singleton, List.not_mem_nil, or_false] at ha hb
    rcases ha with rfl | rfl | rfl <;> rcases hb with rfl | rfl | rfl <;> simp [Node.addr]

/-- C1 at the failing input: the graph
`Or(1, [branch{units=[1], True}, branch{units=[-1], True}])` of scenario 2 is decomposable
and deterministic, carries the `seenVars` the parser computes and has its literals in range;
it has the two models `{1}` and `{-1}` of weight `1` each, so the weighted sum is `2`, and
`Graph::modelCount` of the all-`Free` model is `4`: `OrNode::modelCount` does not read the
unit literals of the branches. -/
theorem Graph.modelCount_ne_weightedModelSum_orUnits :
    orUnitsGraph.Valid ∧ orUnitsGraph.weightedModelSum (Model.free 1) = 2 ∧
      orUnitsGraph.modelCount (Model.free 1) = 4 := by
  refine ⟨orUnitsGraph_valid, ?_, ?_⟩
  · simp [Graph.weightedModelSum, orUnitsGraph, Graph.make, CompactModel.all,
      CompactModel.agrees, agreesWith, varsUpTo, Model.free, Model.bindingFor, vecGet,
      Node.sat, Node.eval, trueNode, litVal, CompactModel.value, CompactModel.weight,
      WeightVector.uniform, WeightVector.weightFor, WeightVector.idx, List.range_succ]
    norm_num
  · simp [Graph.modelCount, orUnitsGraph, Graph.make, Node.modelCount, updateWeights, varsUpTo,
      Model.free, Model.bindingFor, vecGet, WeightVector.uniform, WeightVector.nbVars,
      WeightVector.weightFor, WeightVector.idx, Node.seenVars, trueNode, Node.orBranchCount,
      smoothLoop]
    norm_num

/-! ## `validModel`: the result extends the partial model -/

theorem Model.bindingFor_setBindingFor (m : Model) (var v : Int) (b : Binding) :
    (m.setBindingFor var b).bindingFor v =
      if var = v ∧ 1 ≤ var ∧ var ≤ (m.content.length : Int) then
        (if (m.bindingFor var = Binding.True ∧ b = Binding.False) ∨
            (m.bindingFor var = Binding.False ∧ b = Binding.True) then Binding.Unsat else b)
      else m.bindingFor v := by
  unfold Model.setBindingFor Model.bindingFor
  have hc : (var - 1 = v - 1 ∧ 0 ≤ var - 1 ∧ (var - 1).toNat < m.content.length) ↔
      (var = v ∧ 1 ≤ var ∧ var ≤ (m.content.length : Int)) := by
    constructor <;> rintro ⟨h1, h2, h3⟩ <;> refine ⟨?_, ?_, ?_⟩ <;> omega
  simp only
  split_ifs with h1 h2 h2 <;> simp only [vecGet_vecSet] <;> first
    | rw [if_pos (hc.2 h2)]
    | rw [if_neg (fun h => h2 (hc.1 h))]

theorem Model.setBindingFor_length (m : Model) (var : Int) (b : Binding) :
    (m.setBindingFor var b).content.length = m.content.length := by
  unfold Model.setBindingFor
  simp only
  split_ifs <;> exact vecSet_length _ _ _

theorem Model.Extends.refl (m : Model) : m.Extends m :=
  ⟨rfl, fun _ _ => rfl⟩

theorem Model.Extends.trans {m1 m2 m3 : Model} (h23 : m3.Extends m2) (h12 : m2.Extends m1) :
    m3.Extends m1 := by
  refine ⟨h23.1.trans h12.1, fun v hv => ?_⟩
  have e := h12.2 v hv
  rw [← e]
  exact h23.2 v (by rw [e]; exact hv)

theorem varOf_eq_abs (lit : Int) : varOf lit = |lit| := by
  unfold varOf
  rcases abs_cases lit with ⟨e, _⟩ | ⟨e, _⟩ <;> rw [e] <;> split_ifs <;> omega

/-- Setting a variable to the polarity of a literal the model does not oppose extends the
model. -/
theorem Model.extends_setBindingFor (m : Model) (lit : Int)
    (hb : ¬ (m.bindingFor (varOf lit) = Binding.Unsat ∨
      m.bindingFor (varOf lit) = Binding.ofBool (decide (lit < 0)))) :
    (m.setBindingFor (varOf lit) (Binding.ofBool (decide (lit > 0)))).Extends m := by
  refine ⟨m.setBindingFor_length _ _, fun v hv => ?_⟩
  rw [Model.bindingFor_setBindingFor]
  by_cases hc : varOf lit = v ∧ 1 ≤ varOf lit ∧ varOf lit ≤ (m.content.length : Int)
  · rw [if_pos hc]
    obtain ⟨e, h1, -⟩ := hc
    have hne : lit ≠ 0 := by
      intro h0; rw [h0] at h1; simp [varOf] at h1
    rw [e] at hb ⊢
    rcases lt_or_gt_of_ne hne with hl | hl
    · have hl' : ¬ lit > 0 := by omega
      revert hb hv
      cases m.bindingFor v <;> simp [Binding.ofBool, hl, hl']
    · have hl' : ¬ lit < 0 := by omega
      revert hb hv
      cases m.bindingFor v <;> simp [Binding.ofBool, hl, hl']
  · rw [if_neg hc]

theorem applyUnitLits_extends :
    ∀ (lits : List Int) (m mOut : Model), applyUnitLits lits m = some mOut → mOut.Extends m
  | [], m, mOut, h => by
    simp only [applyUnitLits, Option.some.injEq] at h
    rw [← h]; exact Model.Extends.refl m
  | lit :: lits, m, mOut, h => by
    rw [applyUnitLits] at h
    split_ifs at h with hb
    exact (applyUnitLits_extends lits _ mOut h).trans (m.extends_setBindingFor lit hb)

theorem Model.mixLoop_of_extends :
    ∀ (b1s b2s pre : List Binding), List.Forall₂ (fun b1 b2 => b1 ≠ Binding.Free → b2 = b1) b1s b2s →
      Model.mixLoop b1s b2s (pre ++ b1s) pre.length = (true, pre ++ b2s)
  | [], b2s, pre, h => by
    cases h
    simp [Model.mixLoop]
  | b1 :: b1s, b2s, pre, h => by
    cases h with
    | cons hb hrest =>
      rename_i b2 b2s'
      have hset : ∀ x : Binding, (pre ++ b1 :: b1s).set pre.length x = (pre ++ [x]) ++ b1s := by
        intro x
        simp [List.set_append_right]
      rw [Model.mixLoop]
      simp only [List.headD_cons, List.tail_cons]
      have ih := Model.mixLoop_of_extends b1s b2s' (pre ++ [b2]) hrest
      simp only [List.length_append, List.length_singleton] at ih
      by_cases hf : b1 = Binding.Free
      · rw [if_pos hf, hset, ih]
        simp
      · have e : b2 = b1 := hb hf
        subst e
        rw [if_neg hf, if_pos (Or.inr rfl), hset, ih]
        simp

theorem forall₂_of_vecGet {α : Type} (R : α → α → Prop) (d : α) :
    ∀ (l1 l2 : List α), l1.length = l2.length →
      (∀ k : Nat, k < l1.length → R (vecGet l1 ((k : Int) + 1 - 1) d) (vecGet l2 ((k : Int) + 1 - 1) d)) →
      List.Forall₂ R l1 l2
  | [], [], _, _ => List.Forall₂.nil
  | [], _ :: _, h, _ => by simp at h
  | _ :: _, [], h, _ => by simp at h
  | a :: l1, b :: l2, hlen, h => by
    refine List.Forall₂.cons ?_ (forall₂_of_vecGet R d l1 l2 (by simpa using hlen) ?_)
    · have := h 0 (by simp)
      simpa [vecGet] using this
    · intro k hk
      have := h (k + 1) (by simpa using hk)
      have e1 : ((k + 1 : Nat) : Int) + 1 - 1 = (k : Int) + 1 := by omega
      have e2 : ((k : Int) + 1).toNat = k + 1 := by omega
      have e3 : ((k : Int) + 1 - 1).toNat = k := by omega
      have p1 : (0 : Int) ≤ (k : Int) + 1 := by omega
      have p2 : (0 : Int) ≤ (k : Int) + 1 - 1 := by omega
      simp only [vecGet, e1, p1, p2, if_true, e2, e3, List.getD_cons_succ] at this ⊢
      exact this

theorem Model.mix_of_extends (res m : Model) (h : m.Extends res) :
    Model.mix res m res = (true, m) := by
  unfold Model.mix
  have hF : List.Forall₂ (fun b1 b2 => b1 ≠ Binding.Free → b2 = b1) res.content m.content := by
    refine forall₂_of_vecGet _ Binding.Free _ _ h.1.symm (fun k _ => ?_)
    exact h.2 ((k : Int) + 1)
  have := Model.mixLoop_of_extends res.content m.content [] hF
  simp only [List.nil_append, List.length_nil] at this
  rw [this]

mutual
theorem Node.validModel_isExtension :
    ∀ (n : Node) (m mOut : Model), n.validModel m = some mOut → mOut.Extends m
  | .falseNode _, m, mOut, h => by simp [Node.validModel] at h
  | .trueNode _, m, mOut, h => by
    simp only [Node.validModel, Option.some.injEq] at h
    rw [← h]; exact Model.Extends.refl m
  | .litNode _ lit, m, mOut, h => by
    simp only [Node.validModel] at h
    split_ifs at h with h1 h2
    · simp only [Option.some.injEq] at h
      rw [← h]
      exact m.extends_setBindingFor lit (by
        rw [h1]; by_cases hl : lit < 0 <;> simp [Binding.ofBool, hl])
    · simp only [Option.some.injEq] at h
      rw [← h]; exact Model.Extends.refl m
  | .orNode _ _ u0 c0 u1 c1 _, m, mOut, h => by
    simp only [Node.validModel] at h
    cases h0 : applyUnitLits u0 m with
    | none =>
      simp only [h0] at h
      cases h1 : applyUnitLits u1 m with
      | none => simp [h1] at h
      | some m1 =>
        simp only [h1] at h
        exact (Node.validModel_isExtension c1 m1 mOut h).trans (applyUnitLits_extends u1 m m1 h1)
    | some m0 =>
      simp only [h0] at h
      cases hv : Node.validModel c0 m0 with
      | some r =>
        simp only [hv, Option.some.injEq] at h
        rw [← h]
        exact (Node.validModel_isExtension c0 m0 r hv).trans (applyUnitLits_extends u0 m m0 h0)
      | none =>
        simp only [hv] at h
        cases h1 : applyUnitLits u1 m with
        | none => simp [h1] at h
        | some m1 =>
          simp only [h1] at h
          exact (Node.validModel_isExtension c1 m1 mOut h).trans (applyUnitLits_extends u1 m m1 h1)
  | .andNode _ cs u _, m, mOut, h => by
    simp only [Node.validModel] at h
    cases h0 : applyUnitLits u m with
    | none => simp [h0] at h
    | some res =>
      simp only [h0] at h
      exact (Node.validModelChildren_isExtension cs res mOut h).trans (applyUnitLits_extends u m res h0)
theorem Node.validModelChildren_isExtension :
    ∀ (cs : List Node) (m mOut : Model), Node.validModelChildren cs m = some mOut →
      mOut.Extends m
  | [], m, mOut, h => by
    simp only [Node.validModelChildren, Option.some.injEq] at h
    rw [← h]; exact Model.Extends.refl m
  | c :: cs, m, mOut, h => by
    rw [Node.validModelChildren] at h
    cases hv : Node.validModel c m with
    | none => simp [hv] at h
    | some m1 =>
      have e := Node.validModel_isExtension c m m1 hv
      simp only [hv, Model.mix_of_extends m m1 e, if_true] at h
      exact (Node.validModelChildren_isExtension cs m1 mOut h).trans e
end

/-- The loop over the children of an And node: each child is run on the result of the
previous one (`mix` of a model with an extension of it is that extension). -/
theorem Node.validModelChildren_cons (c : Node) (cs : List Node) (m : Model) :
    Node.validModelChildren (c :: cs) m =
      (Node.validModel c m).bind (Node.validModelChildren cs) := by
  rw [Node.validModelChildren]
  cases hv : Node.validModel c m with
  | none => rfl
  | some m1 =>
    simp only [Model.mix_of_extends m m1 (Node.validModel_isExtension c m m1 hv), if_true,
      Option.some_bind]

/-- C3: if `validModel(m)` returns a model `mOut` then `mOut` extends `m`: every variable
that `m` binds to something else than `Free` has the same binding in `mOut`. -/
theorem Graph.validModel_extends (g : Graph) (m mOut : Model)
    (h : g.validModel m = some mOut) (v : Int) (hv : m.bindingFor v ≠ Binding.Free) :
    mOut.bindingFor v = m.bindingFor v :=
  (Node.validModel_isExtension g.root m mOut h).2 v hv

/-! ## `validModel`: what the result binds -/

theorem Node.validModel_or (a : Nat) (x : Int) (u0 : List Int) (c0 : Node) (u1 : List Int)
    (c1 : Node) (s : Finset Int) (m : Model) :
    (Node.orNode a x u0 c0 u1 c1 s).validModel m =
      (((applyUnitLits u0 m).bind c0.validModel).orElse
        (fun _ => (applyUnitLits u1 m).bind c1.validModel)) := by
  simp only [Node.validModel]
  cases h0 : applyUnitLits u0 m with
  | none =>
    cases h1 : applyUnitLits u1 m <;> rfl
  | some m0 =>
    cases hv : Node.validModel c0 m0 with
    | some r => simp [Option.bind, hv]
    | none =>
      cases h1 : applyUnitLits u1 m <;> simp [Option.bind, hv]

theorem Node.validModel_and (a : Nat) (cs : List Node) (u : List Int) (s : Finset Int)
    (m : Model) :
    (Node.andNode a cs u s).validModel m =
      (applyUnitLits u m).bind (Node.validModelChildren cs) := by
  simp only [Node.validModel]
  cases h0 : applyUnitLits u m <;> rfl

theorem Node.validModel_or_some {a : Nat} {x : Int} {u0 : List Int} {c0 : Node}
    {u1 : List Int} {c1 : Node} {s : Finset Int} {m mOut : Model}
    (h : (Node.orNode a x u0 c0 u1 c1 s).validModel m = some mOut) :
    (∃ m0, applyUnitLits u0 m = some m0 ∧ c0.validModel m0 = some mOut) ∨
      (∃ m1, applyUnitLits u1 m = some m1 ∧ c1.validModel m1 = some mOut) := by
  rw [Node.validModel_or] at h
  cases h0 : (applyUnitLits u0 m).bind c0.validModel with
  | some r =>
    rw [h0] at h
    simp only [Option.orElse, Option.some.injEq] at h
    subst h
    exact Or.inl (Option.bind_eq_some.1 h0)
  | none =>
    rw [h0] at h
    simp only [Option.orElse] at h
    exact Or.inr (Option.bind_eq_some.1 h)

theorem Node.validModel_and_some {a : Nat} {cs : List Node} {u : List Int} {s : Finset Int}
    {m mOut : Model} (h : (Node.andNode a cs u s).validModel m = some mOut) :
    ∃ res, applyUnitLits u m = some res ∧ Node.validModelChildren cs res = some mOut := by
  rw [Node.validModel_and] at h
  exact Option.bind_eq_some.1 h

theorem Node.validModelChildren_cons_some {c : Node} {cs : List Node} {m mOut : Model}
    (h : Node.validModelChildren (c :: cs) m = some mOut) :
    ∃ m1, c.validModel m = some m1 ∧ Node.validModelChildren cs m1 = some mOut := by
  rw [Node.validModelChildren_cons] at h
  exact Option.bind_eq_some.1 h

/-- What `applyUnitLits` leaves behind: variables outside the literals are untouched, no
`Unsat` is created, and every literal in range is bound to its polarity. -/
theorem applyUnitLits_spec :
    ∀ (lits : List Int) (m mOut : Model), applyUnitLits lits m = some mOut →
      (∀ v, v ∉ litVars lits → mOut.bindingFor v = m.bindingFor v) ∧
      (∀ v, mOut.bindingFor v = Binding.Unsat → m.bindingFor v = Binding.Unsat) ∧
      (∀ l ∈ lits, 1 ≤ |l| → |l| ≤ (m.content.length : Int) →
        mOut.bindingFor |l| = Binding.ofBool (decide (l > 0)))
  | [], m, mOut, h => by
    simp only [applyUnitLits, Option.some.injEq] at h
    subst h
    exact ⟨fun _ _ => rfl, fun _ hv => hv, fun l hl => absurd hl (List.not_mem_nil l)⟩
  | lit :: lits, m, mOut, h => by
    rw [applyUnitLits] at h
    split_ifs at h with hb
    have ih := applyUnitLits_spec lits _ mOut h
    have hext := applyUnitLits_extends lits _ mOut h
    have hlen := m.setBindingFor_length (varOf lit) (Binding.ofBool (decide (lit > 0)))
    refine ⟨fun v hv => ?_, fun v hv => ?_, fun l hl h1 h2 => ?_⟩
    · rw [litVars_cons, Finset.mem_union, Finset.mem_singleton, not_or] at hv
      rw [ih.1 v hv.2, Model.bindingFor_setBindingFor, if_neg]
      rintro ⟨e, -, -⟩
      exact hv.1 (by rw [← e, varOf_eq_abs])
    · have := ih.2.1 v hv
      rw [Model.bindingFor_setBindingFor] at this
      by_cases hc : varOf lit = v ∧ 1 ≤ varOf lit ∧ varOf lit ≤ (m.content.length : Int)
      · exfalso
        rw [if_pos hc] at this
        obtain ⟨e, h1, -⟩ := hc
        have hne : lit ≠ 0 := by
          intro h0; rw [h0] at h1; simp [varOf] at h1
        revert hb this
        rcases lt_or_gt_of_ne hne with hl | hl
        · have hl' : ¬ lit > 0 := by omega
          cases m.bindingFor (varOf lit) <;> simp [Binding.ofBool, hl, hl']
        · have hl' : ¬ lit < 0 := by omega
          cases m.bindingFor (varOf lit) <;> simp [Binding.ofBool, hl, hl']
      · rw [if_neg hc] at this
        exact this
    · rcases List.mem_cons.1 hl with e | hmem
      · subst e
        have hset : (m.setBindingFor (varOf l) (Binding.ofBool (decide (l > 0)))).bindingFor |l| =
            Binding.ofBool (decide (l > 0)) := by
          rw [Model.bindingFor_setBindingFor, if_pos ⟨varOf_eq_abs l, by
            rw [varOf_eq_abs]; exact ⟨h1, h2⟩⟩, if_neg]
          have hne : l ≠ 0 := by
            intro h0; rw [h0] at h1; simp at h1
          revert hb
          rcases lt_or_gt_of_ne hne with hl | hl
          · have hl' : ¬ l > 0 := by omega
            cases m.bindingFor (varOf l) <;> simp [Binding.ofBool, hl, hl']
          · have hl' : ¬ l < 0 := by omega
            cases m.bindingFor (varOf l) <;> simp [Binding.ofBool, hl, hl']
        rw [← hset]
        apply hext.2
        rw [hset]
        by_cases hp : l > 0 <;> simp [Binding.ofBool, hp]
      · exact ih.2.2 l hmem h1 (by rw [hlen]; exact h2)

theorem Model.CompletedBy.of_extends {m1 m2 : Model} {ρ : Int → Bool} (h : m2.CompletedBy ρ)
    (hext : m2.Extends m1) : m1.CompletedBy ρ := by
  intro v
  constructor
  · intro hv
    exact (h v).1 (by rw [hext.2 v (by rw [hv]; simp), hv])
  · intro hv
    exact (h v).2 (by rw [hext.2 v (by rw [hv]; simp), hv])

theorem litVal_of_bound {m : Model} {ρ : Int → Bool} (h : m.CompletedBy ρ) (l : Int)
    (h1 : 1 ≤ |l|) (hb : m.bindingFor |l| = Binding.ofBool (decide (l > 0))) :
    litVal ρ l = true := by
  unfold litVal
  by_cases hp : l > 0
  · rw [if_pos hp]
    rw [abs_of_pos hp] at hb
    exact (h l).1 (by rw [hb]; simp [Binding.ofBool, hp])
  · rw [if_neg hp]
    have hn : l < 0 := by
      rcases abs_cases l with ⟨e, _⟩ | ⟨e, _⟩ <;> omega
    rw [abs_of_neg hn] at hb
    have := (h (-l)).2 (by rw [hb]; simp [Binding.ofBool, hp])
    simp [this]

theorem all_litVal_of_bound {m : Model} {ρ : Int → Bool} (h : m.CompletedBy ρ) (n : Nat)
    (lits : List Int) (hr : ∀ l ∈ lits, Node.litInRange n l)
    (hb : ∀ l ∈ lits, 1 ≤ |l| → |l| ≤ (n : Int) →
      m.bindingFor |l| = Binding.ofBool (decide (l > 0))) :
    lits.all (litVal ρ) = true := by
  rw [List.all_eq_true]
  intro l hl
  exact litVal_of_bound h l (hr l hl).1 (hb l hl (hr l hl).1 (hr l hl).2)

theorem ofBool_ne_free (b : Bool) : Binding.ofBool b ≠ Binding.Free := by
  cases b <;> simp [Binding.ofBool]

theorem Model.Extends.ne_free {m1 m2 : Model} (h : m2.Extends m1) {v : Int}
    (hv : m1.bindingFor v ≠ Binding.Free) : m2.bindingFor v ≠ Binding.Free := by
  rw [h.2 v hv]; exact hv

mutual
theorem Node.validModel_spec :
    ∀ (n : Node) (m mOut : Model), n.validModel m = some mOut →
      (∀ v, v ∉ n.vars → mOut.bindingFor v = m.bindingFor v) ∧
      (∀ v, mOut.bindingFor v = Binding.Unsat → m.bindingFor v = Binding.Unsat) ∧
      (n.LitsInRange m.content.length →
        (∀ ρ, mOut.CompletedBy ρ → Node.eval ρ n = true) ∧
        (n.Smooth → ∀ v ∈ n.vars, mOut.bindingFor v ≠ Binding.Free))
  | .falseNode _, m, mOut, h => by simp [Node.validModel] at h
  | .trueNode _, m, mOut, h => by
    simp only [Node.validModel, Option.some.injEq] at h
    subst h
    exact ⟨fun _ _ => rfl, fun _ hv => hv, fun _ => ⟨fun _ _ => rfl, fun _ v hv => by
      simp [Node.vars] at hv⟩⟩
  | .litNode _ lit, m, mOut, h => by
    simp only [Node.validModel] at h
    have hva := varOf_eq_abs lit
    by_cases hfree : m.bindingFor (varOf lit) = Binding.Free
    · rw [if_pos hfree, Option.some.injEq] at h
      subst h
      refine ⟨fun v hv => ?_, fun v hv => ?_, fun hr => ?_⟩
      · rw [Model.bindingFor_setBindingFor, if_neg]
        rintro ⟨e, -, -⟩
        exact hv (by simp [Node.vars, ← e, hva])
      · rw [Model.bindingFor_setBindingFor] at hv
        split_ifs at hv with hc hopp
        · rw [hfree] at hopp; simp at hopp
        · exact absurd hv (by by_cases hp : lit > 0 <;> simp [Binding.ofBool, hp])
        · exact hv
      · simp only [Node.LitsInRange, Node.litInRange] at hr
        have hset : (m.setBindingFor (varOf lit) (Binding.ofBool (decide (lit > 0)))).bindingFor
            |lit| = Binding.ofBool (decide (lit > 0)) := by
          rw [Model.bindingFor_setBindingFor, if_pos ⟨hva, by rw [hva]; exact hr⟩, if_neg]
          rw [hfree]; simp
        refine ⟨fun ρ hρ => ?_, fun _ v hv => ?_⟩
        · simp only [Node.eval]
          exact litVal_of_bound hρ lit hr.1 hset
        · simp only [Node.vars, Finset.mem_singleton] at hv
          rw [hv, hset]
          exact ofBool_ne_free _
    · rw [if_neg hfree] at h
      split_ifs at h with hb
      rw [Option.some.injEq] at h
      subst h
      refine ⟨fun _ _ => rfl, fun _ hv => hv, fun hr => ?_⟩
      simp only [Node.LitsInRange, Node.litInRange] at hr
      have hne : lit ≠ 0 := by
        intro h0; rw [h0] at hr; simp at hr
      have hbd : m.bindingFor |lit| = Binding.ofBool (decide (lit > 0)) := by
        rw [← hva]
        revert hb hfree
        rcases lt_or_gt_of_ne hne with hl | hl
        · have hl' : ¬ lit > 0 := by omega
          cases m.bindingFor (varOf lit) <;> simp [Binding.ofBool, hl, hl']
        · have hl' : ¬ lit < 0 := by omega
          cases m.bindingFor (varOf lit) <;> simp [Binding.ofBool, hl, hl']
      refine ⟨fun ρ hρ => ?_, fun _ v hv => ?_⟩
      · simp only [Node.eval]
        exact litVal_of_bound hρ lit hr.1 hbd
      · simp only [Node.vars, Finset.mem_singleton] at hv
        rw [hv, hbd]
        exact ofBool_ne_free _
  | .orNode a x u0 c0 u1 c1 s, m, mOut, h => by
    have ih0 := fun mu hc => Node.validModel_spec c0 mu mOut hc
    have ih1 := fun mu hc => Node.validModel_spec c1 mu mOut hc
    have key : ∀ (u : List Int) (c : Node) (mu : Model), applyUnitLits u m = some mu →
        c.validModel mu = some mOut →
        ((∀ v, v ∉ c.vars → mOut.bindingFor v = mu.bindingFor v) ∧
          (∀ v, mOut.bindingFor v = Binding.Unsat → mu.bindingFor v = Binding.Unsat) ∧
          (c.LitsInRange mu.content.length →
            (∀ ρ, mOut.CompletedBy ρ → Node.eval ρ c = true) ∧
            (c.Smooth → ∀ v ∈ c.vars, mOut.bindingFor v ≠ Binding.Free))) →
        (∀ v, v ∉ litVars u ∪ c.vars → mOut.bindingFor v = m.bindingFor v) ∧
        (∀ v, mOut.bindingFor v = Binding.Unsat → m.bindingFor v = Binding.Unsat) ∧
        ((∀ l ∈ u, Node.litInRange m.content.length l) → c.LitsInRange m.content.length →
          (∀ ρ, mOut.CompletedBy ρ → (u.all (litVal ρ) && Node.eval ρ c) = true) ∧
          (c.Smooth → ∀ v ∈ litVars u ∪ c.vars, mOut.bindingFor v ≠ Binding.Free)) := by
      intro u c mu hu hc sc
      have su := applyUnitLits_spec u m mu hu
      have eu := applyUnitLits_extends u m mu hu
      have ec := Node.validModel_isExtension c mu mOut hc
      refine ⟨fun v hv => ?_, fun v hv => su.2.1 v (sc.2.1 v hv), fun hru hrc => ?_⟩
      · rw [Finset.mem_union, not_or] at hv
        rw [sc.1 v hv.2, su.1 v hv.1]
      · have hrc' : c.LitsInRange mu.content.length := by rw [eu.1]; exact hrc
        have fc := sc.2.2 hrc'
        refine ⟨fun ρ hρ => ?_, fun hs v hv => ?_⟩
        · rw [Bool.and_eq_true]
          exact ⟨all_litVal_of_bound (hρ.of_extends ec) m.content.length u hru su.2.2,
            fc.1 ρ hρ⟩
        · rcases Finset.mem_union.1 hv with hv | hv
          · rcases mem_litVars.1 hv with ⟨l, hl, e⟩
            have := su.2.2 l hl (hru l hl).1 (hru l hl).2
            rw [← e]
            exact ec.ne_free (by rw [this]; exact ofBool_ne_free _)
          · exact fc.2 hs v hv
    rcases Node.validModel_or_some h with ⟨m0, h0, hc0⟩ | ⟨m1, h1, hc1⟩
    · have k := key u0 c0 m0 h0 hc0 (ih0 m0 hc0)
      refine ⟨fun v hv => k.1 v (fun hv' => hv (by
          simp only [Node.vars, Finset.mem_union] at hv' ⊢; exact Or.inl hv')), k.2.1,
        fun hr => ?_⟩
      simp only [Node.LitsInRange] at hr
      have k2 := k.2.2 hr.1 hr.2.1
      refine ⟨fun ρ hρ => ?_, fun hs v hv => ?_⟩
      · simp only [Node.eval, k2.1 ρ hρ, Bool.true_or]
      · simp only [Node.Smooth] at hs
        simp only [Node.vars] at hv
        rw [← hs.1, Finset.union_self] at hv
        exact k2.2 hs.2.1 v hv
    · have k := key u1 c1 m1 h1 hc1 (ih1 m1 hc1)
      refine ⟨fun v hv => k.1 v (fun hv' => hv (by
          simp only [Node.vars, Finset.mem_union] at hv' ⊢; exact Or.inr hv')), k.2.1,
        fun hr => ?_⟩
      simp only [Node.LitsInRange] at hr
      have k2 := k.2.2 hr.2.2.1 hr.2.2.2
      refine ⟨fun ρ hρ => ?_, fun hs v hv => ?_⟩
      · simp only [Node.eval, k2.1 ρ hρ, Bool.or_true]
      · simp only [Node.Smooth] at hs
        simp only [Node.vars] at hv
        rw [hs.1, Finset.union_self] at hv
        exact k2.2 hs.2.2 v hv
  | .andNode a cs u s, m, mOut, h => by
    obtain ⟨res, hu, hc⟩ := Node.validModel_and_some h
    have su := applyUnitLits_spec u m res hu
    have eu := applyUnitLits_extends u m res hu
    have sc := Node.validModelChildren_spec cs res mOut hc
    have ec := Node.validModelChildren_isExtension cs res mOut hc
    refine ⟨fun v hv => ?_, fun v hv => su.2.1 v (sc.2.1 v hv), fun hr => ?_⟩
    · simp only [Node.vars, Finset.mem_union, not_or] at hv
      rw [sc.1 v hv.2, su.1 v hv.1]
    · simp only [Node.LitsInRange] at hr
      have hrc' : Node.LitsInRangeAll res.content.length cs := by rw [eu.1]; exact hr.2
      have fc := sc.2.2 hrc'
      refine ⟨fun ρ hρ => ?_, fun hs v hv => ?_⟩
      · simp only [Node.eval, Bool.and_eq_true]
        exact ⟨all_litVal_of_bound (hρ.of_extends ec) m.content.length u hr.1 su.2.2,
          fc.1 ρ hρ⟩
      · simp only [Node.Smooth] at hs
        simp only [Node.vars] at hv
        rcases Finset.mem_union.1 hv with hv | hv
        · rcases mem_litVars.1 hv with ⟨l, hl, e⟩
          have := su.2.2 l hl (hr.1 l hl).1 (hr.1 l hl).2
          rw [← e]
          exact ec.ne_free (by rw [this]; exact ofBool_ne_free _)
        · exact fc.2 hs v hv
theorem Node.validModelChildren_spec :
    ∀ (cs : List Node) (m mOut : Model), Node.validModelChildren cs m = some mOut →
      (∀ v, v ∉ Node.varsAll cs → mOut.bindingFor v = m.bindingFor v) ∧
      (∀ v, mOut.bindingFor v = Binding.Unsat → m.bindingFor v = Binding.Unsat) ∧
      (Node.LitsInRangeAll m.content.length cs →
        (∀ ρ, mOut.CompletedBy ρ → Node.evalAll ρ cs = true) ∧
        (Node.SmoothAll cs → ∀ v ∈ Node.varsAll cs, mOut.bindingFor v ≠ Binding.Free))
  | [], m, mOut, h => by
    simp only [Node.validModelChildren, Option.some.injEq] at h
    subst h
    exact ⟨fun _ _ => rfl, fun _ hv => hv, fun _ => ⟨fun _ _ => rfl, fun _ v hv => by
      simp [Node.varsAll] at hv⟩⟩
  | c :: cs, m, mOut, h => by
    obtain ⟨m1, h1, h2⟩ := Node.validModelChildren_cons_some h
    have s1 := Node.validModel_spec c m m1 h1
    have e1 := Node.validModel_isExtension c m m1 h1
    have s2 := Node.validModelChildren_spec cs m1 mOut h2
    have e2 := Node.validModelChildren_isExtension cs m1 mOut h2
    refine ⟨fun v hv => ?_, fun v hv => s1.2.1 v (s2.2.1 v hv), fun hr => ?_⟩
    · simp only [Node.varsAll, Finset.mem_union, not_or] at hv
      rw [s2.1 v hv.2, s1.1 v hv.1]
    · simp only [Node.LitsInRangeAll] at hr
      have f1 := s1.2.2 hr.1
      have f2 := s2.2.2 (by rw [e1.1]; exact hr.2)
      refine ⟨fun ρ hρ => ?_, fun hs v hv => ?_⟩
      · simp only [Node.evalAll, Bool.and_eq_true]
        exact ⟨f1.1 ρ (hρ.of_extends e2), f2.1 ρ hρ⟩
      · simp only [Node.SmoothAll] at hs
        simp only [Node.varsAll] at hv
        rcases Finset.mem_union.1 hv with hv | hv
        · exact e2.ne_free (f1.2 hs.1 v hv)
        · exact f2.2 hs.2 v hv
end

/-! ## `validModel`: completeness on decomposable circuits -/

theorem Model.setBindingFor_of_completedBy {m : Model} {ρ : Int → Bool} (hu : m.NoUnsat)
    (hρ : m.CompletedBy ρ) (lit : Int) (hl : litVal ρ lit = true) :
    ¬ (m.bindingFor (varOf lit) = Binding.Unsat ∨
        m.bindingFor (varOf lit) = Binding.ofBool (decide (lit < 0))) ∧
      (m.setBindingFor (varOf lit) (Binding.ofBool (decide (lit > 0)))).NoUnsat ∧
      (m.setBindingFor (varOf lit) (Binding.ofBool (decide (lit > 0)))).CompletedBy ρ := by
  have hopp : ¬ (m.bindingFor (varOf lit) = Binding.Unsat ∨
      m.bindingFor (varOf lit) = Binding.ofBool (decide (lit < 0))) := by
    rintro (h | h)
    · exact hu _ h
    · unfold litVal at hl
      by_cases hp : lit > 0
      · have hn : ¬ lit < 0 := by omega
        simp only [varOf, hp, if_true, hn, decide_False, Binding.ofBool] at h hl
        have := (hρ lit).2 h
        rw [this] at hl; simp at hl
      · by_cases hn : lit < 0
        · simp only [varOf, hp, if_false, hn, decide_True, Binding.ofBool, if_true] at h hl
          have := (hρ (-lit)).1 h
          rw [this] at hl; simp at hl
        · have h0 : lit = 0 := by omega
          subst h0
          have : m.bindingFor (varOf 0) = Binding.Free := by
            simp [varOf, Model.bindingFor, vecGet]
          rw [this] at h
          simp [Binding.ofBool] at h
  have hext := m.extends_setBindingFor lit hopp
  refine ⟨hopp, fun v hv => ?_, fun v => ?_⟩
  · rw [Model.bindingFor_setBindingFor] at hv
    split_ifs at hv with hc ho
    · obtain ⟨-, h1, -⟩ := hc
      have hne : lit ≠ 0 := by
        intro h0; rw [h0] at h1; simp [varOf] at h1
      revert hopp ho
      rcases lt_or_gt_of_ne hne with hl' | hl'
      · have hl'' : ¬ lit > 0 := by omega
        cases m.bindingFor (varOf lit) <;> simp [Binding.ofBool, hl', hl'']
      · have hl'' : ¬ lit < 0 := by omega
        cases m.bindingFor (varOf lit) <;> simp [Binding.ofBool, hl', hl'']
    · exact absurd hv (by by_cases hp : lit > 0 <;> simp [Binding.ofBool, hp])
    · exact hu v hv
  · rw [Model.bindingFor_setBindingFor]
    by_cases hc : varOf lit = v ∧ 1 ≤ varOf lit ∧ varOf lit ≤ (m.content.length : Int)
    · rw [if_pos hc]
      obtain ⟨e, h1, -⟩ := hc
      have hne : lit ≠ 0 := by
        intro h0; rw [h0] at h1; simp [varOf] at h1
      have hnot : ¬ ((m.bindingFor (varOf lit) = Binding.True ∧
          Binding.ofBool (decide (lit > 0)) = Binding.False) ∨
          (m.bindingFor (varOf lit) = Binding.False ∧
            Binding.ofBool (decide (lit > 0)) = Binding.True)) := by
        revert hopp
        rcases lt_or_gt_of_ne hne with hl' | hl'
        · have hl'' : ¬ lit > 0 := by omega
          cases m.bindingFor (varOf lit) <;> simp [Binding.ofBool, hl', hl'']
        · have hl'' : ¬ lit < 0 := by omega
          cases m.bindingFor (varOf lit) <;> simp [Binding.ofBool, hl', hl'']
      rw [if_neg hnot]
      unfold litVal at hl
      rcases lt_or_gt_of_ne hne with hl' | hl'
      · have hl'' : ¬ lit > 0 := by omega
        have ev : v = -lit := by rw [← e]; simp [varOf, hl'']
        simp only [hl'', if_false, Bool.not_eq_true'] at hl
        simp [Binding.ofBool, hl'', ev, hl]
      · have ev : v = lit := by rw [← e]; simp [varOf, hl']
        simp only [hl', if_true] at hl
        simp [Binding.ofBool, hl', ev, hl]
    · rw [if_neg hc]
      exact hρ v

theorem applyUnitLits_complete :
    ∀ (lits : List Int) (m : Model) (ρ : Int → Bool), m.NoUnsat → m.CompletedBy ρ →
      lits.all (litVal ρ) = true →
      ∃ mOut, applyUnitLits lits m = some mOut ∧ mOut.NoUnsat ∧ mOut.CompletedBy ρ
  | [], m, ρ, hu, hρ, _ => ⟨m, rfl, hu, hρ⟩
  | lit :: lits, m, ρ, hu, hρ, hall => by
    simp only [List.all_cons, Bool.and_eq_true] at hall
    obtain ⟨hopp, hu', hρ'⟩ := Model.setBindingFor_of_completedBy hu hρ lit hall.1
    rw [applyUnitLits, if_neg hopp]
    exact applyUnitLits_complete lits _ ρ hu' hρ' hall.2

theorem Node.not_mem_varsAll_of_disjoint {c : Node} {cs : List Node}
    (h : Disjoint c.vars (Node.varsAll cs)) {v : Int} (hv : v ∈ Node.varsAll cs) :
    v ∉ c.vars :=
  fun hc => (Finset.disjoint_left.1 h hc) hv

mutual
theorem Node.validModel_complete :
    ∀ (n : Node) (m : Model) (ρ : Int → Bool), n.Decomposable → m.NoUnsat →
      m.CompletedBy ρ → Node.eval ρ n = true → ∃ mOut, n.validModel m = some mOut
  | .falseNode _, _, _, _, _, _, he => by simp [Node.eval] at he
  | .trueNode _, m, _, _, _, _, _ => ⟨m, rfl⟩
  | .litNode _ lit, m, ρ, _, hu, hρ, he => by
    simp only [Node.eval] at he
    obtain ⟨hopp, -, -⟩ := Model.setBindingFor_of_completedBy hu hρ lit he
    simp only [Node.validModel]
    by_cases hf : m.bindingFor (varOf lit) = Binding.Free
    · rw [if_pos hf]; exact ⟨_, rfl⟩
    · rw [if_neg hf, if_neg hopp]; exact ⟨_, rfl⟩
  | .orNode a x u0 c0 u1 c1 s, m, ρ, hd, hu, hρ, he => by
    simp only [Node.Decomposable] at hd
    simp only [Node.eval, Bool.or_eq_true, Bool.and_eq_true] at he
    rw [Node.validModel_or]
    rcases he with ⟨hu0, he0⟩ | ⟨hu1, he1⟩
    · obtain ⟨m0, h0, hu', hρ'⟩ := applyUnitLits_complete u0 m ρ hu hρ hu0
      obtain ⟨r, hr⟩ := Node.validModel_complete c0 m0 ρ hd.2.2.1 hu' hρ' he0
      exact ⟨r, by simp [h0, hr, Option.orElse]⟩
    · obtain ⟨m1, h1, hu', hρ'⟩ := applyUnitLits_complete u1 m ρ hu hρ hu1
      obtain ⟨r, hr⟩ := Node.validModel_complete c1 m1 ρ hd.2.2.2 hu' hρ' he1
      cases h0 : (applyUnitLits u0 m).bind c0.validModel with
      | some r0 => exact ⟨r0, by simp [Option.orElse]⟩
      | none => exact ⟨r, by simp [Option.orElse, h1, hr]⟩
  | .andNode a cs u s, m, ρ, hd, hu, hρ, he => by
    simp only [Node.Decomposable] at hd
    simp only [Node.eval, Bool.and_eq_true] at he
    rw [Node.validModel_and]
    obtain ⟨res, h0, hu', hρ'⟩ := applyUnitLits_complete u m ρ hu hρ he.1
    have hpc : (Node.conjunctVars [] cs).Pairwise Disjoint := by
      have := hd.1
      simp only [Node.conjunctVars, List.pairwise_append] at this
      simpa [Node.conjunctVars] using this.2.1
    obtain ⟨r, hr⟩ := Node.validModelChildren_complete cs res ρ hpc hd.2 hu' hρ' he.2
    exact ⟨r, by simp [h0, hr]⟩
theorem Node.validModelChildren_complete :
    ∀ (cs : List Node) (m : Model) (ρ : Int → Bool),
      (Node.conjunctVars [] cs).Pairwise Disjoint → Node.DecomposableAll cs → m.NoUnsat →
      m.CompletedBy ρ → Node.evalAll ρ cs = true →
      ∃ mOut, Node.validModelChildren cs m = some mOut
  | [], m, _, _, _, _, _, _ => ⟨m, rfl⟩
  | c :: cs, m, ρ, hp, hd, hu, hρ, he => by
    simp only [Node.DecomposableAll] at hd
    simp only [Node.evalAll, Bool.and_eq_true] at he
    obtain ⟨hdisj, hrest⟩ := pairwise_conjunctVars_cons_child hp
    obtain ⟨m1, h1⟩ := Node.validModel_complete c m ρ hd.1 hu hρ he.1
    have s1 := Node.validModel_spec c m m1 h1
    have hu1 : m1.NoUnsat := fun v hv => hu v (s1.2.1 v hv)
    have hρ1 : m1.CompletedBy
        (fun v => if v ∈ c.vars then decide (m1.bindingFor v = Binding.True) else ρ v) := by
      intro v
      by_cases hv : v ∈ c.vars
      · simp only [hv, if_true, decide_eq_true_eq, decide_eq_false_iff_not]
        exact ⟨fun h => h, fun h => by rw [h]; simp⟩
      · simp only [hv, if_false]
        rw [s1.1 v hv]
        exact hρ v
    have he1 : Node.evalAll
        (fun v => if v ∈ c.vars then decide (m1.bindingFor v = Binding.True) else ρ v) cs =
        true := by
      rw [← he.2]
      apply Node.evalAll_congr
      intro v hv
      simp [Node.not_mem_varsAll_of_disjoint hdisj hv]
    obtain ⟨r, hr⟩ := Node.validModelChildren_complete cs m1 _ hrest hd.2 hu1 hρ1 he1
    exact ⟨r, by rw [Node.validModelChildren_cons, h1]; exact hr⟩
end

/-! ## C4: which variables the returned model binds -/

/-- C4 (amended): for every smooth graph (the two branches of every Or node mention the
same variables) whose literals lie in `1..nbVars` and whose root mentions every variable
of `1..nbVars`, and every partial model `m` of length `nbVars`: when `validModel(m)`
succeeds the returned model binds no variable of `1..nbVars` to `Free`. -/
theorem Graph.validModel_total_of_smooth (g : Graph) (m mOut : Model)
    (hr : g.root.LitsInRange g.nbVars) (hs : g.root.Smooth)
    (hall : ∀ v : Int, 1 ≤ v → v ≤ (g.nbVars : Int) → v ∈ g.root.vars)
    (hlen : m.content.length = g.nbVars) (h : g.validModel m = some mOut) :
    ∀ v : Int, 1 ≤ v → v ≤ (g.nbVars : Int) → mOut.bindingFor v ≠ Binding.Free :=
  fun v h1 h2 =>
    ((Node.validModel_spec g.root m mOut h).2.2 (by rw [hlen]; exact hr)).2 hs v (hall v h1 h2)

theorem Graph.validModel_total_of_smooth_witness :
    decisionGraph.validModel (Model.free 1) = some ⟨[Binding.True]⟩ ∧
      (Model.mk [Binding.True]).bindingFor 1 ≠ Binding.Free :=
  ⟨by decide, Graph.validModel_total_of_smooth decisionGraph (Model.free 1) ⟨[Binding.True]⟩
    (by simp [decisionGraph, Graph.make, Node.LitsInRange, Node.LitsInRangeAll,
      Node.litInRange])
    (by simp [decisionGraph, Graph.make, Node.Smooth, Node.SmoothAll, Node.vars, Node.varsAll,
      litVars])
    (by
      intro v h1 h2
      have : v = 1 := by simp [decisionGraph, Graph.make] at h2; omega
      subst this
      simp [decisionGraph, Graph.make, Node.vars, Node.varsAll, litVars])
    (by simp [decisionGraph, Graph.make, Model.free])
    (by decide) 1 (by decide) (by decide)⟩

/-- C4 as stated fails: on the circuit `True` over one variable `validModel` succeeds on the
all-`Free` model and returns it unchanged, with variable `1` bound to `Free`. -/
theorem Graph.validModel_not_total :
    trueGraph.validModel (Model.free 1) = some (Model.free 1) ∧
      (Model.free 1).bindingFor 1 = Binding.Free := by
  decide

/-- C3 at an instance: on the decision on variable `1` over two variables the model
`{1 = True, 2 = True}` is returned for the partial model `{2 = True}`, and it binds
variable `2` as the partial model does. -/
theorem Graph.validModel_extends_witness :
    orAndGraph.validModel ⟨[Binding.Free, Binding.True]⟩ =
        some ⟨[Binding.True, Binding.True]⟩ ∧
      (Model.mk [Binding.True, Binding.True]).bindingFor 2 =
        (Model.mk [Binding.Free, Binding.True]).bindingFor 2 :=
  ⟨by decide, Graph.validModel_extends orAndGraph ⟨[Binding.Free, Binding.True]⟩
    ⟨[Binding.True, Binding.True]⟩ (by decide) 2 (by decide)⟩

/-! ## C2: `validModel` and `modelCount` -/

theorem WeightVector.uniform_weightFor (n : Nat) (l : Int) (hl : 1 ≤ |l| ∧ |l| ≤ (n : Int)) :
    (WeightVector.uniform n).weightFor l = 1 := by
  have hb := WeightVector.idx_bounds hl
  unfold WeightVector.weightFor WeightVector.uniform vecGet
  rw [if_pos hb.1, List.getD_eq_getElem?_getD, List.getElem?_replicate]
  rw [if_pos (by omega)]
  rfl

theorem Graph.modelCount_uniform (g : Graph) (m : Model) (hv : g.Valid)
    (hn : g.root.NoOrUnits) (hw : g.weights = WeightVector.uniform g.nbVars) :
    g.modelCount m = ∑ T ∈ (Finset.Icc (1 : Int) g.nbVars).powerset,
      if (agreesWith m g.nbVars (assignOf T) && Node.eval (assignOf T) g.root) = true
      then 1 else 0 := by
  rw [Graph.modelCount_eq_wmc g m hv hn, wmc_updateWeights g.weights m g.nbVars hv.weightsSize]
  refine Finset.sum_congr rfl fun T _ => ?_
  have hone : ∏ v ∈ Finset.Icc (1 : Int) g.nbVars,
      g.weights.weightFor (if assignOf T v = true then v else -v) = 1 := by
    refine Finset.prod_eq_one fun v hv' => ?_
    have hv2 : 1 ≤ v ∧ v ≤ (g.nbVars : Int) := Finset.mem_Icc.1 hv'
    rw [hw]
    apply WeightVector.uniform_weightFor
    by_cases ha : assignOf T v = true
    · rw [if_pos ha, abs_of_pos (by omega)]; exact hv2
    · rw [if_neg ha, abs_neg, abs_of_pos (by omega)]; exact hv2
  rw [hone]

theorem Graph.modelCount_uniform_eq_zero_iff (g : Graph) (m : Model) (hv : g.Valid)
    (hn : g.root.NoOrUnits) (hw : g.weights = WeightVector.uniform g.nbVars) :
    g.modelCount m = 0 ↔ ∀ T ∈ (Finset.Icc (1 : Int) g.nbVars).powerset,
      ¬ (agreesWith m g.nbVars (assignOf T) = true ∧ Node.eval (assignOf T) g.root = true) := by
  rw [Graph.modelCount_uniform g m hv hn hw,
    Finset.sum_eq_zero_iff_of_nonneg (fun T _ => by split_ifs <;> norm_num)]
  constructor
  · intro h T hT hc
    have := h T hT
    rw [if_pos (by rw [Bool.and_eq_true]; exact hc)] at this
    exact one_ne_zero this
  · intro h T hT
    rw [if_neg]
    rw [Bool.and_eq_true]
    exact h T hT

theorem Model.bindingFor_eq_free_of_out {m : Model} {n : Nat} (hlen : m.content.length = n)
    {v : Int} (hv : ¬ (1 ≤ v ∧ v ≤ (n : Int))) : m.bindingFor v = Binding.Free := by
  unfold Model.bindingFor vecGet
  by_cases h0 : 0 ≤ v - 1
  · rw [if_pos h0, List.getD_eq_getElem?_getD, List.getElem?_eq_none (by omega)]
    rfl
  · rw [if_neg h0]

/-- On partial models without `Unsat` bindings: for every valid graph whose Or branches carry no unit literals, with the
default uniform weights, and every partial model `m` of length `nbVars` that binds no
variable to `Unsat`: `validModel(m)` returns none if and only if `modelCount(m) = 0`. -/
theorem Graph.validModel_eq_none_iff (g : Graph) (m : Model) (hv : g.Valid)
    (hn : g.root.NoOrUnits) (hw : g.weights = WeightVector.uniform g.nbVars)
    (hlen : m.content.length = g.nbVars) (hu : m.NoUnsat) :
    g.validModel m = none ↔ g.modelCount m = 0 := by
  rw [Graph.modelCount_uniform_eq_zero_iff g m hv hn hw]
  constructor
  · intro hnone T hT hc
    have hρ : m.CompletedBy (assignOf T) := by
      intro v
      by_cases hr : 1 ≤ v ∧ v ≤ (g.nbVars : Int)
      · have := (agreesWith_iff m g.nbVars _).1 hc.1 v (Finset.mem_Icc.2 hr)
        unfold Model.falsifies at this
        by_cases ha : assignOf T v = true
        · rw [if_pos ha, abs_of_pos (by omega)] at this
          refine ⟨fun _ => ha, fun hf => ?_⟩
          rw [hf] at this
          exact absurd (show v > 0 by omega) this
        · rw [if_neg ha, abs_neg, abs_of_pos (by omega)] at this
          refine ⟨fun ht => ?_, fun _ => by simpa using ha⟩
          rw [ht] at this
          exact absurd (show -v < 0 by omega) this
      · rw [Model.bindingFor_eq_free_of_out hlen hr]
        simp
    obtain ⟨mOut, hm⟩ := Node.validModel_complete g.root m _ hv.decomposable hu hρ hc.2
    unfold Graph.validModel at hnone
    rw [hnone] at hm
    exact Option.noConfusion hm
  · intro hall
    cases hres : g.validModel m with
    | none => rfl
    | some mOut =>
      exfalso
      have hext := Node.validModel_isExtension g.root m mOut hres
      have hspec := Node.validModel_spec g.root m mOut hres
      have hlenOut : mOut.content.length = g.nbVars := hext.1.trans hlen
      have hmem : ∀ v : Int, v ∈ (Finset.Icc (1 : Int) g.nbVars).filter
          (fun v => mOut.bindingFor v = Binding.True) ↔ mOut.bindingFor v = Binding.True := by
        intro v
        rw [Finset.mem_filter, Finset.mem_Icc]
        constructor
        · exact fun h => h.2
        · intro h
          refine ⟨?_, h⟩
          by_contra hr
          rw [Model.bindingFor_eq_free_of_out hlenOut hr] at h
          exact Binding.noConfusion h
      refine hall ((Finset.Icc (1 : Int) g.nbVars).filter
        (fun v => mOut.bindingFor v = Binding.True))
        (Finset.mem_powerset.2 (Finset.filter_subset _ _)) ⟨?_, ?_⟩
      · rw [agreesWith_iff]
        intro v hvI
        have hr : 1 ≤ v ∧ v ≤ (g.nbVars : Int) := Finset.mem_Icc.1 hvI
        unfold Model.falsifies
        by_cases ha : assignOf ((Finset.Icc (1 : Int) g.nbVars).filter
            (fun v => mOut.bindingFor v = Binding.True)) v = true
        · rw [if_pos ha, abs_of_pos (by omega)]
          have hT : mOut.bindingFor v = Binding.True := by
            simpa [assignOf, hmem] using ha
          cases hb : m.bindingFor v with
          | True => simp; omega
          | False =>
            have := hext.2 v (by rw [hb]; simp)
            rw [hT, hb] at this
            exact Binding.noConfusion this
          | Unsat => exact absurd hb (hu v)
          | Free => simp
        · rw [if_neg ha, abs_neg, abs_of_pos (by omega)]
          have hT : ¬ mOut.bindingFor v = Binding.True := by
            simpa [assignOf, hmem] using ha
          cases hb : m.bindingFor v with
          | True =>
            have := hext.2 v (by rw [hb]; simp)
            rw [hb] at this
            exact absurd this hT
          | False => simp; omega
          | Unsat => exact absurd hb (hu v)
          | Free => simp
      · refine (hspec.2.2 (by rw [hlen]; exact hv.litsInRange)).1 _ (fun v => ⟨fun h => ?_,
          fun h => ?_⟩)
        · simpa [assignOf, hmem] using h
        · have : ¬ mOut.bindingFor v = Binding.True := by rw [h]; simp
          simpa [assignOf, hmem] using this

theorem decisionGraph_valid : decisionGraph.Valid where
  decomposable := by
    simp [decisionGraph, Graph.make, Node.Decomposable, Node.DecomposableAll,
      Node.conjunctVars, Node.vars, Node.varsAll, litVars]
  deterministic := by
    simp [decisionGraph, Graph.make, Node.Deterministic, Node.DeterministicAll, Node.eval,
      Node.evalAll, litVal]
  seenOk := by
    simp [decisionGraph, Graph.make, Node.SeenOk, Node.SeenOkAll, Node.seenVars,
      Node.seenVarsAll, litVars]
  litsInRange := by
    simp [decisionGraph, Graph.make, Node.LitsInRange, Node.LitsInRangeAll, Node.litInRange]
  weightsSize := by
    simp [decisionGraph, Graph.make, WeightVector.uniform]
  addrOk := by
    intro a ha b hb
    simp only [decisionGraph, Graph.make, Node.subnodes, Node.subnodesAll, List.mem_cons,
      List.mem_append, List.mem_singleton, List.not_mem_nil, or_false] at ha hb
    rcases ha with rfl | rfl | rfl <;> rcases hb with rfl | rfl | rfl <;> simp [Node.addr]

theorem decisionGraph_noOrUnits : decisionGraph.root.NoOrUnits := by
  simp [decisionGraph, Graph.make, Node.NoOrUnits, Node.NoOrUnitsAll]

theorem Model.noUnsat_of_forall (m : Model) (h : ∀ b ∈ m.content, b ≠ Binding.Unsat) :
    m.NoUnsat := by
  intro v
  unfold Model.bindingFor vecGet
  split_ifs
  · rw [List.getD_eq_getElem?_getD]
    cases hg : m.content[(v - 1).toNat]? with
    | none => simp
    | some b =>
      have hb : b ∈ m.content := List.getElem?_mem hg
      simpa using h b hb
  · simp

theorem Graph.validModel_eq_none_iff_witness :
    decisionGraph.validModel ⟨[Binding.False]⟩ = none ↔
      decisionGraph.modelCount ⟨[Binding.False]⟩ = 0 :=
  Graph.validModel_eq_none_iff decisionGraph ⟨[Binding.False]⟩ decisionGraph_valid
    decisionGraph_noOrUnits rfl rfl (Model.noUnsat_of_forall _ (by decide))

theorem trueGraph_valid : trueGraph.Valid where
  decomposable := by simp [trueGraph, Graph.make, trueNode, Node.Decomposable]
  deterministic := by simp [trueGraph, Graph.make, trueNode, Node.Deterministic]
  seenOk := by simp [trueGraph, Graph.make, trueNode, Node.SeenOk]
  litsInRange := by simp [trueGraph, Graph.make, trueNode, Node.LitsInRange]
  weightsSize := by simp [trueGraph, Graph.make, WeightVector.uniform]
  addrOk := by
    intro a ha b hb
    simp only [trueGraph, Graph.make, trueNode, Node.subnodes, List.mem_singleton] at ha hb
    rw [ha, hb]; exact fun _ => rfl

/-- C2 at the failing input: the circuit `True` over one variable is a valid graph with uniform
weights, and for the partial model that binds variable `1` to `Unsat` `validModel` returns
that model while `modelCount` is `0`. -/
theorem Graph.validModel_some_modelCount_zero :
    trueGraph.Valid ∧ trueGraph.weights = WeightVector.uniform trueGraph.nbVars ∧
      trueGraph.validModel ⟨[Binding.Unsat]⟩ = some ⟨[Binding.Unsat]⟩ ∧
      trueGraph.modelCount ⟨[Binding.Unsat]⟩ = 0 := by
  refine ⟨trueGraph_valid, rfl, by decide, ?_⟩
  simp [Graph.modelCount, trueGraph, Graph.make, Node.modelCount, updateWeights, varsUpTo,
    Model.bindingFor, vecGet, vecSet, WeightVector.uniform, WeightVector.nbVars,
    WeightVector.weightFor, WeightVector.setWeightFor, WeightVector.idx, Node.seenVars,
    trueNode, smoothLoop, List.range_succ]

/-! ## C5: conditioning and model count -/

theorem Model.free_bindingFor (n : Nat) (v : Int) : (Model.free n).bindingFor v = Binding.Free := by
  unfold Model.bindingFor Model.free vecGet
  split_ifs
  · rw [List.getD_eq_getElem?_getD, List.getElem?_replicate]
    split_ifs <;> rfl
  · rfl

theorem updateWeights_free (w : WeightVector) (n : Nat) : updateWeights w (Model.free n) = w := by
  unfold updateWeights
  simp only [Model.free_bindingFor]
  generalize varsUpTo w.nbVars = vs
  induction vs with
  | nil => rfl
  | cons v vs ih => rw [List.foldl_cons]; exact ih

theorem conditionLits_foldl (m : Model) :
    ∀ (vars : List Int) (acc : List Int × Finset Int),
      vars.foldl (fun (acc : List Int × Finset Int) var =>
        match m.bindingFor var with
        | Binding.True => (acc.1 ++ [var], insert var acc.2)
        | Binding.False => (acc.1 ++ [-var], insert var acc.2)
        | Binding.Unsat => (acc.1 ++ [var, -var], insert var acc.2)
        | Binding.Free => acc) acc =
      (acc.1 ++ vars.flatMap (condLitsOf m),
        acc.2 ∪ (vars.filter (fun v => decide (m.bindingFor v ≠ Binding.Free))).toFinset)
  | [], acc => by simp
  | v :: vs, acc => by
    rw [List.foldl_cons, conditionLits_foldl m vs]
    cases hb : m.bindingFor v <;>
      simp [condLitsOf, hb, List.filter_cons, List.append_assoc, Finset.insert_eq,
        Finset.union_assoc, Finset.union_comm]

theorem conditionLits_eq (m : Model) (vars : List Int) :
    conditionLits m vars = (vars.flatMap (condLitsOf m),
      (vars.filter (fun v => decide (m.bindingFor v ≠ Binding.Free))).toFinset) := by
  unfold conditionLits
  rw [conditionLits_foldl]
  simp

theorem prod_bind_condLitsOf (m : Model) (f : Int → ℚ) (vars : List Int) :
    ((vars.flatMap (condLitsOf m)).map f).prod =
      (vars.map (fun v => ((condLitsOf m v).map f).prod)).prod := by
  induction vars with
  | nil => rfl
  | cons v vs ih => simp [List.flatMap_cons, ih]

mutual
theorem Node.seenVars_subset_vars : ∀ n : Node, n.SeenOk → n.seenVars ⊆ n.vars
  | .falseNode _, _ => by simp [Node.seenVars]
  | .trueNode _, _ => by simp [Node.seenVars]
  | .litNode _ _, _ => by simp [Node.seenVars, Node.vars]
  | .orNode a x u0 c0 u1 c1 s, hs => by
    simp only [Node.SeenOk] at hs
    have e0 := Node.seenVars_subset_vars c0 hs.2.1
    have e1 := Node.seenVars_subset_vars c1 hs.2.2
    show s ⊆ (Node.orNode a x u0 c0 u1 c1 s).vars
    rw [hs.1]
    simp only [Node.vars]
    intro v hv
    simp only [Finset.mem_union] at hv ⊢
    rcases hv with h | h
    · exact Or.inl (Or.inr (e0 h))
    · exact Or.inr (Or.inr (e1 h))
  | .andNode a cs u s, hs => by
    simp only [Node.SeenOk] at hs
    have e := Node.seenVarsAll_subset_varsAll cs hs.2
    show s ⊆ (Node.andNode a cs u s).vars
    rw [hs.1]
    simp only [Node.vars]
    exact Finset.union_subset_union (Finset.Subset.refl _) e
theorem Node.seenVarsAll_subset_varsAll : ∀ cs : List Node, Node.SeenOkAll cs →
    Node.seenVarsAll cs ⊆ Node.varsAll cs
  | [], _ => by simp [Node.seenVarsAll]
  | c :: cs, hs => by
    simp only [Node.SeenOkAll] at hs
    simp only [Node.seenVarsAll, Node.varsAll]
    exact Finset.union_subset_union (Node.seenVars_subset_vars c hs.1)
      (Node.seenVarsAll_subset_varsAll cs hs.2)
end

mutual
/-- A node that has seen a variable whose two literals weigh `0` counts `0`. -/
theorem Node.count_eq_zero_of_seen (w : WeightVector) (v : Int) (h1 : w.weightFor v = 0)
    (h2 : w.weightFor (-v) = 0) : ∀ n : Node, n.SeenOk → v ∈ n.seenVars → n.count w = 0
  | .falseNode _, _, _ => rfl
  | .trueNode _, _, hv => by simp [Node.seenVars] at hv
  | .litNode _ l, _, hv => by
    simp only [Node.seenVars, Finset.mem_singleton] at hv
    simp only [Node.count]
    rcases abs_cases l with ⟨e, _⟩ | ⟨e, _⟩
    · rw [e] at hv; rw [← hv]; exact h1
    · rw [e] at hv
      have : l = -v := by omega
      rw [this]; exact h2
  | .orNode a x u0 c0 u1 c1 s, hs, hv => by
    simp only [Node.SeenOk] at hs
    simp only [Node.seenVars] at hv
    have hsub0 : c0.seenVars ⊆ s := by rw [hs.1]; exact Finset.subset_union_left
    have hsub1 : c1.seenVars ⊆ s := by rw [hs.1]; exact Finset.subset_union_right
    have hvw : varWeight w v = 0 := by unfold varWeight; rw [h1, h2]; simp
    have key : ∀ c : Node, c.seenVars ⊆ s → (v ∈ c.seenVars → c.count w = 0) →
        Node.orBranchCount w s c (c.count w) = 0 := by
      intro c hsub hc
      rw [Node.orBranchCount_eq w s c _ hsub]
      by_cases hvc : v ∈ c.seenVars
      · rw [hc hvc, zero_mul]
      · rw [Finset.prod_eq_zero (Finset.mem_sdiff.2 ⟨hv, hvc⟩) hvw, mul_zero]
    simp only [Node.count]
    rw [key c0 hsub0 (Node.count_eq_zero_of_seen w v h1 h2 c0 hs.2.1),
      key c1 hsub1 (Node.count_eq_zero_of_seen w v h1 h2 c1 hs.2.2), add_zero]
  | .andNode a cs u s, hs, hv => by
    simp only [Node.SeenOk] at hs
    simp only [Node.seenVars] at hv
    rw [hs.1, Finset.mem_union] at hv
    simp only [Node.count]
    rcases hv with hv | hv
    · rcases mem_litVars.1 hv with ⟨l, hl, e⟩
      have hl0 : w.weightFor l = 0 := by
        rcases abs_cases l with ⟨e', _⟩ | ⟨e', _⟩
        · rw [e'] at e; rw [e]; exact h1
        · rw [e'] at e
          have : l = -v := by omega
          rw [this]; exact h2
      rw [List.prod_eq_zero (List.mem_map.2 ⟨l, hl, hl0⟩), zero_mul]
    · rw [Node.countAll_eq_zero_of_seen w v h1 h2 cs hs.2 hv, mul_zero]
theorem Node.countAll_eq_zero_of_seen (w : WeightVector) (v : Int) (h1 : w.weightFor v = 0)
    (h2 : w.weightFor (-v) = 0) :
    ∀ cs : List Node, Node.SeenOkAll cs → v ∈ Node.seenVarsAll cs → Node.countAll w cs = 0
  | [], _, hv => by simp [Node.seenVarsAll] at hv
  | c :: cs, hs, hv => by
    simp only [Node.SeenOkAll] at hs
    simp only [Node.seenVarsAll, Finset.mem_union] at hv
    simp only [Node.countAll]
    rcases hv with hv | hv
    · rw [Node.count_eq_zero_of_seen w v h1 h2 c hs.1 hv, zero_mul]
    · rw [Node.countAll_eq_zero_of_seen w v h1 h2 cs hs.2 hv, mul_zero]
end

/-- The value of `Graph::modelCount` from the count of the root, whatever the memo did. -/
theorem Graph.modelCount_of_root_count (g : Graph) (m : Model)
    (hroot : (g.root.modelCount (updateWeights g.weights m) []).1 =
      g.root.count (updateWeights g.weights m))
    (hsub : g.root.seenVars ⊆ Finset.Icc (1 : Int) g.nbVars) :
    g.modelCount m = g.root.count (updateWeights g.weights m) *
      ∏ v ∈ Finset.Icc (1 : Int) g.nbVars \ g.root.seenVars,
        varWeight (updateWeights g.weights m) v := by
  unfold Graph.modelCount
  simp only [hroot]
  by_cases hc : g.root.seenVars.card = g.nbVars
  · rw [if_pos hc]
    have heq : g.root.seenVars = Finset.Icc (1 : Int) g.nbVars :=
      Finset.eq_of_subset_of_card_le hsub (by rw [card_Icc_one, hc])
    rw [heq]
    simp
  · rw [if_neg hc, smoothLoop_varsUpTo, one_mul]

/-- The new root of `conditionTo` counts the product of its unit literals times the count of
the former root. -/
theorem Node.modelCount_and_single (w : WeightVector) (a : Nat) (r : Node) (u : List Int)
    (s : Finset Int) (hr : r.AddrOk) :
    ((Node.andNode a [r] u s).modelCount w []).1 = (Node.andNode a [r] u s).count w := by
  have hc := Node.modelCount_nil_eq_count w r hr
  simp only [Node.modelCount, Node.count, Node.countAll, foldl_mul_weightFor, one_mul, mul_one]
  by_cases hz : (u.map w.weightFor).prod = 0
  · simp [hz]
  · rw [if_neg hz]
    simp only [Node.modelCountChildren, List.lookup_nil, hc]
    by_cases hz2 : (u.map w.weightFor).prod * r.count w = 0
    · simp [hz2]
    · simp [hz2]

theorem prod_sdiff_eq_prod_ite (I X : Finset Int) (f : Int → ℚ) :
    ∏ v ∈ I \ X, f v = ∏ v ∈ I, (if v ∈ X then 1 else f v) := by
  rw [Finset.sdiff_eq_filter, Finset.prod_filter]
  refine Finset.prod_congr rfl fun v _ => ?_
  by_cases h : v ∈ X <;> simp [h]

theorem Model.falsifies_pos {m : Model} {v : Int} (hv : 1 ≤ v) :
    m.falsifies v ↔ (m.bindingFor v = Binding.False ∨ m.bindingFor v = Binding.Unsat) := by
  unfold Model.falsifies
  rw [abs_of_pos (by omega)]
  cases m.bindingFor v <;> simp <;> omega

theorem Model.falsifies_neg {m : Model} {v : Int} (hv : 1 ≤ v) :
    m.falsifies (-v) ↔ (m.bindingFor v = Binding.True ∨ m.bindingFor v = Binding.Unsat) := by
  unfold Model.falsifies
  rw [abs_neg, abs_of_pos (by omega)]
  cases m.bindingFor v <;> simp <;> omega

theorem Node.seenVars_andNode (a : Nat) (cs : List Node) (u : List Int) (s : Finset Int) :
    (Node.andNode a cs u s).seenVars = s := rfl

/-- The conditioned graph counts, for the all-`Free` model, what the graph counted for `m`,
as soon as the literals that `m` makes true and the root has seen weigh `1`. -/
theorem Graph.conditionTo_modelCount_of_seen (g : Graph) (m : Model) (addr : Nat)
    (hseen : g.root.SeenOk) (hrange : g.root.LitsInRange g.nbVars)
    (hsize : g.weights.vec.length = 2 * g.nbVars) (haddr : g.root.AddrOk)
    (hw : ∀ v ∈ g.root.seenVars,
      (m.bindingFor v = Binding.True → g.weights.weightFor v = 1) ∧
      (m.bindingFor v = Binding.False → g.weights.weightFor (-v) = 1)) :
    (g.conditionTo m addr).modelCount (Model.free g.nbVars) = g.modelCount m := by
  have hsub : g.root.seenVars ⊆ Finset.Icc (1 : Int) g.nbVars :=
    (Node.seenVars_subset_vars g.root hseen).trans (Node.vars_subset_range g.nbVars g.root hrange)
  have hlen' := updateWeights_length g.weights m g.nbVars hsize
  have hnb : (updateWeights g.weights m).nbVars = g.nbVars :=
    WeightVector.nbVars_eq _ _ hlen'
  have hB : ∀ v, v ∈ ((varsUpTo g.nbVars).filter
      (fun v => decide (m.bindingFor v ≠ Binding.Free))).toFinset ↔
      (v ∈ Finset.Icc (1 : Int) g.nbVars ∧ m.bindingFor v ≠ Binding.Free) := by
    intro v
    simp [mem_varsUpTo]
  have hsubNew : (g.conditionTo m addr).root.seenVars ⊆ Finset.Icc (1 : Int) g.nbVars := by
    simp only [Graph.conditionTo, Node.seenVars_andNode, hnb, conditionLits_eq]
    intro v hv
    rcases Finset.mem_union.1 hv with h | h
    · exact ((hB v).1 h).1
    · exact hsub h
  rw [Graph.modelCount_eq_count g m haddr hsub,
    Graph.modelCount_of_root_count (g.conditionTo m addr) (Model.free g.nbVars)
      (Node.modelCount_and_single _ _ _ _ _ haddr) hsubNew]
  simp only [Graph.conditionTo, updateWeights_free, hnb, conditionLits_eq, Node.count,
    Node.countAll, Node.seenVars_andNode, mul_one, prod_bind_condLitsOf, prod_varsUpTo]
  by_cases hC : g.root.count (updateWeights g.weights m) = 0
  · rw [hC]; simp
  · rw [mul_comm _ (g.root.count (updateWeights g.weights m)), mul_assoc]
    congr 1
    rw [prod_sdiff_eq_prod_ite, prod_sdiff_eq_prod_ite, ← Finset.prod_mul_distrib]
    refine Finset.prod_congr rfl fun v hvI => ?_
    have hr : 1 ≤ v ∧ v ≤ (g.nbVars : Int) := Finset.mem_Icc.1 hvI
    have hpos : 1 ≤ |v| ∧ |v| ≤ (g.nbVars : Int) := by rw [abs_of_pos (by omega)]; exact hr
    have hneg : 1 ≤ |(-v)| ∧ |(-v)| ≤ (g.nbVars : Int) := by rw [abs_neg]; exact hpos
    have wpos := updateWeights_weightFor g.weights m g.nbVars hsize v hpos
    have wneg := updateWeights_weightFor g.weights m g.nbVars hsize (-v) hneg
    simp only [Model.falsifies_pos hr.1] at wpos
    simp only [Model.falsifies_neg hr.1] at wneg
    have hmemB : v ∈ ((varsUpTo g.nbVars).filter
        (fun v => decide (m.bindingFor v ≠ Binding.Free))).toFinset ∪ g.root.seenVars ↔
        (m.bindingFor v ≠ Binding.Free ∨ v ∈ g.root.seenVars) := by
      rw [Finset.mem_union, hB]
      constructor
      · rintro (⟨-, h⟩ | h)
        · exact Or.inl h
        · exact Or.inr h
      · rintro (h | h)
        · exact Or.inl ⟨hvI, h⟩
        · exact Or.inr h
    by_cases hS : v ∈ g.root.seenVars
    · have hin : v ∈ ((varsUpTo g.nbVars).filter
          (fun v => decide (m.bindingFor v ≠ Binding.Free))).toFinset ∪ g.root.seenVars :=
        hmemB.2 (Or.inr hS)
      rw [if_pos hin, if_pos hS, mul_one]
      cases hb : m.bindingFor v with
      | True =>
        simp only [condLitsOf, hb, List.map_cons, List.map_nil, List.prod_cons, List.prod_nil,
          mul_one]
        rw [wpos, if_neg (by rw [hb]; simp)]
        exact (hw v hS).1 hb
      | False =>
        simp only [condLitsOf, hb, List.map_cons, List.map_nil, List.prod_cons, List.prod_nil,
          mul_one]
        rw [wneg, if_neg (by rw [hb]; simp)]
        exact (hw v hS).2 hb
      | Unsat =>
        exfalso
        rw [hb] at wpos wneg
        simp only [or_true, if_true] at wpos wneg
        exact hC (Node.count_eq_zero_of_seen _ v wpos wneg g.root hseen hS)
      | Free => simp [condLitsOf, hb]
    · rw [if_neg hS]
      cases hb : m.bindingFor v with
      | True =>
        rw [if_pos (hmemB.2 (Or.inl (by rw [hb]; simp))), mul_one]
        simp only [condLitsOf, hb, List.map_cons, List.map_nil, List.prod_cons, List.prod_nil,
          mul_one, varWeight]
        rw [wneg, if_pos (Or.inl hb), add_zero]
      | False =>
        rw [if_pos (hmemB.2 (Or.inl (by rw [hb]; simp))), mul_one]
        simp only [condLitsOf, hb, List.map_cons, List.map_nil, List.prod_cons, List.prod_nil,
          mul_one, varWeight]
        rw [wpos, if_pos (Or.inl hb), zero_add]
      | Unsat =>
        rw [if_pos (hmemB.2 (Or.inl (by rw [hb]; simp))), mul_one]
        simp only [condLitsOf, hb, List.map_cons, List.map_nil, List.prod_cons, List.prod_nil,
          mul_one, varWeight]
        rw [wpos, if_pos (Or.inr hb), zero_mul, zero_add, wneg, if_pos (Or.inr hb)]
      | Free =>
        rw [if_neg (fun h => by
          rcases hmemB.1 h with h' | h'
          · exact h' hb
          · exact hS h')]
        simp [condLitsOf, hb]

/-- Where the literals of `m` weigh `1` the repeated unit literals of the new root do not
show: for every valid graph, every weight vector that gives weight `1` to each
literal the partial model `m` makes true, and every partial model `m`: after
`Graph::conditionTo(m)`, `modelCount` of the all-`Free` model on the conditioned graph
equals `modelCount(m)` on the graph before conditioning. -/
theorem Graph.conditionTo_modelCount (g : Graph) (m : Model) (addr : Nat) (hv : g.Valid)
    (hw : ∀ v : Int, 1 ≤ v → v ≤ (g.nbVars : Int) →
      (m.bindingFor v = Binding.True → g.weights.weightFor v = 1) ∧
      (m.bindingFor v = Binding.False → g.weights.weightFor (-v) = 1)) :
    (g.conditionTo m addr).modelCount (Model.free g.nbVars) = g.modelCount m := by
  refine Graph.conditionTo_modelCount_of_seen g m addr hv.seenOk hv.litsInRange hv.weightsSize
    hv.addrOk (fun v hvS => ?_)
  have hsub : g.root.seenVars ⊆ Finset.Icc (1 : Int) g.nbVars :=
    (Node.seenVars_subset_vars g.root hv.seenOk).trans
      (Node.vars_subset_range g.nbVars g.root hv.litsInRange)
  have := Finset.mem_Icc.1 (hsub hvS)
  exact hw v this.1 this.2

theorem Graph.conditionTo_modelCount_witness :
    (decisionGraph.conditionTo ⟨[Binding.True]⟩ 5).modelCount (Model.free decisionGraph.nbVars) =
      decisionGraph.modelCount ⟨[Binding.True]⟩ :=
  Graph.conditionTo_modelCount decisionGraph ⟨[Binding.True]⟩ 5 decisionGraph_valid
    (fun v h1 h2 => by
      have hu : ∀ l : Int, 1 ≤ |l| ∧ |l| ≤ ((1 : Nat) : Int) →
          decisionGraph.weights.weightFor l = 1 :=
        fun l hl => WeightVector.uniform_weightFor 1 l hl
      have h2' : v ≤ ((1 : Nat) : Int) := h2
      exact ⟨fun _ => hu v (by rw [abs_of_pos (by omega)]; exact ⟨h1, h2'⟩),
        fun _ => hu (-v) (by rw [abs_neg, abs_of_pos (by omega)]; exact ⟨h1, h2'⟩)⟩)

theorem litGraphWeighted_valid : litGraphWeighted.Valid where
  decomposable := by simp [litGraphWeighted, Node.Decomposable]
  deterministic := by simp [litGraphWeighted, Node.Deterministic]
  seenOk := by simp [litGraphWeighted, Node.SeenOk]
  litsInRange := by simp [litGraphWeighted, Node.LitsInRange, Node.litInRange]
  weightsSize := by simp [litGraphWeighted]
  addrOk := by
    intro a ha b hb
    simp only [litGraphWeighted, Node.subnodes, List.mem_singleton] at ha hb
    rw [ha, hb]; exact fun _ => rfl

/-- C5 at the failing input: on the valid graph `Lit(1)` with `w(1) = 2`, `w(-1) = 1` and
the partial model `{1 = True}`, `modelCount(m)` is `2` before conditioning and `modelCount`
of the all-`Free` model is `4` after: `conditionTo` hangs the former root under an And node
whose unit literal `1` is a variable of the former root, and the weight of the literal is
counted by the new root and again by the former root. -/
theorem Graph.conditionTo_modelCount_ne :
    litGraphWeighted.Valid ∧ litGraphWeighted.modelCount ⟨[Binding.True]⟩ = 2 ∧
      (litGraphWeighted.conditionTo ⟨[Binding.True]⟩ 3).modelCount (Model.free 1) = 4 := by
  refine ⟨litGraphWeighted_valid, ?_, ?_⟩
  · simp [Graph.modelCount, litGraphWeighted, Node.modelCount, updateWeights, varsUpTo,
      Model.bindingFor, vecGet, vecSet, WeightVector.nbVars, WeightVector.weightFor,
      WeightVector.setWeightFor, WeightVector.idx, Node.seenVars, List.range_succ]
  · simp [Graph.modelCount, Graph.conditionTo, conditionLits, litGraphWeighted,
      Node.modelCount, Node.modelCountChildren, updateWeights, varsUpTo, Model.free,
      Model.bindingFor, vecGet, vecSet, WeightVector.nbVars, WeightVector.weightFor,
      WeightVector.setWeightFor, WeightVector.idx, Node.seenVars, Node.addr, List.range_succ]
    norm_num

/-! ## C6, C7, C8: the linear objective on concrete circuits -/

theorem orFalseGraph_valid : orFalseGraph.Valid where
  decomposable := by
    simp [orFalseGraph, Graph.make, falseNode, Node.Decomposable, Node.conjunctVars, Node.vars]
  deterministic := by
    simp [orFalseGraph, Graph.make, falseNode, Node.Deterministic, Node.eval]
  seenOk := by
    simp [orFalseGraph, Graph.make, falseNode, Node.SeenOk, Node.seenVars]
  litsInRange := by
    simp [orFalseGraph, Graph.make, falseNode, Node.LitsInRange, Node.litInRange]
  weightsSize := by
    simp [orFalseGraph, Graph.make, WeightVector.uniform]
  addrOk := by
    intro a ha b hb
    simp only [orFalseGraph, Graph.make, falseNode, Node.subnodes, List.mem_cons,
      List.mem_append, List.mem_singleton, List.not_mem_nil, or_false] at ha hb
    rcases ha with rfl | rfl | rfl <;> rcases hb with rfl | rfl | rfl <;> simp [Node.addr]

/-- C6 at the failing input: `Or(1, False, Lit(-1))` is a valid graph whose only model is
`{1 = False}`, of objective value `5` for `obj(1) = 0`, `obj(-1) = 5`, and
`optimizeUnderConstraint` returns the value `0`: the infeasible first branch is scored as
the empty list of literals. -/
theorem LinObjFunc.optimizeUnderConstraint_orFalse_value :
    orFalseGraph.Valid ∧
      (objZeroFive.optimizeUnderConstraint orFalseGraph).map Prod.fst = some 0 ∧
      (∃ M ∈ CompactModel.all 1, orFalseGraph.root.sat M = true) ∧
      (∀ M ∈ CompactModel.all 1, orFalseGraph.root.sat M = true →
        objZeroFive.value 1 M.value = 5) :=
  ⟨orFalseGraph_valid, by decide, by decide, by decide⟩

/-- C7 at the failing input: on the valid, satisfiable graph `Or(1, False, Lit(-1))` with
`obj(1) = 0`, `obj(-1) = 5`, `optimizeUnderConstraint` returns the model `{1 = True}`,
which does not satisfy the circuit. -/
theorem LinObjFunc.optimizeUnderConstraint_orFalse_model :
    orFalseGraph.Valid ∧ orFalseGraph.root.sat ⟨[false]⟩ = true ∧
      (objZeroFive.optimizeUnderConstraint orFalseGraph).map Prod.snd =
        some ⟨[Binding.True]⟩ ∧
      orFalseGraph.root.sat (CompactModel.ofModel ⟨[Binding.True]⟩) = false :=
  ⟨orFalseGraph_valid, by decide, by decide, by decide⟩

/-- C8 at the failing input: on the valid circuit `True` over one variable with `obj(1) = 5`,
`obj(-1) = 2` and bound `3`, `keepBoundedWeightModels` keeps the circuit `True`, of which
`{1 = True}` is a model of objective value `5`. -/
theorem LinObjFunc.keepBoundedWeightModels_true_keeps_costly :
    trueGraph.Valid ∧ (objFiveTwo.keepBoundedWeightModels trueGraph 3 10).root = trueNode ∧
      (⟨[true]⟩ : CompactModel) ∈ CompactModel.all 1 ∧
      (objFiveTwo.keepBoundedWeightModels trueGraph 3 10).root.sat ⟨[true]⟩ = true ∧
      objFiveTwo.value 1 (CompactModel.value ⟨[true]⟩) = 5 :=
  ⟨trueGraph_valid, rfl, by decide, by decide, by decide⟩

/-! ## C10: export and re-parse -/

/-- C10 at the failing input: for the circuit `False` over one variable `Graph::print`
writes the header `nnf 2 0 1` and the two reserved lines `O 0 0`, `A 0` only (a `False`
root is never indexed); the parser returns the last node of the text, the `True` node, so
the re-parsed graph counts `2` models where the exported graph counts `0`. -/
theorem Graph.print_parse_falseGraph :
    falseGraph.print = some ⟨2, 0, 1, [⟨'O', [0, 0]⟩, ⟨'A', [0]⟩]⟩ ∧
      parseNNF ⟨2, 0, 1, [⟨'O', [0, 0]⟩, ⟨'A', [0]⟩]⟩ 10 = some trueGraph ∧
      trueGraph.nbVars = falseGraph.nbVars ∧ trueGraph.weights = falseGraph.weights ∧
      trueGraph.modelCount (Model.free 1) = 2 ∧ falseGraph.modelCount (Model.free 1) = 0 := by
  refine ⟨rfl, rfl, rfl, rfl, ?_, ?_⟩
  · simp [Graph.modelCount, trueGraph, Graph.make, Node.modelCount, updateWeights, varsUpTo,
      Model.free, Model.bindingFor, vecGet, WeightVector.uniform, WeightVector.nbVars,
      WeightVector.weightFor, WeightVector.idx, Node.seenVars, trueNode, smoothLoop,
      List.range_succ]
    norm_num
  · simp [Graph.modelCount, falseGraph, Graph.make, Node.modelCount, falseNode]

/-! ## `minWeight` -/

theorem LinObjFunc.nbVars_of_length (f : LinObjFunc) (n : Nat) (hlen : f.weights.length = 2 * n) :
    f.nbVars = n := by
  unfold LinObjFunc.nbVars
  omega

theorem LinObjFunc.sumAssigned_foldl (f : LinObjFunc) (n : Nat) :
    ∀ (lits : List Int) (acc : Int × List Bool), acc.2.length = n →
      (∀ l ∈ lits, 1 ≤ |l| ∧ |l| ≤ (n : Int)) →
      (lits.foldl (fun (acc : Int × List Bool) val =>
        (acc.1 + f.get val, vecSet acc.2 (if val > 0 then val - 1 else -val - 1) true)) acc).1 =
        acc.1 + (lits.map f.get).sum ∧
      (lits.foldl (fun (acc : Int × List Bool) val =>
        (acc.1 + f.get val, vecSet acc.2 (if val > 0 then val - 1 else -val - 1) true)) acc).2.length
        = n ∧
      ∀ i : Nat, (lits.foldl (fun (acc : Int × List Bool) val =>
        (acc.1 + f.get val, vecSet acc.2 (if val > 0 then val - 1 else -val - 1) true)) acc).2.getD
          i false = (acc.2.getD i false || decide (((i : Int) + 1) ∈ litVars lits))
  | [], acc, hlen, _ => by simp [hlen, litVars]
  | l :: ls, acc, hlen, hr => by
    have hl := hr l (List.mem_cons_self _ _)
    have hrest : ∀ x ∈ ls, 1 ≤ |x| ∧ |x| ≤ (n : Int) := fun x hx =>
      hr x (List.mem_cons_of_mem _ hx)
    have hidx : (if l > 0 then l - 1 else -l - 1) = |l| - 1 := by
      rcases abs_cases l with ⟨e, _⟩ | ⟨e, _⟩ <;> rw [e] <;> split_ifs <;> omega
    have ih := LinObjFunc.sumAssigned_foldl f n ls
      (acc.1 + f.get l, vecSet acc.2 (if l > 0 then l - 1 else -l - 1) true)
      (by rw [vecSet_length]; exact hlen) hrest
    rw [List.foldl_cons]
    refine ⟨?_, ih.2.1, fun i => ?_⟩
    · rw [ih.1]; simp only [List.map_cons, List.sum_cons]; ring
    · rw [ih.2.2 i, hidx]
      have hget : (vecSet acc.2 (|l| - 1) true).getD i false =
          (acc.2.getD i false || decide ((i : Int) + 1 = |l|)) := by
        have h := vecGet_vecSet acc.2 (|l| - 1) (i : Int) true false
        have e1 : ∀ v : List Bool, vecGet v (i : Int) false = v.getD i false := by
          intro v; simp [vecGet]
        rw [e1, e1] at h
        rw [h]
        by_cases e : |l| - 1 = (i : Int)
        · have e' : (i : Int) + 1 = |l| := by omega
          rw [if_pos ⟨e, by omega, by omega⟩]
          simp [e']
        · have e' : ¬ (i : Int) + 1 = |l| := by omega
          rw [if_neg (fun hh => e hh.1)]
          simp [e']
      rw [hget, litVars_cons, Bool.or_assoc]
      congr 1
      simp only [Finset.mem_union, Finset.mem_singleton, Bool.decide_or]

theorem LinObjFunc.sumAssigned_spec (f : LinObjFunc) (n : Nat)
    (hlen : f.weights.length = 2 * n) (lits : List Int)
    (hr : ∀ l ∈ lits, 1 ≤ |l| ∧ |l| ≤ (n : Int)) :
    (f.sumAssigned lits).1 = (lits.map f.get).sum ∧ (f.sumAssigned lits).2.length = n ∧
      ∀ i : Nat, (f.sumAssigned lits).2.getD i false = decide (((i : Int) + 1) ∈ litVars lits) := by
  have h := LinObjFunc.sumAssigned_foldl f n lits (0, List.replicate f.nbVars false)
    (by simp [f.nbVars_of_length n hlen]) hr
  unfold LinObjFunc.sumAssigned
  refine ⟨by rw [h.1]; simp, h.2.1, fun i => ?_⟩
  rw [h.2.2 i]
  have hrep : (List.replicate f.nbVars false).getD i false = false := by
    rw [List.getD_eq_getElem?_getD, List.getElem?_replicate]
    split_ifs <;> rfl
  simp only [hrep, Bool.false_or]

theorem foldl_cond_add (p : Nat → Bool) (g : Nat → Int) :
    ∀ (l : List Nat) (a : Int),
      l.foldl (fun value i => if p i = true then value + g i else value) a =
        a + ((l.filter p).map g).sum
  | [], a => by simp
  | i :: l, a => by
    rw [List.foldl_cons, foldl_cond_add p g l]
    by_cases h : p i = true
    · simp [h, List.filter_cons]; ring
    · simp [h, List.filter_cons]

theorem sum_filter_range_eq (n : Nat) (S : Finset Int) (g : Int → Int) :
    (((List.range n).filter (fun (i : Nat) => !decide (((i : Int) + 1) ∈ S))).map
      (fun (i : Nat) => g ((i : Int) + 1))).sum = ∑ v ∈ Finset.Icc (1 : Int) n \ S, g v := by
  have h1 : ((List.range n).filter (fun (i : Nat) => !decide (((i : Int) + 1) ∈ S))).map
      (fun (i : Nat) => g ((i : Int) + 1)) =
      ((varsUpTo n).filter (fun v => decide (v ∉ S))).map g := by
    unfold varsUpTo
    rw [List.filter_map, List.map_map]
    congr 1
    apply List.filter_congr
    intro i _
    simp
  rw [h1]
  have hnd : ((varsUpTo n).filter (fun v => decide (v ∉ S))).Nodup := (varsUpTo_nodup n).filter _
  rw [← List.sum_toFinset g hnd]
  congr 1
  ext v
  simp [mem_varsUpTo]

/-- What `minWeight` computes on literals in range. -/
theorem LinObjFunc.minWeight_eq (f : LinObjFunc) (n : Nat) (hlen : f.weights.length = 2 * n)
    (lits : List Int) (hr : ∀ l ∈ lits, 1 ≤ |l| ∧ |l| ≤ (n : Int)) :
    f.minWeight lits = f.localMin lits (Finset.Icc (1 : Int) n) := by
  obtain ⟨h1, h2, h3⟩ := LinObjFunc.sumAssigned_spec f n hlen lits hr
  unfold LinObjFunc.minWeight LinObjFunc.localMin
  simp only [h1, h2]
  have hfun : (fun (value : Int) (i : Nat) =>
      if (!(f.sumAssigned lits).2.getD i false) = true then
        value + (if f.get (-(i : Int) - 1) > f.get ((i : Int) + 1) then f.get ((i : Int) + 1)
          else f.get (-(i : Int) - 1))
      else value) =
      (fun (value : Int) (i : Nat) =>
        if (fun i : Nat => !decide (((i : Int) + 1) ∈ litVars lits)) i = true then
          value + (fun i : Nat => f.minOf ((i : Int) + 1)) i else value) := by
    funext value i
    have e : -(i : Int) - 1 = -((i : Int) + 1) := by ring
    simp only [h3 i, LinObjFunc.minOf, e]
  rw [hfun, foldl_cond_add, sum_filter_range_eq n (litVars lits) f.minOf]

/-! ## Costs of assignments and of forced literals -/

theorem LinObjFunc.minOf_le (f : LinObjFunc) (ρ : Int → Bool) (v : Int) :
    f.minOf v ≤ f.get (if ρ v = true then v else -v) := by
  unfold LinObjFunc.minOf
  split_ifs <;> omega

theorem LinObjFunc.sum_minOf_le_cost (f : LinObjFunc) (ρ : Int → Bool) (V : Finset Int) :
    ∑ v ∈ V, f.minOf v ≤ f.cost ρ V :=
  Finset.sum_le_sum fun v _ => f.minOf_le ρ v

theorem LinObjFunc.cost_union (f : LinObjFunc) (ρ : Int → Bool) {V1 V2 : Finset Int}
    (h : Disjoint V1 V2) : f.cost ρ (V1 ∪ V2) = f.cost ρ V1 + f.cost ρ V2 :=
  Finset.sum_union h

theorem LinObjFunc.cost_congr (f : LinObjFunc) {ρ ρ' : Int → Bool} {V : Finset Int}
    (h : ∀ v ∈ V, ρ v = ρ' v) : f.cost ρ V = f.cost ρ' V :=
  Finset.sum_congr rfl fun v hv => by rw [h v hv]

theorem LinObjFunc.cost_cheapAssign (f : LinObjFunc) (V : Finset Int) :
    f.cost f.cheapAssign V = ∑ v ∈ V, f.minOf v := by
  refine Finset.sum_congr rfl fun v _ => ?_
  unfold LinObjFunc.cheapAssign LinObjFunc.minOf
  by_cases h : f.get (-v) > f.get v <;> simp [h]

/-- The cost of an assignment that follows `ρ1` on `V1` and `ρ2` elsewhere. -/
theorem LinObjFunc.cost_glue (f : LinObjFunc) (ρ1 ρ2 : Int → Bool) {V1 V2 : Finset Int}
    (h : Disjoint V1 V2) :
    f.cost (fun v => if v ∈ V1 then ρ1 v else ρ2 v) (V1 ∪ V2) = f.cost ρ1 V1 + f.cost ρ2 V2 := by
  rw [f.cost_union _ h]
  congr 1
  · exact f.cost_congr fun v hv => by simp [hv]
  · exact f.cost_congr fun v hv => by
      have : v ∉ V1 := fun h1 => (Finset.disjoint_left.1 h h1) hv
      simp [this]

theorem LinObjFunc.localMin_mono (f : LinObjFunc) (lits : List Int) {V U : Finset Int}
    (hS : litVars lits ⊆ V) (hVU : V ⊆ U) :
    f.localMin lits U = f.localMin lits V + ∑ v ∈ U \ V, f.minOf v := by
  unfold LinObjFunc.localMin
  have hsplit : U \ litVars lits = (V \ litVars lits) ∪ (U \ V) := by
    ext v
    simp only [Finset.mem_sdiff, Finset.mem_union]
    constructor
    · rintro ⟨hu, hn⟩
      by_cases hv : v ∈ V
      · exact Or.inl ⟨hv, hn⟩
      · exact Or.inr ⟨hu, hv⟩
    · rintro (⟨hv, hn⟩ | ⟨hu, hv⟩)
      · exact ⟨hVU hv, hn⟩
      · exact ⟨hu, fun h => hv (hS h)⟩
  have hdisj : Disjoint (V \ litVars lits) (U \ V) := by
    rw [Finset.disjoint_left]
    intro v h1 h2
    exact (Finset.mem_sdiff.1 h2).2 (Finset.mem_sdiff.1 h1).1
  rw [hsplit, Finset.sum_union hdisj]
  ring

theorem litVars_append (l1 l2 : List Int) : litVars (l1 ++ l2) = litVars l1 ∪ litVars l2 := by
  ext v; simp [litVars]

theorem LinObjFunc.localMin_append (f : LinObjFunc) (l1 l2 : List Int) {V1 V2 : Finset Int}
    (h1 : litVars l1 ⊆ V1) (h2 : litVars l2 ⊆ V2) (hd : Disjoint V1 V2) :
    f.localMin (l1 ++ l2) (V1 ∪ V2) = f.localMin l1 V1 + f.localMin l2 V2 := by
  unfold LinObjFunc.localMin
  have hsplit : (V1 ∪ V2) \ litVars (l1 ++ l2) = (V1 \ litVars l1) ∪ (V2 \ litVars l2) := by
    ext v
    simp only [litVars_append, Finset.mem_sdiff, Finset.mem_union, not_or]
    constructor
    · rintro ⟨hv | hv, hn1, hn2⟩
      · exact Or.inl ⟨hv, hn1⟩
      · exact Or.inr ⟨hv, hn2⟩
    · rintro (⟨hv, hn⟩ | ⟨hv, hn⟩)
      · exact ⟨Or.inl hv, hn, fun h => (Finset.disjoint_left.1 hd hv) (h2 h)⟩
      · exact ⟨Or.inr hv, fun h => (Finset.disjoint_left.1 hd (h1 h)) hv, hn⟩
  have hdisj : Disjoint (V1 \ litVars l1) (V2 \ litVars l2) :=
    hd.mono Finset.sdiff_subset Finset.sdiff_subset
  rw [hsplit, Finset.sum_union hdisj, List.map_append, List.sum_append]
  ring

theorem LinObjFunc.localMin_self (f : LinObjFunc) (lits : List Int) :
    f.localMin lits (litVars lits) = (lits.map f.get).sum := by
  simp [LinObjFunc.localMin]

theorem LinObjFunc.cost_singleton_of_litVal (f : LinObjFunc) (ρ : Int → Bool) (l : Int)
    (h : litVal ρ l = true) : f.cost ρ {|l|} = f.get l := by
  unfold LinObjFunc.cost
  rw [Finset.sum_singleton]
  unfold litVal at h
  rcases lt_trichotomy l 0 with hl | hl | hl
  · have h1 : ¬ l > 0 := by omega
    rw [if_neg h1] at h
    rw [abs_of_neg hl]
    simp only [Bool.not_eq_true'] at h
    simp [h]
  · subst hl; simp
  · rw [if_pos hl] at h
    rw [abs_of_pos hl, if_pos h]

/-- On unit literals of pairwise distinct variables that `ρ` makes true, the cost of `ρ`
is the weight of the literals. -/
theorem LinObjFunc.cost_units (f : LinObjFunc) (ρ : Int → Bool) :
    ∀ (lits : List Int), (lits.map (fun l => ({|l|} : Finset Int))).Pairwise Disjoint →
      lits.all (litVal ρ) = true → f.cost ρ (litVars lits) = (lits.map f.get).sum
  | [], _, _ => by simp [LinObjFunc.cost, litVars]
  | l :: ls, hp, hall => by
    simp only [List.map_cons, List.pairwise_cons] at hp
    simp only [List.all_cons, Bool.and_eq_true] at hall
    have hd : Disjoint ({|l|} : Finset Int) (litVars ls) := by
      rw [Finset.disjoint_left]
      intro v hv hv'
      rcases mem_litVars.1 hv' with ⟨x, hx, e⟩
      have := hp.1 {|x|} (List.mem_map.2 ⟨x, hx, rfl⟩)
      exact (Finset.disjoint_left.1 this hv) (by simp [e])
    rw [litVars_cons, f.cost_union ρ hd, f.cost_singleton_of_litVal ρ l hall.1,
      LinObjFunc.cost_units f ρ ls hp.2 hall.2, List.map_cons, List.sum_cons]

/-- Among the models of a conjunction over disjoint variables a cheapest one is cheapest
for each conjunct. -/
theorem LinObjFunc.Cheapest.and (f : LinObjFunc) {ρ : Int → Bool}
    {φ1 φ2 : (Int → Bool) → Bool} {V1 V2 : Finset Int} (hd : Disjoint V1 V2)
    (h1 : DependsOn φ1 V1) (h2 : DependsOn φ2 V2) (hρ1 : φ1 ρ = true) (hρ2 : φ2 ρ = true)
    (h : f.Cheapest ρ (fun ρ => φ1 ρ && φ2 ρ) (V1 ∪ V2)) :
    f.Cheapest ρ φ1 V1 ∧ f.Cheapest ρ φ2 V2 := by
  constructor
  · intro ρ' hρ'
    have hs := h (fun v => if v ∈ V1 then ρ' v else ρ v) (by
      simp only [Bool.and_eq_true]
      constructor
      · rw [h1 _ ρ' (fun v hv => by simp [hv])]; exact hρ'
      · rw [h2 _ ρ (fun v hv => by
          have : v ∉ V1 := fun hh => (Finset.disjoint_left.1 hd hh) hv
          simp [this])]
        exact hρ2)
    rw [f.cost_glue ρ' ρ hd, f.cost_union ρ hd] at hs
    omega
  · intro ρ' hρ'
    have hd' : Disjoint V2 V1 := hd.symm
    have hs := h (fun v => if v ∈ V2 then ρ' v else ρ v) (by
      simp only [Bool.and_eq_true]
      constructor
      · rw [h1 _ ρ (fun v hv => by
          have : v ∉ V2 := fun hh => (Finset.disjoint_left.1 hd hv) hh
          simp [this])]
        exact hρ1
      · rw [h2 _ ρ' (fun v hv => by simp [hv])]; exact hρ')
    rw [Finset.union_comm V1 V2, f.cost_glue ρ' ρ hd', f.cost_union ρ hd'] at hs
    omega

/-- A model of `φ` lifted to the variables `U`: it follows `ρ'` on `V` and takes the
cheaper literal elsewhere. -/
theorem LinObjFunc.cost_lift (f : LinObjFunc) (ρ' : Int → Bool) {V U : Finset Int}
    (hVU : V ⊆ U) :
    f.cost (fun v => if v ∈ V then ρ' v else f.cheapAssign v) U =
      f.cost ρ' V + ∑ v ∈ U \ V, f.minOf v := by
  have hU : U = V ∪ (U \ V) := (Finset.union_sdiff_of_subset hVU).symm
  have hd : Disjoint V (U \ V) := Finset.disjoint_sdiff
  conv_lhs => rw [hU]
  rw [f.cost_glue ρ' f.cheapAssign hd, f.cost_cheapAssign]

theorem LinObjFunc.cost_sdiff (f : LinObjFunc) (ρ : Int → Bool) {V U : Finset Int}
    (hVU : V ⊆ U) : f.cost ρ U = f.cost ρ V + f.cost ρ (U \ V) := by
  have hU : U = V ∪ (U \ V) := (Finset.union_sdiff_of_subset hVU).symm
  conv_lhs => rw [hU]
  exact f.cost_union ρ Finset.disjoint_sdiff

/-- A cheapest model of a disjunction that satisfies one disjunct is cheapest for it and
takes cheaper literals on the variables the disjunct does not mention. -/
theorem LinObjFunc.Cheapest.or_branch (f : LinObjFunc) {ρ : Int → Bool}
    {φ ψ : (Int → Bool) → Bool} {V U : Finset Int} (hVU : V ⊆ U) (hφ : DependsOn φ V)
    (himp : ∀ ρ', φ ρ' = true → ψ ρ' = true) (hρ : φ ρ = true) (h : f.Cheapest ρ ψ U) :
    f.Cheapest ρ φ V ∧ f.cost ρ (U \ V) = ∑ v ∈ U \ V, f.minOf v := by
  have lift : ∀ ρ', φ ρ' = true →
      f.cost ρ V + f.cost ρ (U \ V) ≤ f.cost ρ' V + ∑ v ∈ U \ V, f.minOf v := by
    intro ρ' hρ'
    have hs := h (fun v => if v ∈ V then ρ' v else f.cheapAssign v) (himp _ (by
      rw [hφ _ ρ' (fun v hv => by simp [hv])]; exact hρ'))
    rw [f.cost_lift ρ' hVU, f.cost_sdiff ρ hVU] at hs
    exact hs
  have hge := f.sum_minOf_le_cost ρ (U \ V)
  refine ⟨fun ρ' hρ' => ?_, ?_⟩
  · have := lift ρ' hρ'
    omega
  · have := lift ρ hρ
    omega

theorem CompactModel.ofFun_value (n : Nat) (ρ : Int → Bool) (v : Int)
    (hv : 1 ≤ v ∧ v ≤ (n : Int)) : (CompactModel.ofFun n ρ).value v = ρ v := by
  unfold CompactModel.value CompactModel.ofFun vecGet
  obtain ⟨k, hk⟩ : ∃ k : Nat, v - 1 = (k : Int) := ⟨(v - 1).toNat, by omega⟩
  have hkn : k < n := by omega
  have hv' : v = (k : Int) + 1 := by omega
  simp only [hk, Int.toNat_ofNat, Int.ofNat_nonneg, if_true, List.getD_eq_getElem?_getD]
  rw [List.getElem?_map, List.getElem?_range hkn]
  simp [hv']

theorem LinObjFunc.value_eq_cost (f : LinObjFunc) (n : Nat) (ρ : Int → Bool) :
    f.value n ρ = f.cost ρ (Finset.Icc (1 : Int) n) := by
  unfold LinObjFunc.value LinObjFunc.cost
  rw [← List.sum_toFinset _ (varsUpTo_nodup n), varsUpTo_toFinset]

/-! ## `keepBoundedWeightModels` keeps the cheapest models -/

theorem LinObjFunc.restMin_split (f : LinObjFunc) (n : Nat) {V U : Finset Int} (hVU : V ⊆ U)
    (hU : U ⊆ Finset.Icc (1 : Int) n) :
    f.restMin n V = ∑ v ∈ U \ V, f.minOf v + f.restMin n U := by
  unfold LinObjFunc.restMin
  have hsplit : Finset.Icc (1 : Int) n \ V = (U \ V) ∪ (Finset.Icc (1 : Int) n \ U) := by
    ext v
    simp only [Finset.mem_sdiff, Finset.mem_union]
    constructor
    · rintro ⟨hi, hn⟩
      by_cases hu : v ∈ U
      · exact Or.inl ⟨hu, hn⟩
      · exact Or.inr ⟨hi, hu⟩
    · rintro (⟨hu, hn⟩ | ⟨hi, hu⟩)
      · exact ⟨hU hu, hn⟩
      · exact ⟨hi, fun h => hu (hVU h)⟩
  have hdisj : Disjoint (U \ V) (Finset.Icc (1 : Int) n \ U) := by
    rw [Finset.disjoint_left]
    intro v h1 h2
    exact (Finset.mem_sdiff.1 h2).2 (Finset.mem_sdiff.1 h1).1
  rw [hsplit, Finset.sum_union hdisj]

theorem LinObjFunc.full_mono (f : LinObjFunc) (n : Nat) (ρ : Int → Bool) {V U : Finset Int}
    (hVU : V ⊆ U) (hU : U ⊆ Finset.Icc (1 : Int) n) :
    f.cost ρ V + f.restMin n V ≤ f.cost ρ U + f.restMin n U := by
  rw [f.restMin_split n hVU hU, f.cost_sdiff ρ hVU]
  have := f.sum_minOf_le_cost ρ (U \ V)
  omega

theorem LinObjFunc.minWeight_eq_localMin_add (f : LinObjFunc) (n : Nat)
    (hlen : f.weights.length = 2 * n) (lits : List Int) {V : Finset Int}
    (hS : litVars lits ⊆ V) (hV : V ⊆ Finset.Icc (1 : Int) n) :
    f.minWeight lits = f.localMin lits V + f.restMin n V := by
  rw [f.minWeight_eq n hlen lits (fun l hl => by
    have := hV (hS (mem_litVars.2 ⟨l, hl, rfl⟩))
    exact Finset.mem_Icc.1 this), f.localMin_mono lits hS hV]
  rfl

theorem isFalseNode_falseNode : falseNode.isFalseNode = true := rfl

theorem LinObjFunc.KeepSpec.ofFalse (f : LinObjFunc) (bound : Int) (n : Nat) (a : Nat) :
    f.KeepSpec bound n (Node.falseNode a) [] falseNode where
  sub := by simp [litVars]
  real := by intro h; simp [isFalseNode_falseNode] at h
  keep := by intro ρ h; simp [Node.eval] at h

theorem LinObjFunc.keepSpec_true (f : LinObjFunc) (bound : Int) (n : Nat)
    (hlen : f.weights.length = 2 * n) (a next : Nat) :
    f.KeepSpec bound n (Node.trueNode a) (f.keepBoundedNode bound (Node.trueNode a) next).1.1
      (f.keepBoundedNode bound (Node.trueNode a) next).1.2 := by
  have hmw := f.minWeight_eq_localMin_add n hlen [] (V := ∅) (by simp [litVars])
    (Finset.empty_subset _)
  simp only [LinObjFunc.keepBoundedNode]
  by_cases hb : f.minWeight [] ≤ bound
  · rw [if_pos hb]
    refine ⟨by simp [litVars], fun _ => ⟨fun _ => true, rfl, ?_⟩, fun ρ _ _ _ => ⟨rfl, rfl, ?_⟩⟩
    · simp [Node.vars, LinObjFunc.cost, LinObjFunc.localMin, litVars]
    · simp [Node.vars, LinObjFunc.cost, LinObjFunc.localMin, litVars]
  · rw [if_neg hb]
    refine ⟨by simp [LinObjFunc.makeFalseNodePair, litVars], fun h => ?_, fun ρ _ _ hbd => ?_⟩
    · simp [LinObjFunc.makeFalseNodePair, isFalseNode_falseNode] at h
    · exfalso
      apply hb
      rw [hmw]
      simp only [Node.vars, LinObjFunc.cost, Finset.sum_empty, zero_add] at hbd
      simp only [LinObjFunc.localMin, List.map_nil, List.sum_nil, litVars, List.toFinset_nil,
        Finset.sdiff_empty, Finset.sum_empty, zero_add]
      exact hbd

theorem LinObjFunc.keepSpec_lit (f : LinObjFunc) (bound : Int) (n : Nat)
    (hlen : f.weights.length = 2 * n) (a next : Nat) (l : Int) (hl : Node.litInRange n l) :
    f.KeepSpec bound n (Node.litNode a l) (f.keepBoundedNode bound (Node.litNode a l) next).1.1
      (f.keepBoundedNode bound (Node.litNode a l) next).1.2 := by
  have hV : ({|l|} : Finset Int) ⊆ Finset.Icc (1 : Int) n := by
    rw [Finset.singleton_subset_iff, Finset.mem_Icc]; exact hl
  have hlv : litVars [l] = {|l|} := by simp [litVars]
  have hmw := f.minWeight_eq_localMin_add n hlen [l] (V := {|l|}) (by rw [hlv]) hV
  have hloc : f.localMin [l] {|l|} = f.get l := by
    rw [← hlv, f.localMin_self]; simp
  simp only [LinObjFunc.keepBoundedNode]
  by_cases hb : f.minWeight [l] ≤ bound
  · rw [if_pos hb]
    refine ⟨by simp [Node.vars, hlv], fun _ => ⟨fun _ => decide (l > 0), ?_, ?_⟩,
      fun ρ hρ _ _ => ⟨rfl, ?_, ?_⟩⟩
    · simp only [Node.eval, litVal]
      by_cases hp : l > 0 <;> simp [hp]
    · simp only [Node.vars]
      rw [hloc]
      apply f.cost_singleton_of_litVal
      simp only [litVal]
      by_cases hp : l > 0 <;> simp [hp]
    · simpa [Node.eval] using hρ
    · simp only [Node.vars]
      rw [hloc]
      exact (f.cost_singleton_of_litVal ρ l (by simpa [Node.eval] using hρ)).symm
  · rw [if_neg hb]
    refine ⟨by simp [LinObjFunc.makeFalseNodePair, litVars], fun h => ?_, fun ρ hρ _ hbd => ?_⟩
    · simp [LinObjFunc.makeFalseNodePair, isFalseNode_falseNode] at h
    · exfalso
      apply hb
      rw [hmw, hloc]
      simp only [Node.vars] at hbd
      rw [f.cost_singleton_of_litVal ρ l (by simpa [Node.eval] using hρ)] at hbd
      exact hbd

theorem Node.vars_orNode_nil (a : Nat) (x : Int) (c0 c1 : Node) (s : Finset Int) :
    (Node.orNode a x [] c0 [] c1 s).vars = c0.vars ∪ c1.vars := by
  simp [Node.vars, litVars]

theorem Node.eval_orNode_nil (ρ : Int → Bool) (a : Nat) (x : Int) (c0 c1 : Node)
    (s : Finset Int) :
    Node.eval ρ (Node.orNode a x [] c0 [] c1 s) = (Node.eval ρ c0 || Node.eval ρ c1) := by
  simp [Node.eval]

/-- One branch of an Or node in `keepBoundedWeightModelsOrRooted`. -/
theorem LinObjFunc.orBranch_spec (f : LinObjFunc) (bound : Int) (n : Nat)
    (hlen : f.weights.length = 2 * n) (c : Node) (φ : (Int → Bool) → Bool) (V : Finset Int)
    (q : VecNodePair) (hcV : c.vars ⊆ V) (hV : V ⊆ Finset.Icc (1 : Int) n)
    (himp : ∀ ρ, Node.eval ρ c = true → φ ρ = true) (k : f.KeepSpec bound n c q.1 q.2) :
    litVars (if f.minWeight q.1 > bound then LinObjFunc.makeFalseNodePair else q).1 ⊆ V ∧
    ((if f.minWeight q.1 > bound then LinObjFunc.makeFalseNodePair else q).2.isFalseNode = false →
      f.minWeight (if f.minWeight q.1 > bound then LinObjFunc.makeFalseNodePair else q).1 =
        f.localMin (if f.minWeight q.1 > bound then LinObjFunc.makeFalseNodePair else q).1 V +
          f.restMin n V ∧
      ∃ ρ', φ ρ' = true ∧ f.cost ρ' V =
        f.localMin (if f.minWeight q.1 > bound then LinObjFunc.makeFalseNodePair else q).1 V) ∧
    (∀ ρ, Node.eval ρ c = true → f.Cheapest ρ φ V → f.cost ρ V + f.restMin n V ≤ bound →
      (if f.minWeight q.1 > bound then LinObjFunc.makeFalseNodePair else q).2.isFalseNode = false ∧
      Node.eval ρ (if f.minWeight q.1 > bound then LinObjFunc.makeFalseNodePair else q).2 = true ∧
      f.localMin (if f.minWeight q.1 > bound then LinObjFunc.makeFalseNodePair else q).1 V =
        f.cost ρ V) := by
  have hcI : c.vars ⊆ Finset.Icc (1 : Int) n := hcV.trans hV
  have hmwc := f.minWeight_eq_localMin_add n hlen q.1 k.sub hcI
  have hlocV := f.localMin_mono q.1 k.sub hcV
  by_cases hb : f.minWeight q.1 > bound
  · simp only [if_pos hb]
    refine ⟨by simp [LinObjFunc.makeFalseNodePair, litVars], fun h => ?_, fun ρ hρ hch hbd => ?_⟩
    · simp [LinObjFunc.makeFalseNodePair, isFalseNode_falseNode] at h
    · exfalso
      obtain ⟨hch', -⟩ := LinObjFunc.Cheapest.or_branch f hcV c.dependsOn_eval himp hρ hch
      have hfull := f.full_mono n ρ hcV hV
      have := (k.keep ρ hρ hch' (by omega)).2.2
      omega
  · simp only [if_neg hb]
    refine ⟨k.sub.trans hcV, fun h => ⟨?_, ?_⟩, fun ρ hρ hch hbd => ?_⟩
    · exact f.minWeight_eq_localMin_add n hlen q.1 (k.sub.trans hcV) hV
    · obtain ⟨ρ', hρ', hcost⟩ := k.real h
      refine ⟨fun v => if v ∈ c.vars then ρ' v else f.cheapAssign v, himp _ ?_, ?_⟩
      · rw [Node.eval_congr _ ρ' c (fun v hv => by simp [hv])]; exact hρ'
      · rw [f.cost_lift ρ' hcV, hcost, hlocV]
    · obtain ⟨hch', hrest⟩ := LinObjFunc.Cheapest.or_branch f hcV c.dependsOn_eval himp hρ hch
      have hfull := f.full_mono n ρ hcV hV
      obtain ⟨h1, h2, h3⟩ := k.keep ρ hρ hch' (by omega)
      refine ⟨h1, h2, ?_⟩
      rw [hlocV, h3, ← hrest, ← f.cost_sdiff ρ hcV]

theorem LinObjFunc.orSelect_spec (f : LinObjFunc) (bound : Int) (n : Nat)
    (hlen : f.weights.length = 2 * n) (a : Nat) (x : Int) (s : Finset Int) (c0 c1 : Node)
    (addr : Nat) (q0 q1 : VecNodePair) (hV0 : c0.vars ⊆ Finset.Icc (1 : Int) n)
    (hV1 : c1.vars ⊆ Finset.Icc (1 : Int) n) (k0 : f.KeepSpec bound n c0 q0.1 q0.2)
    (k1 : f.KeepSpec bound n c1 q1.1 q1.2) :
    f.KeepSpec bound n (Node.orNode a x [] c0 [] c1 s) (f.orSelect bound x addr q0 q1).1
      (f.orSelect bound x addr q0 q1).2 := by
  have hV : c0.vars ∪ c1.vars ⊆ Finset.Icc (1 : Int) n := Finset.union_subset hV0 hV1
  have b0 := f.orBranch_spec bound n hlen c0
    (fun ρ => Node.eval ρ (Node.orNode a x [] c0 [] c1 s)) (c0.vars ∪ c1.vars) q0
    Finset.subset_union_left hV (fun ρ h => by
      show Node.eval ρ (Node.orNode a x [] c0 [] c1 s) = true
      rw [Node.eval_orNode_nil, h]; rfl) k0
  have b1 := f.orBranch_spec bound n hlen c1
    (fun ρ => Node.eval ρ (Node.orNode a x [] c0 [] c1 s)) (c0.vars ∪ c1.vars) q1
    Finset.subset_union_right hV (fun ρ h => by
      show Node.eval ρ (Node.orNode a x [] c0 [] c1 s) = true
      rw [Node.eval_orNode_nil, h]; simp) k1
  unfold LinObjFunc.orSelect LinObjFunc.KeepSpec
  simp only
  generalize (if f.minWeight q0.1 > bound then LinObjFunc.makeFalseNodePair else q0) = p0 at b0 ⊢
  generalize (if f.minWeight q1.1 > bound then LinObjFunc.makeFalseNodePair else q1) = p1 at b1 ⊢
  obtain ⟨s0, r0, kp0⟩ := b0
  obtain ⟨s1, r1, kp1⟩ := b1
  rw [Node.vars_orNode_nil]
  by_cases f0 : p0.2.isFalseNode = true
  · -- the first branch is gone
    rw [if_pos f0]
    refine ⟨s1, fun h => (r1 h).2, fun ρ hρ hch hbd => ?_⟩
    rw [Node.eval_orNode_nil, Bool.or_eq_true] at hρ
    rcases hρ with h | h
    · have := (kp0 ρ h hch hbd).1
      rw [f0] at this
      exact Bool.noConfusion this
    · exact kp1 ρ h hch hbd
  · rw [if_neg f0]
    have f0' : p0.2.isFalseNode = false := by simpa using f0
    by_cases f1 : p1.2.isFalseNode = true
    · rw [if_pos f1]
      refine ⟨s0, fun h => (r0 h).2, fun ρ hρ hch hbd => ?_⟩
      rw [Node.eval_orNode_nil, Bool.or_eq_true] at hρ
      rcases hρ with h | h
      · exact kp0 ρ h hch hbd
      · have := (kp1 ρ h hch hbd).1
        rw [f1] at this
        exact Bool.noConfusion this
    · rw [if_neg f1]
      have f1' : p1.2.isFalseNode = false := by simpa using f1
      obtain ⟨mw0, ρ0, hρ0, hc0⟩ := r0 f0'
      obtain ⟨mw1, ρ1, hρ1, hc1⟩ := r1 f1'
      by_cases g01 : f.minWeight p0.1 > f.minWeight p1.1
      · rw [if_pos g01]
        refine ⟨s1, fun h => (r1 h).2, fun ρ hρ hch hbd => ?_⟩
        rw [Node.eval_orNode_nil, Bool.or_eq_true] at hρ
        rcases hρ with h | h
        · exfalso
          have e0 := (kp0 ρ h hch hbd).2.2
          have hle := hch ρ1 hρ1
          omega
        · exact kp1 ρ h hch hbd
      · rw [if_neg g01]
        by_cases g10 : f.minWeight p1.1 > f.minWeight p0.1
        · rw [if_pos g10]
          refine ⟨s0, fun h => (r0 h).2, fun ρ hρ hch hbd => ?_⟩
          rw [Node.eval_orNode_nil, Bool.or_eq_true] at hρ
          rcases hρ with h | h
          · exact kp0 ρ h hch hbd
          · exfalso
            have e1 := (kp1 ρ h hch hbd).2.2
            have hle := hch ρ0 hρ0
            omega
        · rw [if_neg g10]
          refine ⟨s0, fun _ => ⟨ρ0, hρ0, hc0⟩, fun ρ hρ hch hbd => ⟨rfl, ?_, ?_⟩⟩
          · rw [Node.eval_orNode_nil, Bool.or_eq_true] at hρ
            rw [Node.eval_orNode_nil, Bool.or_eq_true]
            rcases hρ with h | h
            · exact Or.inl (kp0 ρ h hch hbd).2.1
            · exact Or.inr (kp1 ρ h hch hbd).2.1
          · show f.localMin p0.1 (c0.vars ∪ c1.vars) = f.cost ρ (c0.vars ∪ c1.vars)
            rw [Node.eval_orNode_nil, Bool.or_eq_true] at hρ
            rcases hρ with h | h
            · exact (kp0 ρ h hch hbd).2.2
            · have e1 := (kp1 ρ h hch hbd).2.2
              have hle := hch ρ0 hρ0
              omega

/-! ## The recursion of `keepBoundedWeightModels` -/

theorem DependsOn.conj {φ1 φ2 : (Int → Bool) → Bool} {V1 V2 : Finset Int}
    (h1 : DependsOn φ1 V1) (h2 : DependsOn φ2 V2) :
    DependsOn (fun ρ => φ1 ρ && φ2 ρ) (V1 ∪ V2) := by
  intro ρ ρ' h
  show (φ1 ρ && φ2 ρ) = (φ1 ρ' && φ2 ρ')
  rw [h1 ρ ρ' (fun v hv => h v (Finset.mem_union_left _ hv)),
    h2 ρ ρ' (fun v hv => h v (Finset.mem_union_right _ hv))]

/-- A cheapest model of a decomposable conjunction within the bound is a cheapest model
of each conjunct within the bound. -/
theorem LinObjFunc.Cheapest.and_bound (f : LinObjFunc) (n : Nat) {bound : Int}
    {ρ : Int → Bool} {φ1 φ2 : (Int → Bool) → Bool} {V1 V2 : Finset Int}
    (hd : Disjoint V1 V2) (h1 : DependsOn φ1 V1) (h2 : DependsOn φ2 V2)
    (hV : V1 ∪ V2 ⊆ Finset.Icc (1 : Int) n) (hρ : (φ1 ρ && φ2 ρ) = true)
    (h : f.Cheapest ρ (fun ρ => φ1 ρ && φ2 ρ) (V1 ∪ V2))
    (hbd : f.cost ρ (V1 ∪ V2) + f.restMin n (V1 ∪ V2) ≤ bound) :
    (φ1 ρ = true ∧ f.Cheapest ρ φ1 V1 ∧ f.cost ρ V1 + f.restMin n V1 ≤ bound) ∧
      (φ2 ρ = true ∧ f.Cheapest ρ φ2 V2 ∧ f.cost ρ V2 + f.restMin n V2 ≤ bound) := by
  rw [Bool.and_eq_true] at hρ
  obtain ⟨c1, c2⟩ := LinObjFunc.Cheapest.and f hd h1 h2 hρ.1 hρ.2 h
  have m1 := f.full_mono n ρ (Finset.subset_union_left : V1 ⊆ V1 ∪ V2) hV
  have m2 := f.full_mono n ρ (Finset.subset_union_right : V2 ⊆ V1 ∪ V2) hV
  exact ⟨⟨hρ.1, c1, by omega⟩, ⟨hρ.2, c2, by omega⟩⟩

/-- The conjuncts of a decomposable And: its unit literals are literals of distinct
variables, none of them a variable of a child, and the children are pairwise disjoint. -/
theorem conjunctVars_split : ∀ (ls : List Int) (cs : List Node),
    (Node.conjunctVars ls cs).Pairwise Disjoint →
      (ls.map (fun l => ({|l|} : Finset Int))).Pairwise Disjoint ∧
        Disjoint (litVars ls) (Node.varsAll cs) ∧ (Node.conjunctVars [] cs).Pairwise Disjoint
  | [], cs, h => ⟨List.Pairwise.nil, by simp [litVars], h⟩
  | l :: ls, cs, h => by
    obtain ⟨hd, hp⟩ := pairwise_conjunctVars_cons_unit h
    obtain ⟨i1, i2, i3⟩ := conjunctVars_split ls cs hp
    rw [Finset.disjoint_union_right] at hd
    refine ⟨?_, ?_, i3⟩
    · rw [List.map_cons, List.pairwise_cons]
      refine ⟨fun b hb => ?_, i1⟩
      obtain ⟨l', hl', rfl⟩ := List.mem_map.1 hb
      rw [Finset.disjoint_left]
      intro v hv hv'
      rw [Finset.mem_singleton] at hv hv'
      exact Finset.disjoint_left.1 hd.1 (Finset.mem_singleton.2 hv)
        (mem_litVars.2 ⟨l', hl', hv'.symm⟩)
    · rw [litVars_cons, Finset.disjoint_union_left]
      exact ⟨hd.2, i2⟩

/-- Unit literals of distinct variables can all be made true. -/
theorem units_consistent (n : Nat) : ∀ (ls : List Int), (∀ l ∈ ls, Node.litInRange n l) →
    (ls.map (fun l => ({|l|} : Finset Int))).Pairwise Disjoint →
      ∃ ρ : Int → Bool, ls.all (litVal ρ) = true
  | [], _, _ => ⟨fun _ => true, rfl⟩
  | l :: ls, hr, hp => by
    rw [List.map_cons, List.pairwise_cons] at hp
    obtain ⟨ρ, hρ⟩ := units_consistent n ls (fun x hx => hr x (List.mem_cons_of_mem _ hx)) hp.2
    have hl : 1 ≤ |l| := (hr l (List.mem_cons_self _ _)).1
    refine ⟨fun v => if v = |l| then decide (l > 0) else ρ v, ?_⟩
    rw [List.all_cons, Bool.and_eq_true]
    constructor
    · unfold litVal
      by_cases hpos : l > 0
      · simp [hpos, abs_of_pos hpos]
      · have hneg : l < 0 := by
          rcases lt_trichotomy l 0 with h | h | h
          · exact h
          · subst h; simp at hl
          · exact absurd h hpos
        simp [hpos, abs_of_neg hneg]
    · rw [List.all_eq_true] at hρ ⊢
      intro x hx
      rw [← hρ x hx]
      apply litVal_congr
      have hne : |x| ≠ |l| := by
        intro e
        have := hp.1 {|x|} (List.mem_map.2 ⟨x, hx, rfl⟩)
        rw [Finset.disjoint_singleton, e] at this
        exact this rfl
      simp [hne]

theorem Node.evalAll_append (ρ : Int → Bool) : ∀ (cs ds : List Node),
    Node.evalAll ρ (cs ++ ds) = (Node.evalAll ρ cs && Node.evalAll ρ ds)
  | [], ds => by simp [Node.evalAll]
  | c :: cs, ds => by
    show (Node.eval ρ c && Node.evalAll ρ (cs ++ ds)) = _
    rw [Node.evalAll_append ρ cs ds]
    simp only [Node.evalAll, Bool.and_assoc]

theorem Node.eval_andNode_snoc (ρ : Int → Bool) (a : Nat) (cs : List Node) (c : Node)
    (u : List Int) (s : Finset Int) :
    Node.eval ρ (Node.andNode a (cs ++ [c]) u s) =
      (Node.eval ρ (Node.andNode a cs u s) && Node.eval ρ c) := by
  simp only [Node.eval, Node.evalAll_append, Node.evalAll, Bool.and_true, Bool.and_assoc]

/-- On an Or node without unit literals on its branches, `keepBoundedWeightModelsOrRooted`
is the selection `orSelect` between the results for the two children. -/
theorem LinObjFunc.keepBoundedNode_orNode_nil (f : LinObjFunc) (bound : Int) (a : Nat)
    (x : Int) (c0 c1 : Node) (s : Finset Int) (next : Nat) :
    (f.keepBoundedNode bound (Node.orNode a x [] c0 [] c1 s) next).1 =
      f.orSelect bound x (f.keepBoundedNode bound c1 (f.keepBoundedNode bound c0 next).2).2
        (f.keepBoundedNode bound c0 next).1
        (f.keepBoundedNode bound c1 (f.keepBoundedNode bound c0 next).2).1 := by
  simp only [LinObjFunc.keepBoundedNode, LinObjFunc.orSelect, List.length_nil, gt_iff_lt,
    lt_self_iff_false, if_false]
  split_ifs <;> rfl

mutual
/-- The pair `keepBoundedWeightModels(n, bound)` returns for a node meets `KeepSpec`. -/
theorem LinObjFunc.keepBoundedNode_spec (f : LinObjFunc) (bound : Int) (n : Nat)
    (hlen : f.weights.length = 2 * n) :
    ∀ (c : Node) (next : Nat), c.NoOrUnits → c.Decomposable → c.LitsInRange n →
      f.KeepSpec bound n c (f.keepBoundedNode bound c next).1.1
        (f.keepBoundedNode bound c next).1.2
  | .falseNode a, next, _, _, _ => by
    simp only [LinObjFunc.keepBoundedNode]
    exact LinObjFunc.KeepSpec.ofFalse f bound n a
  | .trueNode a, next, _, _, _ => f.keepSpec_true bound n hlen a next
  | .litNode a l, next, _, _, hl => f.keepSpec_lit bound n hlen a next l hl
  | .orNode a x u0 c0 u1 c1 s, next, hno, hdec, hlr => by
    simp only [Node.NoOrUnits] at hno
    simp only [Node.Decomposable] at hdec
    simp only [Node.LitsInRange] at hlr
    obtain ⟨e0, e1, hn0, hn1⟩ := hno
    subst e0 e1
    have k0 := LinObjFunc.keepBoundedNode_spec f bound n hlen c0 next hn0 hdec.2.2.1 hlr.2.1
    have k1 := LinObjFunc.keepBoundedNode_spec f bound n hlen c1
      (f.keepBoundedNode bound c0 next).2 hn1 hdec.2.2.2 hlr.2.2.2
    rw [f.keepBoundedNode_orNode_nil]
    exact f.orSelect_spec bound n hlen a x s c0 c1 _ _ _ (Node.vars_subset_range n c0 hlr.2.1)
      (Node.vars_subset_range n c1 hlr.2.2.2) k0 k1
  | .andNode a cs u s, next, hno, hdec, hlr => by
    simp only [Node.NoOrUnits] at hno
    simp only [Node.Decomposable] at hdec
    simp only [Node.LitsInRange] at hlr
    obtain ⟨hpu, hdW, hpc⟩ := conjunctVars_split u cs hdec.1
    obtain ⟨ρu, hρu⟩ := units_consistent n u hlr.1 hpu
    have hloop := LinObjFunc.keepBoundedAndLoop_spec f bound n hlen cs u u [] next (next + 1)
      (fun ρ => u.all (litVal ρ)) (litVars u) hno hdec.2 hlr.2 hpc hdW
      (mem_litVars_range hlr.1) (dependsOn_all_litVal u) (Finset.Subset.refl _)
      ⟨ρu, hρu, by rw [f.localMin_self, f.cost_units ρu u hpu hρu]⟩
      (fun ρ hρ _ _ => ⟨by simp only [Node.eval, Node.evalAll, Bool.and_true]; exact hρ,
        by rw [f.localMin_self, f.cost_units ρ u hpu hρ]⟩)
    simp only [LinObjFunc.keepBoundedNode]
    exact hloop
/-- The loop of `keepBoundedWeightModelsAndRooted`: `φ` over `W` is the part of the
conjunction the loop has gone through. -/
theorem LinObjFunc.keepBoundedAndLoop_spec (f : LinObjFunc) (bound : Int) (n : Nat)
    (hlen : f.weights.length = 2 * n) :
    ∀ (cs : List Node) (unitLits assigns : List Int) (newChildren : List Node)
      (addr next : Nat) (φ : (Int → Bool) → Bool) (W : Finset Int),
      Node.NoOrUnitsAll cs → Node.DecomposableAll cs → Node.LitsInRangeAll n cs →
      (Node.conjunctVars [] cs).Pairwise Disjoint → Disjoint W (Node.varsAll cs) →
      W ⊆ Finset.Icc (1 : Int) n → DependsOn φ W → litVars assigns ⊆ W →
      (∃ ρ' : Int → Bool, φ ρ' = true ∧ f.cost ρ' W = f.localMin assigns W) →
      (∀ ρ : Int → Bool, φ ρ = true → f.Cheapest ρ φ W →
        f.cost ρ W + f.restMin n W ≤ bound →
        Node.eval ρ (Node.andNode addr newChildren unitLits ∅) = true ∧
          f.localMin assigns W = f.cost ρ W) →
      f.KeepOn bound n (fun ρ => φ ρ && Node.evalAll ρ cs) (W ∪ Node.varsAll cs)
        (f.keepBoundedAndLoop bound cs unitLits assigns newChildren addr next).1.1
        (f.keepBoundedAndLoop bound cs unitLits assigns newChildren addr next).1.2
  | [], unitLits, assigns, newChildren, addr, next, φ, W, _, _, _, _, _, hW, _, hsub, hreal,
      hkeep => by
    have hmw := f.minWeight_eq_localMin_add n hlen assigns hsub hW
    have hV : W ∪ Node.varsAll [] = W := by simp [Node.varsAll]
    have hφe : (fun ρ => φ ρ && Node.evalAll ρ []) = φ := by funext ρ; simp [Node.evalAll]
    rw [hV, hφe]
    simp only [LinObjFunc.keepBoundedAndLoop]
    by_cases hb : f.minWeight assigns ≤ bound
    · rw [if_pos hb]
      exact ⟨hsub, fun _ => hreal, fun ρ hρ hch hbd => ⟨rfl, hkeep ρ hρ hch hbd⟩⟩
    · rw [if_neg hb]
      refine ⟨by simp [LinObjFunc.makeFalseNodePair, litVars], fun h => ?_,
        fun ρ hρ hch hbd => ?_⟩
      · simp [LinObjFunc.makeFalseNodePair, isFalseNode_falseNode] at h
      · exfalso
        have := (hkeep ρ hρ hch hbd).2
        omega
  | child :: rest, unitLits, assigns, newChildren, addr, next, φ, W, hno, hdec, hlr, hpw,
      hdis, hW, hφ, hsub, hreal, hkeep => by
    simp only [Node.NoOrUnitsAll] at hno
    simp only [Node.DecomposableAll] at hdec
    simp only [Node.LitsInRangeAll] at hlr
    have k := LinObjFunc.keepBoundedNode_spec f bound n hlen child next hno.1 hdec.1 hlr.1
    have ih := LinObjFunc.keepBoundedAndLoop_spec f bound n hlen rest unitLits
    obtain ⟨hcr, hpw'⟩ := pairwise_conjunctVars_cons_child hpw
    simp only [Node.varsAll, Finset.disjoint_union_right] at hdis
    obtain ⟨hWc, hWr⟩ := hdis
    have hcI := Node.vars_subset_range n child hlr.1
    have hrI := Node.varsAll_subset_range n rest hlr.2
    have hWcI : W ∪ child.vars ⊆ Finset.Icc (1 : Int) n := Finset.union_subset hW hcI
    have hφc : DependsOn (fun ρ => φ ρ && Node.eval ρ child) (W ∪ child.vars) :=
      hφ.conj child.dependsOn_eval
    have hV : W ∪ Node.varsAll (child :: rest) = (W ∪ child.vars) ∪ Node.varsAll rest := by
      simp only [Node.varsAll, Finset.union_assoc]
    have hφe : (fun ρ => φ ρ && Node.evalAll ρ (child :: rest)) =
        (fun ρ => (φ ρ && Node.eval ρ child) && Node.evalAll ρ rest) := by
      funext ρ; simp only [Node.evalAll, Bool.and_assoc]
    have hdr : Disjoint (W ∪ child.vars) (Node.varsAll rest) := by
      rw [Finset.disjoint_union_left]; exact ⟨hWr, hcr⟩
    rw [hV, hφe]
    simp only [LinObjFunc.keepBoundedAndLoop]
    generalize f.keepBoundedNode bound child next = r at k ⊢
    by_cases hf : r.1.2.isFalseNode = true
    · rw [if_pos hf]
      refine ⟨by simp [LinObjFunc.makeFalseNodePair, litVars], fun h => ?_,
        fun ρ hρ hch hbd => ?_⟩
      · simp [LinObjFunc.makeFalseNodePair, isFalseNode_falseNode] at h
      · exfalso
        obtain ⟨⟨a1, a2, a3⟩, -⟩ := LinObjFunc.Cheapest.and_bound f n hdr hφc
          (Node.dependsOn_evalAll rest) (Finset.union_subset hWcI hrI) hρ hch hbd
        obtain ⟨-, ⟨b1, b2, b3⟩⟩ := LinObjFunc.Cheapest.and_bound f n hWc hφ
          child.dependsOn_eval hWcI a1 a2 a3
        have := (k.keep ρ b1 b2 b3).1
        rw [hf] at this
        exact Bool.noConfusion this
    · rw [if_neg hf]
      have hf' : r.1.2.isFalseNode = false := by simpa using hf
      refine ih (assigns ++ r.1.1) (newChildren ++ [r.1.2]) addr r.2
        (fun ρ => φ ρ && Node.eval ρ child) (W ∪ child.vars) hno.2 hdec.2 hlr.2 hpw' hdr hWcI
        hφc ?_ ?_ ?_
      · rw [litVars_append]
        exact Finset.union_subset_union hsub k.sub
      · obtain ⟨ρ1, h1, e1⟩ := hreal
        obtain ⟨ρ2, h2, e2⟩ := k.real hf'
        refine ⟨fun v => if v ∈ W then ρ1 v else ρ2 v, ?_, ?_⟩
        · simp only [Bool.and_eq_true]
          constructor
          · rw [hφ _ ρ1 (fun v hv => by simp [hv])]; exact h1
          · rw [Node.eval_congr _ ρ2 child (fun v hv => by
              have : v ∉ W := fun hh => (Finset.disjoint_left.1 hWc hh) hv
              simp [this])]
            exact h2
        · rw [f.cost_glue ρ1 ρ2 hWc, f.localMin_append assigns r.1.1 hsub k.sub hWc, e1, e2]
      · intro ρ hρ hch hbd
        obtain ⟨⟨a1, a2, a3⟩, ⟨b1, b2, b3⟩⟩ := LinObjFunc.Cheapest.and_bound f n hWc hφ
          child.dependsOn_eval hWcI hρ hch hbd
        obtain ⟨x1, x2⟩ := hkeep ρ a1 a2 a3
        obtain ⟨-, y1, y2⟩ := k.keep ρ b1 b2 b3
        refine ⟨?_, ?_⟩
        · rw [Node.eval_andNode_snoc, x1, y1]; rfl
        · rw [f.localMin_append assigns r.1.1 hsub k.sub hWc, f.cost_union ρ hWc, x2, y2]
end

/-! ## C9: the models `keepBoundedWeightModels` keeps -/

theorem LinObjFunc.restMin_full (f : LinObjFunc) (n : Nat) :
    f.restMin n (Finset.Icc (1 : Int) n) = 0 := by
  simp [LinObjFunc.restMin]

/-- A total model of least objective value among the total models of `φ` is a cheapest
assignment of the variables `V` of `φ`. -/
theorem LinObjFunc.cheapest_of_value_le (f : LinObjFunc) (n : Nat) (ρ : Int → Bool)
    (φ : (Int → Bool) → Bool) (V : Finset Int) (hV : V ⊆ Finset.Icc (1 : Int) n)
    (hφ : DependsOn φ V)
    (hmin : ∀ M' : CompactModel, M'.content.length = n → φ M'.value = true →
      f.value n ρ ≤ f.value n M'.value) :
    f.Cheapest ρ φ V := by
  intro ρ' hρ'
  have hg : ∀ v ∈ Finset.Icc (1 : Int) n,
      (CompactModel.ofFun n (fun v => if v ∈ V then ρ' v else ρ v)).value v =
        (fun v => if v ∈ V then ρ' v else ρ v) v :=
    fun v hv => CompactModel.ofFun_value n _ v (Finset.mem_Icc.1 hv)
  have hle := hmin (CompactModel.ofFun n (fun v => if v ∈ V then ρ' v else ρ v))
    (by simp [CompactModel.ofFun]) (by
      rw [hφ _ ρ' (fun v hv => by rw [hg v (hV hv)]; simp [hv])]
      exact hρ')
  have e1 : f.cost (fun v => if v ∈ V then ρ' v else ρ v) V = f.cost ρ' V :=
    f.cost_congr (fun v hv => by simp [hv])
  have e2 : f.cost (fun v => if v ∈ V then ρ' v else ρ v) (Finset.Icc (1 : Int) n \ V) =
      f.cost ρ (Finset.Icc (1 : Int) n \ V) :=
    f.cost_congr (fun v hv => by simp [(Finset.mem_sdiff.1 hv).2])
  rw [f.value_eq_cost, f.value_eq_cost, f.cost_congr hg, f.cost_sdiff ρ hV,
    f.cost_sdiff _ hV, e1, e2] at hle
  omega

/-- The cheapest models within the bound are kept: on a valid graph whose Or branches carry
no unit literals, with an
objective of `2 * nbVars` weights, a total model `M` of the graph whose objective value is
within the bound and is the least among the total models of the graph is still a model of
the graph `keepBoundedWeightModels` returns. -/
theorem LinObjFunc.keepBoundedWeightModels_keeps_cheapest (f : LinObjFunc) (g : Graph)
    (bound : Int) (next : Nat) (M : CompactModel) (hv : g.Valid) (hn : g.root.NoOrUnits)
    (hlen : f.weights.length = 2 * g.nbVars) (hM : g.root.sat M = true)
    (hbd : f.value g.nbVars M.value ≤ bound)
    (hmin : ∀ M' : CompactModel, M'.content.length = g.nbVars → g.root.sat M' = true →
      f.value g.nbVars M.value ≤ f.value g.nbVars M'.value) :
    (f.keepBoundedWeightModels g bound next).root.sat M = true := by
  have hV := Node.vars_subset_range g.nbVars g.root hv.litsInRange
  have k := f.keepBoundedNode_spec bound g.nbVars hlen g.root next hn hv.decomposable
    hv.litsInRange
  have hch := f.cheapest_of_value_le g.nbVars M.value (fun ρ => Node.eval ρ g.root)
    g.root.vars hV g.root.dependsOn_eval hmin
  have hfull := f.full_mono g.nbVars M.value hV (Finset.Subset.refl _)
  rw [f.restMin_full, ← f.value_eq_cost] at hfull
  exact (k.keep M.value hM hch (by omega)).2.1

theorem LinObjFunc.keepBoundedWeightModels_keeps_cheapest_witness :
    (objFiveTwo.keepBoundedWeightModels decisionGraph 3 10).root.sat ⟨[false]⟩ = true :=
  LinObjFunc.keepBoundedWeightModels_keeps_cheapest objFiveTwo decisionGraph 3 10 ⟨[false]⟩
    decisionGraph_valid decisionGraph_noOrUnits rfl (by decide) (by decide)
    (fun M' hl _ => by
      obtain ⟨c⟩ := M'
      match c, hl with
      | [b], _ => cases b <;> decide)

/-- C9 at the failing input: on the decision on variable `1` with `obj(1) = 5`,
`obj(-1) = 2` and bound `10`, the total model `{1 = True}` is a model of the graph of
objective value `5`, within the bound, and it is not a model of the graph
`keepBoundedWeightModels` returns: of the two branches of an Or node, both within the
bound, only the one of lower minimal weight is kept. -/
theorem LinObjFunc.keepBoundedWeightModels_drops_bounded_model :
    decisionGraph.Valid ∧ decisionGraph.root.sat ⟨[true]⟩ = true ∧
      objFiveTwo.value 1 (CompactModel.value ⟨[true]⟩) = 5 ∧
      (objFiveTwo.keepBoundedWeightModels decisionGraph 10 10).root.sat ⟨[true]⟩ = false :=
  ⟨decisionGraph_valid, by decide, by decide, by decide⟩

/-! ## C20: what `updateWeights` writes -/

/-- C20: for a weight vector `w` of `2 * n` entries, a partial model `m` and a variable `v`
of `1..n`, `updateWeights(w, m)` has weight `0` on `-v` if `m(v) = True`, on `v` if
`m(v) = False`, on both if `m(v) = Unsat`, and every other weight of the two literals of
`v` is the one of `w`: the literal that agrees with a `True` or `False` binding and both
literals of a `Free` variable keep their weights. -/
theorem updateWeights_frame (w : WeightVector) (m : Model) (n : Nat)
    (hlen : w.vec.length = 2 * n) (v : Int) (h1 : 1 ≤ v) (h2 : v ≤ (n : Int)) :
    (m.bindingFor v = Binding.True →
      (updateWeights w m).weightFor (-v) = 0 ∧
        (updateWeights w m).weightFor v = w.weightFor v) ∧
    (m.bindingFor v = Binding.False →
      (updateWeights w m).weightFor v = 0 ∧
        (updateWeights w m).weightFor (-v) = w.weightFor (-v)) ∧
    (m.bindingFor v = Binding.Unsat →
      (updateWeights w m).weightFor v = 0 ∧ (updateWeights w m).weightFor (-v) = 0) ∧
    (m.bindingFor v = Binding.Free →
      (updateWeights w m).weightFor v = w.weightFor v ∧
        (updateWeights w m).weightFor (-v) = w.weightFor (-v)) := by
  have hp := updateWeights_weightFor w m n hlen v (by rw [abs_of_pos (by omega)]; exact ⟨h1, h2⟩)
  have hn := updateWeights_weightFor w m n hlen (-v)
    (by rw [abs_neg, abs_of_pos (by omega)]; exact ⟨h1, h2⟩)
  simp only [Model.falsifies_pos h1] at hp
  simp only [Model.falsifies_neg h1] at hn
  refine ⟨fun h => ?_, fun h => ?_, fun h => ?_, fun h => ?_⟩ <;>
    · rw [h] at hp hn
      simp only [or_self, or_true, true_or, if_true, if_false, reduceCtorEq] at hp hn
      simp only [hp, hn, and_self]

theorem updateWeights_frame_witness :
    (updateWeights ⟨[2, 3, 5, 7]⟩ ⟨[Binding.True, Binding.False]⟩).weightFor (-1) = 0 ∧
      (updateWeights ⟨[2, 3, 5, 7]⟩ ⟨[Binding.True, Binding.False]⟩).weightFor 1 =
        WeightVector.weightFor ⟨[2, 3, 5, 7]⟩ 1 :=
  (updateWeights_frame ⟨[2, 3, 5, 7]⟩ ⟨[Binding.True, Binding.False]⟩ 2 rfl 1 (by decide)
    (by decide)).1 (by decide)

/-! ## C15, C19: `Unsat` bindings and `validModel`; C16: the unit literals of an Or branch -/

theorem litTwoGraph_valid : litTwoGraph.Valid where
  decomposable := by simp [litTwoGraph, Graph.make, Node.Decomposable]
  deterministic := by simp [litTwoGraph, Graph.make, Node.Deterministic]
  seenOk := by simp [litTwoGraph, Graph.make, Node.SeenOk]
  litsInRange := by simp [litTwoGraph, Graph.make, Node.LitsInRange, Node.litInRange]
  weightsSize := by simp [litTwoGraph, Graph.make, WeightVector.uniform]
  addrOk := by
    intro a ha b hb
    simp only [litTwoGraph, Graph.make, Node.subnodes, List.mem_singleton] at ha hb
    rw [ha, hb]; exact fun _ => rfl

/-- C15 at the failing input: `Lit(1)` over two variables is a valid graph with uniform
weights; for the partial model `{2 = Unsat}` `validModel` returns `{1 = True, 2 = Unsat}`,
and `modelCount` of that model is `0`. -/
theorem Graph.validModel_modelCount_zero_litTwo :
    litTwoGraph.Valid ∧ litTwoGraph.weights = WeightVector.uniform litTwoGraph.nbVars ∧
      litTwoGraph.validModel ⟨[Binding.Free, Binding.Unsat]⟩ =
        some ⟨[Binding.True, Binding.Unsat]⟩ ∧
      litTwoGraph.modelCount ⟨[Binding.True, Binding.Unsat]⟩ = 0 := by
  refine ⟨litTwoGraph_valid, rfl, by decide, ?_⟩
  simp [Graph.modelCount, litTwoGraph, Graph.make, Node.modelCount, updateWeights, varsUpTo,
    Model.bindingFor, vecGet, vecSet, WeightVector.uniform, WeightVector.nbVars,
    WeightVector.weightFor, WeightVector.setWeightFor, WeightVector.idx, Node.seenVars,
    smoothLoop, List.range_succ]

/-- C19 at the failing input: on the decision on variable `1` over two variables, a valid
graph, the partial model `{2 = Unsat}` binds a variable to `Unsat` and `validModel`
returns the model `{1 = True, 2 = Unsat}`. -/
theorem Graph.validModel_unsat_some :
    orAndGraph.Valid ∧
      (Model.mk [Binding.Free, Binding.Unsat]).bindingFor 2 = Binding.Unsat ∧
      orAndGraph.validModel ⟨[Binding.Free, Binding.Unsat]⟩ =
        some ⟨[Binding.True, Binding.Unsat]⟩ :=
  ⟨orAndGraph_valid, by decide, by decide⟩

/-- C16 at the failing input: on `Or(1, [branch{units=[1], True}, branch{units=[-1], True}])`
over one variable `OrNode::modelCount` counts `1` for each branch whatever the weights of
the unit literals, `2` for the node with `w(1) = 3`, `w(-1) = 5` where the sum of the
products is `8`; `Graph::modelCount` of the all-`Free` model is `16` with these weights and
`4` with the uniform weights. -/
theorem Node.modelCount_orUnits_ignores_unitLits :
    (orUnitsGraph.root.modelCount ⟨[3, 5]⟩ []).1 = 2 ∧
      (orUnitsGraph.setWeights ⟨[3, 5]⟩).modelCount (Model.free 1) = 16 ∧
      orUnitsGraph.weights = WeightVector.uniform 1 ∧
      orUnitsGraph.modelCount (Model.free 1) = 4 := by
  refine ⟨?_, ?_, rfl, ?_⟩
  · simp [orUnitsGraph, Graph.make, Node.modelCount, Node.seenVars, trueNode,
      Node.orBranchCount, smoothLoop]
    norm_num
  · simp [Graph.modelCount, Graph.setWeights, orUnitsGraph, Graph.make, Node.modelCount,
      updateWeights, varsUpTo, Model.free, Model.bindingFor, vecGet, WeightVector.nbVars,
      WeightVector.weightFor, WeightVector.idx, Node.seenVars, trueNode, Node.orBranchCount,
      smoothLoop, List.range_succ]
    norm_num
  · simp [Graph.modelCount, orUnitsGraph, Graph.make, Node.modelCount, updateWeights, varsUpTo,
      Model.free, Model.bindingFor, vecGet, WeightVector.uniform, WeightVector.nbVars,
      WeightVector.weightFor, WeightVector.idx, Node.seenVars, trueNode, Node.orBranchCount,
      smoothLoop, List.range_succ]
    norm_num

/-! ## C11, C12: counting under the uniform weights -/

/-- Exactly one total assignment agrees with a partial model that binds every variable to
`True` or `False`: the count of the satisfying assignments that agree with it is `0` or `1`. -/
theorem sum_agreesWith_total (m : Model) (n : Nat) (φ : (Int → Bool) → Bool)
    (htot : ∀ v : Int, 1 ≤ v → v ≤ (n : Int) →
      m.bindingFor v = Binding.True ∨ m.bindingFor v = Binding.False) :
    (∑ T ∈ (Finset.Icc (1 : Int) n).powerset,
        if (agreesWith m n (assignOf T) && φ (assignOf T)) = true then (1 : ℚ) else 0) = 0 ∨
      (∑ T ∈ (Finset.Icc (1 : Int) n).powerset,
        if (agreesWith m n (assignOf T) && φ (assignOf T)) = true then (1 : ℚ) else 0) = 1 := by
  have hmem : (Finset.Icc (1 : Int) n).filter (fun v => m.bindingFor v = Binding.True) ∈
      (Finset.Icc (1 : Int) n).powerset :=
    Finset.mem_powerset.2 (Finset.filter_subset _ _)
  rw [Finset.sum_eq_single_of_mem _ hmem]
  · split_ifs
    · exact Or.inr rfl
    · exact Or.inl rfl
  · intro T hT hne
    rw [if_neg]
    intro hc
    rw [Bool.and_eq_true] at hc
    have hag := (agreesWith_iff m n (assignOf T)).1 hc.1
    apply hne
    ext v
    rw [Finset.mem_filter]
    constructor
    · intro hv
      have hvI := Finset.mem_powerset.1 hT hv
      have h12 := Finset.mem_Icc.1 hvI
      have := hag v hvI
      rw [if_pos (by simp [assignOf, hv]), Model.falsifies_pos h12.1] at this
      rcases htot v h12.1 h12.2 with h | h
      · exact ⟨hvI, h⟩
      · exact absurd (Or.inl h) this
    · rintro ⟨hvI, hb⟩
      by_contra hv
      have h12 := Finset.mem_Icc.1 hvI
      have := hag v hvI
      rw [if_neg (by simp [assignOf, hv]), Model.falsifies_neg h12.1] at this
      exact this (Or.inl hb)

/-- Where no Or branch carries unit literals a total model counts `0` or `1`: for every
valid graph whose Or branches carry no unit literals, with
the default uniform weights, and every partial model `m` that binds every variable of
`1..nbVars` to `True` or `False`, `Graph::modelCount(m)` is `0` or `1`. -/
theorem Graph.modelCount_total_zero_or_one (g : Graph) (m : Model) (hv : g.Valid)
    (hn : g.root.NoOrUnits) (hw : g.weights = WeightVector.uniform g.nbVars)
    (htot : ∀ v : Int, 1 ≤ v → v ≤ (g.nbVars : Int) →
      m.bindingFor v = Binding.True ∨ m.bindingFor v = Binding.False) :
    g.modelCount m = 0 ∨ g.modelCount m = 1 := by
  rw [Graph.modelCount_uniform g m hv hn hw]
  exact sum_agreesWith_total m g.nbVars (fun ρ => Node.eval ρ g.root) htot

theorem Graph.modelCount_total_zero_or_one_witness :
    decisionGraph.modelCount ⟨[Binding.True]⟩ = 0 ∨
      decisionGraph.modelCount ⟨[Binding.True]⟩ = 1 :=
  Graph.modelCount_total_zero_or_one decisionGraph ⟨[Binding.True]⟩ decisionGraph_valid
    decisionGraph_noOrUnits rfl (fun v h1 h2 => by
      have h2' : v ≤ ((1 : Nat) : Int) := h2
      have : v = 1 := by omega
      subst this
      exact Or.inl rfl)

/-- C11 at the failing input: the graph
`Or(1, [branch{units=[1], True}, branch{units=[-1], True}])` over one variable is valid and
has the uniform weights, the model `{1 = True}` is total, and `Graph::modelCount` of it is
`2`, neither `0` nor `1`: `OrNode::modelCount` does not read the unit literals of the
branches and counts the branch of `-1` too. -/
theorem Graph.modelCount_total_orUnits :
    orUnitsGraph.Valid ∧ orUnitsGraph.weights = WeightVector.uniform orUnitsGraph.nbVars ∧
      (Model.mk [Binding.True]).bindingFor 1 = Binding.True ∧
      orUnitsGraph.modelCount ⟨[Binding.True]⟩ = 2 := by
  refine ⟨orUnitsGraph_valid, rfl, by decide, ?_⟩
  simp [Graph.modelCount, orUnitsGraph, Graph.make, Node.modelCount, updateWeights, varsUpTo,
    Model.bindingFor, vecGet, vecSet, WeightVector.uniform, WeightVector.nbVars,
    WeightVector.weightFor, WeightVector.setWeightFor, WeightVector.idx, Node.seenVars,
    trueNode, Node.orBranchCount, smoothLoop, List.range_succ]
  norm_num

/-- The all-`Free` model agrees with every assignment. -/
theorem agreesWith_free (n : Nat) (ρ : Int → Bool) : agreesWith (Model.free n) n ρ = true := by
  rw [agreesWith_iff]
  intro v _
  unfold Model.falsifies
  rw [Model.free_bindingFor]
  exact not_false

/-- C12, amended: for every valid graph whose Or branches carry no unit literals, with all
literal weights equal to `1`, whose circuit accepts every total assignment,
`Graph::modelCount` of the all-`Free` model is `2 ^ nbVars`. -/
theorem Graph.modelCount_free_of_accepts_all (g : Graph) (hv : g.Valid)
    (hn : g.root.NoOrUnits) (hw : g.weights = WeightVector.uniform g.nbVars)
    (hall : ∀ M : CompactModel, M.content.length = g.nbVars → g.root.sat M = true) :
    g.modelCount (Model.free g.nbVars) = 2 ^ g.nbVars := by
  rw [Graph.modelCount_uniform g _ hv hn hw]
  have hV := Node.vars_subset_range g.nbVars g.root hv.litsInRange
  have hone : ∀ T ∈ (Finset.Icc (1 : Int) g.nbVars).powerset,
      (if (agreesWith (Model.free g.nbVars) g.nbVars (assignOf T) &&
        Node.eval (assignOf T) g.root) = true then (1 : ℚ) else 0) = 1 := by
    intro T _
    rw [if_pos]
    rw [Bool.and_eq_true]
    refine ⟨agreesWith_free _ _, ?_⟩
    have := hall (CompactModel.ofFun g.nbVars (assignOf T)) (by simp [CompactModel.ofFun])
    unfold Node.sat at this
    rw [← this]
    exact Node.eval_congr _ _ g.root (fun v hv' =>
      (CompactModel.ofFun_value g.nbVars (assignOf T) v (Finset.mem_Icc.1 (hV hv'))).symm)
  rw [Finset.sum_congr rfl hone]
  simp

theorem Graph.modelCount_free_of_accepts_all_witness :
    trueGraph.modelCount (Model.free trueGraph.nbVars) = 2 ^ trueGraph.nbVars :=
  Graph.modelCount_free_of_accepts_all trueGraph trueGraph_valid
    (by simp [trueGraph, Graph.make, trueNode, Node.NoOrUnits]) rfl (fun _ _ => rfl)

/-- C12 as stated fails, on a valid graph and on a graph that is not deterministic: with
the uniform weights, `Or(1, [branch{units=[1], True}, branch{units=[-1], True}])` and
`Or(1, True, True)` over one variable accept both total assignments and
`Graph::modelCount` of the all-`Free` model is `4` on each, not `2`. -/
theorem Graph.modelCount_free_accepts_all_ne :
    orUnitsGraph.Valid ∧ orUnitsGraph.weights = WeightVector.uniform 1 ∧
      (∀ M ∈ CompactModel.all 1, orUnitsGraph.root.sat M = true) ∧
      orUnitsGraph.modelCount (Model.free 1) = 4 ∧
      orTrueTrueGraph.weights = WeightVector.uniform 1 ∧
      (∀ M ∈ CompactModel.all 1, orTrueTrueGraph.root.sat M = true) ∧
      orTrueTrueGraph.modelCount (Model.free 1) = 4 := by
  refine ⟨orUnitsGraph_valid, rfl, by decide, ?_, rfl, by decide, ?_⟩
  · simp [Graph.modelCount, orUnitsGraph, Graph.make, Node.modelCount, updateWeights, varsUpTo,
      Model.free, Model.bindingFor, vecGet, WeightVector.uniform, WeightVector.nbVars,
      WeightVector.weightFor, WeightVector.idx, Node.seenVars, trueNode, Node.orBranchCount,
      smoothLoop, List.range_succ]
    norm_num
  · simp [Graph.modelCount, orTrueTrueGraph, Graph.make, Node.modelCount, updateWeights,
      varsUpTo, Model.free, Model.bindingFor, vecGet, WeightVector.uniform,
      WeightVector.nbVars, WeightVector.weightFor, WeightVector.idx, Node.seenVars, trueNode,
      Node.orBranchCount, smoothLoop, List.range_succ]
    norm_num

/-! ## C13: a fresh variable scales the count -/

theorem smoothLoop_congr (w w' : WeightVector) (seenChild : Finset Int) (vars : List Int)
    (factor : ℚ)
    (h : ∀ v ∈ vars, w.weightFor v = w'.weightFor v ∧ w.weightFor (-v) = w'.weightFor (-v)) :
    smoothLoop w seenChild vars factor = smoothLoop w' seenChild vars factor := by
  rw [smoothLoop_eq, smoothLoop_eq]
  congr 2
  apply List.map_congr_left
  intro v hv
  have := h v (List.mem_of_mem_filter hv)
  unfold varWeight
  rw [this.1, this.2]

theorem Node.litInRange_of_mem {n : Nat} {v : Int} (hv : v ∈ Finset.Icc (1 : Int) n) :
    Node.litInRange n v ∧ Node.litInRange n (-v) := by
  have := Finset.mem_Icc.1 hv
  unfold Node.litInRange
  rw [abs_neg, abs_of_pos (by omega)]
  exact ⟨this, this⟩

theorem Node.orBranchCount_congr (w w' : WeightVector) (n : Nat)
    (hag : ∀ l : Int, Node.litInRange n l → w.weightFor l = w'.weightFor l)
    (seen : Finset Int) (hseen : seen ⊆ Finset.Icc (1 : Int) n) (child : Node) (loc : ℚ) :
    Node.orBranchCount w seen child loc = Node.orBranchCount w' seen child loc := by
  unfold Node.orBranchCount
  rw [smoothLoop_congr w w' child.seenVars (seen.sort (· ≤ ·)) 1 (fun v hv => by
    have hv' := hseen ((Finset.mem_sort _).1 hv)
    exact ⟨hag v (Node.litInRange_of_mem hv').1, hag (-v) (Node.litInRange_of_mem hv').2⟩)]

mutual
/-- The count of a node only reads the weights of the literals of `1..nbVars`. -/
theorem Node.modelCount_congr (w w' : WeightVector) (n : Nat)
    (hag : ∀ l : Int, Node.litInRange n l → w.weightFor l = w'.weightFor l) :
    ∀ (x : Node) (cache : Cache), x.LitsInRange n → x.SeenInRange n →
      x.modelCount w cache = x.modelCount w' cache
  | .falseNode _, _, _, _ => rfl
  | .trueNode _, _, _, _ => rfl
  | .litNode _ l, cache, hl, _ => by
    simp only [Node.LitsInRange] at hl
    simp only [Node.modelCount]
    rw [hag l hl]
  | .orNode a v u0 c0 u1 c1 s, cache, hl, hs => by
    simp only [Node.LitsInRange] at hl
    simp only [Node.SeenInRange] at hs
    simp only [Node.modelCount]
    rw [Node.modelCount_congr w w' n hag c0 cache hl.2.1 hs.2.1,
      Node.modelCount_congr w w' n hag c1 _ hl.2.2.2 hs.2.2,
      Node.orBranchCount_congr w w' n hag s hs.1 c0, Node.orBranchCount_congr w w' n hag s hs.1 c1]
  | .andNode a cs u s, cache, hl, hs => by
    simp only [Node.LitsInRange] at hl
    simp only [Node.SeenInRange] at hs
    simp only [Node.modelCount]
    have hfold : u.foldl (fun nb lit => nb * w.weightFor lit) 1 =
        u.foldl (fun nb lit => nb * w'.weightFor lit) 1 := by
      rw [foldl_mul_weightFor, foldl_mul_weightFor]
      congr 2
      exact List.map_congr_left (fun l hl' => hag l (hl.1 l hl'))
    rw [hfold, Node.modelCountChildren_congr w w' n hag cs _ cache hl.2 hs.2]
theorem Node.modelCountChildren_congr (w w' : WeightVector) (n : Nat)
    (hag : ∀ l : Int, Node.litInRange n l → w.weightFor l = w'.weightFor l) :
    ∀ (cs : List Node) (nb : ℚ) (cache : Cache), Node.LitsInRangeAll n cs →
      Node.SeenInRangeAll n cs →
      Node.modelCountChildren w cs nb cache = Node.modelCountChildren w' cs nb cache
  | [], _, _, _, _ => rfl
  | c :: cs, nb, cache, hl, hs => by
    simp only [Node.LitsInRangeAll] at hl
    simp only [Node.SeenInRangeAll] at hs
    simp only [Node.modelCountChildren]
    rw [Node.modelCount_congr w w' n hag c cache hl.1 hs.1]
    cases cache.lookup c.addr with
    | none =>
      simp only
      rw [Node.modelCountChildren_congr w w' n hag cs _ _ hl.2 hs.2]
    | some mc =>
      simp only
      rw [Node.modelCountChildren_congr w w' n hag cs _ _ hl.2 hs.2]
end

theorem Node.seenVars_subset_of_inRange (n : Nat) :
    ∀ x : Node, x.LitsInRange n → x.SeenInRange n → x.seenVars ⊆ Finset.Icc (1 : Int) n
  | .falseNode _, _, _ => by simp [Node.seenVars]
  | .trueNode _, _, _ => by simp [Node.seenVars]
  | .litNode _ l, hl, _ => by
    simp only [Node.LitsInRange, Node.litInRange] at hl
    simp only [Node.seenVars, Finset.singleton_subset_iff, Finset.mem_Icc]
    exact hl
  | .orNode _ _ _ _ _ _ _, _, hs => by
    simp only [Node.SeenInRange] at hs
    exact hs.1
  | .andNode _ _ _ _, _, hs => by
    simp only [Node.SeenInRange] at hs
    exact hs.1

/-- The method `Graph::modelCount` is the count `root->modelCount` returns, smoothed over the
variables of `1..nbVars` that the root has not seen. -/
theorem Graph.modelCount_eq_fst_mul (g : Graph) (m : Model)
    (hsub : g.root.seenVars ⊆ Finset.Icc (1 : Int) g.nbVars) :
    g.modelCount m = (g.root.modelCount (updateWeights g.weights m) []).1 *
      ∏ v ∈ Finset.Icc (1 : Int) g.nbVars \ g.root.seenVars,
        varWeight (updateWeights g.weights m) v := by
  unfold Graph.modelCount
  simp only
  by_cases hc : g.root.seenVars.card = g.nbVars
  · rw [if_pos hc]
    have heq : g.root.seenVars = Finset.Icc (1 : Int) g.nbVars :=
      Finset.eq_of_subset_of_card_le hsub (by rw [card_Icc_one, hc])
    rw [heq, Finset.sdiff_self, Finset.prod_empty, mul_one]
  · rw [if_neg hc, smoothLoop_varsUpTo, one_mul]

theorem Model.addFree_bindingFor (m : Model) (v : Int) :
    m.addFree.bindingFor v = m.bindingFor v := by
  unfold Model.addFree Model.bindingFor vecGet
  split_ifs with h
  · by_cases hk : (v - 1).toNat < m.content.length
    · rw [List.getD_append _ _ _ _ hk]
    · have hk' : m.content.length ≤ (v - 1).toNat := by omega
      rw [List.getD_append_right _ _ _ _ hk', List.getD_eq_default _ _ hk']
      cases (v - 1).toNat - m.content.length with
      | zero => rfl
      | succ k => rfl
  · rfl

theorem Model.addFree_falsifies (m : Model) (l : Int) :
    m.addFree.falsifies l ↔ m.falsifies l := by
  unfold Model.falsifies
  rw [Model.addFree_bindingFor]

theorem Model.bindingFor_of_length_lt (m : Model) (v : Int)
    (h : (m.content.length : Int) < v) : m.bindingFor v = Binding.Free := by
  unfold Model.bindingFor vecGet
  split_ifs
  · exact List.getD_eq_default _ _ (by omega)
  · rfl

theorem WeightVector.weightFor_append (w : WeightVector) (n : Nat) (ext : List ℚ)
    (hlen : w.vec.length = 2 * n) (l : Int) (hl : Node.litInRange n l) :
    WeightVector.weightFor ⟨w.vec ++ ext⟩ l = w.weightFor l := by
  have hb := WeightVector.idx_bounds hl
  unfold WeightVector.weightFor vecGet
  rw [if_pos hb.1, if_pos hb.1, List.getD_append _ _ _ _ (by omega)]

theorem WeightVector.weightFor_append_fresh (w : WeightVector) (n : Nat) (a b : ℚ)
    (hlen : w.vec.length = 2 * n) :
    WeightVector.weightFor ⟨w.vec ++ [a, b]⟩ ((n : Int) + 1) = a ∧
      WeightVector.weightFor ⟨w.vec ++ [a, b]⟩ (-((n : Int) + 1)) = b := by
  unfold WeightVector.weightFor WeightVector.idx vecGet
  constructor
  · have e : ((if (n : Int) + 1 > 0 then (n : Int) + 1 else -((n : Int) + 1)) - 1) * 2 +
        (if (n : Int) + 1 < 0 then 1 else 0) = ((2 * n : Nat) : Int) := by
      split_ifs <;> push_cast <;> omega
    simp only [e, Int.toNat_ofNat, Int.natCast_nonneg, if_true]
    rw [List.getD_append_right _ _ _ _ (by omega)]
    simp [hlen]
  · have e : ((if -((n : Int) + 1) > 0 then -((n : Int) + 1) else - -((n : Int) + 1)) - 1) * 2 +
        (if -((n : Int) + 1) < 0 then 1 else 0) = ((2 * n + 1 : Nat) : Int) := by
      split_ifs <;> push_cast <;> omega
    simp only [e, Int.toNat_ofNat, Int.natCast_nonneg, if_true]
    rw [List.getD_append_right _ _ _ _ (by omega)]
    simp [hlen]

theorem updateWeights_addVar (w : WeightVector) (m : Model) (n : Nat) (a b : ℚ)
    (hlen : w.vec.length = 2 * n) (l : Int) (hl : Node.litInRange n l) :
    (updateWeights ⟨w.vec ++ [a, b]⟩ m.addFree).weightFor l =
      (updateWeights w m).weightFor l := by
  have hlen' : (WeightVector.mk (w.vec ++ [a, b])).vec.length = 2 * (n + 1) := by
    simp [hlen]; omega
  have hl' : 1 ≤ |l| ∧ |l| ≤ ((n + 1 : Nat) : Int) := ⟨hl.1, by have := hl.2; push_cast; omega⟩
  rw [updateWeights_weightFor _ _ (n + 1) hlen' l hl', updateWeights_weightFor w m n hlen l hl,
    w.weightFor_append n [a, b] hlen l hl]
  simp only [Model.addFree_falsifies]

theorem updateWeights_addVar_fresh (w : WeightVector) (m : Model) (n : Nat) (a b : ℚ)
    (hlen : w.vec.length = 2 * n) (hm : m.content.length = n) :
    varWeight (updateWeights ⟨w.vec ++ [a, b]⟩ m.addFree) ((n : Int) + 1) = a + b := by
  have hlen' : (WeightVector.mk (w.vec ++ [a, b])).vec.length = 2 * (n + 1) := by
    simp [hlen]; omega
  have hfree : m.bindingFor ((n : Int) + 1) = Binding.Free :=
    m.bindingFor_of_length_lt _ (by rw [hm]; omega)
  have hpos : (0 : Int) < (n : Int) + 1 := by omega
  have hnf : ∀ l : Int, |l| = (n : Int) + 1 → ¬ m.addFree.falsifies l := by
    intro l hl
    rw [Model.addFree_falsifies]
    unfold Model.falsifies
    rw [hl, hfree]
    exact not_false
  unfold varWeight
  rw [updateWeights_weightFor _ _ (n + 1) hlen' _ (by
      rw [abs_of_pos hpos]; push_cast; omega),
    updateWeights_weightFor _ _ (n + 1) hlen' _ (by
      rw [abs_neg, abs_of_pos hpos]; push_cast; omega),
    if_neg (hnf _ (abs_of_pos hpos)), if_neg (hnf _ (by rw [abs_neg, abs_of_pos hpos])),
    (w.weightFor_append_fresh n a b hlen).1, (w.weightFor_append_fresh n a b hlen).2]

/-- C13: for a graph over the variables `1..nbVars` (literals and stored `seenVars` in
range, `2 * nbVars` weights) and a partial model `m` of length `nbVars`, the graph over
`nbVars + 1` variables with the same circuit, the weights extended by `a = w(v')` and
`b = w(-v')` for the fresh variable `v' = nbVars + 1`, and `m` extended with `v'` `Free`,
has `modelCount` equal to `modelCount(m)` of the original graph times `w(v') + w(-v')`. -/
theorem Graph.modelCount_addVar (g : Graph) (m : Model) (a b : ℚ)
    (hr : g.root.LitsInRange g.nbVars) (hs : g.root.SeenInRange g.nbVars)
    (hw : g.weights.vec.length = 2 * g.nbVars) (hm : m.content.length = g.nbVars) :
    (g.addVar a b).modelCount m.addFree = g.modelCount m * (a + b) := by
  have hsub := Node.seenVars_subset_of_inRange g.nbVars g.root hr hs
  have hsub' : (g.addVar a b).root.seenVars ⊆ Finset.Icc (1 : Int) (g.addVar a b).nbVars := by
    refine hsub.trans (Finset.Icc_subset_Icc_right ?_)
    show (g.nbVars : Int) ≤ ((g.nbVars + 1 : Nat) : Int)
    push_cast; omega
  rw [Graph.modelCount_eq_fst_mul _ _ hsub', Graph.modelCount_eq_fst_mul g m hsub]
  show (g.root.modelCount (updateWeights ⟨g.weights.vec ++ [a, b]⟩ m.addFree) []).1 *
      ∏ v ∈ Finset.Icc (1 : Int) ((g.nbVars + 1 : Nat) : Int) \ g.root.seenVars,
        varWeight (updateWeights ⟨g.weights.vec ++ [a, b]⟩ m.addFree) v = _
  rw [Node.modelCount_congr _ (updateWeights g.weights m) g.nbVars
    (fun l hl => updateWeights_addVar g.weights m g.nbVars a b hw l hl) g.root [] hr hs]
  have hnot : ((g.nbVars : Int) + 1) ∉ Finset.Icc (1 : Int) g.nbVars \ g.root.seenVars := by
    intro h
    have := Finset.mem_Icc.1 (Finset.mem_sdiff.1 h).1
    omega
  have hset : Finset.Icc (1 : Int) ((g.nbVars + 1 : Nat) : Int) \ g.root.seenVars =
      insert ((g.nbVars : Int) + 1) (Finset.Icc (1 : Int) g.nbVars \ g.root.seenVars) := by
    ext v
    simp only [Finset.mem_sdiff, Finset.mem_Icc, Finset.mem_insert, Nat.cast_add, Nat.cast_one]
    constructor
    · rintro ⟨⟨h1, h2⟩, h3⟩
      by_cases e : v = (g.nbVars : Int) + 1
      · exact Or.inl e
      · exact Or.inr ⟨⟨h1, by omega⟩, h3⟩
    · rintro (e | ⟨⟨h1, h2⟩, h3⟩)
      · subst e
        refine ⟨⟨by omega, le_refl _⟩, fun h => ?_⟩
        have := Finset.mem_Icc.1 (hsub h)
        omega
      · exact ⟨⟨h1, by omega⟩, h3⟩
  rw [hset, Finset.prod_insert hnot, updateWeights_addVar_fresh g.weights m g.nbVars a b hw hm]
  have hprod : ∏ v ∈ Finset.Icc (1 : Int) g.nbVars \ g.root.seenVars,
      varWeight (updateWeights ⟨g.weights.vec ++ [a, b]⟩ m.addFree) v =
      ∏ v ∈ Finset.Icc (1 : Int) g.nbVars \ g.root.seenVars,
        varWeight (updateWeights g.weights m) v := by
    refine Finset.prod_congr rfl fun v hv => ?_
    have hv' := Node.litInRange_of_mem (Finset.mem_sdiff.1 hv).1
    unfold varWeight
    rw [updateWeights_addVar g.weights m g.nbVars a b hw v hv'.1,
      updateWeights_addVar g.weights m g.nbVars a b hw (-v) hv'.2]
  rw [hprod]
  ring

theorem Graph.modelCount_addVar_witness :
    (decisionGraph.addVar 3 5).modelCount (Model.addFree ⟨[Binding.True]⟩) =
      decisionGraph.modelCount ⟨[Binding.True]⟩ * (3 + 5) :=
  Graph.modelCount_addVar decisionGraph ⟨[Binding.True]⟩ 3 5
    (by simp [decisionGraph, Graph.make, Node.LitsInRange, Node.LitsInRangeAll,
      Node.litInRange])
    (by simp [decisionGraph, Graph.make, Node.SeenInRange, Node.SeenInRangeAll])
    rfl rfl

/-! ## C14: conditioning twice -/

/-- The count of an And node with one child, from an empty memo: the product of the
weights of its unit literals times what the child returns. -/
theorem Node.modelCount_and_single_fst (w : WeightVector) (a : Nat) (r : Node) (u : List Int)
    (s : Finset Int) :
    ((Node.andNode a [r] u s).modelCount w []).1 =
      (u.map w.weightFor).prod * (r.modelCount w []).1 := by
  simp only [Node.modelCount, foldl_mul_weightFor, one_mul]
  by_cases hz : (u.map w.weightFor).prod = 0
  · simp [hz]
  · rw [if_neg hz]
    simp only [Node.modelCountChildren, List.lookup_nil]
    by_cases hz2 : (u.map w.weightFor).prod * (r.modelCount w []).1 = 0
    · simp [hz2]
    · simp [hz2]

theorem list_prod_idem (f : Int → ℚ) : ∀ (ls : List Int), (∀ l ∈ ls, f l * f l = f l) →
    (ls.map f).prod * (ls.map f).prod = (ls.map f).prod
  | [], _ => by simp
  | l :: ls, h => by
    have h1 := h l (List.mem_cons_self _ _)
    have h2 := list_prod_idem f ls (fun x hx => h x (List.mem_cons_of_mem _ hx))
    simp only [List.map_cons, List.prod_cons]
    calc f l * (ls.map f).prod * (f l * (ls.map f).prod)
        = (f l * f l) * ((ls.map f).prod * (ls.map f).prod) := by ring
      _ = f l * (ls.map f).prod := by rw [h1, h2]

/-- The unit literals `conditionTo` pushes are the literals the model makes true, and
both literals of the variables bound to `Unsat`. -/
theorem mem_conditionLits {m : Model} {n : Nat} {l : Int}
    (h : l ∈ (conditionLits m (varsUpTo n)).1) :
    Node.litInRange n l ∧ (m.falsifies l ∨
      (0 < l ∧ m.bindingFor l = Binding.True) ∨ (l < 0 ∧ m.bindingFor (-l) = Binding.False)) := by
  rw [conditionLits_eq] at h
  simp only [List.mem_flatMap] at h
  obtain ⟨v, hv, hl⟩ := h
  have hv' := (mem_varsUpTo n v).1 hv
  have hpos : 0 < v := by omega
  unfold condLitsOf at hl
  cases hb : m.bindingFor v with
  | True =>
    rw [hb] at hl
    simp only [List.mem_singleton] at hl
    subst hl
    exact ⟨by unfold Node.litInRange; rw [abs_of_pos hpos]; exact hv',
      Or.inr (Or.inl ⟨hpos, hb⟩)⟩
  | False =>
    rw [hb] at hl
    simp only [List.mem_singleton] at hl
    subst hl
    exact ⟨by unfold Node.litInRange; rw [abs_neg, abs_of_pos hpos]; exact hv',
      Or.inr (Or.inr ⟨by omega, by rw [neg_neg]; exact hb⟩)⟩
  | Unsat =>
    rw [hb] at hl
    simp only [List.mem_cons, List.mem_singleton, List.not_mem_nil, or_false] at hl
    rcases hl with rfl | rfl
    · exact ⟨by unfold Node.litInRange; rw [abs_of_pos hpos]; exact hv',
        Or.inl ((Model.falsifies_pos hv'.1).2 (Or.inr hb))⟩
    · exact ⟨by unfold Node.litInRange; rw [abs_neg, abs_of_pos hpos]; exact hv',
        Or.inl ((Model.falsifies_neg hv'.1).2 (Or.inr hb))⟩
  | Free =>
    rw [hb] at hl
    simp at hl

theorem conditionLits_seen_subset (m : Model) (n : Nat) :
    (conditionLits m (varsUpTo n)).2 ⊆ Finset.Icc (1 : Int) n := by
  rw [conditionLits_eq]
  intro v hv
  simp only [List.mem_toFinset] at hv
  exact Finset.mem_Icc.2 ((mem_varsUpTo n v).1 (List.mem_of_mem_filter hv))

theorem Graph.conditionTo_eq (g : Graph) (m : Model) (a : Nat)
    (hlen : g.weights.vec.length = 2 * g.nbVars) :
    g.conditionTo m a =
      ⟨g.nbVars, Node.andNode a [g.root] (conditionLits m (varsUpTo g.nbVars)).1
        ((conditionLits m (varsUpTo g.nbVars)).2 ∪ g.root.seenVars),
        updateWeights g.weights m⟩ := by
  unfold Graph.conditionTo
  simp only
  rw [WeightVector.nbVars_eq _ g.nbVars (updateWeights_length g.weights m g.nbVars hlen)]

/-- Where the literals of `m` weigh `0` or `1` the stacked roots do not show: for every
graph over the variables `1..nbVars` (literals and stored
`seenVars` in range, `2 * nbVars` weights), every partial model `m` and every weight vector
that gives weight `0` or `1` to each literal `m` makes true, the graph obtained by
`conditionTo(m)` twice and the graph obtained by `conditionTo(m)` once return the same
`modelCount` for every partial model `p`.  The addresses of the two new roots are `a1`
and `a2`. -/
theorem Graph.conditionTo_twice_modelCount (g : Graph) (m p : Model) (a1 a2 : Nat)
    (hr : g.root.LitsInRange g.nbVars) (hs : g.root.SeenInRange g.nbVars)
    (hlen : g.weights.vec.length = 2 * g.nbVars)
    (hw : ∀ v : Int, 1 ≤ v → v ≤ (g.nbVars : Int) →
      (m.bindingFor v = Binding.True →
        g.weights.weightFor v = 0 ∨ g.weights.weightFor v = 1) ∧
      (m.bindingFor v = Binding.False →
        g.weights.weightFor (-v) = 0 ∨ g.weights.weightFor (-v) = 1)) :
    ((g.conditionTo m a1).conditionTo m a2).modelCount p =
      (g.conditionTo m a1).modelCount p := by
  have hlen1 := updateWeights_length g.weights m g.nbVars hlen
  have hlen2 := updateWeights_length (updateWeights g.weights m) m g.nbVars hlen1
  have hS := Node.seenVars_subset_of_inRange g.nbVars g.root hr hs
  have hsI := conditionLits_seen_subset m g.nbVars
  rw [g.conditionTo_eq m a1 hlen, Graph.conditionTo_eq _ m a2 hlen1]
  generalize hu : (conditionLits m (varsUpTo g.nbVars)).1 = u
  generalize hsd : (conditionLits m (varsUpTo g.nbVars)).2 = s at hsI
  have hmem : ∀ l ∈ u, Node.litInRange g.nbVars l ∧ (m.falsifies l ∨
      (0 < l ∧ m.bindingFor l = Binding.True) ∨
      (l < 0 ∧ m.bindingFor (-l) = Binding.False)) := by
    intro l hl
    rw [← hu] at hl
    exact mem_conditionLits hl
  have hsub1 : s ∪ g.root.seenVars ⊆ Finset.Icc (1 : Int) g.nbVars :=
    Finset.union_subset hsI hS
  have hsub2 : s ∪ (s ∪ g.root.seenVars) ⊆ Finset.Icc (1 : Int) g.nbVars :=
    Finset.union_subset hsI hsub1
  have e1 := Graph.modelCount_eq_fst_mul
    ⟨g.nbVars, Node.andNode a1 [g.root] u (s ∪ g.root.seenVars), updateWeights g.weights m⟩
    p hsub1
  have e2 := Graph.modelCount_eq_fst_mul
    ⟨g.nbVars, Node.andNode a2 [Node.andNode a1 [g.root] u (s ∪ g.root.seenVars)] u
      (s ∪ (s ∪ g.root.seenVars)), updateWeights (updateWeights g.weights m) m⟩ p hsub2
  simp only [Node.seenVars_andNode] at e1 e2 ⊢
  rw [e1, e2]
  have hset : s ∪ (s ∪ g.root.seenVars) = s ∪ g.root.seenVars := by
    rw [← Finset.union_assoc, Finset.union_self]
  rw [hset, Node.modelCount_and_single_fst, Node.modelCount_and_single_fst,
    Node.modelCount_and_single_fst]
  -- the weights the two graphs count with agree on the literals of `1..nbVars`
  have hag : ∀ l : Int, Node.litInRange g.nbVars l →
      (updateWeights (updateWeights (updateWeights g.weights m) m) p).weightFor l =
        (updateWeights (updateWeights g.weights m) p).weightFor l := by
    intro l hl
    rw [updateWeights_weightFor _ p g.nbVars hlen2 l hl,
      updateWeights_weightFor _ p g.nbVars hlen1 l hl,
      updateWeights_weightFor _ m g.nbVars hlen1 l hl,
      updateWeights_weightFor _ m g.nbVars hlen l hl]
    split_ifs <;> rfl
  have hidem : ∀ l ∈ u, (updateWeights (updateWeights g.weights m) p).weightFor l *
      (updateWeights (updateWeights g.weights m) p).weightFor l =
        (updateWeights (updateWeights g.weights m) p).weightFor l := by
    intro l hl
    obtain ⟨hlr, hcase⟩ := hmem l hl
    rw [updateWeights_weightFor _ p g.nbVars hlen1 l hlr,
      updateWeights_weightFor _ m g.nbVars hlen l hlr]
    by_cases hp : p.falsifies l
    · simp [hp]
    · by_cases hmf : m.falsifies l
      · simp [hmf]
      · rw [if_neg hp, if_neg hmf]
        have h01 : g.weights.weightFor l = 0 ∨ g.weights.weightFor l = 1 := by
          rcases hcase with h | ⟨h0, hb⟩ | ⟨h0, hb⟩
          · exact absurd h hmf
          · exact (hw l (by omega) (by
              have := hlr.2; rw [abs_of_pos h0] at this; exact this)).1 hb
          · have := (hw (-l) (by omega) (by
              have := hlr.2; rw [abs_of_neg h0] at this; exact this)).2 hb
            rw [neg_neg] at this
            exact this
        rcases h01 with h | h <;> rw [h] <;> norm_num
  have hP : (u.map (updateWeights (updateWeights (updateWeights g.weights m) m) p).weightFor).prod =
      (u.map (updateWeights (updateWeights g.weights m) p).weightFor).prod := by
    congr 1
    exact List.map_congr_left (fun l hl => hag l (hmem l hl).1)
  have hY := Node.modelCount_congr _ _ g.nbVars hag g.root [] hr hs
  have hZ : ∏ v ∈ Finset.Icc (1 : Int) g.nbVars \ (s ∪ g.root.seenVars),
      varWeight (updateWeights (updateWeights (updateWeights g.weights m) m) p) v =
      ∏ v ∈ Finset.Icc (1 : Int) g.nbVars \ (s ∪ g.root.seenVars),
        varWeight (updateWeights (updateWeights g.weights m) p) v := by
    refine Finset.prod_congr rfl fun v hv => ?_
    have hv' := Node.litInRange_of_mem (Finset.mem_sdiff.1 hv).1
    unfold varWeight
    rw [hag v hv'.1, hag (-v) hv'.2]
  rw [hP, hY, hZ, ← mul_assoc
    (u.map (updateWeights (updateWeights g.weights m) p).weightFor).prod,
    list_prod_idem _ u hidem]

theorem Graph.conditionTo_twice_modelCount_witness :
    ((decisionGraph.conditionTo ⟨[Binding.True]⟩ 5).conditionTo ⟨[Binding.True]⟩ 6).modelCount
        (Model.free 1) =
      (decisionGraph.conditionTo ⟨[Binding.True]⟩ 5).modelCount (Model.free 1) :=
  Graph.conditionTo_twice_modelCount decisionGraph ⟨[Binding.True]⟩ (Model.free 1) 5 6
    (by simp [decisionGraph, Graph.make, Node.LitsInRange, Node.LitsInRangeAll,
      Node.litInRange])
    (by simp [decisionGraph, Graph.make, Node.SeenInRange, Node.SeenInRangeAll])
    rfl
    (fun v h1 h2 => by
      have h2' : v ≤ ((1 : Nat) : Int) := h2
      have hu : ∀ l : Int, 1 ≤ |l| ∧ |l| ≤ ((1 : Nat) : Int) →
          decisionGraph.weights.weightFor l = 1 :=
        fun l hl => WeightVector.uniform_weightFor 1 l hl
      exact ⟨fun _ => Or.inr (hu v (by rw [abs_of_pos (by omega)]; exact ⟨h1, h2'⟩)),
        fun _ => Or.inr (hu (-v) (by rw [abs_neg, abs_of_pos (by omega)]; exact ⟨h1, h2'⟩))⟩)

/-- C14 at the failing input: on the graph `Lit(1)` with `w(1) = 2`, `w(-1) = 1` and the
partial model `{1 = True}`, the graph conditioned once counts `4` for the all-`Free` model
and the graph conditioned twice counts `8`: each `conditionTo` hangs the root under a new
And node whose unit literal `1` is a variable of the subgraph, and each new root multiplies
by the weight of that literal. -/
theorem Graph.conditionTo_twice_ne :
    (litGraphWeighted.conditionTo ⟨[Binding.True]⟩ 3).modelCount (Model.free 1) = 4 ∧
      ((litGraphWeighted.conditionTo ⟨[Binding.True]⟩ 3).conditionTo ⟨[Binding.True]⟩
        4).modelCount (Model.free 1) = 8 := by
  constructor
  · simp [Graph.modelCount, Graph.conditionTo, conditionLits, litGraphWeighted,
      Node.modelCount, Node.modelCountChildren, updateWeights, varsUpTo, Model.free,
      Model.bindingFor, vecGet, vecSet, WeightVector.nbVars, WeightVector.weightFor,
      WeightVector.setWeightFor, WeightVector.idx, Node.seenVars, Node.addr, smoothLoop,
      List.range_succ, List.lookup]
    norm_num
  · simp [Graph.modelCount, Graph.conditionTo, conditionLits, litGraphWeighted,
      Node.modelCount, Node.modelCountChildren, updateWeights, varsUpTo, Model.free,
      Model.bindingFor, vecGet, vecSet, WeightVector.nbVars, WeightVector.weightFor,
      WeightVector.setWeightFor, WeightVector.idx, Node.seenVars, Node.addr, smoothLoop,
      List.range_succ, List.lookup]
    norm_num

/-! ## C18: the node count of the exported header -/

theorem Node.printBranch_length {nodeToLine : List (Nat × Int)} {unitLits : List Int}
    {child : Node} {branchLine : Int} {lines : List NNFLine}
    (h : Node.printBranch nodeToLine unitLits child branchLine = some lines) :
    lines.length = unitLits.length + 1 := by
  unfold Node.printBranch at h
  split_ifs at h
  · simp only [Option.some.injEq] at h
    rw [← h]
    simp [Node.litLines]
  · cases hc : Node.lineIndexFor nodeToLine child with
    | none => rw [hc] at h; simp at h
    | some childLine =>
      rw [hc] at h
      simp only [Option.some.injEq] at h
      rw [← h]
      simp [Node.litLines]

theorem Node.printNNF_length {nodeToLine : List (Nat × Int)} :
    ∀ {x : Node} {lines : List NNFLine}, Node.printNNF nodeToLine x = some lines →
      lines.length = x.nbLines
  | .falseNode _, lines, h => by
    simp only [Node.printNNF, Option.some.injEq] at h
    rw [← h]; rfl
  | .trueNode _, lines, h => by
    simp only [Node.printNNF, Option.some.injEq] at h
    rw [← h]; rfl
  | .litNode _ _, lines, h => by
    simp only [Node.printNNF, Option.some.injEq] at h
    rw [← h]; rfl
  | .orNode a v u0 c0 u1 c1 s, lines, h => by
    simp only [Node.printNNF] at h
    cases h1 : Node.printBranch nodeToLine u1 c1
        ((nodeToLine.lookup a).getD 0 - ((u0.length : Int) + 1) - 1) with
    | none => rw [h1] at h; simp at h
    | some lines1 =>
      rw [h1] at h
      cases h0 : Node.printBranch nodeToLine u0 c0 ((nodeToLine.lookup a).getD 0 - 1) with
      | none => rw [h0] at h; simp at h
      | some lines0 =>
        rw [h0] at h
        simp only [Option.some.injEq] at h
        rw [← h]
        simp only [List.length_append, List.length_singleton, Node.nbLines,
          Node.printBranch_length h1, Node.printBranch_length h0]
  | .andNode a cs u s, lines, h => by
    simp only [Node.printNNF] at h
    cases hc : Node.childLineIndexes nodeToLine cs with
    | none => rw [hc] at h; simp at h
    | some childLines =>
      rw [hc] at h
      simp only [Option.some.injEq] at h
      rw [← h]
      simp [Node.litLines, Node.nbLines]

theorem Node.printAll_length {nodeToLine : List (Nat × Int)} :
    ∀ {xs : List Node} {lines : List NNFLine}, Node.printAll nodeToLine xs = some lines →
      lines.length = (xs.map Node.nbLines).sum
  | [], lines, h => by
    simp only [Node.printAll, Option.some.injEq] at h
    rw [← h]; rfl
  | x :: xs, lines, h => by
    simp only [Node.printAll] at h
    cases hx : Node.printNNF nodeToLine x with
    | none => rw [hx] at h; simp at h
    | some ls =>
      rw [hx] at h
      cases hr : Node.printAll nodeToLine xs with
      | none => rw [hr] at h; simp at h
      | some more =>
        rw [hr] at h
        simp only [Option.some.injEq] at h
        rw [← h, List.length_append, Node.printNNF_length hx, Node.printAll_length hr]
        simp

mutual
/-- The counter `lineIndex` of `indexNodes` moves on by the number of lines of the nodes
it appends to `allNodes`. -/
theorem Node.indexNodes_lineIndex (k : Int) :
    ∀ (x : Node) (st : IndexState),
      st.lineIndex = k + ((st.allNodes.map Node.nbLines).sum : Nat) →
      (x.indexNodes st).lineIndex = k + ((((x.indexNodes st).allNodes).map Node.nbLines).sum : Nat)
  | .falseNode a, st, h => by
    simp only [Node.indexNodes, ite_self]; exact h
  | .trueNode a, st, h => by
    simp only [Node.indexNodes, ite_self]; exact h
  | .litNode a l, st, h => by
    simp only [Node.indexNodes]
    split_ifs
    · exact h
    · simp only [List.map_append, List.sum_append, List.map_cons, List.map_nil, List.sum_cons,
        List.sum_nil, Node.nbLines, h]
      push_cast; ring
  | .orNode a v u0 c0 u1 c1 s, st, h => by
    simp only [Node.indexNodes]
    split_ifs
    · exact h
    · have h0 := Node.indexNodes_lineIndex k c0 st h
      have h1 := Node.indexNodes_lineIndex k c1 _ h0
      simp only [List.map_append, List.sum_append, List.map_cons, List.map_nil, List.sum_cons,
        List.sum_nil, Node.nbLines, h1]
      push_cast; ring
  | .andNode a cs u s, st, h => by
    simp only [Node.indexNodes]
    split_ifs
    · exact h
    · have hc := Node.indexNodesAll_lineIndex k cs st h
      simp only [List.map_append, List.sum_append, List.map_cons, List.map_nil, List.sum_cons,
        List.sum_nil, Node.nbLines, hc]
      push_cast; ring
theorem Node.indexNodesAll_lineIndex (k : Int) :
    ∀ (xs : List Node) (st : IndexState),
      st.lineIndex = k + ((st.allNodes.map Node.nbLines).sum : Nat) →
      (Node.indexNodesAll xs st).lineIndex =
        k + ((((Node.indexNodesAll xs st).allNodes).map Node.nbLines).sum : Nat)
  | [], st, h => by simp only [Node.indexNodesAll]; exact h
  | x :: xs, st, h => by
    simp only [Node.indexNodesAll]
    exact Node.indexNodesAll_lineIndex k xs _ (Node.indexNodes_lineIndex k x st h)
end

theorem parseLine_length {allNodes : List Node} {next : Nat} {line : NNFLine}
    {res : List Node × Nat} (h : parseLine allNodes next line = some res) :
    res.1.length = allNodes.length + 1 := by
  unfold parseLine at h
  split_ifs at h
  · split at h
    · simp at h
    · split_ifs at h
      · simp only [Option.some.injEq] at h; rw [← h]; simp
      · split at h
        · simp at h
        · simp only [Option.some.injEq] at h; rw [← h]; simp
  · split at h
    · simp at h
    · split_ifs at h
      · simp only [Option.some.injEq] at h; rw [← h]; simp
      · split at h
        · split_ifs at h
          split at h
          · simp only [Option.some.injEq] at h; rw [← h]; simp
          · simp at h
        · simp at h
  · split at h
    · simp at h
    · simp only [Option.some.injEq] at h; rw [← h]; simp

theorem parseLines_length : ∀ (lines : List NNFLine) (allNodes : List Node) (next : Nat)
    (res : List Node), parseLines lines allNodes next = some res →
      res.length = allNodes.length + lines.length
  | [], allNodes, next, res, h => by
    simp only [parseLines, Option.some.injEq] at h
    rw [← h]; rfl
  | line :: rest, allNodes, next, res, h => by
    simp only [parseLines] at h
    cases hl : parseLine allNodes next line with
    | none => rw [hl] at h; simp at h
    | some r =>
      rw [hl] at h
      simp only at h
      rw [parseLines_length rest r.1 r.2 res h, parseLine_length hl, List.length_cons]
      omega

/-- C18, amended: for every graph `g` that `Graph::print` exports, the node count written
as the first number of the `nnf` header is the number of node lines of the exported text,
the reserved lines `O 0 0` and `A 0` included, and it is the number of nodes the parser
creates when it reads the text back (one for each line). -/
theorem Graph.print_header_nbNodes (g : Graph) (text : NNFText) (h : g.print = some text) :
    text.nbNodes = (text.lines.length : Int) ∧
      ∀ (next : Nat) (allNodes : List Node), parseLines text.lines [] next = some allNodes →
        (allNodes.length : Int) = text.nbNodes := by
  have hidx := Node.indexNodes_lineIndex 2 g.root ⟨[], [], 2⟩ (by simp)
  unfold Graph.print at h
  simp only at h
  cases hp : Node.printAll (g.root.indexNodes ⟨[], [], 2⟩).nodeToLine
      (g.root.indexNodes ⟨[], [], 2⟩).allNodes with
  | none => rw [hp] at h; simp at h
  | some lines =>
    rw [hp] at h
    simp only [Option.some.injEq] at h
    have hlen := Node.printAll_length hp
    have h1 : text.nbNodes = (text.lines.length : Int) := by
      rw [← h]
      simp only [List.length_append, List.length_cons, List.length_nil, hlen, hidx]
      push_cast; ring
    refine ⟨h1, fun next allNodes hparse => ?_⟩
    rw [h1, parseLines_length _ _ _ _ hparse]
    simp

theorem Graph.print_header_nbNodes_witness :
    NNFText.nbNodes ⟨7, 4, 1, [⟨'O', [0, 0]⟩, ⟨'A', [0]⟩, ⟨'L', [-1]⟩, ⟨'A', [1, 2]⟩,
        ⟨'L', [1]⟩, ⟨'A', [1, 4]⟩, ⟨'O', [1, 2, 5, 3]⟩]⟩ =
      ((NNFText.lines ⟨7, 4, 1, [⟨'O', [0, 0]⟩, ⟨'A', [0]⟩, ⟨'L', [-1]⟩, ⟨'A', [1, 2]⟩,
        ⟨'L', [1]⟩, ⟨'A', [1, 4]⟩, ⟨'O', [1, 2, 5, 3]⟩]⟩).length : Int) :=
  (Graph.print_header_nbNodes orUnitsGraph
    ⟨7, 4, 1, [⟨'O', [0, 0]⟩, ⟨'A', [0]⟩, ⟨'L', [-1]⟩, ⟨'A', [1, 2]⟩, ⟨'L', [1]⟩,
      ⟨'A', [1, 4]⟩, ⟨'O', [1, 2, 5, 3]⟩]⟩ rfl).1

/-- C18 as stated fails: for `Or(1, [branch{units=[1], True}, branch{units=[-1], True}])`
over one variable `Graph::print` writes the header `nnf 7 4 1` and seven lines; the graph
parsed from that text is an Or node over two And nodes, and its `nbNodes()` is `3`. -/
theorem Graph.print_parse_nbNodes_ne :
    orUnitsGraph.print =
        some ⟨7, 4, 1, [⟨'O', [0, 0]⟩, ⟨'A', [0]⟩, ⟨'L', [-1]⟩, ⟨'A', [1, 2]⟩, ⟨'L', [1]⟩,
          ⟨'A', [1, 4]⟩, ⟨'O', [1, 2, 5, 3]⟩]⟩ ∧
      (parseNNF ⟨7, 4, 1, [⟨'O', [0, 0]⟩, ⟨'A', [0]⟩, ⟨'L', [-1]⟩, ⟨'A', [1, 2]⟩, ⟨'L', [1]⟩,
          ⟨'A', [1, 4]⟩, ⟨'O', [1, 2, 5, 3]⟩]⟩ 10).map Graph.nbNodes = some 3 :=
  ⟨rfl, rfl⟩

/-! ## Positive counts -/

theorem prod_weightFor_pos (w : WeightVector) (n : Nat)
    (hw : ∀ l : Int, Node.litInRange n l → 0 < w.weightFor l) :
    ∀ (ls : List Int), (∀ l ∈ ls, Node.litInRange n l) → 0 < (ls.map w.weightFor).prod
  | [], _ => by simp
  | l :: ls, h => by
    rw [List.map_cons, List.prod_cons]
    exact mul_pos (hw l (h l (List.mem_cons_self _ _)))
      (prod_weightFor_pos w n hw ls (fun x hx => h x (List.mem_cons_of_mem _ hx)))

theorem varWeight_pos (w : WeightVector) (n : Nat)
    (hw : ∀ l : Int, Node.litInRange n l → 0 < w.weightFor l) {v : Int}
    (hv : v ∈ Finset.Icc (1 : Int) n) : 0 < varWeight w v := by
  unfold varWeight
  exact add_pos (hw v (Node.litInRange_of_mem hv).1) (hw (-v) (Node.litInRange_of_mem hv).2)

theorem Node.orBranchCount_pos (w : WeightVector) (n : Nat)
    (hw : ∀ l : Int, Node.litInRange n l → 0 < w.weightFor l) (seen : Finset Int)
    (hseen : seen ⊆ Finset.Icc (1 : Int) n) (child : Node) (loc : ℚ) (hloc : 0 < loc) :
    0 < Node.orBranchCount w seen child loc := by
  unfold Node.orBranchCount
  split_ifs
  · rw [smoothLoop_sort, one_mul]
    exact mul_pos hloc (Finset.prod_pos fun v hv =>
      varWeight_pos w n hw (hseen (Finset.mem_sdiff.1 hv).1))
  · exact hloc

theorem CachePos.lookup {cache : Cache} (h : CachePos cache) {a : Nat} {q : ℚ}
    (hl : cache.lookup a = some q) : 0 < q := by
  induction cache with
  | nil => simp at hl
  | cons e rest ih =>
    obtain ⟨a', q'⟩ := e
    rw [List.lookup_cons] at hl
    by_cases hb : (a == a') = true
    · rw [hb] at hl
      simp only [Option.some.injEq] at hl
      rw [← hl]
      exact h (a', q') (List.mem_cons_self _ _)
    · have hb' : (a == a') = false := by simpa using hb
      rw [hb'] at hl
      exact ih (fun e he => h e (List.mem_cons_of_mem _ he)) hl

mutual
/-- Under positive weights a node without `False` node counts a positive number, and so
does everything it stores in the memo. -/
theorem Node.modelCount_pos (w : WeightVector) (n : Nat)
    (hw : ∀ l : Int, Node.litInRange n l → 0 < w.weightFor l) :
    ∀ (x : Node) (cache : Cache), x.PosShape n → CachePos cache →
      0 < (x.modelCount w cache).1 ∧ CachePos (x.modelCount w cache).2
  | .falseNode _, _, hx, _ => by simp [Node.PosShape] at hx
  | .trueNode _, cache, _, hc => by
    simp only [Node.modelCount]
    exact ⟨one_pos, hc⟩
  | .litNode _ l, cache, hx, hc => by
    simp only [Node.PosShape] at hx
    simp only [Node.modelCount]
    exact ⟨hw l hx, hc⟩
  | .orNode a v u0 c0 u1 c1 s, cache, hx, hc => by
    simp only [Node.PosShape] at hx
    obtain ⟨p0, q0⟩ := Node.modelCount_pos w n hw c0 cache hx.2.1 hc
    obtain ⟨p1, q1⟩ := Node.modelCount_pos w n hw c1 _ hx.2.2 q0
    simp only [Node.modelCount, zero_add]
    exact ⟨add_pos (Node.orBranchCount_pos w n hw s hx.1 c0 _ p0)
      (Node.orBranchCount_pos w n hw s hx.1 c1 _ p1), q1⟩
  | .andNode a cs u s, cache, hx, hc => by
    simp only [Node.PosShape] at hx
    have hnb := prod_weightFor_pos w n hw u hx.1
    simp only [Node.modelCount, foldl_mul_weightFor, one_mul]
    rw [if_neg (ne_of_gt hnb)]
    exact Node.modelCountChildren_pos w n hw cs _ cache hx.2 hnb hc
theorem Node.modelCountChildren_pos (w : WeightVector) (n : Nat)
    (hw : ∀ l : Int, Node.litInRange n l → 0 < w.weightFor l) :
    ∀ (cs : List Node) (nb : ℚ) (cache : Cache), Node.PosShapeAll n cs → 0 < nb →
      CachePos cache →
      0 < (Node.modelCountChildren w cs nb cache).1 ∧
        CachePos (Node.modelCountChildren w cs nb cache).2
  | [], nb, cache, _, hnb, hc => by
    simp only [Node.modelCountChildren]
    exact ⟨hnb, hc⟩
  | c :: cs, nb, cache, hx, hnb, hc => by
    simp only [Node.PosShapeAll] at hx
    obtain ⟨p, q⟩ := Node.modelCount_pos w n hw c cache hx.1 hc
    simp only [Node.modelCountChildren]
    cases hl : cache.lookup c.addr with
    | none =>
      simp only
      have hq : CachePos ((c.addr, (c.modelCount w cache).1) :: (c.modelCount w cache).2) := by
        intro e he
        rcases List.mem_cons.1 he with rfl | he'
        · exact p
        · exact q e he'
      rw [if_neg (ne_of_gt (mul_pos hnb p))]
      exact Node.modelCountChildren_pos w n hw cs _ _ hx.2 (mul_pos hnb p) hq
    | some mc =>
      simp only
      have hmc := hc.lookup hl
      rw [if_neg (ne_of_gt (mul_pos hnb hmc))]
      exact Node.modelCountChildren_pos w n hw cs _ _ hx.2 (mul_pos hnb hmc) hc
end

/-- With the uniform weights `Graph::modelCount` of the all-`Free` model is positive on a
root without `False` node, and `0` on the `False` node. -/
theorem Graph.modelCount_make_pos (n : Nat) (r : Node) (hr : r.PosShape n) :
    0 < (Graph.make n r).modelCount (Model.free n) := by
  have hw : ∀ l : Int, Node.litInRange n l → 0 < (WeightVector.uniform n).weightFor l := by
    intro l hl
    rw [WeightVector.uniform_weightFor n l hl]
    exact one_pos
  have hp := (Node.modelCount_pos (WeightVector.uniform n) n hw r [] hr
    (fun e he => by simp at he)).1
  unfold Graph.modelCount
  simp only [Graph.make, updateWeights_free]
  split_ifs
  · exact hp
  · rw [smoothLoop_varsUpTo, one_mul]
    exact mul_pos hp (Finset.prod_pos fun v hv =>
      varWeight_pos _ n hw (Finset.mem_sdiff.1 hv).1)

theorem Graph.modelCount_make_false (n : Nat) (r : Node) (hr : r.isFalseNode = true)
    (m : Model) : (Graph.make n r).modelCount m = 0 := by
  cases r with
  | falseNode a =>
    unfold Graph.modelCount
    simp [Graph.make, Node.modelCount]
  | trueNode a => simp [Node.isFalseNode] at hr
  | litNode a l => simp [Node.isFalseNode] at hr
  | orNode a v u0 c0 u1 c1 s => simp [Node.isFalseNode] at hr
  | andNode a cs u s => simp [Node.isFalseNode] at hr

/-! ## The shape of what `keepBoundedWeightModels` returns -/

theorem Node.isFalseNode_of_posShape {n : Nat} {x : Node} (h : x.PosShape n) :
    x.isFalseNode = false := by
  cases x with
  | falseNode a => simp [Node.PosShape] at h
  | trueNode a => rfl
  | litNode a l => rfl
  | orNode a v u0 c0 u1 c1 s => rfl
  | andNode a cs u s => rfl

theorem Node.posShapeAll_snoc {n : Nat} : ∀ {xs : List Node} {x : Node},
    Node.PosShapeAll n xs → x.PosShape n → Node.PosShapeAll n (xs ++ [x])
  | [], x, _, hx => by
    simp only [List.nil_append, Node.PosShapeAll]
    exact ⟨hx, trivial⟩
  | y :: ys, x, h, hx => by
    simp only [Node.PosShapeAll] at h
    simp only [List.cons_append, Node.PosShapeAll]
    exact ⟨h.1, Node.posShapeAll_snoc h.2 hx⟩

theorem LinObjFunc.isFalseNode_makeFalseNodePair :
    LinObjFunc.makeFalseNodePair.2.isFalseNode = true := rfl

/-- The selection of `keepBoundedWeightModelsOrRooted` returns the `False` node or a node
without `False` node, and a result that is not `False` has passed the test of the bound. -/
theorem LinObjFunc.orSelect_shape (f : LinObjFunc) (bound : Int) (n : Nat) (var : Int)
    (addr : Nat) (q0 q1 : VecNodePair)
    (h0 : q0.2.isFalseNode = true ∨ q0.2.PosShape n)
    (h1 : q1.2.isFalseNode = true ∨ q1.2.PosShape n) :
    ((f.orSelect bound var addr q0 q1).2.isFalseNode = true ∨
        (f.orSelect bound var addr q0 q1).2.PosShape n) ∧
      ((f.orSelect bound var addr q0 q1).2.isFalseNode = false →
        f.minWeight (f.orSelect bound var addr q0 q1).1 ≤ bound) := by
  have hp : ∀ q : VecNodePair, (q.2.isFalseNode = true ∨ q.2.PosShape n) →
      ((if f.minWeight q.1 > bound then LinObjFunc.makeFalseNodePair else q).2.isFalseNode = true ∨
        (if f.minWeight q.1 > bound then LinObjFunc.makeFalseNodePair else q).2.PosShape n) ∧
      ((if f.minWeight q.1 > bound then LinObjFunc.makeFalseNodePair
          else q).2.isFalseNode = false →
        f.minWeight (if f.minWeight q.1 > bound then LinObjFunc.makeFalseNodePair else q).1 ≤
          bound) := by
    intro q hq
    by_cases hb : f.minWeight q.1 > bound
    · simp only [if_pos hb]
      exact ⟨Or.inl rfl, fun h => by
        rw [LinObjFunc.isFalseNode_makeFalseNodePair] at h; exact Bool.noConfusion h⟩
    · simp only [if_neg hb]
      exact ⟨hq, fun _ => not_lt.1 hb⟩
  have b0 := hp q0 h0
  have b1 := hp q1 h1
  unfold LinObjFunc.orSelect
  simp only
  generalize (if f.minWeight q0.1 > bound then LinObjFunc.makeFalseNodePair else q0) = p0
    at b0 ⊢
  generalize (if f.minWeight q1.1 > bound then LinObjFunc.makeFalseNodePair else q1) = p1
    at b1 ⊢
  by_cases f0 : p0.2.isFalseNode = true
  · rw [if_pos f0]; exact b1
  · rw [if_neg f0]
    by_cases f1 : p1.2.isFalseNode = true
    · rw [if_pos f1]; exact b0
    · rw [if_neg f1]
      by_cases g01 : f.minWeight p0.1 > f.minWeight p1.1
      · rw [if_pos g01]; exact b1
      · rw [if_neg g01]
        by_cases g10 : f.minWeight p1.1 > f.minWeight p0.1
        · rw [if_pos g10]; exact b0
        · rw [if_neg g10]
          have s0 : p0.2.PosShape n := b0.1.resolve_left f0
          have s1 : p1.2.PosShape n := b1.1.resolve_left f1
          refine ⟨Or.inr ?_, fun _ => b0.2 (by simpa using f0)⟩
          simp only [Node.PosShape]
          exact ⟨Finset.empty_subset _, s0, s1⟩

mutual
/-- On a graph without unit literals on the Or branches `keepBoundedWeightModels` returns
the `False` node or a node without `False` node, and a result that is not `False` has
passed the test of the bound. -/
theorem LinObjFunc.keepBoundedNode_shape (f : LinObjFunc) (bound : Int) (n : Nat) :
    ∀ (c : Node) (next : Nat), c.NoOrUnits → c.LitsInRange n →
      ((f.keepBoundedNode bound c next).1.2.isFalseNode = true ∨
        (f.keepBoundedNode bound c next).1.2.PosShape n) ∧
      ((f.keepBoundedNode bound c next).1.2.isFalseNode = false →
        f.minWeight (f.keepBoundedNode bound c next).1.1 ≤ bound)
  | .falseNode a, next, _, _ => by
    simp only [LinObjFunc.keepBoundedNode]
    exact ⟨Or.inl rfl, fun h => by
      rw [LinObjFunc.isFalseNode_makeFalseNodePair] at h; exact Bool.noConfusion h⟩
  | .trueNode a, next, _, _ => by
    simp only [LinObjFunc.keepBoundedNode]
    by_cases hb : f.minWeight [] ≤ bound
    · rw [if_pos hb]
      exact ⟨Or.inr (by simp [trueNode, Node.PosShape]), fun _ => hb⟩
    · rw [if_neg hb]
      exact ⟨Or.inl rfl, fun h => by
        rw [LinObjFunc.isFalseNode_makeFalseNodePair] at h; exact Bool.noConfusion h⟩
  | .litNode a l, next, _, hl => by
    simp only [Node.LitsInRange] at hl
    simp only [LinObjFunc.keepBoundedNode]
    by_cases hb : f.minWeight [l] ≤ bound
    · rw [if_pos hb]
      exact ⟨Or.inr (by simpa [Node.PosShape] using hl), fun _ => hb⟩
    · rw [if_neg hb]
      exact ⟨Or.inl rfl, fun h => by
        rw [LinObjFunc.isFalseNode_makeFalseNodePair] at h; exact Bool.noConfusion h⟩
  | .orNode a x u0 c0 u1 c1 s, next, hno, hlr => by
    simp only [Node.NoOrUnits] at hno
    simp only [Node.LitsInRange] at hlr
    obtain ⟨e0, e1, hn0, hn1⟩ := hno
    subst e0 e1
    have k0 := (LinObjFunc.keepBoundedNode_shape f bound n c0 next hn0 hlr.2.1).1
    have k1 := (LinObjFunc.keepBoundedNode_shape f bound n c1
      (f.keepBoundedNode bound c0 next).2 hn1 hlr.2.2.2).1
    rw [f.keepBoundedNode_orNode_nil]
    exact f.orSelect_shape bound n x _ _ _ k0 k1
  | .andNode a cs u s, next, hno, hlr => by
    simp only [Node.NoOrUnits] at hno
    simp only [Node.LitsInRange] at hlr
    simp only [LinObjFunc.keepBoundedNode]
    exact LinObjFunc.keepBoundedAndLoop_shape f bound n cs u u [] next (next + 1) hno hlr.2
      hlr.1 trivial
/-- The loop of `keepBoundedWeightModelsAndRooted`, likewise. -/
theorem LinObjFunc.keepBoundedAndLoop_shape (f : LinObjFunc) (bound : Int) (n : Nat) :
    ∀ (cs : List Node) (unitLits assigns : List Int) (newChildren : List Node)
      (addr next : Nat), Node.NoOrUnitsAll cs → Node.LitsInRangeAll n cs →
      (∀ l ∈ unitLits, Node.litInRange n l) → Node.PosShapeAll n newChildren →
      ((f.keepBoundedAndLoop bound cs unitLits assigns newChildren addr next).1.2.isFalseNode =
          true ∨
        (f.keepBoundedAndLoop bound cs unitLits assigns newChildren addr next).1.2.PosShape n) ∧
      ((f.keepBoundedAndLoop bound cs unitLits assigns newChildren addr next).1.2.isFalseNode =
          false →
        f.minWeight (f.keepBoundedAndLoop bound cs unitLits assigns newChildren addr next).1.1 ≤
          bound)
  | [], unitLits, assigns, newChildren, addr, next, _, _, hu, hnc => by
    simp only [LinObjFunc.keepBoundedAndLoop]
    by_cases hb : f.minWeight assigns ≤ bound
    · rw [if_pos hb]
      refine ⟨Or.inr ?_, fun _ => hb⟩
      simp only [Node.PosShape]
      exact ⟨hu, hnc⟩
    · rw [if_neg hb]
      exact ⟨Or.inl rfl, fun h => by
        rw [LinObjFunc.isFalseNode_makeFalseNodePair] at h; exact Bool.noConfusion h⟩
  | child :: rest, unitLits, assigns, newChildren, addr, next, hno, hlr, hu, hnc => by
    simp only [Node.NoOrUnitsAll] at hno
    simp only [Node.LitsInRangeAll] at hlr
    have hc := (LinObjFunc.keepBoundedNode_shape f bound n child next hno.1 hlr.1).1
    have ih := LinObjFunc.keepBoundedAndLoop_shape f bound n rest unitLits
    simp only [LinObjFunc.keepBoundedAndLoop]
    generalize f.keepBoundedNode bound child next = r at hc ⊢
    by_cases hf : r.1.2.isFalseNode = true
    · rw [if_pos hf]
      exact ⟨Or.inl rfl, fun h => by
        rw [LinObjFunc.isFalseNode_makeFalseNodePair] at h; exact Bool.noConfusion h⟩
    · rw [if_neg hf]
      exact ih _ _ addr r.2 hno.2 hlr.2 hu (Node.posShapeAll_snoc hnc (hc.resolve_left hf))
end

/-! ## C17: the count of the graph `keepBoundedWeightModels` returns -/

/-- The total assignment of `1..n` that the subset of its true variables stands for. -/
theorem assignOf_filter (n : Nat) (ρ : Int → Bool) :
    ∀ v ∈ Finset.Icc (1 : Int) n,
      assignOf ((Finset.Icc (1 : Int) n).filter (fun v => ρ v = true)) v = ρ v := by
  intro v hv
  unfold assignOf
  by_cases h : ρ v = true
  · simp [hv, h]
  · simp [hv, h]

/-- Among the total models of a circuit over `1..n` there is one of least objective value. -/
theorem LinObjFunc.exists_cheapest (f : LinObjFunc) (n : Nat) (root : Node)
    (hV : root.vars ⊆ Finset.Icc (1 : Int) n) (ρ0 : Int → Bool)
    (h0 : Node.eval ρ0 root = true) :
    ∃ ρ : Int → Bool, Node.eval ρ root = true ∧
      f.cost ρ (Finset.Icc (1 : Int) n) ≤ f.cost ρ0 (Finset.Icc (1 : Int) n) ∧
      ∀ ρ' : Int → Bool, Node.eval ρ' root = true →
        f.cost ρ (Finset.Icc (1 : Int) n) ≤ f.cost ρ' (Finset.Icc (1 : Int) n) := by
  have hrep : ∀ ρ : Int → Bool,
      Node.eval (assignOf ((Finset.Icc (1 : Int) n).filter (fun v => ρ v = true))) root =
          Node.eval ρ root ∧
        f.cost (assignOf ((Finset.Icc (1 : Int) n).filter (fun v => ρ v = true)))
          (Finset.Icc (1 : Int) n) = f.cost ρ (Finset.Icc (1 : Int) n) :=
    fun ρ => ⟨Node.eval_congr _ _ root (fun v hv => assignOf_filter n ρ v (hV hv)),
      f.cost_congr (assignOf_filter n ρ)⟩
  have hne : ((Finset.Icc (1 : Int) n).powerset.filter
      (fun T => Node.eval (assignOf T) root = true)).Nonempty :=
    ⟨(Finset.Icc (1 : Int) n).filter (fun v => ρ0 v = true), Finset.mem_filter.2
      ⟨Finset.mem_powerset.2 (Finset.filter_subset _ _), by rw [(hrep ρ0).1]; exact h0⟩⟩
  obtain ⟨T, hT, hmin⟩ := Finset.exists_min_image _
    (fun T => f.cost (assignOf T) (Finset.Icc (1 : Int) n)) hne
  have key : ∀ ρ' : Int → Bool, Node.eval ρ' root = true →
      f.cost (assignOf T) (Finset.Icc (1 : Int) n) ≤ f.cost ρ' (Finset.Icc (1 : Int) n) := by
    intro ρ' h'
    have := hmin ((Finset.Icc (1 : Int) n).filter (fun v => ρ' v = true)) (Finset.mem_filter.2
      ⟨Finset.mem_powerset.2 (Finset.filter_subset _ _), by rw [(hrep ρ').1]; exact h'⟩)
    simp only at this
    rw [(hrep ρ').2] at this
    exact this
  exact ⟨assignOf T, (Finset.mem_filter.1 hT).2, key ρ0 h0, key⟩

/-- A result of `keepBoundedWeightModels` that is not the `False` node comes with a total
model of the graph whose objective value is within the bound. -/
theorem LinObjFunc.keepBoundedNode_model (f : LinObjFunc) (g : Graph) (bound : Int)
    (next : Nat) (hv : g.Valid) (hn : g.root.NoOrUnits)
    (hlen : f.weights.length = 2 * g.nbVars)
    (hr : (f.keepBoundedNode bound g.root next).1.2.isFalseNode = false) :
    ∃ M : CompactModel, M.content.length = g.nbVars ∧ g.root.sat M = true ∧
      f.value g.nbVars M.value ≤ bound := by
  have hV := Node.vars_subset_range g.nbVars g.root hv.litsInRange
  have k := f.keepBoundedNode_spec bound g.nbVars hlen g.root next hn hv.decomposable
    hv.litsInRange
  have hb := (f.keepBoundedNode_shape bound g.nbVars g.root next hn hv.litsInRange).2 hr
  obtain ⟨ρ', hρ', hcost⟩ := k.real hr
  have hmw := f.minWeight_eq_localMin_add g.nbVars hlen _ k.sub hV
  have hval : ∀ v ∈ Finset.Icc (1 : Int) g.nbVars,
      (CompactModel.ofFun g.nbVars
        (fun v => if v ∈ g.root.vars then ρ' v else f.cheapAssign v)).value v =
        (fun v => if v ∈ g.root.vars then ρ' v else f.cheapAssign v) v :=
    fun v hv' => CompactModel.ofFun_value g.nbVars _ v (Finset.mem_Icc.1 hv')
  refine ⟨CompactModel.ofFun g.nbVars
    (fun v => if v ∈ g.root.vars then ρ' v else f.cheapAssign v),
    by simp [CompactModel.ofFun], ?_, ?_⟩
  · unfold Node.sat
    rw [Node.eval_congr _ ρ' g.root (fun v hv' => by rw [hval v (hV hv')]; simp [hv'])]
    exact hρ'
  · rw [f.value_eq_cost, f.cost_congr hval, f.cost_lift ρ' hV, hcost]
    unfold LinObjFunc.restMin at hmw
    omega

/-- The count of the pruned graph tells whether a model is within the bound: for every
valid graph `g` whose Or branches carry no unit literals and
every objective of `2 * nbVars` weights, `modelCount` of the all-`Free` model on the graph
`keepBoundedWeightModels(g, bound)` returns (with its uniform weights) is positive when `g`
has a total model of objective value at most `bound`, and `0` when it has none. -/
theorem LinObjFunc.keepBoundedWeightModels_modelCount_pos (f : LinObjFunc) (g : Graph)
    (bound : Int) (next : Nat) (hv : g.Valid) (hn : g.root.NoOrUnits)
    (hlen : f.weights.length = 2 * g.nbVars) :
    ((∃ M : CompactModel, M.content.length = g.nbVars ∧ g.root.sat M = true ∧
        f.value g.nbVars M.value ≤ bound) →
      0 < (f.keepBoundedWeightModels g bound next).modelCount (Model.free g.nbVars)) ∧
    ((¬ ∃ M : CompactModel, M.content.length = g.nbVars ∧ g.root.sat M = true ∧
        f.value g.nbVars M.value ≤ bound) →
      (f.keepBoundedWeightModels g bound next).modelCount (Model.free g.nbVars) = 0) := by
  have hV := Node.vars_subset_range g.nbVars g.root hv.litsInRange
  have hsh := f.keepBoundedNode_shape bound g.nbVars g.root next hn hv.litsInRange
  unfold LinObjFunc.keepBoundedWeightModels
  rw [f.nbVars_of_length g.nbVars hlen]
  constructor
  · rintro ⟨M, -, hM, hbd⟩
    obtain ⟨ρ, hρ, hle, hmin⟩ := f.exists_cheapest g.nbVars g.root hV M.value hM
    have k := f.keepBoundedNode_spec bound g.nbVars hlen g.root next hn hv.decomposable
      hv.litsInRange
    have hch : f.Cheapest ρ (fun ρ => Node.eval ρ g.root) g.root.vars :=
      f.cheapest_of_value_le g.nbVars ρ (fun ρ => Node.eval ρ g.root) g.root.vars hV
        g.root.dependsOn_eval (fun M' _ hM' => by
          rw [f.value_eq_cost, f.value_eq_cost]
          exact hmin M'.value hM')
    have hfull := f.full_mono g.nbVars ρ hV (Finset.Subset.refl _)
    rw [f.restMin_full, add_zero] at hfull
    rw [f.value_eq_cost] at hbd
    have hnf := (k.keep ρ hρ hch (by omega)).1
    rcases hsh.1 with h | h
    · rw [hnf] at h; exact Bool.noConfusion h
    · exact Graph.modelCount_make_pos g.nbVars _ h
  · intro hnone
    apply Graph.modelCount_make_false
    by_contra hne
    exact hnone (f.keepBoundedNode_model g bound next hv hn hlen (by simpa using hne))

theorem LinObjFunc.keepBoundedWeightModels_modelCount_pos_witness :
    0 < (objFiveTwo.keepBoundedWeightModels decisionGraph 3 10).modelCount
      (Model.free decisionGraph.nbVars) :=
  (LinObjFunc.keepBoundedWeightModels_modelCount_pos objFiveTwo decisionGraph 3 10
    decisionGraph_valid decisionGraph_noOrUnits rfl).1 ⟨⟨[false]⟩, rfl, by decide, by decide⟩

/-- C17 at the failing input: on the decision on variable `1` as the parser builds it, a
valid graph with uniform weights, with `obj(1) = 5`, `obj(-1) = 2` and bound `3`, one total
model has an objective value within the bound and `modelCount` of the all-`Free` model on
the graph `keepBoundedWeightModels` returns is `2`: the And node it builds has empty
`seenVars`, so the count smooths over the variable `1` its unit literal fixes.  The count
is `2` as well on the graph `Or(1, [branch{units=[1], True}, branch{units=[-1], True}])` of
the claim. -/
theorem LinObjFunc.keepBoundedWeightModels_modelCount_ne :
    decisionGraph.Valid ∧ decisionGraph.weights = WeightVector.uniform 1 ∧
      ((CompactModel.all 1).filter (fun M =>
        decisionGraph.root.sat M && decide (objFiveTwo.value 1 M.value ≤ 3))).length = 1 ∧
      (objFiveTwo.keepBoundedWeightModels decisionGraph 3 10).modelCount (Model.free 1) = 2 ∧
      ((CompactModel.all 1).filter (fun M =>
        orUnitsGraph.root.sat M && decide (objFiveTwo.value 1 M.value ≤ 3))).length = 1 ∧
      (objFiveTwo.keepBoundedWeightModels orUnitsGraph 3 10).modelCount (Model.free 1) = 2 := by
  refine ⟨decisionGraph_valid, rfl, by decide, ?_, by decide, ?_⟩
  · have e : objFiveTwo.keepBoundedWeightModels decisionGraph 3 10 =
        Graph.make 1 (Node.andNode 11 [] [-1] ∅) := rfl
    rw [e]
    simp [Graph.modelCount, Graph.make, Node.modelCount, Node.modelCountChildren,
      updateWeights, varsUpTo, Model.free, Model.bindingFor, vecGet, WeightVector.uniform,
      WeightVector.nbVars, WeightVector.weightFor, WeightVector.idx, Node.seenVars,
      smoothLoop, List.range_succ]
    norm_num
  · have e : objFiveTwo.keepBoundedWeightModels orUnitsGraph 3 10 =
        Graph.make 1 (Node.andNode 11 [trueNode] [-1] ∅) := rfl
    rw [e]
    simp [Graph.modelCount, Graph.make, Node.modelCount, Node.modelCountChildren,
      updateWeights, varsUpTo, Model.free, Model.bindingFor, vecGet, WeightVector.uniform,
      WeightVector.nbVars, WeightVector.weightFor, WeightVector.idx, Node.seenVars,
      smoothLoop, List.range_succ, trueNode, Node.addr, List.lookup]
    norm_num

/-! ## C21, C22: `Model::setBindingFor` and `Model::mix` -/

/-- C21: for a model, a variable `v` of `1..nbVars` and a binding `b`, `setBindingFor(v, b)`
stores `Unsat` for `v` when the current binding is `True` and `b` is `False`, or the
current binding is `False` and `b` is `True`, and stores `b` otherwise; the binding of
every other variable and the length of the model are unchanged. -/
theorem Model.setBindingFor_spec (m : Model) (v : Int) (b : Binding) (h1 : 1 ≤ v)
    (h2 : v ≤ (m.content.length : Int)) :
    (m.setBindingFor v b).bindingFor v =
        (if (m.bindingFor v = Binding.True ∧ b = Binding.False) ∨
            (m.bindingFor v = Binding.False ∧ b = Binding.True) then Binding.Unsat else b) ∧
      (∀ u : Int, u ≠ v → (m.setBindingFor v b).bindingFor u = m.bindingFor u) ∧
      (m.setBindingFor v b).content.length = m.content.length := by
  refine ⟨?_, fun u hu => ?_, m.setBindingFor_length v b⟩
  · rw [Model.bindingFor_setBindingFor, if_pos ⟨rfl, h1, h2⟩]
  · rw [Model.bindingFor_setBindingFor, if_neg (fun h => hu h.1.symm)]

theorem Model.setBindingFor_spec_witness :
    (Model.setBindingFor ⟨[Binding.True, Binding.Free]⟩ 1 Binding.False).bindingFor 1 =
      (if ((Model.mk [Binding.True, Binding.Free]).bindingFor 1 = Binding.True ∧
            Binding.False = Binding.False) ∨
          ((Model.mk [Binding.True, Binding.Free]).bindingFor 1 = Binding.False ∧
            Binding.False = Binding.True) then Binding.Unsat else Binding.False) :=
  (Model.setBindingFor_spec ⟨[Binding.True, Binding.Free]⟩ 1 Binding.False (by decide)
    (by decide)).1

theorem Model.bindingFor_succ (m : Model) (k : Nat) (hk : k < m.content.length) :
    m.bindingFor ((k : Int) + 1) = m.content.get ⟨k, hk⟩ := by
  unfold Model.bindingFor vecGet
  have e : (k : Int) + 1 - 1 = (k : Int) := by omega
  rw [e, if_pos (by omega), Int.toNat_ofNat, List.getD_eq_getElem _ _ hk]
  rfl

/-- The flag of `Model::mix` only depends on the two models. -/
theorem Model.mixLoop_fst : ∀ (b1s b2s out : List Binding) (i : Nat),
    b1s.length = b2s.length →
      ((Model.mixLoop b1s b2s out i).1 = true ↔ List.Forall₂ Binding.Compatible b1s b2s)
  | [], [], out, i, _ => by simp [Model.mixLoop]
  | [], _ :: _, _, _, h => by simp at h
  | _ :: _, [], _, _, h => by simp at h
  | b1 :: b1s, b2 :: b2s, out, i, h => by
    have hlen : b1s.length = b2s.length := by simpa using h
    simp only [Model.mixLoop, List.headD_cons, List.tail_cons, List.forall₂_cons]
    by_cases h1 : b1 = Binding.Free
    · rw [if_pos h1, Model.mixLoop_fst b1s b2s _ _ hlen]
      simp [Binding.Compatible, h1]
    · rw [if_neg h1]
      by_cases h2 : b2 = Binding.Free ∨ b1 = b2
      · rw [if_pos h2, Model.mixLoop_fst b1s b2s _ _ hlen]
        simp [Binding.Compatible, h1, h2]
      · rw [if_neg h2]
        simp [Binding.Compatible, h1, h2]

/-- On success `Model::mix` has written the mixed bindings. -/
theorem Model.mixLoop_snd : ∀ (b1s b2s pre o : List Binding),
    b1s.length = b2s.length → o.length = b1s.length →
      (Model.mixLoop b1s b2s (pre ++ o) pre.length).1 = true →
      (Model.mixLoop b1s b2s (pre ++ o) pre.length).2 =
        pre ++ List.zipWith Binding.mixed b1s b2s
  | [], [], pre, o, _, ho, _ => by
    have : o = [] := List.eq_nil_of_length_eq_zero (by simpa using ho)
    simp [Model.mixLoop, this]
  | [], _ :: _, _, _, h, _, _ => by simp at h
  | _ :: _, [], _, _, h, _, _ => by simp at h
  | b1 :: b1s, b2 :: b2s, pre, o, h, ho, hs => by
    have hlen : b1s.length = b2s.length := by simpa using h
    obtain ⟨x, o', rfl⟩ : ∃ x o', o = x :: o' := by
      cases o with
      | nil => simp at ho
      | cons x o' => exact ⟨x, o', rfl⟩
    have ho' : o'.length = b1s.length := by simpa using ho
    have hset : ∀ y : Binding, (pre ++ x :: o').set pre.length y = (pre ++ [y]) ++ o' := by
      intro y
      simp [List.set_append_right]
    have hl : ∀ y : Binding, (pre ++ [y]).length = pre.length + 1 := by intro y; simp
    simp only [Model.mixLoop, List.headD_cons, List.tail_cons] at hs ⊢
    by_cases h1 : b1 = Binding.Free
    · rw [if_pos h1, hset, ← hl b2] at hs ⊢
      rw [Model.mixLoop_snd b1s b2s (pre ++ [b2]) o' hlen ho' hs]
      simp [Binding.mixed, h1]
    · rw [if_neg h1] at hs ⊢
      by_cases h2 : b2 = Binding.Free ∨ b1 = b2
      · rw [if_pos h2, hset, ← hl b1] at hs ⊢
        rw [Model.mixLoop_snd b1s b2s (pre ++ [b1]) o' hlen ho' hs]
        simp [Binding.mixed, h1]
      · rw [if_neg h2] at hs
        exact Bool.noConfusion hs

/-- C22: for two models `m1`, `m2` of equal length and a model `mOut` of that length (`m1`
itself, for instance), `Model::mix(m1, m2, mOut)` succeeds if and only if for every
variable one of the two bindings is `Free` or the two bindings are equal; on success `mOut`
binds each variable to the binding of `m2` where `m1` is `Free` and to the binding of `m1`
otherwise. -/
theorem Model.mix_spec (m1 m2 mOut : Model) (h12 : m1.content.length = m2.content.length)
    (ho : mOut.content.length = m1.content.length) :
    ((Model.mix m1 m2 mOut).1 = true ↔
        ∀ v : Int, 1 ≤ v → v ≤ (m1.content.length : Int) →
          m1.bindingFor v = Binding.Free ∨ m2.bindingFor v = Binding.Free ∨
            m1.bindingFor v = m2.bindingFor v) ∧
      ((Model.mix m1 m2 mOut).1 = true →
        ∀ v : Int, 1 ≤ v → v ≤ (m1.content.length : Int) →
          (Model.mix m1 m2 mOut).2.bindingFor v =
            if m1.bindingFor v = Binding.Free then m2.bindingFor v else m1.bindingFor v) := by
  unfold Model.mix
  simp only
  constructor
  · rw [Model.mixLoop_fst _ _ _ _ h12, List.forall₂_iff_get]
    constructor
    · rintro ⟨-, h⟩ v hv1 hv2
      obtain ⟨k, rfl⟩ : ∃ k : Nat, v = (k : Int) + 1 := ⟨(v - 1).toNat, by omega⟩
      have hk1 : k < m1.content.length := by omega
      have hk2 : k < m2.content.length := by omega
      rw [m1.bindingFor_succ k hk1, m2.bindingFor_succ k hk2]
      exact h k hk1 hk2
    · intro h
      refine ⟨h12, fun k hk1 hk2 => ?_⟩
      have := h ((k : Int) + 1) (by omega) (by omega)
      rw [m1.bindingFor_succ k hk1, m2.bindingFor_succ k hk2] at this
      exact this
  · intro hs v hv1 hv2
    have hsnd := Model.mixLoop_snd m1.content m2.content [] mOut.content h12 ho
      (by simpa using hs)
    simp only [List.nil_append, List.length_nil] at hsnd
    obtain ⟨k, rfl⟩ : ∃ k : Nat, v = (k : Int) + 1 := ⟨(v - 1).toNat, by omega⟩
    have hk1 : k < m1.content.length := by omega
    have hk2 : k < m2.content.length := by omega
    have hkz : k < (List.zipWith Binding.mixed m1.content m2.content).length := by
      simp [List.length_zipWith]; omega
    rw [Model.bindingFor_succ ⟨_⟩ k (by rw [hsnd]; exact hkz), m1.bindingFor_succ k hk1,
      m2.bindingFor_succ k hk2]
    simp only [hsnd, List.get_eq_getElem, List.getElem_zipWith]
    rfl

theorem Model.mix_spec_witness :
    (Model.mix ⟨[Binding.True, Binding.Free]⟩ ⟨[Binding.Free, Binding.False]⟩
        ⟨[Binding.True, Binding.Free]⟩).2.bindingFor 2 =
      (if (Model.mk [Binding.True, Binding.Free]).bindingFor 2 = Binding.Free then
        (Model.mk [Binding.Free, Binding.False]).bindingFor 2
      else (Model.mk [Binding.True, Binding.Free]).bindingFor 2) :=
  (Model.mix_spec ⟨[Binding.True, Binding.Free]⟩ ⟨[Binding.Free, Binding.False]⟩
    ⟨[Binding.True, Binding.Free]⟩ rfl rfl).2 (by decide) 2 (by decide) (by decide)

/-! ## C24: `minWeight` is a lower bound -/

theorem pairwise_disjoint_of_nodup_abs {lits : List Int}
    (h : (lits.map (fun l => |l|)).Nodup) :
    (lits.map (fun l => ({|l|} : Finset Int))).Pairwise Disjoint := by
  rw [List.Nodup, List.pairwise_map] at h
  rw [List.pairwise_map]
  exact h.imp (fun hab => by rwa [Finset.disjoint_singleton])

/-- C24, amended: for an objective of `2 * n` weights and a list `lits` of literals of
`1..n` with no two literals of the same variable (no complementary pair, no repetition),
`minWeight(lits)` is at most the objective value of every total assignment that makes every
literal of `lits` true, and it is the objective value of such an assignment that gives
every variable not in `lits` its cheaper literal. -/
theorem LinObjFunc.minWeight_lower_bound (f : LinObjFunc) (n : Nat)
    (hlen : f.weights.length = 2 * n) (lits : List Int)
    (hr : ∀ l ∈ lits, Node.litInRange n l) (hd : (lits.map (fun l => |l|)).Nodup) :
    (∀ ρ : Int → Bool, lits.all (litVal ρ) = true → f.minWeight lits ≤ f.value n ρ) ∧
      ∃ ρ : Int → Bool, lits.all (litVal ρ) = true ∧
        (∀ v : Int, v ∉ litVars lits → ρ v = f.cheapAssign v) ∧
        f.value n ρ = f.minWeight lits := by
  have hp := pairwise_disjoint_of_nodup_abs hd
  have hS : litVars lits ⊆ Finset.Icc (1 : Int) n := mem_litVars_range hr
  have hmw : f.minWeight lits = (lits.map f.get).sum +
      ∑ v ∈ Finset.Icc (1 : Int) n \ litVars lits, f.minOf v := by
    rw [f.minWeight_eq n hlen lits hr]
    rfl
  constructor
  · intro ρ hρ
    rw [f.value_eq_cost, f.cost_sdiff ρ hS, f.cost_units ρ lits hp hρ, hmw]
    have := f.sum_minOf_le_cost ρ (Finset.Icc (1 : Int) n \ litVars lits)
    omega
  · obtain ⟨ρu, hρu⟩ := units_consistent n lits hr hp
    refine ⟨fun v => if v ∈ litVars lits then ρu v else f.cheapAssign v, ?_,
      fun v hv => by simp [hv], ?_⟩
    · have e : lits.all (litVal fun v => if v ∈ litVars lits then ρu v else f.cheapAssign v) =
          lits.all (litVal ρu) := all_litVal_congr lits (fun v hv => by simp [hv])
      rw [e]
      exact hρu
    · rw [f.value_eq_cost, f.cost_lift ρu hS, f.cost_units ρu lits hp hρu, hmw]

theorem LinObjFunc.minWeight_lower_bound_witness :
    objFiveTwo.minWeight [1] ≤ objFiveTwo.value 1 (fun _ => true) :=
  (LinObjFunc.minWeight_lower_bound objFiveTwo 1 rfl [1]
    (by simp [Node.litInRange]) (by simp)).1 (fun _ => true) (by decide)

/-- C24 as stated fails: with `obj(1) = 5`, `obj(-1) = 2` over one variable, the list
`[1, 1]` holds in-range literals and no complementary pair, the assignment `{1 = True}`
makes its literals true and has objective value `5`, and `minWeight([1, 1])` is `10`: a
literal counts once for each occurrence. -/
theorem LinObjFunc.minWeight_repeated_literal :
    objFiveTwo.weights.length = 2 * 1 ∧ (∀ l ∈ [(1 : Int), 1], Node.litInRange 1 l) ∧
      (∀ l ∈ [(1 : Int), 1], -l ∉ [(1 : Int), 1]) ∧
      [(1 : Int), 1].all (litVal (fun _ => true)) = true ∧
      objFiveTwo.value 1 (fun _ => true) = 5 ∧ objFiveTwo.minWeight [1, 1] = 10 :=
  ⟨rfl, by simp [Node.litInRange], by decide, by decide, by decide, by decide⟩

/-! ## C25: `readPartialModel` -/

theorem wrapInt32_of_fits {x : Int} (h0 : -2 ^ 31 ≤ x) (h1 : x < 2 ^ 31) : wrapInt32 x = x := by
  unfold wrapInt32
  rw [Int.emod_eq_of_lt (by omega) (by omega)]
  omega

/-- On fields that an `int` holds and that are not the least `int`, the loop of
`readPartialModel` from a field after the command on: it throws `invalid_argument` exactly
when a field before the first `0` has an absolute value greater than `nbVars`, returns a
model that keeps the binding of every variable none of those fields names otherwise, and
reads nothing after the first `0`. -/
theorem readPartialModelLoop_spec (n : Nat) : ∀ (lits : List Int) (i : Nat) (m : Model),
    m.content.length = n →
    (∀ l ∈ lits.takeWhile (fun l => decide (l ≠ 0)), -2 ^ 31 < l ∧ l < 2 ^ 31) →
    (readPartialModelLoop n lits (i + 1) m = ReadOutcome.invalidArgument ↔
        ∃ l ∈ lits.takeWhile (fun l => decide (l ≠ 0)), |l| > (n : Int)) ∧
      readPartialModelLoop n lits (i + 1) m =
        readPartialModelLoop n (lits.takeWhile (fun l => decide (l ≠ 0))) (i + 1) m ∧
      ((¬ ∃ l ∈ lits.takeWhile (fun l => decide (l ≠ 0)), |l| > (n : Int)) →
        ∃ mOut : Model, readPartialModelLoop n lits (i + 1) m = ReadOutcome.model mOut ∧
          ∀ v : Int, (∀ l ∈ lits.takeWhile (fun l => decide (l ≠ 0)), |l| ≠ v) →
            mOut.bindingFor v = m.bindingFor v)
  | [], i, m, _, _ => by
    simp [readPartialModelLoop]
  | lit :: rest, i, m, hm, hfit => by
    by_cases h0 : lit = 0
    · subst h0
      have hs : stoi 0 = some 0 := by decide
      simp [readPartialModelLoop, hs]
    · have htw : (lit :: rest).takeWhile (fun l => decide (l ≠ 0)) =
          lit :: rest.takeWhile (fun l => decide (l ≠ 0)) := by
        simp [List.takeWhile_cons, h0]
      rw [htw] at hfit ⊢
      obtain ⟨hlo, hhi⟩ := hfit lit (List.mem_cons_self _ _)
      have hs : stoi lit = some lit := by
        unfold stoi
        rw [if_pos ⟨by omega, hhi⟩]
      have habs : (if lit > 0 then lit else wrapInt32 (-lit)) = |lit| := by
        split_ifs with hp
        · exact (abs_of_pos hp).symm
        · rw [wrapInt32_of_fits (by omega) (by omega)]
          exact (abs_of_nonpos (by omega)).symm
      have hpos : 1 ≤ |lit| := by
        have := abs_pos.mpr h0
        omega
      simp only [readPartialModelLoop, Nat.add_one_ne_zero, if_false, hs, h0, habs]
      by_cases hbig : |lit| > (n : Int)
      · simp only [if_pos hbig]
        refine ⟨⟨fun _ => ⟨lit, List.mem_cons_self _ _, hbig⟩, fun _ => trivial⟩, trivial, ?_⟩
        intro hno
        exact absurd ⟨lit, List.mem_cons_self _ _, hbig⟩ hno
      · have hin : ¬ (|lit| - 1 < 0 ∨ (m.content.length : Int) ≤ |lit| - 1) := by
          rw [hm]
          omega
        simp only [if_neg hbig, if_neg hin]
        obtain ⟨ih1, ih2, ih3⟩ := readPartialModelLoop_spec n rest (i + 1)
          (m.setBindingFor |lit| (if lit > 0 then Binding.True else Binding.False))
          (by rw [Model.setBindingFor_length]; exact hm)
          (fun l hl => hfit l (List.mem_cons_of_mem _ hl))
        refine ⟨?_, ih2, ?_⟩
        · rw [ih1]
          constructor
          · rintro ⟨l, hl, hb⟩
            exact ⟨l, List.mem_cons_of_mem _ hl, hb⟩
          · rintro ⟨l, hl, hb⟩
            rcases List.mem_cons.1 hl with rfl | hl'
            · exact absurd hb hbig
            · exact ⟨l, hl', hb⟩
        · intro hno
          obtain ⟨mOut, hout, hfr⟩ := ih3 (fun ⟨l, hl, hb⟩ =>
            hno ⟨l, List.mem_cons_of_mem _ hl, hb⟩)
          refine ⟨mOut, hout, fun v hv => ?_⟩
          rw [hfr v (fun l hl => hv l (List.mem_cons_of_mem _ hl)),
            Model.bindingFor_setBindingFor,
            if_neg (fun hc => hv lit (List.mem_cons_self _ _) hc.1)]

/-- What holds of `readPartialModel(nbVars, fields)` when every field after `fields[0]` and
before the first `0` holds an integer strictly between `-2 ^ 31` and `2 ^ 31`: it throws
`invalid_argument` if and only if one of those integers has an absolute value greater than
`nbVars`; otherwise it returns a model in which every variable that none of them names is
`Free`; and what it does only depends on those fields. -/
theorem readPartialModel_spec (n : Nat) (fields : List Int)
    (hfit : ∀ l ∈ fields.tail.takeWhile (fun l => decide (l ≠ 0)), -2 ^ 31 < l ∧ l < 2 ^ 31) :
    (readPartialModel n fields = ReadOutcome.invalidArgument ↔
        ∃ l ∈ fields.tail.takeWhile (fun l => decide (l ≠ 0)), |l| > (n : Int)) ∧
      ((¬ ∃ l ∈ fields.tail.takeWhile (fun l => decide (l ≠ 0)), |l| > (n : Int)) →
        ∃ mOut : Model, readPartialModel n fields = ReadOutcome.model mOut ∧
          ∀ v : Int, (∀ l ∈ fields.tail.takeWhile (fun l => decide (l ≠ 0)), |l| ≠ v) →
            mOut.bindingFor v = Binding.Free) ∧
      ∀ fields' : List Int, fields'.tail.takeWhile (fun l => decide (l ≠ 0)) =
          fields.tail.takeWhile (fun l => decide (l ≠ 0)) →
        readPartialModel n fields' = readPartialModel n fields := by
  have hskip : ∀ fs : List Int, readPartialModel n fs =
      readPartialModelLoop n fs.tail 1 (Model.free n) := by
    intro fs
    cases fs with
    | nil => simp [readPartialModel, readPartialModelLoop]
    | cons c rest => simp [readPartialModel, readPartialModelLoop]
  have hlen : (Model.free n).content.length = n := by simp [Model.free]
  obtain ⟨h1, h2, h3⟩ := readPartialModelLoop_spec n fields.tail 0 (Model.free n) hlen hfit
  refine ⟨by rw [hskip]; exact h1, fun hno => ?_, fun fields' he => ?_⟩
  · obtain ⟨mOut, hout, hfr⟩ := h3 hno
    refine ⟨mOut, by rw [hskip]; exact hout, fun v hv => ?_⟩
    rw [hfr v hv, Model.free_bindingFor]
  · rw [hskip, hskip, (readPartialModelLoop_spec n fields'.tail 0 (Model.free n) hlen
      (by rw [he]; exact hfit)).2.1, he, ← h2]

/-- C25 at the failing input.  With `nbVars = 1`, the field `-2147483648` has an absolute
value greater than `nbVars` and `readPartialModel` does not throw `invalid_argument`:
`-lit` wraps to `-2147483648`, the test `var > nbVars` lets it through and `setBindingFor`
goes to `content[var-1]` outside the vector.  The field `2147483648` makes `stoi` throw
`out_of_range`.  The field `2` gives `invalid_argument`, and `-1` the model
`{1 = False}`. -/
theorem readPartialModel_int_min :
    readPartialModel 1 [0, -2147483648] = ReadOutcome.outOfBounds ∧
      (1 : Int) < |(-2147483648 : Int)| ∧
      readPartialModel 1 [0, 2147483648] = ReadOutcome.outOfRange ∧
      readPartialModel 1 [0, 2] = ReadOutcome.invalidArgument ∧
      readPartialModel 1 [0, -1] = ReadOutcome.model ⟨[Binding.False]⟩ := by
  refine ⟨by decide, by decide, by decide, by decide, by decide⟩

/-! ## C29: conditioning under unit weights; C30: the optimal models are kept -/

/-- C29: for every graph whose And and Or nodes carry the `seenVars` the parser computes,
with literals of `1..nbVars` and `2 * nbVars` weights, every partial model `m` and every
weight vector that gives weight `1` to each literal `m` makes true: after `conditionTo(m)`
`modelCount` of the all-`Free` model on the conditioned graph is `modelCount(m)` on the
graph before conditioning. -/
theorem Graph.conditionTo_modelCount_unit_weights (g : Graph) (m : Model) (addr : Nat)
    (hseen : g.root.SeenOk) (hrange : g.root.LitsInRange g.nbVars)
    (hsize : g.weights.vec.length = 2 * g.nbVars) (haddr : g.root.AddrOk)
    (hw : ∀ l : Int, Node.litInRange g.nbVars l →
      (0 < l → m.bindingFor l = Binding.True → g.weights.weightFor l = 1) ∧
      (l < 0 → m.bindingFor (-l) = Binding.False → g.weights.weightFor l = 1)) :
    (g.conditionTo m addr).modelCount (Model.free g.nbVars) = g.modelCount m := by
  refine Graph.conditionTo_modelCount_of_seen g m addr hseen hrange hsize haddr
    (fun v hvS => ?_)
  have hsub : g.root.seenVars ⊆ Finset.Icc (1 : Int) g.nbVars :=
    (Node.seenVars_subset_vars g.root hseen).trans
      (Node.vars_subset_range g.nbVars g.root hrange)
  have hI := hsub hvS
  have h12 := Finset.mem_Icc.1 hI
  refine ⟨fun hb => (hw v (Node.litInRange_of_mem hI).1).1 (by omega) hb, fun hb => ?_⟩
  exact (hw (-v) (Node.litInRange_of_mem hI).2).2 (by omega) (by rw [neg_neg]; exact hb)

theorem Graph.conditionTo_modelCount_unit_weights_witness :
    (orAndGraph.conditionTo ⟨[Binding.False, Binding.Free]⟩ 7).modelCount
        (Model.free orAndGraph.nbVars) =
      orAndGraph.modelCount ⟨[Binding.False, Binding.Free]⟩ :=
  Graph.conditionTo_modelCount_unit_weights orAndGraph ⟨[Binding.False, Binding.Free]⟩ 7
    orAndGraph_valid.seenOk orAndGraph_valid.litsInRange orAndGraph_valid.weightsSize
    orAndGraph_valid.addrOk
    (fun l hl => ⟨fun _ _ => WeightVector.uniform_weightFor 2 l hl,
      fun _ _ => WeightVector.uniform_weightFor 2 l hl⟩)

/-- Where no Or branch carries unit literals the optimal models are kept: for every
decomposable graph `g` whose Or branches carry no unit
literals, with literals of `1..nbVars`, and every objective of `2 * nbVars` weights, with
`bound` the minimum of the objective over the total models of `g`: every total model of `g`
whose objective value is `bound` is a model of the graph
`keepBoundedWeightModels(g, bound)` returns. -/
theorem LinObjFunc.keepBoundedWeightModels_keeps_optimal (f : LinObjFunc) (g : Graph)
    (bound : Int) (next : Nat) (M : CompactModel) (hn : g.root.NoOrUnits)
    (hd : g.root.Decomposable) (hr : g.root.LitsInRange g.nbVars)
    (hlen : f.weights.length = 2 * g.nbVars)
    (hmin : ∀ M' : CompactModel, M'.content.length = g.nbVars → g.root.sat M' = true →
      bound ≤ f.value g.nbVars M'.value)
    (hM : g.root.sat M = true) (hval : f.value g.nbVars M.value = bound) :
    (f.keepBoundedWeightModels g bound next).root.sat M = true := by
  have hV := Node.vars_subset_range g.nbVars g.root hr
  have k := f.keepBoundedNode_spec bound g.nbVars hlen g.root next hn hd hr
  have hch := f.cheapest_of_value_le g.nbVars M.value (fun ρ => Node.eval ρ g.root)
    g.root.vars hV g.root.dependsOn_eval (fun M' hl hs => by rw [hval]; exact hmin M' hl hs)
  have hfull := f.full_mono g.nbVars M.value hV (Finset.Subset.refl _)
  rw [f.restMin_full, ← f.value_eq_cost] at hfull
  exact (k.keep M.value hM hch (by omega)).2.1

theorem LinObjFunc.keepBoundedWeightModels_keeps_optimal_witness :
    (objFiveTwo.keepBoundedWeightModels decisionGraph 2 10).root.sat ⟨[false]⟩ = true :=
  LinObjFunc.keepBoundedWeightModels_keeps_optimal objFiveTwo decisionGraph 2 10 ⟨[false]⟩
    decisionGraph_noOrUnits decisionGraph_valid.decomposable decisionGraph_valid.litsInRange
    rfl
    (fun M' hl _ => by
      obtain ⟨c⟩ := M'
      match c, hl with
      | [b], _ => cases b <;> decide)
    (by decide) (by decide)

theorem orUnitsDeadGraph_valid : orUnitsDeadGraph.Valid where
  decomposable := by
    simp [orUnitsDeadGraph, Graph.make, Node.Decomposable, Node.conjunctVars, trueNode,
      falseNode, Node.vars]
  deterministic := by
    simp [orUnitsDeadGraph, Graph.make, Node.Deterministic, trueNode, falseNode, Node.eval,
      litVal]
  seenOk := by
    simp [orUnitsDeadGraph, Graph.make, Node.SeenOk, trueNode, falseNode, Node.seenVars]
  litsInRange := by
    simp [orUnitsDeadGraph, Graph.make, Node.LitsInRange, trueNode, falseNode,
      Node.litInRange]
  weightsSize := by
    simp [orUnitsDeadGraph, Graph.make, WeightVector.uniform]
  addrOk := by
    intro a ha b hb
    simp only [orUnitsDeadGraph, Graph.make, trueNode, falseNode, Node.subnodes, List.mem_cons,
      List.mem_append, List.mem_singleton, List.not_mem_nil, or_false] at ha hb
    rcases ha with rfl | rfl | rfl <;> rcases hb with rfl | rfl | rfl <;> simp [Node.addr]

/-- C30 at the failing input: `Or(1, [branch{units=[1], False}, branch{units=[-1], True}])`
over one variable is decomposable and deterministic, its only model is `{1 = False}`, of
objective value `5` for `obj(1) = 0`, `obj(-1) = 5`, and with bound `5` the graph
`keepBoundedWeightModels` returns is not satisfied by that model: the first branch, whose
child is `False`, is wrapped in an And node and kept for its lower `minWeight`. -/
theorem LinObjFunc.keepBoundedWeightModels_drops_optimal :
    orUnitsDeadGraph.Valid ∧
      (∀ M ∈ CompactModel.all 1, orUnitsDeadGraph.root.sat M = true →
        5 ≤ objZeroFive.value 1 M.value) ∧
      orUnitsDeadGraph.root.sat ⟨[false]⟩ = true ∧
      objZeroFive.value 1 (CompactModel.value ⟨[false]⟩) = 5 ∧
      (objZeroFive.keepBoundedWeightModels orUnitsDeadGraph 5 10).root.sat ⟨[false]⟩ = false :=
  ⟨orUnitsDeadGraph_valid, by decide, by decide, by decide, by decide⟩

/-! ## Model::expanded -/

theorem Model.firstFreeVarFrom_spec (bs : List Binding) : ∀ i : Nat,
    (Binding.Free ∉ bs ∧ Model.firstFreeVarFrom bs i = -1) ∨
    ∃ pre post, bs = pre ++ Binding.Free :: post ∧ Binding.Free ∉ pre ∧
      Model.firstFreeVarFrom bs i = (i : Int) + pre.length + 1 := by
  induction bs with
  | nil => intro i; left; simp [Model.firstFreeVarFrom]
  | cons b bs IH =>
    intro i
    by_cases hb : b = Binding.Free
    · right
      refine ⟨[], bs, by simp [hb], by simp, ?_⟩
      simp [Model.firstFreeVarFrom, hb]
    · rcases IH (i + 1) with ⟨h1, h2⟩ | ⟨pre, post, h1, h2, h3⟩
      · left
        refine ⟨?_, ?_⟩
        · simp only [List.mem_cons, not_or]
          exact ⟨fun h => hb h.symm, h1⟩
        · simp [Model.firstFreeVarFrom, hb, h2]
      · right
        refine ⟨b :: pre, post, by simp [h1], ?_, ?_⟩
        · simp only [List.mem_cons, not_or]
          exact ⟨fun h => hb h.symm, h2⟩
        · simp only [Model.firstFreeVarFrom, hb, if_false, h3, List.length_cons]
          push_cast
          ring

theorem getD_append_length {α : Type} (x : α) (post : List α) (d : α) :
    ∀ pre : List α, (pre ++ x :: post).getD pre.length d = x := by
  intro pre
  induction pre with
  | nil => rfl
  | cons a pre IH => simpa using IH

theorem Model.setBindingFor_free_at (pre post : List Binding) (b : Binding) :
    (Model.mk (pre ++ Binding.Free :: post)).setBindingFor ((pre.length : Int) + 1) b =
      ⟨pre ++ b :: post⟩ := by
  have e : ((pre.length : Int) + 1 - 1) = (pre.length : Int) := by ring
  have hg : vecGet (pre ++ Binding.Free :: post) (pre.length : Int) Binding.Free
      = Binding.Free := by
    simp only [vecGet, Int.natCast_nonneg, if_true, Int.toNat_ofNat]
    exact getD_append_length _ _ _ _
  have hs : ∀ x : Binding, vecSet (pre ++ Binding.Free :: post) (pre.length : Int) x
      = pre ++ x :: post := by
    intro x
    simp [vecSet]
  unfold Model.setBindingFor
  simp only [e, hg, hs]
  simp

theorem extendsList_split (post : List Binding) : ∀ (pre : List Binding) (M : List Bool),
    (if extendsList M (pre ++ Binding.Free :: post) = true then 1 else 0) =
      (if extendsList M (pre ++ Binding.True :: post) = true then 1 else 0) +
      (if extendsList M (pre ++ Binding.False :: post) = true then 1 else 0) := by
  intro pre
  induction pre with
  | nil =>
    intro M
    cases M with
    | nil => simp [extendsList]
    | cons b bs =>
      cases b <;> cases h : extendsList bs post <;> simp [extendsList, h]
  | cons x pre IH =>
    intro M
    cases M with
    | nil => simp [extendsList]
    | cons b bs =>
      have := IH bs
      cases x <;> cases b <;> simp [extendsList] <;> exact this

theorem extendsList_total : ∀ (c : List Binding) (M : List Bool),
    Binding.Free ∉ c → Binding.Unsat ∉ c →
    (extendsList M c = true ↔ M = c.map (fun b => decide (b = Binding.True))) := by
  intro c
  induction c with
  | nil =>
    intro M _ _
    cases M <;> simp [extendsList]
  | cons x c IH =>
    intro M hf hu
    simp only [List.mem_cons, not_or] at hf hu
    cases M with
    | nil => simp [extendsList]
    | cons b bs =>
      have := IH bs hf.2 hu.2
      cases x
      · cases b <;> simp [extendsList, this]
      · cases b <;> simp [extendsList, this]
      · exact absurd rfl hf.1
      · exact absurd rfl hu.1

theorem Model.sum_pow_ge (pending : List Model) :
    2 * pending.length ≤ (pending.map (fun m => 2 ^ (m.nbFree + 1))).sum := by
  induction pending with
  | nil => simp
  | cons m rest IH =>
    have : 2 ≤ 2 ^ (m.nbFree + 1) := by
      calc 2 = 2 ^ 1 := by norm_num
        _ ≤ 2 ^ (m.nbFree + 1) := Nat.pow_le_pow_right (by norm_num) (by omega)
    simp only [List.map_cons, List.sum_cons, List.length_cons]
    omega

theorem Model.expandedLoop_spec : ∀ (fuel : Nat) (pre pending : List Model)
    (res : List CompactModel),
    (∀ m ∈ pending, Binding.Unsat ∉ m.content) →
    (pending.map (fun m => 2 ^ (m.nbFree + 1))).sum ≤ fuel + pending.length →
    ∃ l, Model.expandedLoop fuel (pre ++ pending) pre.length res = some (res ++ l) ∧
      l.length = (pending.map (fun m => 2 ^ m.nbFree)).sum ∧
      ∀ M : CompactModel,
        l.count M = pending.countP (fun m => extendsList M.content m.content) := by
  intro fuel
  induction fuel with
  | zero =>
    intro pre pending res _ hfuel
    have h2 := Model.sum_pow_ge pending
    have h0 : pending.length = 0 := by omega
    have hp : pending = [] := List.length_eq_zero.mp h0
    subst hp
    exact ⟨[], by simp [Model.expandedLoop], by simp, by simp⟩
  | succ fuel IH =>
    intro pre pending res hu hfuel
    cases pending with
    | nil => exact ⟨[], by simp [Model.expandedLoop], by simp, by simp⟩
    | cons m rest =>
      have hlt : pre.length < (pre ++ m :: rest).length := by simp
      have hget : (pre ++ m :: rest).getD pre.length ⟨[]⟩ = m :=
        getD_append_length _ _ _ _
      have hum : Binding.Unsat ∉ m.content := hu m (List.mem_cons_self _ _)
      have hur : ∀ x ∈ rest, Binding.Unsat ∉ x.content :=
        fun x hx => hu x (List.mem_cons_of_mem _ hx)
      simp only [List.map_cons, List.sum_cons, List.length_cons] at hfuel
      unfold Model.expandedLoop
      simp only [hlt, if_true, hget]
      rcases Model.firstFreeVarFrom_spec m.content 0 with ⟨hfree, hv⟩ | ⟨cpre, cpost, hc, _, hv⟩
      · have hv' : m.firstFreeVar = -1 := hv
        have hn : m.nbFree = 0 := List.count_eq_zero.mpr hfree
        simp only [hv', if_true]
        rw [hn] at hfuel
        obtain ⟨l, hl1, hl2, hl3⟩ := IH (pre ++ [m]) rest (res ++ [CompactModel.ofModel m]) hur
          (by simp at hfuel ⊢; omega)
        refine ⟨CompactModel.ofModel m :: l, ?_, ?_, ?_⟩
        · simp only [List.append_assoc, List.singleton_append, List.length_append,
            List.length_singleton] at hl1
          rw [hl1]
        · simp [hl2, hn, Nat.add_comm]
        · intro M
          rw [List.count_cons, hl3 M, List.countP_cons]
          congr 1
          have ht := extendsList_total m.content M.content hfree hum
          by_cases hM : extendsList M.content m.content = true
          · have e : M = CompactModel.ofModel m := by
              cases M
              simp only [CompactModel.ofModel, CompactModel.mk.injEq]
              exact ht.mp hM
            subst e
            simp [hM]
          · have e : ¬ CompactModel.ofModel m = M := by
              intro e
              apply hM
              apply ht.mpr
              rw [← e]
              rfl
            simp [hM, e]
      · have hv' : m.firstFreeVar = (cpre.length : Int) + 1 := by
          show Model.firstFreeVarFrom m.content 0 = _
          rw [hv]
          simp
        have hne : ¬ ((cpre.length : Int) + 1 = -1) := by omega
        have hm : m = ⟨cpre ++ Binding.Free :: cpost⟩ := by
          cases m
          simp only [Model.mk.injEq]
          exact hc
        simp only [hv', hne, if_false]
        rw [hm, Model.setBindingFor_free_at, Model.setBindingFor_free_at]
        have hset : (pre ++ (Model.mk (cpre ++ Binding.Free :: cpost)) :: rest).set pre.length
            ⟨cpre ++ Binding.True :: cpost⟩ ++ [⟨cpre ++ Binding.False :: cpost⟩]
            = pre ++ ((Model.mk (cpre ++ Binding.True :: cpost)) ::
                (rest ++ [⟨cpre ++ Binding.False :: cpost⟩])) := by
          simp
        rw [hset]
        have hcT : (Model.mk (cpre ++ Binding.True :: cpost)).nbFree + 1 = m.nbFree := by
          rw [hm]
          simp [Model.nbFree, List.count_cons]
          omega
        have hcF : (Model.mk (cpre ++ Binding.False :: cpost)).nbFree + 1 = m.nbFree := by
          rw [hm]
          simp [Model.nbFree, List.count_cons]
          omega
        have huc : Binding.Unsat ∉ cpre ∧ Binding.Unsat ∉ cpost := by
          rw [hc] at hum
          simp only [List.mem_append, List.mem_cons, not_or] at hum
          exact ⟨hum.1, hum.2.2⟩
        obtain ⟨l, hl1, hl2, hl3⟩ := IH pre
          ((Model.mk (cpre ++ Binding.True :: cpost)) ::
            (rest ++ [⟨cpre ++ Binding.False :: cpost⟩])) res
          (by
            intro x hx
            simp only [List.mem_cons, List.mem_append, List.mem_singleton, List.not_mem_nil,
              or_false] at hx
            rcases hx with rfl | hx | rfl
            · simp [huc.1, huc.2]
            · exact hur x hx
            · simp [huc.1, huc.2])
          (by
            simp only [List.map_cons, List.sum_cons, List.length_cons, List.map_append,
              List.sum_append, List.length_append, List.length_singleton, List.sum_nil,
              List.map_nil, hcT, hcF]
            have : 2 ^ (m.nbFree + 1) = 2 ^ m.nbFree + 2 ^ m.nbFree := by
              rw [pow_succ]; ring
            omega)
        refine ⟨l, hl1, ?_, ?_⟩
        · rw [hl2]
          simp only [List.map_cons, List.sum_cons, List.map_append, List.sum_append,
            List.map_nil, List.sum_nil]
          have e1 : 2 ^ m.nbFree = 2 ^ (Model.mk (cpre ++ Binding.True :: cpost)).nbFree +
              2 ^ (Model.mk (cpre ++ Binding.False :: cpost)).nbFree := by
            rw [← hcT]
            have : (Model.mk (cpre ++ Binding.False :: cpost)).nbFree
                = (Model.mk (cpre ++ Binding.True :: cpost)).nbFree := by omega
            rw [this, pow_succ]
            ring
          rw [← hm]
          omega
        · intro M
          rw [hl3 M]
          have hsp := extendsList_split cpost cpre M.content
          simp only [List.countP_cons, List.countP_append, List.countP_nil]
          simp only [zero_add]
          omega

theorem Model.noUnsat_iff_not_mem (m : Model) : m.NoUnsat ↔ Binding.Unsat ∉ m.content := by
  constructor
  · intro h hmem
    obtain ⟨k, hk, e⟩ := List.getElem_of_mem hmem
    apply h ((k : Int) + 1)
    rw [Model.bindingFor_succ m k hk]
    exact e
  · intro h v hv
    apply h
    unfold Model.bindingFor vecGet at hv
    split at hv
    · by_cases hk : (v - 1).toNat < m.content.length
      · rw [List.getD_eq_getElem _ _ hk] at hv
        rw [← hv]
        exact List.getElem_mem _
      · rw [List.getD_eq_default _ _ (by omega)] at hv
        cases hv
    · cases hv

theorem extendsList_iff : ∀ (c : List Binding) (M : List Bool), Binding.Unsat ∉ c →
    (extendsList M c = true ↔ M.length = c.length ∧ ∀ k : Nat, k < c.length →
      (c.getD k Binding.Free = Binding.True → M.getD k false = true) ∧
      (c.getD k Binding.Free = Binding.False → M.getD k false = false)) := by
  intro c
  induction c with
  | nil =>
    intro M _
    cases M <;> simp [extendsList]
  | cons x c IH =>
    intro M hu
    simp only [List.mem_cons, not_or] at hu
    cases M with
    | nil => simp [extendsList]
    | cons b bs =>
      have ih := IH bs hu.2
      constructor
      · intro h
        simp only [extendsList, Bool.and_eq_true] at h
        obtain ⟨hl, hp⟩ := ih.mp h.2
        refine ⟨by simp [hl], ?_⟩
        intro k hk
        cases k with
        | zero =>
          have h1 := h.1
          cases x <;> cases b <;> simp_all
        | succ k =>
          simp only [List.length_cons, Nat.add_lt_add_iff_right] at hk
          simpa using hp k hk
      · rintro ⟨hl, hp⟩
        simp only [extendsList, Bool.and_eq_true]
        refine ⟨?_, ih.mpr ⟨by simpa using hl, ?_⟩⟩
        · have h0 := hp 0 (by simp)
          simp only [List.getD_cons_zero] at h0
          cases x <;> cases b <;> simp_all
        · intro k hk
          simpa using hp (k + 1) (by simpa using hk)

/-- C23: `Model::expanded()` returns a list; for a model without `Unsat` binding that has
`n` variables bound to `Free` the list holds `2 ^ n` pairwise different `CompactModel`s, and
they are exactly the total True/False assignments of the variables of the model that agree
with it on every variable it binds to `True` or to `False`. -/
theorem Model.expanded_spec (m : Model) (hu : m.NoUnsat) :
    ∃ l, m.expanded = some l ∧ l.length = 2 ^ m.nbFree ∧ l.Nodup ∧
      ∀ M : CompactModel, M ∈ l ↔
        (M.content.length = m.content.length ∧
          ∀ v : Int, 1 ≤ v → v ≤ m.content.length →
            (m.bindingFor v = Binding.True → M.value v = true) ∧
            (m.bindingFor v = Binding.False → M.value v = false)) := by
  have hu' := (Model.noUnsat_iff_not_mem m).mp hu
  obtain ⟨l, h1, h2, h3⟩ := Model.expandedLoop_spec (2 ^ (m.nbFree + 1)) [] [m] []
    (by
      intro x hx
      rw [List.mem_singleton.mp hx]
      exact hu')
    (by simp)
  have hc : ∀ M : CompactModel,
      l.count M = if extendsList M.content m.content = true then 1 else 0 := by
    intro M
    rw [h3 M]
    simp [List.countP_cons]
  refine ⟨l, ?_, ?_, ?_, ?_⟩
  · simpa [Model.expanded] using h1
  · simpa using h2
  · rw [List.nodup_iff_count_le_one]
    intro M
    rw [hc M]
    split <;> omega
  · intro M
    have hx := extendsList_iff m.content M.content hu'
    rw [← List.count_pos_iff, hc M]
    have hb : ∀ k : Nat, m.bindingFor ((k : Int) + 1) = m.content.getD k Binding.Free := by
      intro k
      simp [Model.bindingFor, vecGet]
    have hv : ∀ k : Nat, M.value ((k : Int) + 1) = M.content.getD k false := by
      intro k
      simp [CompactModel.value, vecGet]
    constructor
    · intro h
      split at h
      · rename_i he
        have hx' := hx.mp he
        refine ⟨hx'.1, ?_⟩
        intro v h1 h2
        obtain ⟨k, rfl⟩ : ∃ k : Nat, v = (k : Int) + 1 := ⟨(v - 1).toNat, by omega⟩
        rw [hb, hv]
        exact hx'.2 k (by omega)
      · omega
    · rintro ⟨hl, hp⟩
      rw [if_pos]
      · omega
      · apply hx.mpr
        refine ⟨hl, ?_⟩
        intro k hk
        have := hp ((k : Int) + 1) (by omega) (by omega)
        rw [hb, hv] at this
        exact this

/-- The model `Free, True, Free` expands into four total models. -/
theorem Model.expanded_spec_witness :
    (Model.mk [Binding.Free, Binding.True, Binding.Free]).NoUnsat ∧
    ((Model.mk [Binding.Free, Binding.True, Binding.Free]).expanded.map List.length) = some 4 := by
  have hu : (Model.mk [Binding.Free, Binding.True, Binding.Free]).NoUnsat :=
    (Model.noUnsat_iff_not_mem _).mpr (by decide)
  refine ⟨hu, ?_⟩
  obtain ⟨l, h1, h2, _⟩ := Model.expanded_spec ⟨[Binding.Free, Binding.True, Binding.Free]⟩ hu
  rw [h1, Option.map_some', h2]
  rfl

/-! ## Graph::print: the header and the line of every node -/

mutual
theorem Node.sizeOf_le_of_mem_subnodes : ∀ (x y : Node), y ∈ x.subnodes → sizeOf y ≤ sizeOf x
  | .falseNode _, y, h => by
    simp only [Node.subnodes, List.mem_singleton] at h; rw [h]
  | .trueNode _, y, h => by
    simp only [Node.subnodes, List.mem_singleton] at h; rw [h]
  | .litNode _ _, y, h => by
    simp only [Node.subnodes, List.mem_singleton] at h; rw [h]
  | .orNode a v u0 c0 u1 c1 s, y, h => by
    simp only [Node.subnodes, List.mem_cons, List.mem_append] at h
    rcases h with h | h | h
    · rw [h]
    · have := Node.sizeOf_le_of_mem_subnodes c0 y h
      simp only [Node.orNode.sizeOf_spec]
      omega
    · have := Node.sizeOf_le_of_mem_subnodes c1 y h
      simp only [Node.orNode.sizeOf_spec]
      omega
  | .andNode a cs u s, y, h => by
    simp only [Node.subnodes, List.mem_cons] at h
    rcases h with h | h
    · rw [h]
    · have := Node.sizeOf_le_of_mem_subnodesAll cs y h
      simp only [Node.andNode.sizeOf_spec]
      omega
theorem Node.sizeOf_le_of_mem_subnodesAll : ∀ (xs : List Node) (y : Node),
    y ∈ Node.subnodesAll xs → sizeOf y ≤ sizeOf xs
  | [], y, h => by simp [Node.subnodesAll] at h
  | x :: xs, y, h => by
    simp only [Node.subnodesAll, List.mem_append] at h
    simp only [List.cons.sizeOf_spec]
    rcases h with h | h
    · have := Node.sizeOf_le_of_mem_subnodes x y h
      omega
    · have := Node.sizeOf_le_of_mem_subnodesAll xs y h
      omega
end

theorem Node.childNodes_mem_subnodes {x c : Node} (hc : c ∈ x.childNodes) :
    c ∈ x.subnodes ∧ sizeOf c < sizeOf x := by
  cases x with
  | falseNode a => simp [Node.childNodes] at hc
  | trueNode a => simp [Node.childNodes] at hc
  | litNode a l => simp [Node.childNodes] at hc
  | orNode a v u0 c0 u1 c1 s =>
    simp only [Node.childNodes, List.mem_cons, List.mem_singleton, List.not_mem_nil,
      or_false] at hc
    simp only [Node.subnodes, List.mem_cons, List.mem_append, Node.orNode.sizeOf_spec]
    rcases hc with rfl | rfl
    · exact ⟨Or.inr (Or.inl c.self_mem_subnodes), by omega⟩
    · exact ⟨Or.inr (Or.inr c.self_mem_subnodes), by omega⟩
  | andNode a cs u s =>
    simp only [Node.childNodes] at hc
    refine ⟨Node.child_mem_subnodes_and a cs u s c hc, ?_⟩
    have := List.sizeOf_lt_of_mem hc
    simp only [Node.andNode.sizeOf_spec]
    omega

theorem Node.addr_ne_of_mem_child {root x c y : Node} (hok : root.AddrOk)
    (hx : x ∈ root.subnodes) (hc : c ∈ x.childNodes) (hy : y ∈ c.subnodes) :
    y.addr ≠ x.addr := by
  intro e
  have hcx := Node.childNodes_mem_subnodes hc
  have hyx : y ∈ x.subnodes := Node.subnodes_trans x c hcx.1 y hy
  have hyr : y ∈ root.subnodes := Node.subnodes_trans root x hx y hyx
  have := hok y hyr x hx e
  have h1 := Node.sizeOf_le_of_mem_subnodes c y hy
  rw [this] at h1
  omega

theorem IndexState.Indexed.of_keys {st st' : IndexState} {x : Node} (h : st.Indexed x)
    (hm : ∀ a, (st.nodeToLine.lookup a).isSome = true → (st'.nodeToLine.lookup a).isSome = true) :
    st'.Indexed x := by
  rcases h with h | h | h
  · exact Or.inl h
  · exact Or.inr (Or.inl h)
  · exact Or.inr (Or.inr (hm _ h))

theorem lookup_cons_isSome {a k : Nat} {v : Int} {l : List (Nat × Int)}
    (h : (l.lookup a).isSome = true) : (((k, v) :: l).lookup a).isSome = true := by
  rw [List.lookup_cons]
  split
  · rfl
  · exact h

theorem IndexOk.lookup_of_mem {root : Node} {st : IndexState} (h : IndexOk root st) {x : Node}
    (hx : x ∈ st.allNodes) : (st.nodeToLine.lookup x.addr).isSome = true := by
  obtain ⟨i, hi, e⟩ := List.getElem_of_mem hx
  have := h.pos i x (by rw [List.getElem?_eq_getElem hi, e])
  rw [this]
  rfl

/-- The step that ends `indexNodes` for a Lit, an Or or an And node: the node gets the last
of its lines and is appended to `allNodes`. -/
theorem IndexOk.add {root : Node} {st : IndexState} (h : IndexOk root st) {x : Node}
    (hx : x ∈ root.subnodes) (ht : x.isTrueNode = false) (hf : x.isFalseNode = false)
    (hnew : st.nodeToLine.lookup x.addr = none) (hch : ∀ c ∈ x.childNodes, st.Indexed c)
    (k : Int) (hk : k + 1 = st.lineIndex + (x.nbLines : Int)) :
    IndexOk root ⟨(x.addr, k) :: st.nodeToLine, st.allNodes ++ [x], k + 1⟩ := by
  have hmono : ∀ a, (st.nodeToLine.lookup a).isSome = true →
      ((((x.addr, k) :: st.nodeToLine) : List (Nat × Int)).lookup a).isSome = true :=
    fun a ha => lookup_cons_isSome ha
  refine ⟨?_, ?_, ?_, ?_, ?_⟩
  · intro y hy
    simp only [List.mem_append, List.mem_singleton] at hy
    rcases hy with hy | rfl
    · exact h.sub y hy
    · exact ⟨hx, ht, hf⟩
  · intro a ha
    simp only [List.lookup_cons] at ha
    by_cases e : a = x.addr
    · exact ⟨x, by simp, e.symm⟩
    · have e' : (a == x.addr) = false := by simpa using e
      rw [e'] at ha
      obtain ⟨y, hy, hya⟩ := h.keys a ha
      exact ⟨y, by simp [hy], hya⟩
  · intro i y hi
    simp only
    by_cases hlt : i < st.allNodes.length
    · rw [List.getElem?_append_left hlt] at hi
      have hp := h.pos i y hi
      have hne : ¬ y.addr = x.addr := by
        intro e
        rw [e, hnew] at hp
        cases hp
      have e' : (y.addr == x.addr) = false := by simpa using hne
      rw [List.lookup_cons, e']
      simp only
      rw [hp, List.take_append_of_le_length (by omega)]
    · have hi' : i = st.allNodes.length := by
        have := (List.getElem?_eq_some_iff.mp hi).1
        simp only [List.length_append, List.length_singleton] at this
        omega
      subst hi'
      have hy : y = x := by
        rw [List.getElem?_append_right (le_refl _)] at hi
        simpa using hi.symm
      subst hy
      rw [List.lookup_cons]
      simp only [beq_self_eq_true]
      rw [List.take_of_length_le (by simp)]
      simp only [List.map_append, List.sum_append, List.map_cons, List.map_nil, List.sum_cons,
        List.sum_nil]
      have := h.line
      congr 1
      simp only [Nat.cast_add, add_zero]
      omega
  · simp only [List.map_append, List.sum_append, List.map_cons, List.map_nil, List.sum_cons,
      List.sum_nil]
    have := h.line
    simp only [Nat.cast_add, add_zero]
    omega
  · intro y hy c hc
    simp only [List.mem_append, List.mem_singleton] at hy
    rcases hy with hy | rfl
    · exact (h.closed y hy c hc).of_keys hmono
    · exact (hch c hc).of_keys hmono

theorem lookup_cons_self_isSome (a : Nat) (v : Int) (l : List (Nat × Int)) :
    (((a, v) :: l).lookup a).isSome = true := by
  rw [List.lookup_cons]
  simp

theorem IndexOk.fresh {root : Node} (hok : root.AddrOk) {st st' : IndexState} {x : Node}
    (h' : IndexOk root st') (h : IndexOk root st) (hx : x ∈ root.subnodes)
    (hnew : ¬ (st.nodeToLine.lookup x.addr).isSome = true)
    (hadd : ∀ y ∈ st'.allNodes, y ∈ st.allNodes ∨ ∃ c ∈ x.childNodes, y ∈ c.subnodes) :
    st'.nodeToLine.lookup x.addr = none := by
  cases hl : st'.nodeToLine.lookup x.addr with
  | none => rfl
  | some v =>
    exfalso
    obtain ⟨y, hy, hya⟩ := h'.keys x.addr (by rw [hl]; rfl)
    rcases hadd y hy with hy | ⟨c, hc, hy⟩
    · apply hnew
      rw [← hya]
      exact h.lookup_of_mem hy
    · exact Node.addr_ne_of_mem_child hok hx hc hy hya

mutual
/-- The function `indexNodes` keeps the invariant `IndexOk`, keeps the keys of `nodeToLine`,
leaves the node with a line, and appends nodes of the subgraph of the node only. -/
theorem Node.indexNodes_ok (root : Node) (hok : root.AddrOk) :
    ∀ (x : Node) (st : IndexState), x ∈ root.subnodes → IndexOk root st →
      IndexOk root (x.indexNodes st) ∧
      (∀ a, (st.nodeToLine.lookup a).isSome = true →
        ((x.indexNodes st).nodeToLine.lookup a).isSome = true) ∧
      (x.indexNodes st).Indexed x ∧
      (∀ y ∈ (x.indexNodes st).allNodes, y ∈ st.allNodes ∨ y ∈ x.subnodes)
  | .falseNode a, st, _, h => by
    simp only [Node.indexNodes, ite_self]
    exact ⟨h, fun _ ha => ha, Or.inr (Or.inl rfl), fun y hy => Or.inl hy⟩
  | .trueNode a, st, _, h => by
    simp only [Node.indexNodes, ite_self]
    exact ⟨h, fun _ ha => ha, Or.inl rfl, fun y hy => Or.inl hy⟩
  | .litNode a l, st, hx, h => by
    simp only [Node.indexNodes]
    by_cases hs : (st.nodeToLine.lookup a).isSome = true
    · rw [if_pos hs]
      exact ⟨h, fun _ ha => ha, Or.inr (Or.inr hs), fun y hy => Or.inl hy⟩
    · rw [if_neg hs]
      have hnew : st.nodeToLine.lookup (Node.litNode a l).addr = none := by
        cases hl : st.nodeToLine.lookup (Node.litNode a l).addr with
        | none => rfl
        | some v =>
          exfalso
          apply hs
          simp only [Node.addr] at hl
          rw [hl]
          rfl
      refine ⟨h.add hx rfl rfl hnew (by simp [Node.childNodes]) st.lineIndex
        (by simp [Node.nbLines]), fun b hb => lookup_cons_isSome hb,
        Or.inr (Or.inr (lookup_cons_self_isSome _ _ _)), ?_⟩
      intro y hy
      simp only [List.mem_append, List.mem_singleton] at hy
      rcases hy with hy | rfl
      · exact Or.inl hy
      · exact Or.inr (Node.self_mem_subnodes _)
  | .orNode a v u0 c0 u1 c1 s, st, hx, h => by
    simp only [Node.indexNodes]
    by_cases hs : (st.nodeToLine.lookup a).isSome = true
    · rw [if_pos hs]
      exact ⟨h, fun _ ha => ha, Or.inr (Or.inr hs), fun y hy => Or.inl hy⟩
    · rw [if_neg hs]
      have hc0 : c0 ∈ (Node.orNode a v u0 c0 u1 c1 s).childNodes := by simp [Node.childNodes]
      have hc1 : c1 ∈ (Node.orNode a v u0 c0 u1 c1 s).childNodes := by simp [Node.childNodes]
      have hx0 := Node.subnodes_trans root _ hx c0 (Node.childNodes_mem_subnodes hc0).1
      have hx1 := Node.subnodes_trans root _ hx c1 (Node.childNodes_mem_subnodes hc1).1
      obtain ⟨k0, m0, i0, n0⟩ := Node.indexNodes_ok root hok c0 st hx0 h
      obtain ⟨k1, m1, i1, n1⟩ := Node.indexNodes_ok root hok c1 (c0.indexNodes st) hx1 k0
      have hadd : ∀ y ∈ (c1.indexNodes (c0.indexNodes st)).allNodes, y ∈ st.allNodes ∨
          ∃ c ∈ (Node.orNode a v u0 c0 u1 c1 s).childNodes, y ∈ c.subnodes := by
        intro y hy
        rcases n1 y hy with hy | hy
        · rcases n0 y hy with hy | hy
          · exact Or.inl hy
          · exact Or.inr ⟨c0, hc0, hy⟩
        · exact Or.inr ⟨c1, hc1, hy⟩
      have hnew := IndexOk.fresh hok k1 h hx (by simpa [Node.addr] using hs) hadd
      have hch : ∀ c ∈ (Node.orNode a v u0 c0 u1 c1 s).childNodes,
          (c1.indexNodes (c0.indexNodes st)).Indexed c := by
        intro c hc
        simp only [Node.childNodes, List.mem_cons, List.mem_singleton, List.not_mem_nil,
          or_false] at hc
        rcases hc with rfl | rfl
        · exact i0.of_keys m1
        · exact i1
      refine ⟨k1.add hx rfl rfl hnew hch _ (by simp [Node.nbLines]; ring),
        fun b hb => lookup_cons_isSome (m1 b (m0 b hb)),
        Or.inr (Or.inr (lookup_cons_self_isSome _ _ _)), ?_⟩
      intro y hy
      simp only [List.mem_append, List.mem_singleton] at hy
      rcases hy with hy | rfl
      · rcases hadd y hy with hy | ⟨c, hc, hy⟩
        · exact Or.inl hy
        · exact Or.inr (Node.subnodes_trans _ c (Node.childNodes_mem_subnodes hc).1 y hy)
      · exact Or.inr (Node.self_mem_subnodes _)
  | .andNode a cs u s, st, hx, h => by
    simp only [Node.indexNodes]
    by_cases hs : (st.nodeToLine.lookup a).isSome = true
    · rw [if_pos hs]
      exact ⟨h, fun _ ha => ha, Or.inr (Or.inr hs), fun y hy => Or.inl hy⟩
    · rw [if_neg hs]
      have hxs : ∀ c ∈ cs, c ∈ root.subnodes := fun c hc =>
        Node.subnodes_trans root _ hx c (Node.child_mem_subnodes_and a cs u s c hc)
      obtain ⟨k1, m1, i1, n1⟩ := Node.indexNodesAll_ok root hok cs st hxs h
      have hadd : ∀ y ∈ (Node.indexNodesAll cs st).allNodes, y ∈ st.allNodes ∨
          ∃ c ∈ (Node.andNode a cs u s).childNodes, y ∈ c.subnodes := n1
      have hnew := IndexOk.fresh hok k1 h hx (by simpa [Node.addr] using hs) hadd
      refine ⟨k1.add hx rfl rfl hnew i1 _ (by simp [Node.nbLines]; ring),
        fun b hb => lookup_cons_isSome (m1 b hb),
        Or.inr (Or.inr (lookup_cons_self_isSome _ _ _)), ?_⟩
      intro y hy
      simp only [List.mem_append, List.mem_singleton] at hy
      rcases hy with hy | rfl
      · rcases hadd y hy with hy | ⟨c, hc, hy⟩
        · exact Or.inl hy
        · exact Or.inr (Node.subnodes_trans _ c (Node.childNodes_mem_subnodes hc).1 y hy)
      · exact Or.inr (Node.self_mem_subnodes _)
theorem Node.indexNodesAll_ok (root : Node) (hok : root.AddrOk) :
    ∀ (xs : List Node) (st : IndexState), (∀ x ∈ xs, x ∈ root.subnodes) → IndexOk root st →
      IndexOk root (Node.indexNodesAll xs st) ∧
      (∀ a, (st.nodeToLine.lookup a).isSome = true →
        ((Node.indexNodesAll xs st).nodeToLine.lookup a).isSome = true) ∧
      (∀ x ∈ xs, (Node.indexNodesAll xs st).Indexed x) ∧
      (∀ y ∈ (Node.indexNodesAll xs st).allNodes,
        y ∈ st.allNodes ∨ ∃ c ∈ xs, y ∈ c.subnodes)
  | [], st, _, h => by
    simp only [Node.indexNodesAll]
    exact ⟨h, fun _ ha => ha, fun x hx => absurd hx (List.not_mem_nil x),
      fun y hy => Or.inl hy⟩
  | x :: xs, st, hxs, h => by
    simp only [Node.indexNodesAll]
    obtain ⟨k0, m0, i0, n0⟩ := Node.indexNodes_ok root hok x st (hxs x (List.mem_cons_self _ _)) h
    obtain ⟨k1, m1, i1, n1⟩ := Node.indexNodesAll_ok root hok xs (x.indexNodes st)
      (fun c hc => hxs c (List.mem_cons_of_mem _ hc)) k0
    refine ⟨k1, fun b hb => m1 b (m0 b hb), ?_, ?_⟩
    · intro c hc
      rcases List.mem_cons.mp hc with rfl | hc
      · exact i0.of_keys m1
      · exact i1 c hc
    · intro y hy
      rcases n1 y hy with hy | ⟨c, hc, hy⟩
      · rcases n0 y hy with hy | hy
        · exact Or.inl hy
        · exact Or.inr ⟨x, List.mem_cons_self _ _, hy⟩
      · exact Or.inr ⟨c, List.mem_cons_of_mem _ hc, hy⟩
end

theorem IndexOk.mem_of_indexed {root : Node} (hok : root.AddrOk) {st : IndexState}
    (h : IndexOk root st) {x : Node} (hx : x ∈ root.subnodes) (hi : st.Indexed x)
    (ht : x.isTrueNode = false) (hf : x.isFalseNode = false) : x ∈ st.allNodes := by
  rcases hi with hi | hi | hi
  · rw [ht] at hi; cases hi
  · rw [hf] at hi; cases hi
  · obtain ⟨y, hy, hya⟩ := h.keys x.addr hi
    have := hok y (h.sub y hy).1 x hx hya
    rw [← this]
    exact hy

mutual
theorem IndexOk.indexed_subnodes {root : Node} (hok : root.AddrOk) {st : IndexState}
    (h : IndexOk root st) :
    ∀ x : Node, x ∈ root.subnodes → st.Indexed x → ∀ y ∈ x.subnodes, st.Indexed y
  | .falseNode a, _, hi, y, hy => by
    simp only [Node.subnodes, List.mem_singleton] at hy; rw [hy]; exact hi
  | .trueNode a, _, hi, y, hy => by
    simp only [Node.subnodes, List.mem_singleton] at hy; rw [hy]; exact hi
  | .litNode a l, _, hi, y, hy => by
    simp only [Node.subnodes, List.mem_singleton] at hy; rw [hy]; exact hi
  | .orNode a v u0 c0 u1 c1 s, hx, hi, y, hy => by
    have hm := h.mem_of_indexed hok hx hi rfl rfl
    have hc0 : c0 ∈ (Node.orNode a v u0 c0 u1 c1 s).childNodes := by simp [Node.childNodes]
    have hc1 : c1 ∈ (Node.orNode a v u0 c0 u1 c1 s).childNodes := by simp [Node.childNodes]
    simp only [Node.subnodes, List.mem_cons, List.mem_append] at hy
    rcases hy with hy | hy | hy
    · rw [hy]; exact hi
    · exact IndexOk.indexed_subnodes hok h c0
        (Node.subnodes_trans root _ hx c0 (Node.childNodes_mem_subnodes hc0).1)
        (h.closed _ hm c0 hc0) y hy
    · exact IndexOk.indexed_subnodes hok h c1
        (Node.subnodes_trans root _ hx c1 (Node.childNodes_mem_subnodes hc1).1)
        (h.closed _ hm c1 hc1) y hy
  | .andNode a cs u s, hx, hi, y, hy => by
    have hm := h.mem_of_indexed hok hx hi rfl rfl
    simp only [Node.subnodes, List.mem_cons] at hy
    rcases hy with hy | hy
    · rw [hy]; exact hi
    · exact IndexOk.indexed_subnodesAll hok h cs
        (fun c hc => Node.subnodes_trans root _ hx c (Node.child_mem_subnodes_and a cs u s c hc))
        (fun c hc => h.closed _ hm c hc) y hy
theorem IndexOk.indexed_subnodesAll {root : Node} (hok : root.AddrOk) {st : IndexState}
    (h : IndexOk root st) :
    ∀ xs : List Node, (∀ x ∈ xs, x ∈ root.subnodes) → (∀ x ∈ xs, st.Indexed x) →
      ∀ y ∈ Node.subnodesAll xs, st.Indexed y
  | [], _, _, y, hy => by simp [Node.subnodesAll] at hy
  | x :: xs, hxs, his, y, hy => by
    simp only [Node.subnodesAll, List.mem_append] at hy
    rcases hy with hy | hy
    · exact IndexOk.indexed_subnodes hok h x (hxs x (List.mem_cons_self _ _))
        (his x (List.mem_cons_self _ _)) y hy
    · exact IndexOk.indexed_subnodesAll hok h xs (fun c hc => hxs c (List.mem_cons_of_mem _ hc))
        (fun c hc => his c (List.mem_cons_of_mem _ hc)) y hy
end

theorem IndexState.Indexed.lineIndexFor {st : IndexState} {c : Node} (h : st.Indexed c) :
    ∃ k, Node.lineIndexFor st.nodeToLine c = some k := by
  unfold Node.lineIndexFor
  by_cases hf : c.isFalseNode = true
  · exact ⟨0, by rw [if_pos hf]⟩
  · rw [if_neg hf]
    by_cases ht : c.isTrueNode = true
    · exact ⟨1, by rw [if_pos ht]⟩
    · rw [if_neg ht]
      rcases h with h | h | h
      · exact absurd h ht
      · exact absurd h hf
      · exact Option.isSome_iff_exists.mp h

theorem Node.childLineIndexes_some (st : IndexState) : ∀ cs : List Node,
    (∀ c ∈ cs, st.Indexed c) → ∃ ks, Node.childLineIndexes st.nodeToLine cs = some ks
  | [], _ => ⟨[], rfl⟩
  | c :: cs, h => by
    obtain ⟨k, hk⟩ := (h c (List.mem_cons_self _ _)).lineIndexFor
    obtain ⟨ks, hks⟩ := Node.childLineIndexes_some st cs
      (fun d hd => h d (List.mem_cons_of_mem _ hd))
    exact ⟨k :: ks, by simp only [Node.childLineIndexes, hk, hks]⟩

theorem Node.printBranch_some (st : IndexState) (u : List Int) (c : Node) (k : Int)
    (h : st.Indexed c) : ∃ ls, Node.printBranch st.nodeToLine u c k = some ls := by
  unfold Node.printBranch
  by_cases ht : c.isTrueNode = true
  · rw [if_pos ht]; exact ⟨_, rfl⟩
  · rw [if_neg ht]
    obtain ⟨j, hj⟩ := h.lineIndexFor
    rw [hj]
    exact ⟨_, rfl⟩

theorem Node.printNNF_some (st : IndexState) (x : Node) (h : ∀ c ∈ x.childNodes, st.Indexed c) :
    ∃ ls, x.printNNF st.nodeToLine = some ls := by
  cases x with
  | falseNode a => exact ⟨_, rfl⟩
  | trueNode a => exact ⟨_, rfl⟩
  | litNode a l => exact ⟨_, rfl⟩
  | orNode a v u0 c0 u1 c1 s =>
    obtain ⟨l1, h1⟩ := Node.printBranch_some st u1 c1
      ((st.nodeToLine.lookup a).getD 0 - ((u0.length : Int) + 1) - 1)
      (h c1 (by simp [Node.childNodes]))
    obtain ⟨l0, h0⟩ := Node.printBranch_some st u0 c0 ((st.nodeToLine.lookup a).getD 0 - 1)
      (h c0 (by simp [Node.childNodes]))
    rw [← Option.isSome_iff_exists]
    simp only [Node.printNNF, h1, h0]
    rfl
  | andNode a cs u s =>
    obtain ⟨ks, hks⟩ := Node.childLineIndexes_some st cs h
    rw [← Option.isSome_iff_exists]
    simp only [Node.printNNF, hks]
    rfl

/-- The loop of `Graph::print` writes the lines of the nodes one after the other. -/
theorem Node.printAll_some (ntl : List (Nat × Int)) : ∀ xs : List Node,
    (∀ x ∈ xs, ∃ ls, x.printNNF ntl = some ls) →
    ∃ lines, Node.printAll ntl xs = some lines ∧
      ∀ (i : Nat) (x : Node), xs[i]? = some x →
        ∃ ls pre post, x.printNNF ntl = some ls ∧ lines = pre ++ ls ++ post ∧
          pre.length = ((xs.take i).map Node.nbLines).sum
  | [], _ => ⟨[], rfl, fun i x hi => by simp at hi⟩
  | y :: ys, h => by
    obtain ⟨ly, hy⟩ := h y (List.mem_cons_self _ _)
    obtain ⟨lines, hl, hp⟩ := Node.printAll_some ntl ys
      (fun d hd => h d (List.mem_cons_of_mem _ hd))
    refine ⟨ly ++ lines, by simp only [Node.printAll, hy, hl], ?_⟩
    intro i x hi
    cases i with
    | zero =>
      simp only [List.getElem?_cons_zero, Option.some.injEq] at hi
      subst hi
      exact ⟨ly, [], lines, hy, by simp, by simp⟩
    | succ i =>
      simp only [List.getElem?_cons_succ] at hi
      obtain ⟨ls, pre, post, h1, h2, h3⟩ := hp i x hi
      refine ⟨ls, ly ++ pre, post, h1, by simp [h2], ?_⟩
      simp only [List.length_append, h3, List.take_succ_cons, List.map_cons, List.sum_cons,
        Node.printNNF_length hy]

theorem IndexOk.init (root : Node) : IndexOk root ⟨[], [], 2⟩ where
  sub := fun x hx => absurd hx (List.not_mem_nil x)
  keys := fun a ha => by simp at ha
  pos := fun i x hi => by simp at hi
  line := by simp
  closed := fun x hx => absurd hx (List.not_mem_nil x)

/-- C26: for every graph whose addresses identify its nodes, `Graph::print` writes a
text.  Its header `nnf T D N` has `N = nbVars`, `D = root.nbDescendants()` and `T` the number
of lines after the header; line 0 is `O 0 0` and line 1 is `A 0`; and for every node of the
graph other than `True` and `False`, `indexNodes` assigned a line index `k` to it, and the
lines `printNNF` writes for the node are in the text and end at line `k`. -/
theorem Graph.print_spec (g : Graph) (hok : g.root.AddrOk) :
    ∃ text, g.print = some text ∧
      text.nbVars = g.nbVars ∧ text.nbEdges = g.root.nbDescendants ∧
      text.nbNodes = (text.lines.length : Int) ∧
      text.lines[0]? = some ⟨'O', [0, 0]⟩ ∧ text.lines[1]? = some ⟨'A', [0]⟩ ∧
      ∀ x ∈ g.root.subnodes, x.isTrueNode = false → x.isFalseNode = false →
        ∃ (k : Int) (lines pre post : List NNFLine),
          (g.root.indexNodes ⟨[], [], 2⟩).nodeToLine.lookup x.addr = some k ∧
          x.printNNF (g.root.indexNodes ⟨[], [], 2⟩).nodeToLine = some lines ∧
          text.lines = pre ++ lines ++ post ∧
          (pre.length : Int) + (lines.length : Int) = k + 1 := by
  obtain ⟨hst, _, hroot, _⟩ := Node.indexNodes_ok g.root hok g.root ⟨[], [], 2⟩
    g.root.self_mem_subnodes (IndexOk.init g.root)
  obtain ⟨lines, hl, hp⟩ := Node.printAll_some (g.root.indexNodes ⟨[], [], 2⟩).nodeToLine
    (g.root.indexNodes ⟨[], [], 2⟩).allNodes
    (fun x hx => Node.printNNF_some _ x (hst.closed x hx))
  have hlen := Node.printAll_length hl
  refine ⟨⟨(g.root.indexNodes ⟨[], [], 2⟩).lineIndex, g.root.nbDescendants, g.nbVars,
    ([⟨'O', [0, 0]⟩, ⟨'A', [0]⟩] : List NNFLine) ++ lines⟩, ?_, rfl, rfl, ?_, rfl, by simp, ?_⟩
  · unfold Graph.print
    simp only [hl]
  · simp only [hst.line, List.length_append, List.length_cons, List.length_nil, hlen]
    push_cast
    ring
  · intro x hx ht hf
    have hi := hst.indexed_subnodes hok g.root g.root.self_mem_subnodes hroot x hx
    have hm := hst.mem_of_indexed hok hx hi ht hf
    obtain ⟨i, hlt, e⟩ := List.getElem_of_mem hm
    have hget : (g.root.indexNodes ⟨[], [], 2⟩).allNodes[i]? = some x := by
      rw [List.getElem?_eq_getElem hlt, e]
    obtain ⟨ls, pre, post, h1, h2, h3⟩ := hp i x hget
    refine ⟨_, ls, ([⟨'O', [0, 0]⟩, ⟨'A', [0]⟩] : List NNFLine) ++ pre, post,
      hst.pos i x hget, h1, ?_, ?_⟩
    · simp only [h2, List.append_assoc]
    · have h4 := Node.printNNF_length h1
      have h5 : (g.root.indexNodes ⟨[], [], 2⟩).allNodes.take (i + 1)
          = (g.root.indexNodes ⟨[], [], 2⟩).allNodes.take i ++ [x] := by
        rw [List.take_succ, hget]
        rfl
      rw [h5]
      simp only [List.length_append, List.length_cons, List.length_nil, h3, h4, List.map_append,
        List.sum_append, List.map_cons, List.map_nil, List.sum_cons, List.sum_nil]
      push_cast
      ring

/-- The graph `Or(1, And([1]), And([-1]))`: the header of its text has one variable. -/
theorem Graph.print_spec_witness :
    decisionGraph.root.AddrOk ∧ (decisionGraph.print.map NNFText.nbVars) = some 1 := by
  refine ⟨decisionGraph_valid.addrOk, ?_⟩
  obtain ⟨text, h, hv, _⟩ := Graph.print_spec decisionGraph decisionGraph_valid.addrOk
  rw [h, Option.map_some', hv]
  rfl

/-! ## node.cpp: what `condition` does to a graph -/

theorem eraseBound_foldl (m : Model) : ∀ (vars : List Int) (s : Finset Int),
    vars.foldl (fun s var => if m.bindingFor var ≠ Binding.Free then s.erase var else s) s =
      s.filter (fun v => ¬ (v ∈ vars ∧ m.bindingFor v ≠ Binding.Free))
  | [], s => by simp
  | v :: vars, s => by
    rw [List.foldl_cons, eraseBound_foldl m vars]
    ext x
    by_cases hb : m.bindingFor v ≠ Binding.Free
    · rw [if_pos hb]
      simp only [Finset.mem_filter, Finset.mem_erase, List.mem_cons]
      constructor
      · rintro ⟨⟨h1, h2⟩, h3⟩
        refine ⟨h2, ?_⟩
        rintro ⟨h4 | h4, h5⟩
        · exact h1 h4
        · exact h3 ⟨h4, h5⟩
      · rintro ⟨h1, h2⟩
        refine ⟨⟨?_, h1⟩, fun h => h2 ⟨Or.inr h.1, h.2⟩⟩
        intro e
        exact h2 ⟨Or.inl e, by rw [e]; exact hb⟩
    · rw [if_neg hb]
      simp only [Finset.mem_filter, List.mem_cons]
      constructor
      · rintro ⟨h1, h2⟩
        refine ⟨h1, ?_⟩
        rintro ⟨h4 | h4, h5⟩
        · rw [h4] at h5; exact hb h5
        · exact h2 ⟨h4, h5⟩
      · rintro ⟨h1, h2⟩
        exact ⟨h1, fun h => h2 ⟨Or.inr h.1, h.2⟩⟩

/-- The loop that erases the bound variables keeps the variables the model leaves `Free`. -/
theorem eraseBound_eq (m : Model) (s : Finset Int) :
    eraseBound m s = s.filter (fun v => m.bindingFor v = Binding.Free) := by
  unfold eraseBound
  rw [eraseBound_foldl]
  ext x
  simp only [Finset.mem_filter, and_congr_right_iff]
  intro _
  constructor
  · intro h
    by_contra hb
    apply h
    refine ⟨?_, hb⟩
    rw [mem_varsUpTo]
    by_contra hr
    exact hb (Model.bindingFor_eq_free_of_out rfl hr)
  · intro h hx
    exact hx.2 h

theorem conditioned_addr (m : Model) (x : Node) : (conditioned m x).addr = x.addr := by
  cases x with
  | falseNode a => rfl
  | trueNode a => rfl
  | litNode a l => rfl
  | orNode a v u0 c0 u1 c1 s => rfl
  | andNode a cs u s =>
    simp only [conditioned]
    split <;> rfl

theorem VisitedOk.empty_visited (m : Model) (root : Node) : VisitedOk m root [] := by
  intro x _ n h
  simp at h

theorem VisitedOk.insert_visited {m : Model} {root : Node} (hok : root.AddrOk)
    (hF : ∀ x ∈ root.subnodes, x.addr = falseNode.addr → x = falseNode) {cache : Visited}
    (h : VisitedOk m root cache) {x : Node} (hx : x ∈ root.subnodes ∨ x = falseNode) :
    VisitedOk m root ((x.addr, conditioned m x) :: cache) := by
  intro y hy n hn
  rw [List.lookup_cons] at hn
  by_cases e : y.addr = x.addr
  · have e' : (y.addr == x.addr) = true := by simpa using e
    rw [e'] at hn
    simp only [Option.some.injEq] at hn
    have hyx : y = x := by
      rcases hy with hy | hy <;> rcases hx with hx | hx
      · exact hok y hy x hx e
      · rw [hx] at e ⊢
        exact hF y hy e
      · rw [hy] at e ⊢
        exact (hF x hx e.symm).symm
      · rw [hy, hx]
    rw [← hn, hyx]
  · have e' : (y.addr == x.addr) = false := by simpa using e
    rw [e'] at hn
    exact h y hy n hn

theorem visitLeaf_ok {m : Model} {root : Node} (hok : root.AddrOk)
    (hF : ∀ x ∈ root.subnodes, x.addr = falseNode.addr → x = falseNode) {cache : Visited}
    (h : VisitedOk m root cache) {x : Node} (hx : x ∈ root.subnodes ∨ x = falseNode)
    (hleaf : conditioned m x = x) :
    (visitLeaf x cache).1 = conditioned m x ∧ VisitedOk m root (visitLeaf x cache).2 := by
  unfold visitLeaf
  cases hl : cache.lookup x.addr with
  | some n => exact ⟨h x hx n hl, h⟩
  | none =>
    refine ⟨hleaf.symm, ?_⟩
    have := h.insert_visited hok hF hx
    rw [hleaf] at this
    exact this

mutual
/-- With the visited set, `condition` leaves a node as `conditioned` describes. -/
theorem condition_eq_conditioned (m : Model) (root : Node) (hok : root.AddrOk)
    (hF : ∀ x ∈ root.subnodes, x.addr = falseNode.addr → x = falseNode) :
    ∀ (x : Node) (cache : Visited), x ∈ root.subnodes → VisitedOk m root cache →
      (condition m x cache).1 = conditioned m x ∧ VisitedOk m root (condition m x cache).2
  | .falseNode a, cache, hx, h => by
    simp only [condition]
    exact visitLeaf_ok hok hF h (Or.inl hx) rfl
  | .trueNode a, cache, hx, h => by
    simp only [condition]
    exact visitLeaf_ok hok hF h (Or.inl hx) rfl
  | .litNode a l, cache, hx, h => by
    simp only [condition]
    exact visitLeaf_ok hok hF h (Or.inl hx) rfl
  | .orNode a v u0 c0 u1 c1 s, cache, hx, h => by
    simp only [condition]
    cases hl : cache.lookup a with
    | some n => exact ⟨h _ (Or.inl hx) n hl, h⟩
    | none =>
      simp only
      have hc0 : c0 ∈ root.subnodes := Node.subnodes_trans root _ hx c0
        (by simp only [Node.subnodes, List.mem_cons, List.mem_append]
            exact Or.inr (Or.inl c0.self_mem_subnodes))
      have hc1 : c1 ∈ root.subnodes := Node.subnodes_trans root _ hx c1
        (by simp only [Node.subnodes, List.mem_cons, List.mem_append]
            exact Or.inr (Or.inr c1.self_mem_subnodes))
      have r0 : (if u0.any m.contradicts = true then visitLeaf falseNode cache
            else condition m c0 cache).1
            = (if u0.any m.contradicts = true then falseNode else conditioned m c0) ∧
          VisitedOk m root (if u0.any m.contradicts = true then visitLeaf falseNode cache
            else condition m c0 cache).2 := by
        split
        · exact visitLeaf_ok hok hF h (Or.inr rfl) rfl
        · exact condition_eq_conditioned m root hok hF c0 cache hc0 h
      have r1 : (if u1.any m.contradicts = true then
              visitLeaf falseNode (if u0.any m.contradicts = true then visitLeaf falseNode cache
                else condition m c0 cache).2
            else condition m c1 (if u0.any m.contradicts = true then visitLeaf falseNode cache
                else condition m c0 cache).2).1
            = (if u1.any m.contradicts = true then falseNode else conditioned m c1) ∧
          VisitedOk m root (if u1.any m.contradicts = true then
              visitLeaf falseNode (if u0.any m.contradicts = true then visitLeaf falseNode cache
                else condition m c0 cache).2
            else condition m c1 (if u0.any m.contradicts = true then visitLeaf falseNode cache
                else condition m c0 cache).2).2 := by
        split
        · exact visitLeaf_ok hok hF r0.2 (Or.inr rfl) rfl
        · exact condition_eq_conditioned m root hok hF c1 _ hc1 r0.2
      have e : Node.orNode a v (if u0.any m.contradicts = true then [] else u0)
            (if u0.any m.contradicts = true then visitLeaf falseNode cache
              else condition m c0 cache).1
            (if u1.any m.contradicts = true then [] else u1)
            (if u1.any m.contradicts = true then
              visitLeaf falseNode (if u0.any m.contradicts = true then visitLeaf falseNode cache
                else condition m c0 cache).2
            else condition m c1 (if u0.any m.contradicts = true then visitLeaf falseNode cache
                else condition m c0 cache).2).1 (eraseBound m s)
          = conditioned m (Node.orNode a v u0 c0 u1 c1 s) := by
        rw [r0.1, r1.1]
        simp only [conditioned]
      rw [e]
      exact ⟨rfl, r1.2.insert_visited hok hF (Or.inl hx)⟩
  | .andNode a cs u s, cache, hx, h => by
    simp only [condition]
    cases hl : cache.lookup a with
    | some n => exact ⟨h _ (Or.inl hx) n hl, h⟩
    | none =>
      simp only
      by_cases hd : u.any m.contradicts = true
      · rw [if_pos hd]
        have e : Node.andNode a [falseNode] [] (eraseBound m s)
            = conditioned m (Node.andNode a cs u s) := by
          simp only [conditioned, hd, if_true]
        simp only
        rw [e]
        exact ⟨rfl, h.insert_visited hok hF (Or.inl hx)⟩
      · rw [if_neg hd]
        obtain ⟨r1, r2⟩ := conditionAll_eq_conditionedAll m root hok hF cs cache
          (fun c hc => Node.subnodes_trans root _ hx c (Node.child_mem_subnodes_and a cs u s c hc)) h
        have e : Node.andNode a (conditionAll m cs cache).1 u (eraseBound m s)
            = conditioned m (Node.andNode a cs u s) := by
          rw [r1]
          simp only [conditioned, hd]
          rfl
        simp only
        rw [e]
        exact ⟨rfl, r2.insert_visited hok hF (Or.inl hx)⟩
theorem conditionAll_eq_conditionedAll (m : Model) (root : Node) (hok : root.AddrOk)
    (hF : ∀ x ∈ root.subnodes, x.addr = falseNode.addr → x = falseNode) :
    ∀ (xs : List Node) (cache : Visited), (∀ x ∈ xs, x ∈ root.subnodes) → VisitedOk m root cache →
      (conditionAll m xs cache).1 = conditionedAll m xs ∧
        VisitedOk m root (conditionAll m xs cache).2
  | [], cache, _, h => ⟨rfl, h⟩
  | x :: xs, cache, hxs, h => by
    simp only [conditionAll, conditionedAll]
    obtain ⟨r1, r2⟩ := condition_eq_conditioned m root hok hF x cache
      (hxs x (List.mem_cons_self _ _)) h
    obtain ⟨s1, s2⟩ := conditionAll_eq_conditionedAll m root hok hF xs _
      (fun c hc => hxs c (List.mem_cons_of_mem _ hc)) r2
    exact ⟨by rw [r1, s1], s2⟩
end

mutual
/-- A node of the conditioned subgraph is `falseNode` or what `condition` made of a node of
the subgraph. -/
theorem conditioned_subnodes (m : Model) : ∀ (x y : Node), y ∈ (conditioned m x).subnodes →
    y = falseNode ∨ ∃ x' ∈ x.subnodes, y = conditioned m x'
  | .falseNode a, y, h => by
    simp only [conditioned, Node.subnodes, List.mem_singleton] at h
    exact Or.inr ⟨_, Node.self_mem_subnodes _, h⟩
  | .trueNode a, y, h => by
    simp only [conditioned, Node.subnodes, List.mem_singleton] at h
    exact Or.inr ⟨_, Node.self_mem_subnodes _, h⟩
  | .litNode a l, y, h => by
    simp only [conditioned, Node.subnodes, List.mem_singleton] at h
    exact Or.inr ⟨_, Node.self_mem_subnodes _, h⟩
  | .orNode a v u0 c0 u1 c1 s, y, h => by
    simp only [conditioned, Node.subnodes, List.mem_cons, List.mem_append] at h
    rcases h with h | h | h
    · refine Or.inr ⟨_, Node.self_mem_subnodes _, ?_⟩
      rw [h]
      simp only [conditioned]
    · split at h
      · simp only [falseNode, Node.subnodes, List.mem_singleton] at h
        exact Or.inl h
      · rcases conditioned_subnodes m c0 y h with h | ⟨x', hx', e⟩
        · exact Or.inl h
        · refine Or.inr ⟨x', ?_, e⟩
          simp only [Node.subnodes, List.mem_cons, List.mem_append]
          exact Or.inr (Or.inl hx')
    · split at h
      · simp only [falseNode, Node.subnodes, List.mem_singleton] at h
        exact Or.inl h
      · rcases conditioned_subnodes m c1 y h with h | ⟨x', hx', e⟩
        · exact Or.inl h
        · refine Or.inr ⟨x', ?_, e⟩
          simp only [Node.subnodes, List.mem_cons, List.mem_append]
          exact Or.inr (Or.inr hx')
  | .andNode a cs u s, y, h => by
    by_cases hd : u.any m.contradicts = true
    · simp only [conditioned, hd, if_true, Node.subnodes, Node.subnodesAll, falseNode,
        List.mem_cons, List.mem_append, List.mem_singleton, List.not_mem_nil, or_false] at h
      rcases h with h | h
      · refine Or.inr ⟨_, Node.self_mem_subnodes _, ?_⟩
        rw [h]
        simp only [conditioned, hd, if_true, falseNode]
      · exact Or.inl h
    · simp only [conditioned, hd, Node.subnodes, List.mem_cons] at h
      rcases h with h | h
      · refine Or.inr ⟨_, Node.self_mem_subnodes _, ?_⟩
        rw [h]
        simp only [conditioned, hd]
        rfl
      · rcases conditionedAll_subnodes m cs y h with h | ⟨x', hx', e⟩
        · exact Or.inl h
        · refine Or.inr ⟨x', ?_, e⟩
          simp only [Node.subnodes, List.mem_cons]
          exact Or.inr hx'
theorem conditionedAll_subnodes (m : Model) : ∀ (xs : List Node) (y : Node),
    y ∈ Node.subnodesAll (conditionedAll m xs) →
    y = falseNode ∨ ∃ x' ∈ Node.subnodesAll xs, y = conditioned m x'
  | [], y, h => by simp [conditionedAll, Node.subnodesAll] at h
  | x :: xs, y, h => by
    simp only [conditionedAll, Node.subnodesAll, List.mem_append] at h
    rcases h with h | h
    · rcases conditioned_subnodes m x y h with h | ⟨x', hx', e⟩
      · exact Or.inl h
      · refine Or.inr ⟨x', ?_, e⟩
        simp only [Node.subnodesAll, List.mem_append]
        exact Or.inl hx'
    · rcases conditionedAll_subnodes m xs y h with h | ⟨x', hx', e⟩
      · exact Or.inl h
      · refine Or.inr ⟨x', ?_, e⟩
        simp only [Node.subnodesAll, List.mem_append]
        exact Or.inr hx'
end

/-- Addresses still identify the nodes of the conditioned graph. -/
theorem conditioned_addrOk (m : Model) (root : Node) (hok : root.AddrOk)
    (hF : ∀ x ∈ root.subnodes, x.addr = falseNode.addr → x = falseNode) :
    (conditioned m root).AddrOk := by
  intro y1 h1 y2 h2 e
  rcases conditioned_subnodes m root y1 h1 with e1 | ⟨x1, hx1, e1⟩ <;>
    rcases conditioned_subnodes m root y2 h2 with e2 | ⟨x2, hx2, e2⟩
  · rw [e1, e2]
  · rw [e1, e2, conditioned_addr] at e
    rw [e1, e2, hF x2 hx2 e.symm]
    rfl
  · rw [e1, e2, conditioned_addr] at e
    rw [e1, e2, hF x1 hx1 e]
    rfl
  · rw [e1, e2, conditioned_addr, conditioned_addr] at e
    rw [e1, e2, hok x1 hx1 x2 hx2 e]

/-! ## C27, C28: `condition` and the count -/

theorem Node.orBranchCount_conditioned (W : WeightVector) (m : Model) (n : Nat)
    (hone : ∀ v ∈ Finset.Icc (1 : Int) n, m.bindingFor v ≠ Binding.Free → varWeight W v = 1)
    (seen : Finset Int) (c c' : Node) (loc : ℚ) (hsub : c.seenVars ⊆ seen)
    (hr : seen ⊆ Finset.Icc (1 : Int) n)
    (hc : c'.seenVars = eraseBound m c.seenVars ∨
      (seen = c.seenVars ∧ c'.seenVars = c.seenVars)) :
    Node.orBranchCount W (eraseBound m seen) c' loc = Node.orBranchCount W seen c loc := by
  rcases hc with hc | ⟨h1, h2⟩
  · have hsub' : c'.seenVars ⊆ eraseBound m seen := by
      rw [hc, eraseBound_eq, eraseBound_eq]
      exact Finset.filter_subset_filter _ hsub
    rw [Node.orBranchCount_eq W _ c' loc hsub', Node.orBranchCount_eq W seen c loc hsub]
    congr 1
    have e : eraseBound m seen \ c'.seenVars
        = (seen \ c.seenVars).filter (fun v => m.bindingFor v = Binding.Free) := by
      rw [hc, eraseBound_eq, eraseBound_eq]
      ext x
      simp only [Finset.mem_sdiff, Finset.mem_filter]
      tauto
    rw [e, ← Finset.prod_filter_mul_prod_filter_not (seen \ c.seenVars)
      (fun v => m.bindingFor v = Binding.Free)]
    have h1 : ∏ x ∈ (seen \ c.seenVars).filter (fun v => ¬ m.bindingFor v = Binding.Free),
        varWeight W x = 1 := by
      apply Finset.prod_eq_one
      intro v hv
      simp only [Finset.mem_filter, Finset.mem_sdiff] at hv
      exact hone v (hr hv.1.1) hv.2
    rw [h1, mul_one]
  · have hR : Node.orBranchCount W seen c loc = loc := by
      rw [Node.orBranchCount_eq W seen c loc hsub, h1]
      simp
    rw [hR]
    unfold Node.orBranchCount
    split
    · rw [smoothLoop_sort, h2, ← h1]
      have : eraseBound m seen \ seen = ∅ := by
        rw [eraseBound_eq]
        ext x
        simp only [Finset.mem_sdiff, Finset.mem_filter, Finset.not_mem_empty, iff_false]
        tauto
      rw [this]
      simp
    · rfl

mutual
/-- When the literals against the model weigh `0` and the variables the model binds weigh
`1`, `condition` keeps the count of every node, and an And or Or node is left with the
variables it had seen that the model leaves `Free`. -/
theorem conditioned_count (W : WeightVector) (m : Model) (n : Nat)
    (hzero : ∀ l : Int, Node.litInRange n l → m.contradicts l = true → W.weightFor l = 0)
    (hone : ∀ v ∈ Finset.Icc (1 : Int) n, m.bindingFor v ≠ Binding.Free → varWeight W v = 1) :
    ∀ x : Node, x.SeenOk → x.LitsInRange n → x.NoOrUnits → x.LitBranchSmooth →
      (conditioned m x).count W = x.count W ∧
      (x.isLitNode = false → (conditioned m x).seenVars = eraseBound m x.seenVars)
  | .falseNode a, _, _, _, _ => by
    refine ⟨rfl, fun _ => ?_⟩
    simp [conditioned, Node.seenVars, eraseBound_eq]
  | .trueNode a, _, _, _, _ => by
    refine ⟨rfl, fun _ => ?_⟩
    simp [conditioned, Node.seenVars, eraseBound_eq]
  | .litNode a l, _, _, _, _ => by
    refine ⟨rfl, fun h => ?_⟩
    simp [Node.isLitNode] at h
  | .orNode a v u0 c0 u1 c1 s, hs, hr, hn, hl => by
    simp only [Node.SeenOk] at hs
    simp only [Node.LitsInRange] at hr
    simp only [Node.NoOrUnits] at hn
    simp only [Node.LitBranchSmooth] at hl
    obtain ⟨hs0, hs1, hs2⟩ := hs
    obtain ⟨hu0, hu1, hn0, hn1⟩ := hn
    obtain ⟨hl0, hl1, hl2, hl3⟩ := hl
    subst hu0 hu1
    obtain ⟨k0, e0⟩ := conditioned_count W m n hzero hone c0 hs1 hr.2.1 hn0 hl2
    obtain ⟨k1, e1⟩ := conditioned_count W m n hzero hone c1 hs2 hr.2.2.2 hn1 hl3
    have hsr : s ⊆ Finset.Icc (1 : Int) n := by
      rw [hs0]
      exact Finset.union_subset
        ((Node.seenVars_subset_vars c0 hs1).trans (Node.vars_subset_range n c0 hr.2.1))
        ((Node.seenVars_subset_vars c1 hs2).trans (Node.vars_subset_range n c1 hr.2.2.2))
    have hb : ∀ c : Node, c.seenVars ⊆ s →
        (c.isLitNode = true → s = c.seenVars) →
        (c.isLitNode = false → (conditioned m c).seenVars = eraseBound m c.seenVars) →
        ∀ loc : ℚ, Node.orBranchCount W (eraseBound m s) (conditioned m c) loc
          = Node.orBranchCount W s c loc := by
      intro c hsub h1 h2 loc
      apply Node.orBranchCount_conditioned W m n hone s c _ loc hsub hsr
      by_cases hc : c.isLitNode = true
      · right
        refine ⟨h1 hc, ?_⟩
        cases c <;> simp [Node.isLitNode] at hc
        rfl
      · left
        exact h2 (by simpa using hc)
    refine ⟨?_, fun _ => ?_⟩
    · simp only [conditioned, List.any_nil, Bool.false_eq_true, if_false, Node.count]
      rw [k0, k1, hb c0 (by rw [hs0]; exact Finset.subset_union_left) hl0 e0,
        hb c1 (by rw [hs0]; exact Finset.subset_union_right) hl1 e1]
    · simp only [conditioned, Node.seenVars]
  | .andNode a cs u s, hs, hr, hn, hl => by
    simp only [Node.SeenOk] at hs
    simp only [Node.LitsInRange] at hr
    simp only [Node.NoOrUnits] at hn
    simp only [Node.LitBranchSmooth] at hl
    by_cases hd : u.any m.contradicts = true
    · refine ⟨?_, fun _ => ?_⟩
      · simp only [conditioned, hd, if_true, Node.count, Node.countAll, falseNode, List.map_nil,
          List.prod_nil, zero_mul, mul_zero]
        obtain ⟨l, hl1, hl2⟩ := List.any_eq_true.mp hd
        symm
        apply mul_eq_zero_of_left
        apply List.prod_eq_zero
        rw [List.mem_map]
        exact ⟨l, hl1, hzero l (hr.1 l hl1) hl2⟩
      · simp only [conditioned, hd, if_true, Node.seenVars]
    · refine ⟨?_, fun _ => ?_⟩
      · simp only [conditioned, hd, Node.count]
        rw [conditionedAll_count W m n hzero hone cs hs.2 hr.2 hn hl]
      · simp only [conditioned, hd]
        rfl
theorem conditionedAll_count (W : WeightVector) (m : Model) (n : Nat)
    (hzero : ∀ l : Int, Node.litInRange n l → m.contradicts l = true → W.weightFor l = 0)
    (hone : ∀ v ∈ Finset.Icc (1 : Int) n, m.bindingFor v ≠ Binding.Free → varWeight W v = 1) :
    ∀ xs : List Node, Node.SeenOkAll xs → Node.LitsInRangeAll n xs → Node.NoOrUnitsAll xs →
      Node.LitBranchSmoothAll xs →
      Node.countAll W (conditionedAll m xs) = Node.countAll W xs
  | [], _, _, _, _ => rfl
  | x :: xs, hs, hr, hn, hl => by
    simp only [Node.SeenOkAll] at hs
    simp only [Node.LitsInRangeAll] at hr
    simp only [Node.NoOrUnitsAll] at hn
    simp only [Node.LitBranchSmoothAll] at hl
    simp only [conditionedAll, Node.countAll]
    rw [(conditioned_count W m n hzero hone x hs.1 hr.1 hn.1 hl.1).1,
      conditionedAll_count W m n hzero hone xs hs.2 hr.2 hn.2 hl.2]
end

theorem conditioned_seenVars (m : Model) (x : Node) (h : x.isLitNode = false) :
    (conditioned m x).seenVars = eraseBound m x.seenVars := by
  cases x with
  | falseNode a => simp [conditioned, Node.seenVars, eraseBound_eq]
  | trueNode a => simp [conditioned, Node.seenVars, eraseBound_eq]
  | litNode a l => simp [Node.isLitNode] at h
  | orNode a v u0 c0 u1 c1 s => rfl
  | andNode a cs u s =>
    simp only [conditioned]
    split <;> rfl

theorem Model.falsifies_of_contradicts (m : Model) (l : Int) (hl : l ≠ 0)
    (h : m.contradicts l = true) : m.falsifies l := by
  unfold Model.contradicts at h
  unfold Model.falsifies
  rw [varOf_eq_abs] at h
  cases hb : m.bindingFor |l| <;> rw [hb] at h <;> simp at h ⊢
  · omega
  · omega

theorem Graph.conditionRoot_root (g : Graph) (m : Model) (haddr : g.root.AddrOk)
    (hF : ∀ x ∈ g.root.subnodes, x.addr = falseNode.addr → x = falseNode) :
    (g.conditionRoot m).root = conditioned m g.root :=
  (condition_eq_conditioned m g.root haddr hF g.root [] g.root.self_mem_subnodes
    (VisitedOk.empty_visited m g.root)).1

/-- C28, amended: for every graph with the `seenVars` the parser computes, literals of
`1..nbVars`, `2 * nbVars` weights and no unit literal on an Or branch, in which an Or node
with a Lit node as branch child has seen the variable of that literal only, and for every
partial model `m` and weight vector that gives weight `1` to each literal `m` makes true:
running `condition(root, m, ∅)` leaves `Graph::modelCount(m)` unchanged. -/
theorem Graph.conditionRoot_modelCount (g : Graph) (m : Model)
    (hseen : g.root.SeenOk) (hrange : g.root.LitsInRange g.nbVars)
    (hsize : g.weights.vec.length = 2 * g.nbVars) (haddr : g.root.AddrOk)
    (hF : ∀ x ∈ g.root.subnodes, x.addr = falseNode.addr → x = falseNode)
    (hn : g.root.NoOrUnits) (hl : g.root.LitBranchSmooth)
    (hw : ∀ l : Int, Node.litInRange g.nbVars l →
      (0 < l → m.bindingFor l = Binding.True → g.weights.weightFor l = 1) ∧
      (l < 0 → m.bindingFor (-l) = Binding.False → g.weights.weightFor l = 1)) :
    (g.conditionRoot m).modelCount m = g.modelCount m := by
  have hroot := Graph.conditionRoot_root g m haddr hF
  by_cases hlit : g.root.isLitNode = true
  · have e : conditioned m g.root = g.root := by
      cases hr : g.root <;> rw [hr] at hlit <;> simp [Node.isLitNode] at hlit
      rfl
    have hg : g.conditionRoot m = g := by
      have : (g.conditionRoot m).root = g.root := by rw [hroot, e]
      cases g
      simp only [Graph.conditionRoot] at this ⊢
      rw [this]
    rw [hg]
  · have hlit' : g.root.isLitNode = false := by simpa using hlit
    have hsub : g.root.seenVars ⊆ Finset.Icc (1 : Int) g.nbVars :=
      (Node.seenVars_subset_vars g.root hseen).trans (Node.vars_subset_range g.nbVars g.root hrange)
    have hs' : (g.conditionRoot m).root.seenVars
        = g.root.seenVars.filter (fun v => m.bindingFor v = Binding.Free) := by
      rw [hroot, conditioned_seenVars m g.root hlit', eraseBound_eq]
    have hsub' : (g.conditionRoot m).root.seenVars ⊆ Finset.Icc (1 : Int) (g.conditionRoot m).nbVars := by
      rw [hs']
      exact (Finset.filter_subset _ _).trans hsub
    have haddr' : (g.conditionRoot m).root.AddrOk := by
      rw [hroot]
      exact conditioned_addrOk m g.root haddr hF
    rw [Graph.modelCount_eq_count (g.conditionRoot m) m haddr' hsub',
      Graph.modelCount_eq_count g m haddr hsub, hs']
    show (g.conditionRoot m).root.count (updateWeights g.weights m) *
        ∏ v ∈ Finset.Icc (1 : Int) g.nbVars \
          g.root.seenVars.filter (fun v => m.bindingFor v = Binding.Free),
          varWeight (updateWeights g.weights m) v = _
    rw [hroot]
    have hzero : ∀ l : Int, Node.litInRange g.nbVars l → m.contradicts l = true →
        (updateWeights g.weights m).weightFor l = 0 := by
      intro l hlr hc
      have hl0 : l ≠ 0 := by
        intro e
        rw [e] at hlr
        simp [Node.litInRange] at hlr
      rw [updateWeights_weightFor g.weights m g.nbVars hsize l hlr,
        if_pos (Model.falsifies_of_contradicts m l hl0 hc)]
    by_cases hU : ∃ v ∈ Finset.Icc (1 : Int) g.nbVars, m.bindingFor v = Binding.Unsat
    · obtain ⟨v0, hv0, hb0⟩ := hU
      have hv0' := Finset.mem_Icc.mp hv0
      have h1 : (updateWeights g.weights m).weightFor v0 = 0 := by
        rw [updateWeights_weightFor g.weights m g.nbVars hsize v0 (Node.litInRange_of_mem hv0).1,
          if_pos]
        unfold Model.falsifies
        rw [abs_of_pos (by omega), hb0]
        trivial
      have h2 : (updateWeights g.weights m).weightFor (-v0) = 0 := by
        rw [updateWeights_weightFor g.weights m g.nbVars hsize (-v0)
          (Node.litInRange_of_mem hv0).2, if_pos]
        unfold Model.falsifies
        rw [abs_neg, abs_of_pos (by omega), hb0]
        trivial
      have hvw : varWeight (updateWeights g.weights m) v0 = 0 := by
        unfold varWeight
        rw [h1, h2, add_zero]
      have hL : ∏ v ∈ Finset.Icc (1 : Int) g.nbVars \
          g.root.seenVars.filter (fun v => m.bindingFor v = Binding.Free),
          varWeight (updateWeights g.weights m) v = 0 := by
        apply Finset.prod_eq_zero (i := v0) _ hvw
        simp only [Finset.mem_sdiff, Finset.mem_filter, not_and]
        refine ⟨hv0, fun _ => ?_⟩
        rw [hb0]
        simp
      rw [hL, mul_zero]
      by_cases hin : v0 ∈ g.root.seenVars
      · rw [Node.count_eq_zero_of_seen _ v0 h1 h2 g.root hseen hin, zero_mul]
      · rw [Finset.prod_eq_zero (i := v0) _ hvw, mul_zero]
        simp only [Finset.mem_sdiff]
        exact ⟨hv0, hin⟩
    · have hone : ∀ v ∈ Finset.Icc (1 : Int) g.nbVars, m.bindingFor v ≠ Binding.Free →
          varWeight (updateWeights g.weights m) v = 1 := by
        intro v hv hb
        have hv' := Finset.mem_Icc.mp hv
        have hr := Node.litInRange_of_mem hv
        have hpos : (0 : Int) < v := by omega
        unfold varWeight
        rw [updateWeights_weightFor g.weights m g.nbVars hsize v hr.1,
          updateWeights_weightFor g.weights m g.nbVars hsize (-v) hr.2]
        cases hbv : m.bindingFor v with
        | Free => exact absurd hbv hb
        | Unsat => exact absurd ⟨v, hv, hbv⟩ hU
        | True =>
          have f1 : ¬ m.falsifies v := by
            unfold Model.falsifies
            rw [abs_of_pos hpos, hbv]
            simp only [not_lt]
            omega
          have f2 : m.falsifies (-v) := by
            unfold Model.falsifies
            rw [abs_neg, abs_of_pos hpos, hbv]
            simp only
            omega
          rw [if_neg f1, if_pos f2, add_zero]
          exact (hw v hr.1).1 (by omega) hbv
        | False =>
          have f1 : m.falsifies v := by
            unfold Model.falsifies
            rw [abs_of_pos hpos, hbv]
            simp only
            omega
          have f2 : ¬ m.falsifies (-v) := by
            unfold Model.falsifies
            rw [abs_neg, abs_of_pos hpos, hbv]
            simp only [not_lt]
            omega
          rw [if_pos f1, if_neg f2, zero_add]
          exact (hw (-v) hr.2).2 (by omega) (by rw [neg_neg]; exact hbv)
      rw [(conditioned_count _ m g.nbVars hzero hone g.root hseen hrange hn hl).1]
      congr 1
      rw [← Finset.prod_filter_mul_prod_filter_not
        (Finset.Icc (1 : Int) g.nbVars \
          g.root.seenVars.filter (fun v => m.bindingFor v = Binding.Free))
        (fun v => v ∈ g.root.seenVars)]
      have e1 : ∏ x ∈ (Finset.Icc (1 : Int) g.nbVars \
            g.root.seenVars.filter (fun v => m.bindingFor v = Binding.Free)).filter
              (fun v => v ∈ g.root.seenVars),
          varWeight (updateWeights g.weights m) x = 1 := by
        apply Finset.prod_eq_one
        intro v hv
        simp only [Finset.mem_filter, Finset.mem_sdiff, not_and] at hv
        exact hone v hv.1.1 (hv.1.2 hv.2)
      have e2 : (Finset.Icc (1 : Int) g.nbVars \
            g.root.seenVars.filter (fun v => m.bindingFor v = Binding.Free)).filter
              (fun v => ¬ v ∈ g.root.seenVars)
          = Finset.Icc (1 : Int) g.nbVars \ g.root.seenVars := by
        ext x
        simp only [Finset.mem_filter, Finset.mem_sdiff, not_and]
        tauto
      rw [e1, e2, one_mul]

theorem Graph.conditionRoot_modelCount_witness :
    (orAndGraph.conditionRoot ⟨[Binding.True, Binding.Free]⟩).modelCount
        ⟨[Binding.True, Binding.Free]⟩ =
      orAndGraph.modelCount ⟨[Binding.True, Binding.Free]⟩ :=
  Graph.conditionRoot_modelCount orAndGraph ⟨[Binding.True, Binding.Free]⟩
    orAndGraph_valid.seenOk orAndGraph_valid.litsInRange orAndGraph_valid.weightsSize
    orAndGraph_valid.addrOk
    (by
      intro x hx
      simp only [orAndGraph, Graph.make, Node.subnodes, Node.subnodesAll, List.mem_cons,
        List.mem_append, List.mem_singleton, List.not_mem_nil, or_false] at hx
      rcases hx with rfl | rfl | rfl <;> simp [Node.addr, falseNode])
    orAndGraph_noOrUnits
    (by simp [orAndGraph, Graph.make, Node.LitBranchSmooth, Node.LitBranchSmoothAll,
      Node.isLitNode])
    (fun l hl => ⟨fun _ _ => WeightVector.uniform_weightFor 2 l hl,
      fun _ _ => WeightVector.uniform_weightFor 2 l hl⟩)

theorem litBranchGraph_valid : litBranchGraph.Valid where
  decomposable := by
    simp [litBranchGraph, Graph.make, Node.Decomposable, Node.DecomposableAll,
      Node.conjunctVars, Node.vars, Node.varsAll, litVars]
  deterministic := by
    simp [litBranchGraph, Graph.make, Node.Deterministic, Node.DeterministicAll, Node.eval,
      Node.evalAll, litVal]
    intro ρ h1 h2
    rw [h1] at h2
    cases h2
  seenOk := by
    simp [litBranchGraph, Graph.make, Node.SeenOk, Node.SeenOkAll, Node.seenVars,
      Node.seenVarsAll, litVars]
    decide
  litsInRange := by
    simp [litBranchGraph, Graph.make, Node.LitsInRange, Node.LitsInRangeAll, Node.litInRange]
  weightsSize := by
    simp [litBranchGraph, Graph.make, WeightVector.uniform]
  addrOk := by
    intro a ha b hb
    simp only [litBranchGraph, Graph.make, Node.subnodes, Node.subnodesAll, List.mem_cons,
      List.mem_append, List.mem_singleton, List.not_mem_nil, or_false] at ha hb
    rcases ha with rfl | rfl | rfl <;> rcases hb with rfl | rfl | rfl <;> simp [Node.addr]

/-- C28 as stated fails.  On the valid graph `Or(1, Lit(1), And([-1, 2]))` over two
variables, with uniform weights and `m = {1 = True}`, `modelCount(m)` is `2` before and `1`
after `condition`: the Or node is left with `{2}`, as many variables as the Lit node has,
and the branch is not smoothed.  On the decision on variable `1` with `w(1) = 3` and
`m = {1 = True}`, `modelCount(m)` is `3` before and `9` after: variable `1`, erased from the
root, is smoothed a second time.  On `Or(1, [branch{units=[1], True},
branch{units=[-1], True}])` with uniform weights and `m = {1 = True}`, `modelCount(m)` is
`2` before (the count does not read the unit literals of the branches) and `1` after
(the second branch got `False` as child). -/
theorem Graph.conditionRoot_modelCount_ne :
    litBranchGraph.Valid ∧
      litBranchGraph.modelCount ⟨[Binding.True, Binding.Free]⟩ = 2 ∧
      (litBranchGraph.conditionRoot ⟨[Binding.True, Binding.Free]⟩).modelCount
        ⟨[Binding.True, Binding.Free]⟩ = 1 ∧
      decisionGraphWeighted.modelCount ⟨[Binding.True]⟩ = 3 ∧
      (decisionGraphWeighted.conditionRoot ⟨[Binding.True]⟩).modelCount ⟨[Binding.True]⟩ = 9 ∧
      orUnitsGraph.modelCount ⟨[Binding.True]⟩ = 2 ∧
      (orUnitsGraph.conditionRoot ⟨[Binding.True]⟩).modelCount ⟨[Binding.True]⟩ = 1 := by
  have hsdiff : ({1, 2} : Finset Int) \ {1} = {2} := by decide
  refine ⟨litBranchGraph_valid, ?_, ?_, ?_, ?_, ?_, ?_⟩
  · simp [Graph.modelCount, litBranchGraph, Graph.make, Node.modelCount,
      Node.modelCountChildren, Node.orBranchCount, updateWeights, varsUpTo,
      Model.bindingFor, vecGet, vecSet, WeightVector.nbVars, WeightVector.weightFor,
      WeightVector.setWeightFor, WeightVector.idx, WeightVector.uniform, Node.seenVars,
      Node.addr, smoothLoop, List.range_succ, List.lookup]
    rw [smoothLoop_sort, hsdiff]
    simp [varWeight, WeightVector.weightFor, WeightVector.idx, vecGet]
    norm_num
  · simp [Graph.modelCount, Graph.conditionRoot, condition, conditionAll, visitLeaf,
      Model.contradicts, varOf, eraseBound, Model.nbVars, falseNode,
      litBranchGraph, Graph.make, Node.modelCount,
      Node.modelCountChildren, Node.orBranchCount, updateWeights, varsUpTo,
      Model.bindingFor, vecGet, vecSet, WeightVector.nbVars, WeightVector.weightFor,
      WeightVector.setWeightFor, WeightVector.idx, WeightVector.uniform, Node.seenVars,
      Node.addr, smoothLoop, List.range_succ, List.lookup]
  · simp [Graph.modelCount, decisionGraphWeighted, decisionGraph, Graph.make, Node.modelCount,
      Node.modelCountChildren, Node.orBranchCount, updateWeights, varsUpTo,
      Model.bindingFor, vecGet, vecSet, WeightVector.nbVars, WeightVector.weightFor,
      WeightVector.setWeightFor, WeightVector.idx, WeightVector.uniform, Node.seenVars,
      Node.addr, smoothLoop, List.range_succ, List.lookup]
  · simp [Graph.modelCount, Graph.conditionRoot, condition, conditionAll, visitLeaf,
      Model.contradicts, varOf, eraseBound, Model.nbVars, falseNode,
      decisionGraphWeighted, decisionGraph, Graph.make, Node.modelCount,
      Node.modelCountChildren, Node.orBranchCount, updateWeights, varsUpTo,
      Model.bindingFor, vecGet, vecSet, WeightVector.nbVars, WeightVector.weightFor,
      WeightVector.setWeightFor, WeightVector.idx, WeightVector.uniform, Node.seenVars,
      Node.addr, smoothLoop, List.range_succ, List.lookup] <;>
    norm_num
  · simp [Graph.modelCount, orUnitsGraph, trueNode, Graph.make, Node.modelCount,
      Node.modelCountChildren, Node.orBranchCount, updateWeights, varsUpTo,
      Model.bindingFor, vecGet, vecSet, WeightVector.nbVars, WeightVector.weightFor,
      WeightVector.setWeightFor, WeightVector.idx, WeightVector.uniform, Node.seenVars,
      Node.addr, smoothLoop, List.range_succ, List.lookup] <;>
    norm_num
  · simp [Graph.modelCount, Graph.conditionRoot, condition, conditionAll, visitLeaf,
      Model.contradicts, varOf, eraseBound, Model.nbVars, falseNode,
      orUnitsGraph, trueNode, Graph.make, Node.modelCount,
      Node.modelCountChildren, Node.orBranchCount, updateWeights, varsUpTo,
      Model.bindingFor, vecGet, vecSet, WeightVector.nbVars, WeightVector.weightFor,
      WeightVector.setWeightFor, WeightVector.idx, WeightVector.uniform, Node.seenVars,
      Node.addr, smoothLoop, List.range_succ, List.lookup]

theorem conditionedAll_length (m : Model) : ∀ xs : List Node,
    (conditionedAll m xs).length = xs.length
  | [] => rfl
  | x :: xs => by
    simp only [conditionedAll, List.length_cons, conditionedAll_length m xs]

/-- C27, amended: `Graph::conditionTo(m)` does not go down the graph: the only child of the
new root is the former root, as it was.  The rewriting is what `condition` of node.cpp
does, which `conditionTo` does not call: after `condition(root, m, ∅)` on a graph whose
addresses identify its nodes, every And node reachable from the root sits at the address of
an And node of the graph before; if that node had a unit literal against `m`, the node now
has children `[False]` and no unit literals, otherwise it has kept its unit literals and
the number of its children. -/
theorem Graph.conditionTo_keeps_root (g : Graph) (m : Model) (addr : Nat)
    (haddr : g.root.AddrOk)
    (hF : ∀ x ∈ g.root.subnodes, x.addr = falseNode.addr → x = falseNode) :
    (g.conditionTo m addr).root.childNodes = [g.root] ∧
    ∀ (a : Nat) (cs : List Node) (u : List Int) (s : Finset Int),
      Node.andNode a cs u s ∈ (g.conditionRoot m).root.subnodes →
      ∃ cs0 u0 s0, Node.andNode a cs0 u0 s0 ∈ g.root.subnodes ∧
        if u0.any m.contradicts = true then cs = [falseNode] ∧ u = []
        else u = u0 ∧ cs.length = cs0.length := by
  refine ⟨rfl, ?_⟩
  intro a cs u s hy
  rw [Graph.conditionRoot_root g m haddr hF] at hy
  rcases conditioned_subnodes m g.root _ hy with h | ⟨x, hx, e⟩
  · simp [falseNode] at h
  · cases x with
    | falseNode b => simp [conditioned] at e
    | trueNode b => simp [conditioned] at e
    | litNode b l => simp [conditioned] at e
    | orNode b v u0 c0 u1 c1 s0 => simp [conditioned] at e
    | andNode b cs0 u0 s0 =>
      by_cases hd : u0.any m.contradicts = true
      · simp only [conditioned, hd, if_true, Node.andNode.injEq] at e
        obtain ⟨rfl, rfl, rfl, _⟩ := e
        exact ⟨cs0, u0, s0, hx, by rw [if_pos hd]; exact ⟨rfl, rfl⟩⟩
      · simp only [conditioned, hd, Node.andNode.injEq] at e
        have e' : a = b ∧ cs = conditionedAll m cs0 ∧ u = u0 ∧ s = eraseBound m s0 := by
          simpa using e
        obtain ⟨rfl, rfl, rfl, _⟩ := e'
        exact ⟨cs0, u, s0, hx, by rw [if_neg hd]; exact ⟨rfl, conditionedAll_length m cs0⟩⟩

theorem Graph.conditionTo_keeps_root_witness :
    (andLitGraph.conditionTo ⟨[Binding.False]⟩ 3).root.childNodes = [andLitGraph.root] :=
  (Graph.conditionTo_keeps_root andLitGraph ⟨[Binding.False]⟩ 3
    (by
      intro a ha b hb
      simp only [andLitGraph, Graph.make, Node.subnodes, Node.subnodesAll, List.mem_cons,
        List.not_mem_nil, or_false] at ha hb
      rw [ha, hb]
      intro _
      rfl)
    (by
      intro x hx
      simp only [andLitGraph, Graph.make, Node.subnodes, Node.subnodesAll, List.mem_cons,
        List.not_mem_nil, or_false] at hx
      rw [hx]
      simp [Node.addr, falseNode])).1

/-- C27 as stated fails: on `And([1])` over one variable and `m = {1 = False}`, the unit
literal `1` of the And node is against `m`; after `conditionTo(m)` that node is the child
of the new root and still has no children and the unit literal `1`.  After `condition` the
node has the children `[False]`. -/
theorem Graph.conditionTo_keeps_contradicted_and :
    Model.contradicts ⟨[Binding.False]⟩ 1 = true ∧
      (andLitGraph.conditionTo ⟨[Binding.False]⟩ 3).root.childNodes =
        [Node.andNode 2 [] [1] {1}] ∧
      (andLitGraph.conditionRoot ⟨[Binding.False]⟩).root.childNodes = [falseNode] :=
  ⟨by decide, rfl, rfl⟩

/-! ## C31, C34: `keepBoundedWeightModels` at an Or node, and soundness of the pruning -/

/-- The method `keepBoundedWeightModelsOrRooted` in terms of its two rewritten branches. -/
theorem LinObjFunc.keepBoundedNode_orNode (f : LinObjFunc) (bound : Int) (a : Nat) (var : Int)
    (u0 : List Int) (c0 : Node) (u1 : List Int) (c1 : Node) (s : Finset Int) (next : Nat) :
    f.keepBoundedNode bound (Node.orNode a var u0 c0 u1 c1 s) next =
      if (f.keepBoundedBranch0 bound u0 c0 next).1.2.isFalseNode then
        ((f.keepBoundedBranch1 bound u0 c0 u1 c1 next).1,
          (f.keepBoundedBranch1 bound u0 c0 u1 c1 next).2)
      else if (f.keepBoundedBranch1 bound u0 c0 u1 c1 next).1.2.isFalseNode then
        ((f.keepBoundedBranch0 bound u0 c0 next).1,
          (f.keepBoundedBranch1 bound u0 c0 u1 c1 next).2)
      else if f.minWeight (f.keepBoundedBranch0 bound u0 c0 next).1.1 >
          f.minWeight (f.keepBoundedBranch1 bound u0 c0 u1 c1 next).1.1 then
        ((f.keepBoundedBranch1 bound u0 c0 u1 c1 next).1,
          (f.keepBoundedBranch1 bound u0 c0 u1 c1 next).2)
      else if f.minWeight (f.keepBoundedBranch1 bound u0 c0 u1 c1 next).1.1 >
          f.minWeight (f.keepBoundedBranch0 bound u0 c0 next).1.1 then
        ((f.keepBoundedBranch0 bound u0 c0 next).1,
          (f.keepBoundedBranch1 bound u0 c0 u1 c1 next).2)
      else
        (((f.keepBoundedBranch0 bound u0 c0 next).1.1,
          Node.orNode (f.keepBoundedBranch1 bound u0 c0 u1 c1 next).2 var []
            (f.keepBoundedBranch0 bound u0 c0 next).1.2 []
            (f.keepBoundedBranch1 bound u0 c0 u1 c1 next).1.2 ∅),
          (f.keepBoundedBranch1 bound u0 c0 u1 c1 next).2 + 3) := by
  simp only [LinObjFunc.keepBoundedNode, LinObjFunc.keepBoundedBranch0,
    LinObjFunc.keepBoundedBranch1, LinObjFunc.orBranchResult]

/-- C34: in `keepBoundedWeightModels`, at an Or node whose two rewritten branches `p0`, `p1`
are both not `False`: when `minWeight(p0.first) < minWeight(p1.first)` the result is `p0`,
when `minWeight(p1.first) < minWeight(p0.first)` it is `p1`, and when the two are equal the
node is a new Or node with the decision variable of the Or node, no unit literals, and the
nodes of `p0` and `p1` as the children of its first and second branch, handed to the parent
with the forced literals of `p0`. -/
theorem LinObjFunc.keepBoundedNode_or_choice (f : LinObjFunc) (bound : Int) (a : Nat)
    (var : Int) (u0 : List Int) (c0 : Node) (u1 : List Int) (c1 : Node) (s : Finset Int)
    (next : Nat)
    (h0 : (f.keepBoundedBranch0 bound u0 c0 next).1.2.isFalseNode = false)
    (h1 : (f.keepBoundedBranch1 bound u0 c0 u1 c1 next).1.2.isFalseNode = false) :
    (f.minWeight (f.keepBoundedBranch0 bound u0 c0 next).1.1 <
        f.minWeight (f.keepBoundedBranch1 bound u0 c0 u1 c1 next).1.1 →
      (f.keepBoundedNode bound (Node.orNode a var u0 c0 u1 c1 s) next).1 =
        (f.keepBoundedBranch0 bound u0 c0 next).1) ∧
    (f.minWeight (f.keepBoundedBranch1 bound u0 c0 u1 c1 next).1.1 <
        f.minWeight (f.keepBoundedBranch0 bound u0 c0 next).1.1 →
      (f.keepBoundedNode bound (Node.orNode a var u0 c0 u1 c1 s) next).1 =
        (f.keepBoundedBranch1 bound u0 c0 u1 c1 next).1) ∧
    (f.minWeight (f.keepBoundedBranch0 bound u0 c0 next).1.1 =
        f.minWeight (f.keepBoundedBranch1 bound u0 c0 u1 c1 next).1.1 →
      (f.keepBoundedNode bound (Node.orNode a var u0 c0 u1 c1 s) next).1 =
        ((f.keepBoundedBranch0 bound u0 c0 next).1.1,
          Node.orNode (f.keepBoundedBranch1 bound u0 c0 u1 c1 next).2 var []
            (f.keepBoundedBranch0 bound u0 c0 next).1.2 []
            (f.keepBoundedBranch1 bound u0 c0 u1 c1 next).1.2 ∅)) := by
  rw [f.keepBoundedNode_orNode, h0, h1]
  simp only [Bool.false_eq_true, if_false, gt_iff_lt]
  refine ⟨fun h => ?_, fun h => ?_, fun h => ?_⟩
  · rw [if_neg (by omega), if_pos h]
  · rw [if_pos h]
  · rw [if_neg (by omega), if_neg (by omega)]

/-- On `Or(1, And([1]), And([-1]))` with `obj(1) = 5`, `obj(-1) = 2` and bound `5` both
rewritten branches are kept, and the cheaper second one is the result. -/
theorem LinObjFunc.keepBoundedNode_or_choice_witness :
    (objFiveTwo.keepBoundedNode 5 decisionGraph.root 10).1 =
      (objFiveTwo.keepBoundedBranch1 5 [] (Node.andNode 2 [] [1] {1}) []
        (Node.andNode 3 [] [-1] {1}) 10).1 :=
  (LinObjFunc.keepBoundedNode_or_choice objFiveTwo 5 4 1 [] (Node.andNode 2 [] [1] {1}) []
    (Node.andNode 3 [] [-1] {1}) {1} 10 (by decide) (by decide)).2.1 (by decide)

theorem LinObjFunc.orBranchResult_sound (f : LinObjFunc) (bound : Int) (u : List Int)
    (r : VecNodePair × Nat) (ρ : Int → Bool)
    (h : Node.eval ρ (f.orBranchResult bound u r).1.2 = true) :
    u.all (litVal ρ) = true ∧ Node.eval ρ r.1.2 = true := by
  unfold LinObjFunc.orBranchResult at h
  simp only at h
  by_cases hu : u.length > 0
  · rw [if_pos hu] at h
    split at h
    · simp [LinObjFunc.makeFalseNodePair, falseNode, Node.eval] at h
    · simpa [Node.eval, Node.evalAll] using h
  · rw [if_neg hu] at h
    have : u = [] := List.length_eq_zero.mp (by omega)
    subst this
    split at h
    · simp [LinObjFunc.makeFalseNodePair, falseNode, Node.eval] at h
    · exact ⟨rfl, h⟩

mutual
/-- The node `keepBoundedWeightModels(n, bound)` returns implies the node `n`. -/
theorem LinObjFunc.keepBoundedNode_sound (f : LinObjFunc) (bound : Int) (ρ : Int → Bool) :
    ∀ (n : Node) (next : Nat),
      Node.eval ρ (f.keepBoundedNode bound n next).1.2 = true → Node.eval ρ n = true
  | .falseNode a, next, h => by
    simp [LinObjFunc.keepBoundedNode, LinObjFunc.makeFalseNodePair, falseNode, Node.eval] at h
  | .trueNode a, next, _ => rfl
  | .litNode a l, next, h => by
    simp only [LinObjFunc.keepBoundedNode] at h
    split at h
    · exact h
    · simp [LinObjFunc.makeFalseNodePair, falseNode, Node.eval] at h
  | .orNode a x u0 c0 u1 c1 s, next, h => by
    rw [f.keepBoundedNode_orNode] at h
    have b0 := f.orBranchResult_sound bound u0 (f.keepBoundedNode bound c0 next) ρ
    have b1 := f.orBranchResult_sound bound u1
      (f.keepBoundedNode bound c1 (f.keepBoundedBranch0 bound u0 c0 next).2) ρ
    have k0 := LinObjFunc.keepBoundedNode_sound f bound ρ c0 next
    have k1 := LinObjFunc.keepBoundedNode_sound f bound ρ c1
      (f.keepBoundedBranch0 bound u0 c0 next).2
    have r0 : Node.eval ρ (f.keepBoundedBranch0 bound u0 c0 next).1.2 = true →
        Node.eval ρ (Node.orNode a x u0 c0 u1 c1 s) = true := by
      intro e
      obtain ⟨e1, e2⟩ := b0 e
      simp [Node.eval, e1, k0 e2]
    have r1 : Node.eval ρ (f.keepBoundedBranch1 bound u0 c0 u1 c1 next).1.2 = true →
        Node.eval ρ (Node.orNode a x u0 c0 u1 c1 s) = true := by
      intro e
      obtain ⟨e1, e2⟩ := b1 e
      simp [Node.eval, e1, k1 e2]
    split at h
    · exact r1 h
    · split at h
      · exact r0 h
      · split at h
        · exact r1 h
        · split at h
          · exact r0 h
          · simp only [Node.eval, List.all_nil, Bool.true_and, Bool.or_eq_true] at h
            rcases h with h | h
            · exact r0 h
            · exact r1 h
  | .andNode a cs u s, next, h => by
    simp only [LinObjFunc.keepBoundedNode] at h
    have := LinObjFunc.keepBoundedAndLoop_sound f bound ρ cs u u [] next (next + 1) h
    simp only [Node.eval, Node.evalAll, Bool.and_true] at this ⊢
    rw [this.1, this.2]
    rfl
theorem LinObjFunc.keepBoundedAndLoop_sound (f : LinObjFunc) (bound : Int) (ρ : Int → Bool) :
    ∀ (cs : List Node) (unitLits assigns : List Int) (newChildren : List Node)
      (addr next : Nat),
      Node.eval ρ (f.keepBoundedAndLoop bound cs unitLits assigns newChildren addr next).1.2
        = true →
      Node.eval ρ (Node.andNode addr newChildren unitLits ∅) = true ∧
        Node.evalAll ρ cs = true
  | [], unitLits, assigns, newChildren, addr, next, h => by
    simp only [LinObjFunc.keepBoundedAndLoop] at h
    split at h
    · exact ⟨h, rfl⟩
    · simp [LinObjFunc.makeFalseNodePair, falseNode, Node.eval] at h
  | child :: rest, unitLits, assigns, newChildren, addr, next, h => by
    simp only [LinObjFunc.keepBoundedAndLoop] at h
    have k := LinObjFunc.keepBoundedNode_sound f bound ρ child next
    split at h
    · simp [LinObjFunc.makeFalseNodePair, falseNode, Node.eval] at h
    · obtain ⟨e1, e2⟩ := LinObjFunc.keepBoundedAndLoop_sound f bound ρ rest unitLits _ _ addr _ h
      rw [Node.eval_andNode_snoc] at e1
      simp only [Bool.and_eq_true] at e1
      exact ⟨e1.1, by simp [Node.evalAll, k e1.2, e2]⟩
end

/-- C31: pruning never adds models.  For every graph `g`, objective and bound, every
total assignment that satisfies the circuit `keepBoundedWeightModels(g, bound)` returns,
read as a boolean formula, satisfies the circuit of `g`. -/
theorem LinObjFunc.keepBoundedWeightModels_sound (f : LinObjFunc) (g : Graph) (bound : Int)
    (next : Nat) (ρ : Int → Bool) :
    Node.eval ρ (f.keepBoundedWeightModels g bound next).root = true →
      Node.eval ρ g.root = true :=
  LinObjFunc.keepBoundedNode_sound f bound ρ g.root next

/-- On `Or(1, And([1]), And([-1]))` with `obj(1) = 5`, `obj(-1) = 2` and bound `5`, the
assignment `1 = false` satisfies the pruned circuit, and the circuit. -/
theorem LinObjFunc.keepBoundedWeightModels_sound_witness :
    Node.eval (fun _ => false) (objFiveTwo.keepBoundedWeightModels decisionGraph 5 10).root
        = true ∧
      Node.eval (fun _ => false) decisionGraph.root = true :=
  ⟨by decide, LinObjFunc.keepBoundedWeightModels_sound objFiveTwo decisionGraph 5 10
    (fun _ => false) (by decide)⟩

/-! ## C32, C33: what `optimizeUnderConstraints` returns -/

/-- C32 at the failing inputs.  No assignment satisfies `Or(1, False, False)`, and
`optimizeUnderConstraints` returns the empty list for it, not `none`.  On
`Or(1, False, Lit(-1))` with `obj(1) = 0`, `obj(-1) = 5` it returns the empty list too, the
list of the infeasible first branch, where the second branch gives `[-1]`. -/
theorem LinObjFunc.optimizeUnderConstraints_or_not_none :
    (∀ ρ : Int → Bool, Node.eval ρ orFalseFalseGraph.root = false) ∧
      objZeroFive.optimizeUnderConstraints orFalseFalseGraph.root = some [] ∧
      objZeroFive.optimizeUnderConstraints orFalseGraph.root = some [] ∧
      objZeroFive.optimizeUnderConstraints (Node.litNode 2 (-1)) = some [-1] := by
  refine ⟨fun ρ => ?_, by decide, by decide, by decide⟩
  simp [orFalseFalseGraph, Graph.make, falseNode, Node.eval]

mutual
/-- A null result of `optimizeUnderConstraints` comes from a `False` node below And nodes
only: the node has no model. -/
theorem LinObjFunc.optimizeUnderConstraints_none (f : LinObjFunc) (ρ : Int → Bool) :
    ∀ n : Node, f.optimizeUnderConstraints n = none → Node.eval ρ n = false
  | .falseNode _, _ => rfl
  | .trueNode _, h => by simp [LinObjFunc.optimizeUnderConstraints] at h
  | .litNode _ _, h => by simp [LinObjFunc.optimizeUnderConstraints] at h
  | .orNode _ _ _ _ _ _ _, h => by simp [LinObjFunc.optimizeUnderConstraints] at h
  | .andNode _ cs u _, h => by
    simp only [LinObjFunc.optimizeUnderConstraints] at h
    simp only [Node.eval, LinObjFunc.optimizeUnderAndLoop_none f ρ cs u h, Bool.and_false]
theorem LinObjFunc.optimizeUnderAndLoop_none (f : LinObjFunc) (ρ : Int → Bool) :
    ∀ (cs : List Node) (assigns : List Int), f.optimizeUnderAndLoop cs assigns = none →
      Node.evalAll ρ cs = false
  | [], _, h => by simp [LinObjFunc.optimizeUnderAndLoop] at h
  | c :: cs, assigns, h => by
    simp only [LinObjFunc.optimizeUnderAndLoop] at h
    cases hc : f.optimizeUnderConstraints c with
    | none =>
      simp only [Node.evalAll, LinObjFunc.optimizeUnderConstraints_none f ρ c hc, Bool.false_and]
    | some r =>
      rw [hc] at h
      simp only [Node.evalAll, LinObjFunc.optimizeUnderAndLoop_none f ρ cs _ h, Bool.and_false]
end

mutual
/-- The literals `optimizeUnderConstraints` collects are literals of the node. -/
theorem LinObjFunc.optimizeUnderConstraints_inRange (f : LinObjFunc) (k : Nat) :
    ∀ (n : Node) (r : List Int), f.optimizeUnderConstraints n = some r → n.LitsInRange k →
      ∀ l ∈ r, Node.litInRange k l
  | .falseNode _, r, h, _ => by simp [LinObjFunc.optimizeUnderConstraints] at h
  | .trueNode _, r, h, _ => by
    simp only [LinObjFunc.optimizeUnderConstraints, Option.some.injEq] at h
    subst h
    intro l hl
    cases hl
  | .litNode _ lit, r, h, hr => by
    simp only [LinObjFunc.optimizeUnderConstraints, Option.some.injEq] at h
    subst h
    intro l hl
    simp only [List.mem_singleton] at hl
    subst hl
    exact hr
  | .orNode _ _ u0 c0 u1 c1 _, r, h, hr => by
    simp only [Node.LitsInRange] at hr
    simp only [LinObjFunc.optimizeUnderConstraints, Option.some.injEq] at h
    have b0 : ∀ l ∈ (match f.optimizeUnderConstraints c0 with
        | some childAssigns => childAssigns
        | none => []), Node.litInRange k l := by
      cases h0 : f.optimizeUnderConstraints c0 with
      | none => intro l hl; cases hl
      | some r0 => exact LinObjFunc.optimizeUnderConstraints_inRange f k c0 r0 h0 hr.2.1
    have b1 : ∀ l ∈ (match f.optimizeUnderConstraints c1 with
        | some childAssigns => childAssigns
        | none => []), Node.litInRange k l := by
      cases h1 : f.optimizeUnderConstraints c1 with
      | none => intro l hl; cases hl
      | some r1 => exact LinObjFunc.optimizeUnderConstraints_inRange f k c1 r1 h1 hr.2.2.2
    intro l hl
    rw [← h] at hl
    split at hl
    · rcases List.mem_append.mp hl with hl | hl
      · exact hr.1 l hl
      · exact b0 l hl
    · rcases List.mem_append.mp hl with hl | hl
      · exact hr.2.2.1 l hl
      · exact b1 l hl
  | .andNode _ cs u _, r, h, hr => by
    simp only [Node.LitsInRange] at hr
    simp only [LinObjFunc.optimizeUnderConstraints] at h
    exact LinObjFunc.optimizeUnderAndLoop_inRange f k cs u r h hr.2 hr.1
theorem LinObjFunc.optimizeUnderAndLoop_inRange (f : LinObjFunc) (k : Nat) :
    ∀ (cs : List Node) (assigns r : List Int), f.optimizeUnderAndLoop cs assigns = some r →
      Node.LitsInRangeAll k cs → (∀ l ∈ assigns, Node.litInRange k l) →
      ∀ l ∈ r, Node.litInRange k l
  | [], assigns, r, h, _, ha => by
    simp only [LinObjFunc.optimizeUnderAndLoop, Option.some.injEq] at h
    subst h
    exact ha
  | c :: cs, assigns, r, h, hr, ha => by
    simp only [Node.LitsInRangeAll] at hr
    simp only [LinObjFunc.optimizeUnderAndLoop] at h
    cases hc : f.optimizeUnderConstraints c with
    | none => rw [hc] at h; simp at h
    | some rc =>
      rw [hc] at h
      refine LinObjFunc.optimizeUnderAndLoop_inRange f k cs _ r h hr.2 ?_
      intro l hl
      rcases List.mem_append.mp hl with hl | hl
      · exact ha l hl
      · exact LinObjFunc.optimizeUnderConstraints_inRange f k c rc hc hr.1 l hl
end

theorem LinObjFunc.getChecked_inRange (f : LinObjFunc) (l : Int)
    (hl : Node.litInRange f.nbVars l) : f.getChecked l = some (f.get l) := by
  unfold LinObjFunc.getChecked
  rw [if_pos]
  have hn : 2 * f.nbVars ≤ f.weights.length := by
    unfold LinObjFunc.nbVars
    omega
  unfold Node.litInRange at hl
  unfold LinObjFunc.idx
  rcases abs_cases l with ⟨e, _⟩ | ⟨e, _⟩ <;> rw [e] at hl <;> split_ifs <;> omega

theorem LinObjFunc.assignLoopChecked_eq (f : LinObjFunc) :
    ∀ (lits : List Int) (value : Int) (assigned : List Bool) (model : Model),
      (∀ l ∈ lits, Node.litInRange f.nbVars l) → assigned.length = f.nbVars →
      model.content.length = f.nbVars →
      f.assignLoopChecked lits (value, assigned, model) =
        some ((lits.foldl (fun (acc : Int × List Bool) val =>
            (acc.1 + f.get val, vecSet acc.2 (if val > 0 then val - 1 else -val - 1) true))
            (value, assigned)).1,
          (lits.foldl (fun (acc : Int × List Bool) val =>
            (acc.1 + f.get val, vecSet acc.2 (if val > 0 then val - 1 else -val - 1) true))
            (value, assigned)).2,
          LinObjFunc.bindAssigns lits model)
  | [], value, assigned, model, _, _, _ => rfl
  | val :: rest, value, assigned, model, hl, ha, hm => by
    have hv := hl val (List.mem_cons_self _ _)
    have hidx : (if val > 0 then val else -val) - 1 = (if val > 0 then val - 1 else -val - 1) := by
      split_ifs <;> rfl
    have hvar : 1 ≤ (if val > 0 then val else -val) ∧
        (if val > 0 then val else -val) ≤ (f.nbVars : Int) := by
      unfold Node.litInRange at hv
      rcases abs_cases val with ⟨e, _⟩ | ⟨e, _⟩ <;> rw [e] at hv <;> split_ifs <;> omega
    simp only [LinObjFunc.assignLoopChecked, f.getChecked_inRange val hv]
    rw [if_pos ⟨hvar.1, by rw [ha]; exact hvar.2, by rw [hm]; exact hvar.2⟩]
    rw [LinObjFunc.assignLoopChecked_eq f rest _ _ _
      (fun l h => hl l (List.mem_cons_of_mem _ h))
      (by rw [vecSet_length]; exact ha)
      (by rw [Model.setBindingFor_length]; exact hm)]
    simp only [List.foldl_cons, LinObjFunc.bindAssigns, hidx]

theorem LinObjFunc.completeLoopChecked_eq (f : LinObjFunc) (assigned : List Bool) :
    ∀ (idxs : List Nat) (value : Int) (model : Model),
      (∀ i ∈ idxs, i < f.nbVars) → model.content.length = f.nbVars →
      f.completeLoopChecked assigned idxs (value, model) =
        some (idxs.foldl (fun (acc : Int × Model) i =>
          if !(assigned.getD i false) then
            (acc.1 + (if f.get ((i : Int) + 1) > f.get (-(i : Int) - 1)
                then f.get (-(i : Int) - 1) else f.get ((i : Int) + 1)),
              acc.2.setBindingFor ((i : Int) + 1)
                (if f.get ((i : Int) + 1) > f.get (-(i : Int) - 1)
                  then Binding.False else Binding.True))
          else acc) (value, model))
  | [], value, model, _, _ => rfl
  | i :: rest, value, model, hi, hm => by
    have hlt := hi i (List.mem_cons_self _ _)
    have hp : Node.litInRange f.nbVars ((i : Int) + 1) := by
      unfold Node.litInRange
      rw [abs_of_pos (by omega)]
      omega
    have hn : Node.litInRange f.nbVars (-(i : Int) - 1) := by
      unfold Node.litInRange
      rw [abs_of_neg (by omega)]
      omega
    simp only [LinObjFunc.completeLoopChecked, f.getChecked_inRange _ hp,
      f.getChecked_inRange _ hn, List.foldl_cons]
    by_cases hb : (!(assigned.getD i false)) = true
    · rw [if_pos hb, if_pos hb, if_pos (by rw [hm]; omega)]
      exact LinObjFunc.completeLoopChecked_eq f assigned rest _ _
        (fun j h => hi j (List.mem_cons_of_mem _ h))
        (by rw [Model.setBindingFor_length]; exact hm)
    · rw [if_neg hb, if_neg hb]
      exact LinObjFunc.completeLoopChecked_eq f assigned rest _ _
        (fun j h => hi j (List.mem_cons_of_mem _ h)) hm

theorem LinObjFunc.sumAssigned_fold_length (f : LinObjFunc) : ∀ (lits : List Int)
    (acc : Int × List Bool),
    (lits.foldl (fun (acc : Int × List Bool) val =>
      (acc.1 + f.get val, vecSet acc.2 (if val > 0 then val - 1 else -val - 1) true))
      acc).2.length = acc.2.length
  | [], _ => rfl
  | l :: ls, acc => by
    rw [List.foldl_cons, LinObjFunc.sumAssigned_fold_length f ls]
    exact vecSet_length _ _ _

theorem LinObjFunc.bindAssigns_length : ∀ (lits : List Int) (m : Model),
    (LinObjFunc.bindAssigns lits m).content.length = m.content.length
  | [], _ => rfl
  | l :: ls, m => by
    have ih := LinObjFunc.bindAssigns_length ls
      (m.setBindingFor (if l > 0 then l else -l)
        (if l < 0 then Binding.False else Binding.True))
    unfold LinObjFunc.bindAssigns at ih ⊢
    rw [List.foldl_cons, ih]
    exact Model.setBindingFor_length _ _ _

theorem LinObjFunc.sumAssignedChecked_eq (f : LinObjFunc) :
    ∀ (lits : List Int) (value : Int) (assigned : List Bool),
      (∀ l ∈ lits, Node.litInRange f.nbVars l) → assigned.length = f.nbVars →
      f.sumAssignedChecked lits (value, assigned) =
        some (lits.foldl (fun (acc : Int × List Bool) val =>
          (acc.1 + f.get val, vecSet acc.2 (if val > 0 then val - 1 else -val - 1) true))
          (value, assigned))
  | [], value, assigned, _, _ => rfl
  | val :: rest, value, assigned, hl, ha => by
    have hv := hl val (List.mem_cons_self _ _)
    have hidx : 0 ≤ (if val > 0 then val - 1 else -val - 1) ∧
        (if val > 0 then val - 1 else -val - 1) < (f.nbVars : Int) := by
      unfold Node.litInRange at hv
      rcases abs_cases val with ⟨e, _⟩ | ⟨e, _⟩ <;> rw [e] at hv <;> split_ifs <;> omega
    simp only [LinObjFunc.sumAssignedChecked, f.getChecked_inRange val hv]
    rw [if_pos ⟨hidx.1, by rw [ha]; exact hidx.2⟩]
    rw [LinObjFunc.sumAssignedChecked_eq f rest _ _
      (fun l h => hl l (List.mem_cons_of_mem _ h))
      (by rw [vecSet_length]; exact ha)]
    simp only [List.foldl_cons]

theorem LinObjFunc.minLoopChecked_eq (f : LinObjFunc) (assigned : List Bool) :
    ∀ (idxs : List Nat) (value : Int), (∀ i ∈ idxs, i < f.nbVars) →
      f.minLoopChecked assigned idxs value =
        some (idxs.foldl (fun value i =>
          if !(assigned.getD i false) then
            value + (if f.get (-(i : Int) - 1) > f.get ((i : Int) + 1)
              then f.get ((i : Int) + 1) else f.get (-(i : Int) - 1))
          else value) value)
  | [], _, _ => rfl
  | i :: rest, value, hi => by
    have hlt := hi i (List.mem_cons_self _ _)
    have hp : Node.litInRange f.nbVars ((i : Int) + 1) := by
      unfold Node.litInRange
      rw [abs_of_pos (by omega)]
      omega
    have hn : Node.litInRange f.nbVars (-(i : Int) - 1) := by
      unfold Node.litInRange
      rw [abs_of_neg (by omega)]
      omega
    simp only [LinObjFunc.minLoopChecked, f.getChecked_inRange _ hp,
      f.getChecked_inRange _ hn, List.foldl_cons]
    by_cases hb : (!(assigned.getD i false)) = true
    · rw [if_pos hb, if_pos hb]
      exact LinObjFunc.minLoopChecked_eq f assigned rest _
        (fun j h => hi j (List.mem_cons_of_mem _ h))
    · rw [if_neg hb, if_neg hb]
      exact LinObjFunc.minLoopChecked_eq f assigned rest _
        (fun j h => hi j (List.mem_cons_of_mem _ h))

/-- On literals of the variables `1..nbVars` of the objective every access of `minWeight`
is inside its vector. -/
theorem LinObjFunc.minWeightChecked_eq (f : LinObjFunc) (lits : List Int)
    (hl : ∀ l ∈ lits, Node.litInRange f.nbVars l) :
    f.minWeightChecked lits = some (f.minWeight lits) := by
  unfold LinObjFunc.minWeightChecked
  rw [f.sumAssignedChecked_eq lits 0 _ hl (by simp)]
  simp only
  rw [f.minLoopChecked_eq _ _ _ (fun i hi => by
    rw [List.mem_range, f.sumAssigned_fold_length] at hi
    simpa using hi)]
  rfl

mutual
/-- On a node whose literals are literals of the variables `1..nbVars` of the objective,
every access of `optimizeUnderConstraints` is inside its vector. -/
theorem LinObjFunc.optimizeUnderConstraintsChecked_eq (f : LinObjFunc) :
    ∀ n : Node, n.LitsInRange f.nbVars →
      f.optimizeUnderConstraintsChecked n = some (f.optimizeUnderConstraints n)
  | .falseNode _, _ => rfl
  | .trueNode _, _ => rfl
  | .litNode _ _, _ => rfl
  | .orNode _ _ u0 c0 u1 c1 _, hr => by
    simp only [Node.LitsInRange] at hr
    have b0 : ∀ l ∈ u0 ++ (match f.optimizeUnderConstraints c0 with
        | some childAssigns => childAssigns
        | none => []), Node.litInRange f.nbVars l := by
      intro l hl
      rcases List.mem_append.mp hl with hl | hl
      · exact hr.1 l hl
      · cases h0 : f.optimizeUnderConstraints c0 with
        | none => rw [h0] at hl; cases hl
        | some r0 =>
          rw [h0] at hl
          exact LinObjFunc.optimizeUnderConstraints_inRange f f.nbVars c0 r0 h0 hr.2.1 l hl
    have b1 : ∀ l ∈ u1 ++ (match f.optimizeUnderConstraints c1 with
        | some childAssigns => childAssigns
        | none => []), Node.litInRange f.nbVars l := by
      intro l hl
      rcases List.mem_append.mp hl with hl | hl
      · exact hr.2.2.1 l hl
      · cases h1 : f.optimizeUnderConstraints c1 with
        | none => rw [h1] at hl; cases hl
        | some r1 =>
          rw [h1] at hl
          exact LinObjFunc.optimizeUnderConstraints_inRange f f.nbVars c1 r1 h1 hr.2.2.2 l hl
    simp only [LinObjFunc.optimizeUnderConstraintsChecked,
      LinObjFunc.optimizeUnderConstraintsChecked_eq f c0 hr.2.1,
      LinObjFunc.optimizeUnderConstraintsChecked_eq f c1 hr.2.2.2,
      f.minWeightChecked_eq _ b0, f.minWeightChecked_eq _ b1,
      LinObjFunc.optimizeUnderConstraints]
  | .andNode _ cs u _, hr => by
    simp only [Node.LitsInRange] at hr
    simp only [LinObjFunc.optimizeUnderConstraintsChecked, LinObjFunc.optimizeUnderConstraints]
    exact LinObjFunc.optimizeUnderAndLoopChecked_eq f cs u hr.2
theorem LinObjFunc.optimizeUnderAndLoopChecked_eq (f : LinObjFunc) :
    ∀ (cs : List Node) (assigns : List Int), Node.LitsInRangeAll f.nbVars cs →
      f.optimizeUnderAndLoopChecked cs assigns = some (f.optimizeUnderAndLoop cs assigns)
  | [], _, _ => rfl
  | c :: cs, assigns, hr => by
    simp only [Node.LitsInRangeAll] at hr
    simp only [LinObjFunc.optimizeUnderAndLoopChecked, LinObjFunc.optimizeUnderAndLoop,
      LinObjFunc.optimizeUnderConstraintsChecked_eq f c hr.1]
    cases hc : f.optimizeUnderConstraints c with
    | none => rfl
    | some rc => exact LinObjFunc.optimizeUnderAndLoopChecked_eq f cs _ hr.2
end

/-- C33: for every graph that has a satisfying assignment and whose literals are literals
of the variables `1..nbVars` of the objective, `optimizeUnderConstraint` reaches no error.
The run in which every access to `weights`, `assigned` and the model is checked, in
`optimizeUnderConstraints`, in the calls of `minWeight` at the Or nodes and in the two loops
of `optimizeUnderConstraint`, finds every access inside its vector: the collection from the
root returns a list, not the null pointer, of literals of `1..nbVars`, and the checked run
returns the pair the method returns. -/
theorem LinObjFunc.optimizeUnderConstraint_safe (f : LinObjFunc) (g : Graph) (ρ : Int → Bool)
    (hsat : Node.eval ρ g.root = true) (hr : g.root.LitsInRange f.nbVars) :
    ∃ assigns r, f.optimizeUnderConstraintsChecked g.root = some (some assigns) ∧
      f.optimizeUnderConstraints g.root = some assigns ∧
      (∀ l ∈ assigns, 1 ≤ |l| ∧ |l| ≤ (f.nbVars : Int)) ∧
      f.optimizeUnderConstraintChecked g = some r ∧ f.optimizeUnderConstraint g = some r := by
  cases ha : f.optimizeUnderConstraints g.root with
  | none =>
    rw [LinObjFunc.optimizeUnderConstraints_none f ρ g.root ha] at hsat
    cases hsat
  | some assigns =>
    have hin := LinObjFunc.optimizeUnderConstraints_inRange f f.nbVars g.root assigns ha hr
    have hck : f.optimizeUnderConstraintsChecked g.root = some (some assigns) := by
      rw [f.optimizeUnderConstraintsChecked_eq g.root hr, ha]
    refine ⟨assigns, f.completeAssigns (f.sumAssigned assigns).2 (f.sumAssigned assigns).1
      (LinObjFunc.bindAssigns assigns (Model.free f.nbVars)), hck, rfl, hin, ?_, ?_⟩
    · unfold LinObjFunc.optimizeUnderConstraintChecked
      simp only [hck]
      rw [LinObjFunc.assignLoopChecked_eq f assigns 0 _ _ hin (by simp)
        (by simp [Model.free])]
      simp only
      rw [LinObjFunc.completeLoopChecked_eq f _ _ _ _ ?_ ?_]
      · rfl
      · intro i hi
        rw [List.mem_range, f.sumAssigned_fold_length] at hi
        simpa using hi
      · rw [LinObjFunc.bindAssigns_length]
        simp [Model.free]
    · unfold LinObjFunc.optimizeUnderConstraint
      simp only [ha]

/-- On `Or(1, And([1]), And([-1]))` with `obj(1) = 5`, `obj(-1) = 2` the checked run
returns a pair, and the checked collection from the root the list `[-1]`. -/
theorem LinObjFunc.optimizeUnderConstraint_safe_witness :
    Node.eval (fun _ => false) decisionGraph.root = true ∧
      objFiveTwo.optimizeUnderConstraintsChecked decisionGraph.root = some (some [-1]) ∧
      (objFiveTwo.optimizeUnderConstraintChecked decisionGraph).isSome = true := by
  refine ⟨by decide, by decide, ?_⟩
  obtain ⟨_, r, _, _, _, h, _⟩ := LinObjFunc.optimizeUnderConstraint_safe objFiveTwo
    decisionGraph (fun _ => false) (by decide)
    (by simp [decisionGraph, Graph.make, Node.LitsInRange, Node.LitsInRangeAll,
      Node.litInRange, LinObjFunc.nbVars, objFiveTwo])
  rw [h]
  rfl

/-! ## C35, C36: the root `conditionTo` builds, and `validModel` on it -/

theorem applyUnitLits_of_free : ∀ (lits : List Int) (p : Model),
    (∀ l ∈ lits, p.bindingFor (varOf l) = Binding.Free) → (lits.map varOf).Nodup →
    ∃ mOut, applyUnitLits lits p = some mOut
  | [], p, _, _ => ⟨p, rfl⟩
  | l :: ls, p, hf, hn => by
    have hl := hf l (List.mem_cons_self _ _)
    rw [List.map_cons, List.nodup_cons] at hn
    rw [applyUnitLits]
    rw [if_neg]
    · apply applyUnitLits_of_free ls _ _ hn.2
      intro l' hl'
      rw [Model.bindingFor_setBindingFor, if_neg]
      · exact hf l' (List.mem_cons_of_mem _ hl')
      · rintro ⟨e, -, -⟩
        apply hn.1
        rw [e]
        exact List.mem_map_of_mem _ hl'
    · rw [hl]
      rintro (h | h)
      · cases h
      · exact ofBool_ne_free _ h.symm

theorem Model.ext_bindingFor {m1 m2 : Model} (hlen : m1.content.length = m2.content.length)
    (h : ∀ v : Int, 1 ≤ v → v ≤ (m1.content.length : Int) → m1.bindingFor v = m2.bindingFor v) :
    m1 = m2 := by
  cases m1 with
  | mk c1 =>
    cases m2 with
    | mk c2 =>
      simp only [Model.mk.injEq]
      have hlen' : c1.length = c2.length := hlen
      apply List.ext_get hlen'
      intro k h1 h2
      have := h ((k : Int) + 1) (by omega)
        (by show (k : Int) + 1 ≤ (c1.length : Int); omega)
      rw [Model.bindingFor_succ ⟨c1⟩ k h1, Model.bindingFor_succ ⟨c2⟩ k h2] at this
      exact this

theorem mem_condLitsOf {m : Model} (hu : m.NoUnsat) {v l : Int} (hv : 0 < v)
    (h : l ∈ condLitsOf m v) :
    |l| = v ∧ varOf l = v ∧ m.bindingFor v = Binding.ofBool (decide (l > 0)) := by
  unfold condLitsOf at h
  cases hb : m.bindingFor v with
  | True =>
    rw [hb] at h
    simp only [List.mem_singleton] at h
    subst h
    exact ⟨abs_of_pos hv, by rw [varOf_eq_abs, abs_of_pos hv], by simp [Binding.ofBool, hv]⟩
  | False =>
    rw [hb] at h
    simp only [List.mem_singleton] at h
    subst h
    refine ⟨by rw [abs_neg, abs_of_pos hv], by rw [varOf_eq_abs, abs_neg, abs_of_pos hv], ?_⟩
    have : ¬ (-v > 0) := by omega
    simp [Binding.ofBool, this]
  | Unsat => exact absurd hb (hu v)
  | Free =>
    rw [hb] at h
    cases h

theorem condLits_sublist (m : Model) (hu : m.NoUnsat) : ∀ vars : List Int,
    (∀ v ∈ vars, 0 < v) → ((vars.flatMap (condLitsOf m)).map varOf).Sublist vars
  | [], _ => by simp
  | v :: vs, hp => by
    have hv := hp v (List.mem_cons_self _ _)
    have ih := condLits_sublist m hu vs (fun x hx => hp x (List.mem_cons_of_mem _ hx))
    rw [List.flatMap_cons, List.map_append]
    cases hb : m.bindingFor v with
    | True =>
      simp only [condLitsOf, hb, List.map_cons, List.map_nil, List.singleton_append]
      rw [varOf_eq_abs, abs_of_pos hv]
      exact ih.cons₂ v
    | False =>
      simp only [condLitsOf, hb, List.map_cons, List.map_nil, List.singleton_append]
      rw [varOf_eq_abs, abs_neg, abs_of_pos hv]
      exact ih.cons₂ v
    | Unsat => exact absurd hb (hu v)
    | Free =>
      simp only [condLitsOf, hb, List.map_nil, List.nil_append]
      exact ih.cons v

/-- The unit literals `conditionTo(m)` pushes, applied to the all-`Free` model, give `m`
back when `m` binds no variable to `Unsat`. -/
theorem applyUnitLits_condLits (m : Model) (n : Nat) (hu : m.NoUnsat)
    (hlen : m.content.length = n) :
    applyUnitLits ((varsUpTo n).flatMap (condLitsOf m)) (Model.free n) = some m := by
  have hpos : ∀ v ∈ varsUpTo n, 0 < v := fun v hv => by
    have := (mem_varsUpTo n v).1 hv
    omega
  obtain ⟨mOut, h⟩ := applyUnitLits_of_free ((varsUpTo n).flatMap (condLitsOf m)) (Model.free n)
    (fun l _ => Model.free_bindingFor n _)
    ((condLits_sublist m hu (varsUpTo n) hpos).nodup (varsUpTo_nodup n))
  rw [h]
  congr 1
  have hspec := applyUnitLits_spec _ _ mOut h
  have hext := applyUnitLits_extends _ _ mOut h
  have hl : mOut.content.length = n := by
    rw [hext.1]
    simp [Model.free]
  apply Model.ext_bindingFor (by rw [hl, hlen])
  intro v h1 h2
  rw [hl] at h2
  have hmem : v ∈ varsUpTo n := (mem_varsUpTo n v).2 ⟨h1, h2⟩
  have hfl : (Model.free n).content.length = n := by simp [Model.free]
  cases hb : m.bindingFor v with
  | True =>
    have hin : v ∈ (varsUpTo n).flatMap (condLitsOf m) := by
      rw [List.mem_flatMap]
      exact ⟨v, hmem, by simp [condLitsOf, hb]⟩
    have := hspec.2.2 v hin (by rw [abs_of_pos (by omega)]; exact h1)
      (by rw [abs_of_pos (by omega), hfl]; exact h2)
    rw [abs_of_pos (by omega)] at this
    rw [this]
    have hv : v > 0 := by omega
    simp [Binding.ofBool, hv]
  | False =>
    have hin : -v ∈ (varsUpTo n).flatMap (condLitsOf m) := by
      rw [List.mem_flatMap]
      exact ⟨v, hmem, by simp [condLitsOf, hb]⟩
    have := hspec.2.2 (-v) hin (by rw [abs_neg, abs_of_pos (by omega)]; exact h1)
      (by rw [abs_neg, abs_of_pos (by omega), hfl]; exact h2)
    rw [abs_neg, abs_of_pos (by omega)] at this
    rw [this]
    have hv : ¬ (-v > 0) := by omega
    simp [Binding.ofBool, hv]
  | Unsat => exact absurd hb (hu v)
  | Free =>
    rw [hspec.1 v, Model.free_bindingFor]
    intro hin
    obtain ⟨l, hl1, hl2⟩ := mem_litVars.1 hin
    rw [List.mem_flatMap] at hl1
    obtain ⟨v', hv', hl3⟩ := hl1
    have := mem_condLitsOf hu (hpos v' hv') hl3
    have e : v' = v := by rw [← this.1, hl2]
    rw [e, hb] at this
    exact ofBool_ne_free _ this.2.2.symm

/-- C36: for every graph with root `r` and `2 * nbVars` weights and every partial model `m`
of length `nbVars`, after `conditionTo(m)` the root is a new And node whose only child is
`r`, whose unit literals are, in increasing order of the variables, `v` for a variable
bound to `True`, `-v` for `False` and `v`, `-v` for `Unsat`, and whose `seenVars` are the
variables `m` binds to something else than `Free` and the `seenVars` of `r`. -/
theorem Graph.conditionTo_root (g : Graph) (m : Model) (addr : Nat)
    (hsize : g.weights.vec.length = 2 * g.nbVars) (hlen : m.content.length = g.nbVars) :
    (g.conditionTo m addr).root =
      Node.andNode addr [g.root] ((varsUpTo g.nbVars).flatMap (condLitsOf m))
        ((Finset.Icc (1 : Int) g.nbVars).filter (fun v => m.bindingFor v ≠ Binding.Free) ∪
          g.root.seenVars) ∧
    ∀ v : Int, m.bindingFor v ≠ Binding.Free → v ∈ Finset.Icc (1 : Int) g.nbVars := by
  constructor
  · rw [Graph.conditionTo_eq g m addr hsize, conditionLits_eq]
    simp only [Node.andNode.injEq, true_and]
    congr 1
    ext v
    simp [mem_varsUpTo]
  · intro v hv
    by_contra hr
    exact hv (Model.bindingFor_eq_free_of_out hlen (by simpa [Finset.mem_Icc] using hr))

theorem Graph.conditionTo_root_witness :
    (orAndGraph.conditionTo ⟨[Binding.False, Binding.Free]⟩ 7).root =
      Node.andNode 7 [orAndGraph.root]
        ((varsUpTo orAndGraph.nbVars).flatMap (condLitsOf ⟨[Binding.False, Binding.Free]⟩))
        ((Finset.Icc (1 : Int) orAndGraph.nbVars).filter
            (fun v => Model.bindingFor ⟨[Binding.False, Binding.Free]⟩ v ≠ Binding.Free) ∪
          orAndGraph.root.seenVars) :=
  (Graph.conditionTo_root orAndGraph ⟨[Binding.False, Binding.Free]⟩ 7
    orAndGraph_valid.weightsSize rfl).1

/-- C35: for every graph `g` with `2 * nbVars` weights and every partial model `m` of
length `nbVars` without `Unsat` binding, after `conditionTo(m)` `validModel` of the
all-`Free` model on the conditioned graph returns what `validModel(m)` returns on `g`. -/
theorem Graph.conditionTo_validModel (g : Graph) (m : Model) (addr : Nat) (hu : m.NoUnsat)
    (hsize : g.weights.vec.length = 2 * g.nbVars) (hlen : m.content.length = g.nbVars) :
    (g.conditionTo m addr).validModel (Model.free g.nbVars) = g.validModel m := by
  rw [Graph.conditionTo_eq g m addr hsize, conditionLits_eq]
  unfold Graph.validModel
  simp only
  rw [Node.validModel_and, applyUnitLits_condLits m g.nbVars hu hlen, Option.some_bind,
    Node.validModelChildren_cons]
  cases g.root.validModel m <;> rfl

theorem Graph.conditionTo_validModel_witness :
    (orAndGraph.conditionTo ⟨[Binding.False, Binding.Free]⟩ 7).validModel
        (Model.free orAndGraph.nbVars) =
      orAndGraph.validModel ⟨[Binding.False, Binding.Free]⟩ :=
  Graph.conditionTo_validModel orAndGraph ⟨[Binding.False, Binding.Free]⟩ 7
    ((Model.noUnsat_iff_not_mem _).mpr (by decide)) orAndGraph_valid.weightsSize rfl

/-! ## C37: the `seenVars` the parser computes -/

theorem Node.seenVarsAll_append : ∀ (cs ds : List Node),
    Node.seenVarsAll (cs ++ ds) = Node.seenVarsAll cs ∪ Node.seenVarsAll ds
  | [], ds => by simp [Node.seenVarsAll]
  | c :: cs, ds => by
    show c.seenVars ∪ Node.seenVarsAll (cs ++ ds) = _
    rw [Node.seenVarsAll_append cs ds]
    simp only [Node.seenVarsAll, Finset.union_assoc]

theorem Node.seenOkAll_iff : ∀ cs : List Node, Node.SeenOkAll cs ↔ ∀ c ∈ cs, c.SeenOk
  | [] => by simp [Node.SeenOkAll]
  | c :: cs => by simp [Node.SeenOkAll, Node.seenOkAll_iff cs]

theorem Node.noOrUnitsAll_iff : ∀ cs : List Node, Node.NoOrUnitsAll cs ↔ ∀ c ∈ cs, c.NoOrUnits
  | [] => by simp [Node.NoOrUnitsAll]
  | c :: cs => by simp [Node.NoOrUnitsAll, Node.noOrUnitsAll_iff cs]

theorem Node.noLitChildAll_iff : ∀ cs : List Node,
    Node.NoLitChildAll cs ↔ ∀ c ∈ cs, c.NoLitChild
  | [] => by simp [Node.NoLitChildAll]
  | c :: cs => by simp [Node.NoLitChildAll, Node.noLitChildAll_iff cs]

theorem Node.parsed_andNode {a : Nat} {cs : List Node} {u : List Int} {s : Finset Int}
    (hs : s = litVars u ∪ Node.seenVarsAll cs) (hc : ∀ c ∈ cs, c.Parsed ∧ c.isLitNode = false) :
    (Node.andNode a cs u s).Parsed := by
  refine ⟨?_, ?_, ?_⟩
  · simp only [Node.SeenOk]
    exact ⟨hs, (Node.seenOkAll_iff cs).2 (fun c h => (hc c h).1.1)⟩
  · simp only [Node.NoOrUnits]
    exact (Node.noOrUnitsAll_iff cs).2 (fun c h => (hc c h).1.2.1)
  · simp only [Node.NoLitChild]
    exact ⟨fun c h => (hc c h).2, (Node.noLitChildAll_iff cs).2 (fun c h => (hc c h).1.2.2)⟩

/-- The loop of `parseAnd` keeps `seen` equal to the variables of the unit literals and
the `seenVars` of the children, and no Lit node becomes a child. -/
theorem parseAndLoop_spec (allNodes : List Node) (hall : ∀ x ∈ allNodes, x.Parsed) :
    ∀ (fields : List Int) (children : List Node) (unitLits : List Int) (seen : Finset Int)
      (r : List Node × List Int × Finset Int),
      parseAndLoop allNodes fields children unitLits seen = some r →
      seen = litVars unitLits ∪ Node.seenVarsAll children →
      (∀ c ∈ children, c.Parsed ∧ c.isLitNode = false) →
      r.2.2 = litVars r.2.1 ∪ Node.seenVarsAll r.1 ∧
        ∀ c ∈ r.1, c.Parsed ∧ c.isLitNode = false
  | [], children, unitLits, seen, r, h, hs, hc => by
    simp only [parseAndLoop, Option.some.injEq] at h
    rw [← h]
    exact ⟨hs, hc⟩
  | idx :: rest, children, unitLits, seen, r, h, hs, hc => by
    rw [parseAndLoop] at h
    split_ifs at h
    cases hg : allNodes[idx.toNat]? with
    | none => rw [hg] at h; simp at h
    | some child =>
      rw [hg] at h
      have hmem : child ∈ allNodes := by
        obtain ⟨hlt, e⟩ := List.getElem?_eq_some_iff.mp hg
        rw [← e]
        exact List.getElem_mem hlt
      cases child with
      | litNode a lit =>
        simp only at h
        refine parseAndLoop_spec allNodes hall rest _ _ _ r h ?_ hc
        have e1 : litVars [lit] = {|lit|} := by simp [litVars]
        rw [hs, litVars_append, e1]
        ext v
        simp only [Finset.mem_insert, Finset.mem_union, Finset.mem_singleton]
        tauto
      | falseNode a =>
        simp only at h
        refine parseAndLoop_spec allNodes hall rest _ _ _ r h ?_ ?_
        · rw [hs, Node.seenVarsAll_append]
          simp [Node.seenVarsAll, Finset.union_assoc]
        · intro c hcm
          rcases List.mem_append.mp hcm with hcm | hcm
          · exact hc c hcm
          · simp only [List.mem_singleton] at hcm
            rw [hcm]
            exact ⟨hall _ hmem, rfl⟩
      | trueNode a =>
        simp only at h
        refine parseAndLoop_spec allNodes hall rest _ _ _ r h ?_ ?_
        · rw [hs, Node.seenVarsAll_append]
          simp [Node.seenVarsAll, Finset.union_assoc]
        · intro c hcm
          rcases List.mem_append.mp hcm with hcm | hcm
          · exact hc c hcm
          · simp only [List.mem_singleton] at hcm
            rw [hcm]
            exact ⟨hall _ hmem, rfl⟩
      | orNode a v u0 c0 u1 c1 s =>
        simp only at h
        refine parseAndLoop_spec allNodes hall rest _ _ _ r h ?_ ?_
        · rw [hs, Node.seenVarsAll_append]
          simp [Node.seenVarsAll, Finset.union_assoc]
        · intro c hcm
          rcases List.mem_append.mp hcm with hcm | hcm
          · exact hc c hcm
          · simp only [List.mem_singleton] at hcm
            rw [hcm]
            exact ⟨hall _ hmem, rfl⟩
      | andNode a cs u s =>
        simp only at h
        refine parseAndLoop_spec allNodes hall rest _ _ _ r h ?_ ?_
        · rw [hs, Node.seenVarsAll_append]
          simp [Node.seenVarsAll, Finset.union_assoc]
        · intro c hcm
          rcases List.mem_append.mp hcm with hcm | hcm
          · exact hc c hcm
          · simp only [List.mem_singleton] at hcm
            rw [hcm]
            exact ⟨hall _ hmem, rfl⟩

theorem parseLine_parsed {allNodes : List Node} {next : Nat} {line : NNFLine}
    {res : List Node × Nat} (h : parseLine allNodes next line = some res)
    (hall : ∀ x ∈ allNodes, x.Parsed) : ∀ x ∈ res.1, x.Parsed := by
  have hadd : ∀ y : Node, y.Parsed → ∀ x ∈ allNodes ++ [y], x.Parsed := by
    intro y hy x hx
    rcases List.mem_append.mp hx with hx | hx
    · exact hall x hx
    · rw [List.mem_singleton.mp hx]
      exact hy
  have hconst : falseNode.Parsed ∧ trueNode.Parsed := by
    simp [Node.Parsed, falseNode, trueNode, Node.SeenOk, Node.NoOrUnits, Node.NoLitChild]
  unfold parseLine at h
  split_ifs at h
  · split at h
    · simp at h
    · split_ifs at h
      · simp only [Option.some.injEq] at h
        rw [← h]
        exact hadd _ hconst.2
      · split at h
        · simp at h
        · rename_i children unitLits seen hp
          simp only [Option.some.injEq] at h
          rw [← h]
          have := parseAndLoop_spec allNodes hall _ [] [] ∅ _ hp
            (by simp [litVars, Node.seenVarsAll]) (fun c hc => absurd hc (List.not_mem_nil c))
          exact hadd _ (Node.parsed_andNode this.1 this.2)
  · split at h
    · simp at h
    · split_ifs at h
      · simp only [Option.some.injEq] at h
        rw [← h]
        exact hadd _ hconst.1
      · split at h
        · split_ifs at h
          split at h
          · rename_i child0 child1 h0 h1
            simp only [Option.some.injEq] at h
            rw [← h]
            have m0 : child0 ∈ allNodes := by
              obtain ⟨hlt, e⟩ := List.getElem?_eq_some_iff.mp h0
              rw [← e]
              exact List.getElem_mem hlt
            have m1 : child1 ∈ allNodes := by
              obtain ⟨hlt, e⟩ := List.getElem?_eq_some_iff.mp h1
              rw [← e]
              exact List.getElem_mem hlt
            apply hadd
            have p0 := hall _ m0
            have p1 := hall _ m1
            refine ⟨?_, ?_, ?_⟩
            · simp only [Node.SeenOk, true_and]
              exact ⟨p0.1, p1.1⟩
            · simp only [Node.NoOrUnits, true_and]
              exact ⟨p0.2.1, p1.2.1⟩
            · simp only [Node.NoLitChild]
              exact ⟨p0.2.2, p1.2.2⟩
          · simp at h
        · simp at h
  · split at h
    · simp at h
    · simp only [Option.some.injEq] at h
      rw [← h]
      apply hadd
      simp [Node.Parsed, Node.SeenOk, Node.NoOrUnits, Node.NoLitChild]

theorem parseLines_parsed : ∀ (lines : List NNFLine) (allNodes : List Node) (next : Nat)
    (res : List Node), parseLines lines allNodes next = some res →
    (∀ x ∈ allNodes, x.Parsed) → ∀ x ∈ res, x.Parsed
  | [], allNodes, next, res, h, hall => by
    simp only [parseLines, Option.some.injEq] at h
    rw [← h]
    exact hall
  | line :: rest, allNodes, next, res, h, hall => by
    simp only [parseLines] at h
    cases hl : parseLine allNodes next line with
    | none => rw [hl] at h; simp at h
    | some r =>
      rw [hl] at h
      exact parseLines_parsed rest r.1 r.2 res h (parseLine_parsed hl hall)

mutual
theorem Node.parsed_of_mem_subnodes : ∀ (x y : Node), x.Parsed → y ∈ x.subnodes → y.Parsed
  | .falseNode _, y, h, hy => by
    simp only [Node.subnodes, List.mem_singleton] at hy; rw [hy]; exact h
  | .trueNode _, y, h, hy => by
    simp only [Node.subnodes, List.mem_singleton] at hy; rw [hy]; exact h
  | .litNode _ _, y, h, hy => by
    simp only [Node.subnodes, List.mem_singleton] at hy; rw [hy]; exact h
  | .orNode a v u0 c0 u1 c1 s, y, h, hy => by
    simp only [Node.subnodes, List.mem_cons, List.mem_append] at hy
    have h' := h
    simp only [Node.Parsed, Node.SeenOk, Node.NoOrUnits, Node.NoLitChild] at h'
    rcases hy with hy | hy | hy
    · rw [hy]; exact h
    · exact Node.parsed_of_mem_subnodes c0 y ⟨h'.1.2.1, h'.2.1.2.2.1, h'.2.2.1⟩ hy
    · exact Node.parsed_of_mem_subnodes c1 y ⟨h'.1.2.2, h'.2.1.2.2.2, h'.2.2.2⟩ hy
  | .andNode a cs u s, y, h, hy => by
    simp only [Node.subnodes, List.mem_cons] at hy
    have h' := h
    simp only [Node.Parsed, Node.SeenOk, Node.NoOrUnits, Node.NoLitChild] at h'
    rcases hy with hy | hy
    · rw [hy]; exact h
    · exact Node.parsed_of_mem_subnodesAll cs y h'.1.2 h'.2.1 h'.2.2.2 hy
theorem Node.parsed_of_mem_subnodesAll : ∀ (xs : List Node) (y : Node),
    Node.SeenOkAll xs → Node.NoOrUnitsAll xs → Node.NoLitChildAll xs →
    y ∈ Node.subnodesAll xs → y.Parsed
  | [], y, _, _, _, hy => by simp [Node.subnodesAll] at hy
  | x :: xs, y, h1, h2, h3, hy => by
    simp only [Node.subnodesAll, List.mem_append] at hy
    simp only [Node.SeenOkAll] at h1
    simp only [Node.NoOrUnitsAll] at h2
    simp only [Node.NoLitChildAll] at h3
    rcases hy with hy | hy
    · exact Node.parsed_of_mem_subnodes x y ⟨h1.1, h2.1, h3.1⟩ hy
    · exact Node.parsed_of_mem_subnodesAll xs y h1.2 h2.2 h3.2 hy
end

theorem Node.seenVars_subset_seenVarsAll : ∀ (cs : List Node) (c : Node), c ∈ cs →
    c.seenVars ⊆ Node.seenVarsAll cs
  | [], c, h => absurd h (List.not_mem_nil c)
  | d :: ds, c, h => by
    simp only [Node.seenVarsAll]
    rcases List.mem_cons.mp h with e | h
    · rw [e]; exact Finset.subset_union_left
    · exact (Node.seenVars_subset_seenVarsAll ds c h).trans Finset.subset_union_right

theorem Node.child_seenVars_subset {x c : Node} (hx : x.SeenOk) (hc : c ∈ x.childNodes) :
    c.seenVars ⊆ x.seenVars := by
  cases x with
  | falseNode a => simp [Node.childNodes] at hc
  | trueNode a => simp [Node.childNodes] at hc
  | litNode a l => simp [Node.childNodes] at hc
  | orNode a v u0 c0 u1 c1 s =>
    simp only [Node.SeenOk] at hx
    simp only [Node.childNodes, List.mem_cons, List.mem_singleton, List.not_mem_nil,
      or_false] at hc
    simp only [Node.seenVars]
    rw [hx.1]
    rcases hc with rfl | rfl
    · exact Finset.subset_union_left
    · exact Finset.subset_union_right
  | andNode a cs u s =>
    simp only [Node.SeenOk] at hx
    simp only [Node.childNodes] at hc
    simp only [Node.seenVars]
    rw [hx.1]
    exact (Node.seenVars_subset_seenVarsAll cs c hc).trans Finset.subset_union_right

/-- C37: in the graph the parser builds from a text it accepts, every node carries the
`seenVars` of `parseAnd` and `parseOr` (for an And node the variables of its unit literals
and the `seenVars` of its children, none of which is a Lit node; for an Or node the
`seenVars` of the children of its two branches), the `seenVars` of every node are the
variables its subgraph mentions, and the `seenVars` of a child are among those of its
parent. -/
theorem parseNNF_seenVars (text : NNFText) (next : Nat) (g : Graph)
    (h : parseNNF text next = some g) :
    g.root.SeenOk ∧ g.root.NoLitChild ∧
      ∀ x ∈ g.root.subnodes, x.seenVars = x.vars ∧
        ∀ c ∈ x.childNodes, c.seenVars ⊆ x.seenVars := by
  unfold parseNNF at h
  cases hp : parseLines text.lines [] next with
  | none => rw [hp] at h; simp at h
  | some allNodes =>
    rw [hp] at h
    simp only at h
    cases hl : allNodes.getLast? with
    | none => rw [hl] at h; simp at h
    | some root =>
      rw [hl] at h
      simp only [Option.some.injEq] at h
      have hroot : g.root = root := by rw [← h]; rfl
      have hpr : root.Parsed :=
        parseLines_parsed text.lines [] next allNodes hp
          (fun x hx => absurd hx (List.not_mem_nil x)) root (List.mem_of_mem_getLast? hl)
      rw [hroot]
      refine ⟨hpr.1, hpr.2.2, fun x hx => ?_⟩
      have hxp := Node.parsed_of_mem_subnodes root x hpr hx
      exact ⟨Node.seenVars_eq_vars x hxp.1 hxp.2.1,
        fun c hc => Node.child_seenVars_subset hxp.1 hc⟩

/-- The parser accepts the text of `Or(1, And([1]), And([-1]))`, and the root of the graph
it builds carries the `seenVars` of `parseOr`. -/
theorem parseNNF_seenVars_witness :
    (parseNNF ⟨7, 4, 1, [⟨'O', [0, 0]⟩, ⟨'A', [0]⟩, ⟨'L', [-1]⟩, ⟨'A', [1, 2]⟩, ⟨'L', [1]⟩,
        ⟨'A', [1, 4]⟩, ⟨'O', [1, 2, 5, 3]⟩]⟩ 10).isSome = true ∧
      (parseNNF ⟨7, 4, 1, [⟨'O', [0, 0]⟩, ⟨'A', [0]⟩, ⟨'L', [-1]⟩, ⟨'A', [1, 2]⟩, ⟨'L', [1]⟩,
        ⟨'A', [1, 4]⟩, ⟨'O', [1, 2, 5, 3]⟩]⟩ 10).elim True (fun g => g.root.SeenOk) := by
  refine ⟨rfl, ?_⟩
  cases h : parseNNF ⟨7, 4, 1, [⟨'O', [0, 0]⟩, ⟨'A', [0]⟩, ⟨'L', [-1]⟩, ⟨'A', [1, 2]⟩,
      ⟨'L', [1]⟩, ⟨'A', [1, 4]⟩, ⟨'O', [1, 2, 5, 3]⟩]⟩ 10 with
  | none => trivial
  | some g => exact (parseNNF_seenVars _ 10 g h).1

/-! ## C38: the cache of `modelCount`; C40: the loop of `Model::expanded` ends -/

mutual
theorem Node.modelCountNoCache_eq_count (w : WeightVector) :
    ∀ n : Node, n.modelCountNoCache w = n.count w
  | .falseNode _ => rfl
  | .trueNode _ => rfl
  | .litNode _ _ => rfl
  | .orNode _ _ _ c0 _ c1 s => by
    simp only [Node.modelCountNoCache, Node.count, Node.modelCountNoCache_eq_count w c0,
      Node.modelCountNoCache_eq_count w c1, zero_add]
  | .andNode _ cs u _ => by
    simp only [Node.modelCountNoCache, Node.count, foldl_mul_weightFor, one_mul]
    by_cases hz : (u.map w.weightFor).prod = 0
    · simp [hz]
    · rw [if_neg hz, Node.modelCountChildrenNoCache_eq w cs]
theorem Node.modelCountChildrenNoCache_eq (w : WeightVector) :
    ∀ (cs : List Node) (nb : ℚ),
      Node.modelCountChildrenNoCache w cs nb = nb * Node.countAll w cs
  | [], nb => by simp [Node.modelCountChildrenNoCache, Node.countAll]
  | c :: cs, nb => by
    simp only [Node.modelCountChildrenNoCache, Node.countAll,
      Node.modelCountNoCache_eq_count w c]
    by_cases hz : nb * c.count w = 0
    · rw [if_pos hz, ← mul_assoc, hz, zero_mul]
    · rw [if_neg hz, Node.modelCountChildrenNoCache_eq w cs, mul_assoc]
end

/-- C38: memoization is safe.  In a graph whose addresses identify its nodes, for every
weight vector, `modelCount` run on the root with an empty cache returns what the same
recursion returns without a cache, and every value the cache holds at the end for the
address of a node is what the recursion without a cache returns for that node. -/
theorem Node.modelCount_memo_safe (w : WeightVector) (root : Node) (hroot : root.AddrOk) :
    (root.modelCount w []).1 = root.modelCountNoCache w ∧
      ∀ n ∈ root.subnodes, ∀ q : ℚ, (root.modelCount w []).2.lookup n.addr = some q →
        q = n.modelCountNoCache w := by
  obtain ⟨h1, h2⟩ := Node.modelCount_fst_eq_count w root hroot root []
    root.self_mem_subnodes (CacheOk.nil w root)
  refine ⟨by rw [h1, Node.modelCountNoCache_eq_count], fun n hn q hq => ?_⟩
  rw [Node.modelCountNoCache_eq_count]
  exact h2 n hn q hq

/-- On the And node whose two children are the same node, the second child is read from the
cache and the count is the count without a cache. -/
theorem Node.modelCount_memo_safe_witness :
    (sharedChildNode.modelCount (WeightVector.uniform 1) []).1 =
      sharedChildNode.modelCountNoCache (WeightVector.uniform 1) :=
  (Node.modelCount_memo_safe (WeightVector.uniform 1) sharedChildNode (by
    intro a ha b hb
    simp only [sharedChildNode, Node.subnodes, Node.subnodesAll, List.mem_cons,
      List.mem_append, List.mem_singleton, List.not_mem_nil, or_false, List.append_nil] at ha hb
    rcases ha with rfl | rfl | rfl <;> rcases hb with rfl | rfl | rfl <;>
      simp [Node.addr])).1

theorem Model.expandedLoop_terminates : ∀ (fuel : Nat) (pre pending : List Model)
    (res : List CompactModel),
    (pending.map (fun m => 2 ^ (m.nbFree + 1))).sum ≤ fuel + pending.length →
    ∃ l, Model.expandedLoop fuel (pre ++ pending) pre.length res = some (res ++ l) ∧
      l.length = (pending.map (fun m => 2 ^ m.nbFree)).sum := by
  intro fuel
  induction fuel with
  | zero =>
    intro pre pending res hfuel
    have h2 := Model.sum_pow_ge pending
    have h0 : pending.length = 0 := by omega
    have hp : pending = [] := List.length_eq_zero.mp h0
    subst hp
    exact ⟨[], by simp [Model.expandedLoop], by simp⟩
  | succ fuel IH =>
    intro pre pending res hfuel
    cases pending with
    | nil => exact ⟨[], by simp [Model.expandedLoop], by simp⟩
    | cons m rest =>
      have hlt : pre.length < (pre ++ m :: rest).length := by simp
      have hget : (pre ++ m :: rest).getD pre.length ⟨[]⟩ = m :=
        getD_append_length _ _ _ _
      simp only [List.map_cons, List.sum_cons, List.length_cons] at hfuel
      unfold Model.expandedLoop
      simp only [hlt, if_true, hget]
      rcases Model.firstFreeVarFrom_spec m.content 0 with ⟨hfree, hv⟩ | ⟨cpre, cpost, hc, _, hv⟩
      · have hv' : m.firstFreeVar = -1 := hv
        have hn : m.nbFree = 0 := List.count_eq_zero.mpr hfree
        simp only [hv', if_true]
        rw [hn] at hfuel
        obtain ⟨l, hl1, hl2⟩ := IH (pre ++ [m]) rest (res ++ [CompactModel.ofModel m])
          (by simp at hfuel ⊢; omega)
        refine ⟨CompactModel.ofModel m :: l, ?_, ?_⟩
        · simp only [List.append_assoc, List.singleton_append, List.length_append,
            List.length_singleton] at hl1
          rw [hl1]
        · simp [hl2, hn, Nat.add_comm]
      · have hv' : m.firstFreeVar = (cpre.length : Int) + 1 := by
          show Model.firstFreeVarFrom m.content 0 = _
          rw [hv]
          simp
        have hne : ¬ ((cpre.length : Int) + 1 = -1) := by omega
        have hm : m = ⟨cpre ++ Binding.Free :: cpost⟩ := by
          cases m
          simp only [Model.mk.injEq]
          exact hc
        simp only [hv', hne, if_false]
        rw [hm, Model.setBindingFor_free_at, Model.setBindingFor_free_at]
        have hset : (pre ++ (Model.mk (cpre ++ Binding.Free :: cpost)) :: rest).set pre.length
            ⟨cpre ++ Binding.True :: cpost⟩ ++ [⟨cpre ++ Binding.False :: cpost⟩]
            = pre ++ ((Model.mk (cpre ++ Binding.True :: cpost)) ::
                (rest ++ [⟨cpre ++ Binding.False :: cpost⟩])) := by
          simp
        rw [hset]
        have hcT : (Model.mk (cpre ++ Binding.True :: cpost)).nbFree + 1 = m.nbFree := by
          rw [hm]
          simp [Model.nbFree, List.count_cons]
          omega
        have hcF : (Model.mk (cpre ++ Binding.False :: cpost)).nbFree + 1 = m.nbFree := by
          rw [hm]
          simp [Model.nbFree, List.count_cons]
          omega
        obtain ⟨l, hl1, hl2⟩ := IH pre
          ((Model.mk (cpre ++ Binding.True :: cpost)) ::
            (rest ++ [⟨cpre ++ Binding.False :: cpost⟩])) res
          (by
            simp only [List.map_cons, List.sum_cons, List.length_cons, List.map_append,
              List.sum_append, List.length_append, List.length_singleton, List.sum_nil,
              List.map_nil, hcT, hcF]
            have : 2 ^ (m.nbFree + 1) = 2 ^ m.nbFree + 2 ^ m.nbFree := by
              rw [pow_succ]; ring
            omega)
        refine ⟨l, hl1, ?_⟩
        rw [hl2]
        simp only [List.map_cons, List.sum_cons, List.map_append, List.sum_append,
          List.map_nil, List.sum_nil]
        have e1 : 2 ^ m.nbFree = 2 ^ (Model.mk (cpre ++ Binding.True :: cpost)).nbFree +
            2 ^ (Model.mk (cpre ++ Binding.False :: cpost)).nbFree := by
          rw [← hcT]
          have : (Model.mk (cpre ++ Binding.False :: cpost)).nbFree
              = (Model.mk (cpre ++ Binding.True :: cpost)).nbFree := by omega
          rw [this, pow_succ]
          ring
        rw [← hm]
        omega

/-- What an iteration of the loop of `Model::expanded` does with the model at the current
index: it has no `Free` variable, or the two models that replace it have one `Free`
variable less. -/
theorem Model.expanded_step (m : Model) :
    (m.firstFreeVar = -1 ∧ m.nbFree = 0) ∨
      (m.firstFreeVar ≠ -1 ∧
        (m.setBindingFor m.firstFreeVar Binding.True).nbFree + 1 = m.nbFree ∧
        (m.setBindingFor m.firstFreeVar Binding.False).nbFree + 1 = m.nbFree) := by
  rcases Model.firstFreeVarFrom_spec m.content 0 with ⟨hfree, hv⟩ | ⟨cpre, cpost, hc, _, hv⟩
  · exact Or.inl ⟨hv, List.count_eq_zero.mpr hfree⟩
  · right
    have hv' : m.firstFreeVar = (cpre.length : Int) + 1 := by
      show Model.firstFreeVarFrom m.content 0 = _
      rw [hv]
      simp
    have hm : m = ⟨cpre ++ Binding.Free :: cpost⟩ := by
      cases m
      simp only [Model.mk.injEq]
      exact hc
    rw [hv']
    refine ⟨by omega, ?_, ?_⟩
    · rw [hm, Model.setBindingFor_free_at]
      simp [Model.nbFree, List.count_cons]
      omega
    · rw [hm, Model.setBindingFor_free_at]
      simp [Model.nbFree, List.count_cons]
      omega

/-- C40: for every model the loop of `Model::expanded` ends: with `n` the number of `Free`
variables of the model, `2 ^ (n + 1)` iterations or more are enough for the loop to leave
with a result, of `2 ^ n` entries; and an iteration either finds the model at the current
index without `Free` variable, stores it and moves on, or replaces it by two models that
have one `Free` variable less. -/
theorem Model.expanded_terminates (m : Model) :
    (∀ k : Nat, ∃ l, Model.expandedLoop (2 ^ (m.nbFree + 1) + k) [m] 0 [] = some l ∧
      l.length = 2 ^ m.nbFree) ∧
    (∃ l, m.expanded = some l) ∧
    ∀ mi : Model, (mi.firstFreeVar = -1 ∧ mi.nbFree = 0) ∨
      (mi.firstFreeVar ≠ -1 ∧
        (mi.setBindingFor mi.firstFreeVar Binding.True).nbFree < mi.nbFree ∧
        (mi.setBindingFor mi.firstFreeVar Binding.False).nbFree < mi.nbFree) := by
  have hk : ∀ k : Nat, ∃ l, Model.expandedLoop (2 ^ (m.nbFree + 1) + k) [m] 0 [] = some l ∧
      l.length = 2 ^ m.nbFree := by
    intro k
    obtain ⟨l, h1, h2⟩ := Model.expandedLoop_terminates (2 ^ (m.nbFree + 1) + k) [] [m] []
      (by
        simp only [List.map_cons, List.map_nil, List.sum_cons, List.sum_nil,
          List.length_cons, List.length_nil]
        omega)
    exact ⟨l, by simpa using h1, by simpa using h2⟩
  refine ⟨hk, ?_, fun mi => ?_⟩
  · obtain ⟨l, h, _⟩ := hk 0
    exact ⟨l, h⟩
  · rcases Model.expanded_step mi with h | ⟨h1, h2, h3⟩
    · exact Or.inl h
    · exact Or.inr ⟨h1, by omega, by omega⟩

/-! ## C39: the line indexes of the text of `Graph::print` -/

theorem getElem?_segment {α : Type} (pre seg post : List α) (j : Nat) (hj : j < seg.length) :
    (pre ++ seg ++ post)[pre.length + j]? = seg[j]? := by
  rw [List.append_assoc, List.getElem?_append_right (by omega), Nat.add_sub_cancel_left,
    List.getElem?_append_left hj]

theorem refsBelowFrom_append {o : Nat} {a b : List NNFLine} (ha : RefsBelowFrom o a)
    (hb : RefsBelowFrom (o + a.length) b) : RefsBelowFrom o (a ++ b) := by
  intro i line hi r hr
  by_cases hlt : i < a.length
  · rw [List.getElem?_append_left hlt] at hi
    exact ha i line hi r hr
  · rw [List.getElem?_append_right (by omega)] at hi
    have h := hb (i - a.length) line hi r hr
    have e : o + a.length + (i - a.length) = o + i := by omega
    rw [e] at h
    exact h

theorem refsBelowFrom_cons {o : Nat} {l : NNFLine} {ls : List NNFLine}
    (h : RefsBelowFrom o (l :: ls)) :
    (∀ r ∈ l.refs, 0 ≤ r ∧ r < (o : Int)) ∧ RefsBelowFrom (o + 1) ls := by
  refine ⟨fun r hr => ?_, fun i line hi r hr => ?_⟩
  · simpa using h 0 l (by simp) r hr
  · have := h (i + 1) line (by simpa using hi) r hr
    rw [show o + 1 + i = o + (i + 1) by omega]
    exact this

theorem refsBelowFrom_singleton {o : Nat} {l : NNFLine}
    (h : ∀ r ∈ l.refs, 0 ≤ r ∧ r < (o : Int)) : RefsBelowFrom o [l] := by
  intro i line hi r hr
  cases i with
  | zero =>
    simp only [List.getElem?_cons_zero, Option.some.injEq] at hi
    subst hi
    simpa using h r hr
  | succ i => simp at hi

theorem refsBelowFrom_litLines (o : Nat) (u : List Int) : RefsBelowFrom o (Node.litLines u) := by
  intro i line hi r hr
  obtain ⟨hlt, e⟩ := List.getElem?_eq_some_iff.mp hi
  simp only [Node.litLines, List.getElem_map] at e
  rw [← e] at hr
  simp [NNFLine.refs] at hr

theorem mem_litLineIndexes {u : List Int} {b r : Int} (h : r ∈ Node.litLineIndexes u b) :
    b - (u.length : Int) ≤ r ∧ r < b := by
  simp only [Node.litLineIndexes, List.mem_map, List.mem_range] at h
  obtain ⟨j, hj, rfl⟩ := h
  omega

theorem Node.childLineIndexes_refs (ntl : List (Nat × Int)) (P : Int → Prop) :
    ∀ (cs : List Node) (ks : List Int), Node.childLineIndexes ntl cs = some ks →
      (∀ c ∈ cs, ∀ r, Node.lineIndexFor ntl c = some r → P r) →
      List.Forall₂ (fun c r => Node.lineIndexFor ntl c = some r ∧ P r) cs ks ∧ ∀ r ∈ ks, P r
  | [], ks, h, _ => by
    simp only [Node.childLineIndexes, Option.some.injEq] at h
    subst h
    exact ⟨List.Forall₂.nil, fun r hr => absurd hr (List.not_mem_nil r)⟩
  | c :: cs, ks, h, hp => by
    simp only [Node.childLineIndexes] at h
    cases hc : Node.lineIndexFor ntl c with
    | none => rw [hc] at h; simp at h
    | some k =>
      rw [hc] at h
      simp only at h
      cases hr : Node.childLineIndexes ntl cs with
      | none => rw [hr] at h; simp at h
      | some ks' =>
        rw [hr] at h
        simp only [Option.some.injEq] at h
        subst h
        obtain ⟨h1, h2⟩ := Node.childLineIndexes_refs ntl P cs ks' hr
          (fun d hd => hp d (List.mem_cons_of_mem _ hd))
        have hk := hp c (List.mem_cons_self _ _) k hc
        refine ⟨List.Forall₂.cons ⟨hc, hk⟩ h1, fun r hr => ?_⟩
        rcases List.mem_cons.mp hr with rfl | hr
        · exact hk
        · exact h2 r hr

/-- The lines of an And node, or of a branch of an Or node, whose `A` line is line `b`: the
line indexes they hold are below the index of the line that holds them. -/
theorem andBlock_refsBelow (p : Nat) (u : List Int) (n b : Int) (childIdx : List Int)
    (hb : (p : Int) + u.length = b) (hc : ∀ r ∈ childIdx, 0 ≤ r ∧ r < b) :
    RefsBelowFrom p
      (Node.litLines u ++ [⟨'A', n :: (childIdx ++ Node.litLineIndexes u b)⟩]) := by
  refine refsBelowFrom_append (refsBelowFrom_litLines p u) (refsBelowFrom_singleton ?_)
  intro r hr
  simp only [NNFLine.refs, if_true, List.drop_succ_cons, List.drop_zero, List.mem_append] at hr
  simp only [Node.litLines, List.length_map, Nat.cast_add]
  rcases hr with hr | hr
  · have := hc r hr
    omega
  · have := mem_litLineIndexes hr
    omega

theorem andBlock_shape (u : List Int) (n : Int) (rest : List Int) :
    ∀ l ∈ Node.litLines u ++ [(⟨'A', n :: rest⟩ : NNFLine)], l.Shape := by
  intro l hl
  rcases List.mem_append.mp hl with hl | hl
  · simp only [Node.litLines, List.mem_map] at hl
    obtain ⟨lit, _, rfl⟩ := hl
    exact Or.inl ⟨rfl, rfl⟩
  · rw [List.mem_singleton.mp hl]
    exact Or.inr (Or.inl ⟨rfl, by simp⟩)

/-- The lines of an And node, or of a branch of an Or node, that end at line `b` of the
text: line `b` holds the line indexes of the children and of the lines of the unit
literals. -/
theorem andBlock_lineAt (lines pre post : List NNFLine) (ntl : List (Nat × Int))
    (cs : List Node) (u : List Int) (b : Int) (childIdx : List Int)
    (hl : lines = pre ++ (Node.litLines u ++
      [⟨'A', ((u.length : Int) + (cs.length : Int)) ::
        (childIdx ++ Node.litLineIndexes u b)⟩]) ++ post)
    (hb : (pre.length : Int) + u.length = b)
    (hf : ChildRefsAt ntl cs childIdx b) : AndLineAt lines ntl cs u b := by
  refine ⟨childIdx, Node.litLineIndexes u b, by omega, ?_, hf, ?_, ?_⟩
  · have e : b.toNat = pre.length + u.length := by omega
    rw [e, hl, getElem?_segment _ _ _ _ (by simp [Node.litLines])]
    rw [List.getElem?_append_right (by simp [Node.litLines])]
    simp [Node.litLines]
  · simp [Node.litLineIndexes]
  · intro j lit hj
    obtain ⟨hlt, e⟩ := List.getElem?_eq_some_iff.mp hj
    refine ⟨b - (u.length : Int) + (j : Int), ?_, by omega, by omega, ?_⟩
    · simp [Node.litLineIndexes, List.getElem?_map, List.getElem?_range hlt]
    · have e2 : (b - (u.length : Int) + (j : Int)).toNat = pre.length + j := by omega
      rw [e2, hl, getElem?_segment _ _ _ _ (by simp [Node.litLines]; omega)]
      rw [List.getElem?_append_left (by simp [Node.litLines]; exact hlt)]
      simp [Node.litLines, List.getElem?_map, hj]

theorem Node.printBranch_eq {ntl : List (Nat × Int)} {u : List Int} {c : Node} {b : Int}
    {lb : List NNFLine} (h : Node.printBranch ntl u c b = some lb) :
    ∃ childIdx, Node.childLineIndexes ntl c.branchChildren = some childIdx ∧
      lb = Node.litLines u ++
        [⟨'A', ((u.length : Int) + (c.branchChildren.length : Int)) ::
          (childIdx ++ Node.litLineIndexes u b)⟩] := by
  unfold Node.printBranch at h
  by_cases ht : c.isTrueNode = true
  · rw [if_pos ht] at h
    simp only [Option.some.injEq] at h
    refine ⟨[], by simp [Node.branchChildren, ht, Node.childLineIndexes], ?_⟩
    rw [← h]
    simp [Node.branchChildren, ht]
  · rw [if_neg ht] at h
    cases hc : Node.lineIndexFor ntl c with
    | none => rw [hc] at h; simp at h
    | some k =>
      rw [hc] at h
      simp only [Option.some.injEq] at h
      refine ⟨[k], by simp [Node.branchChildren, ht, Node.childLineIndexes, hc], ?_⟩
      rw [← h]
      simp [Node.branchChildren, ht]

theorem Node.mem_branchChildren {c d : Node} (h : d ∈ c.branchChildren) : d = c := by
  unfold Node.branchChildren at h
  split at h
  · simp at h
  · simpa using h

/-- The lines `printNNF` writes for a node whose line is `k`, when they start at line `p`
and the lines of what the node points to are before them: the line indexes they hold are
below the index of the line that holds them, and the lines have the shapes of the format. -/
theorem Node.printNNF_refsBelow (ntl : List (Nat × Int)) (x : Node) (k : Int) (p : Nat)
    (ls : List NNFLine) (hk : ntl.lookup x.addr = some k) (hls : x.printNNF ntl = some ls)
    (hp : (p : Int) + (x.nbLines : Int) = k + 1)
    (hch : ∀ c ∈ x.childNodes, ∀ r, Node.lineIndexFor ntl c = some r →
      0 ≤ r ∧ r + (x.nbLines : Int) ≤ k) :
    RefsBelowFrom p ls ∧ ∀ l ∈ ls, l.Shape := by
  cases x with
  | falseNode a =>
    simp only [Node.printNNF, Option.some.injEq] at hls
    subst hls
    exact ⟨refsBelowFrom_singleton (by simp [NNFLine.refs]),
      fun l hl => by rw [List.mem_singleton.mp hl]; exact Or.inr (Or.inr ⟨rfl, Or.inl rfl⟩)⟩
  | trueNode a =>
    simp only [Node.printNNF, Option.some.injEq] at hls
    subst hls
    exact ⟨refsBelowFrom_singleton (by simp [NNFLine.refs]),
      fun l hl => by rw [List.mem_singleton.mp hl]; exact Or.inr (Or.inl ⟨rfl, by simp⟩)⟩
  | litNode a lit =>
    simp only [Node.printNNF, Option.some.injEq] at hls
    subst hls
    exact ⟨refsBelowFrom_singleton (by simp [NNFLine.refs]),
      fun l hl => by rw [List.mem_singleton.mp hl]; exact Or.inl ⟨rfl, rfl⟩⟩
  | orNode a v u0 c0 u1 c1 s =>
    simp only [Node.addr] at hk
    simp only [Node.nbLines, Nat.cast_add, Nat.cast_one] at hp hch
    simp only [Node.printNNF, hk, Option.getD_some] at hls
    cases h1 : Node.printBranch ntl u1 c1 (k - ((u0.length : Int) + 1) - 1) with
    | none => rw [h1] at hls; simp at hls
    | some l1 =>
      rw [h1] at hls
      simp only at hls
      cases h0 : Node.printBranch ntl u0 c0 (k - 1) with
      | none => rw [h0] at hls; simp at hls
      | some l0 =>
        rw [h0] at hls
        simp only [Option.some.injEq] at hls
        subst hls
        obtain ⟨i1, hi1, e1⟩ := Node.printBranch_eq h1
        obtain ⟨i0, hi0, e0⟩ := Node.printBranch_eq h0
        have hb1 := (Node.childLineIndexes_refs ntl
          (fun r => 0 ≤ r ∧ r < k - ((u0.length : Int) + 1) - 1) c1.branchChildren i1 hi1
          (fun d hd r hr => by
            rw [Node.mem_branchChildren hd] at hr
            have := hch c1 (by simp [Node.childNodes]) r hr
            omega)).2
        have hb0 := (Node.childLineIndexes_refs ntl
          (fun r => 0 ≤ r ∧ r < k - 1) c0.branchChildren i0 hi0
          (fun d hd r hr => by
            rw [Node.mem_branchChildren hd] at hr
            have := hch c0 (by simp [Node.childNodes]) r hr
            omega)).2
        have hl1 : l1.length = u1.length + 1 := by rw [e1]; simp [Node.litLines]
        have hl0 : l0.length = u0.length + 1 := by rw [e0]; simp [Node.litLines]
        refine ⟨refsBelowFrom_append (refsBelowFrom_append ?_ ?_) (refsBelowFrom_singleton ?_),
          ?_⟩
        · rw [e1]
          exact andBlock_refsBelow p u1 _ _ i1 (by omega) hb1
        · rw [e0]
          exact andBlock_refsBelow (p + l1.length) u0 _ _ i0
            (by rw [hl1]; push_cast; omega) hb0
        · intro r hr
          simp only [NNFLine.refs, List.drop_succ_cons, List.drop_zero, List.mem_cons,
            List.not_mem_nil, or_false] at hr
          simp only [List.length_append, hl1, hl0]
          push_cast
          have hr' : r = k - 1 ∨ r = k - ((u0.length : Int) + 1) - 1 := by
            simpa using hr
          rcases hr' with rfl | rfl <;> omega
        · intro l hl
          simp only [List.mem_append, List.mem_singleton] at hl
          rcases hl with (hl | hl) | hl
          · rw [e1] at hl
            exact andBlock_shape u1 _ _ l hl
          · rw [e0] at hl
            exact andBlock_shape u0 _ _ l hl
          · rw [hl]
            exact Or.inr (Or.inr ⟨rfl, Or.inr rfl⟩)
  | andNode a cs u s =>
    simp only [Node.addr] at hk
    simp only [Node.nbLines, Nat.cast_add, Nat.cast_one] at hp hch
    simp only [Node.printNNF, hk, Option.getD_some] at hls
    cases hc : Node.childLineIndexes ntl cs with
    | none => rw [hc] at hls; simp at hls
    | some ks =>
      rw [hc] at hls
      simp only [Option.some.injEq] at hls
      subst hls
      have hb := (Node.childLineIndexes_refs ntl (fun r => 0 ≤ r ∧ r < k) cs ks hc
        (fun d hd r hr => by
          have := hch d (by simpa [Node.childNodes] using hd) r hr
          omega)).2
      refine ⟨?_, ?_⟩
      · have := andBlock_refsBelow p u ((u.length : Int) + (cs.length : Int)) k ks
          (by omega) hb
        simpa using this
      · have := andBlock_shape u ((u.length : Int) + (cs.length : Int))
          (ks ++ Node.litLineIndexes u k)
        simpa using this

/-- The loop of `Graph::print`: when the line indexes the lines of each node hold are below
the index of the line that holds them, so are those of the lines of all the nodes. -/
theorem Node.printAll_refsBelow (ntl : List (Nat × Int)) :
    ∀ (xs : List Node) (o : Nat) (lines : List NNFLine), Node.printAll ntl xs = some lines →
      (∀ (i : Nat) (x : Node) (ls : List NNFLine), xs[i]? = some x →
        x.printNNF ntl = some ls →
        RefsBelowFrom (o + ((xs.take i).map Node.nbLines).sum) ls ∧ ∀ l ∈ ls, l.Shape) →
      RefsBelowFrom o lines ∧ ∀ l ∈ lines, l.Shape
  | [], o, lines, h, _ => by
    simp only [Node.printAll, Option.some.injEq] at h
    subst h
    exact ⟨fun i line hi => by simp at hi, fun l hl => absurd hl (List.not_mem_nil l)⟩
  | y :: ys, o, lines, h, hb => by
    simp only [Node.printAll] at h
    cases hy : y.printNNF ntl with
    | none => rw [hy] at h; simp at h
    | some ly =>
      rw [hy] at h
      simp only at h
      cases hr : Node.printAll ntl ys with
      | none => rw [hr] at h; simp at h
      | some more =>
        rw [hr] at h
        simp only [Option.some.injEq] at h
        subst h
        obtain ⟨a1, a2⟩ := hb 0 y ly (by simp) hy
        obtain ⟨b1, b2⟩ := Node.printAll_refsBelow ntl ys (o + ly.length) more hr
          (fun i x ls hi hx => by
            have := hb (i + 1) x ls (by simpa using hi) hx
            simp only [List.take_succ_cons, List.map_cons, List.sum_cons] at this
            rw [Node.printNNF_length hy, Nat.add_assoc]
            exact this)
        refine ⟨refsBelowFrom_append (by simpa using a1) b1, fun l hl => ?_⟩
        rcases List.mem_append.mp hl with hl | hl
        · exact a2 l hl
        · exact b2 l hl

/-- The lines `printNNF` writes for a Lit, an Or or an And node, placed in the text so that
they end at the line `k` of the node: line `k` is the line of the node and the line indexes
written are the indexes of the lines of what the node points to. -/
theorem Node.printNNF_lineAt (ntl : List (Nat × Int)) (lines pre post ls : List NNFLine)
    (x : Node) (k : Int) (hk : ntl.lookup x.addr = some k) (hls : x.printNNF ntl = some ls)
    (hl : lines = pre ++ ls ++ post) (hp : (pre.length : Int) + (x.nbLines : Int) = k + 1)
    (hch : ∀ c ∈ x.childNodes, ∀ r, Node.lineIndexFor ntl c = some r →
      0 ≤ r ∧ r + (x.nbLines : Int) ≤ k)
    (ht : x.isTrueNode = false) (hf : x.isFalseNode = false) : x.LineAt lines ntl k := by
  cases x with
  | falseNode a => simp [Node.isFalseNode] at hf
  | trueNode a => simp [Node.isTrueNode] at ht
  | litNode a lit =>
    simp only [Node.printNNF, Option.some.injEq] at hls
    subst hls
    simp only [Node.nbLines, Nat.cast_one] at hp
    refine ⟨by omega, ?_⟩
    have e : k.toNat = pre.length + 0 := by omega
    rw [e, hl, getElem?_segment _ _ _ _ (by simp)]
    rfl
  | orNode a v u0 c0 u1 c1 s =>
    simp only [Node.addr] at hk
    simp only [Node.nbLines, Nat.cast_add, Nat.cast_one] at hp hch
    simp only [Node.printNNF, hk, Option.getD_some] at hls
    cases h1 : Node.printBranch ntl u1 c1 (k - ((u0.length : Int) + 1) - 1) with
    | none => rw [h1] at hls; simp at hls
    | some l1 =>
      rw [h1] at hls
      simp only at hls
      cases h0 : Node.printBranch ntl u0 c0 (k - 1) with
      | none => rw [h0] at hls; simp at hls
      | some l0 =>
        rw [h0] at hls
        simp only [Option.some.injEq] at hls
        subst hls
        obtain ⟨i1, hi1, e1⟩ := Node.printBranch_eq h1
        obtain ⟨i0, hi0, e0⟩ := Node.printBranch_eq h0
        have hb1 := (Node.childLineIndexes_refs ntl
          (fun r => 0 ≤ r ∧ r < k - ((u0.length : Int) + 1) - 1) c1.branchChildren i1 hi1
          (fun d hd r hr => by
            rw [Node.mem_branchChildren hd] at hr
            have := hch c1 (by simp [Node.childNodes]) r hr
            omega)).1
        have hb0 := (Node.childLineIndexes_refs ntl
          (fun r => 0 ≤ r ∧ r < k - 1) c0.branchChildren i0 hi0
          (fun d hd r hr => by
            rw [Node.mem_branchChildren hd] at hr
            have := hch c0 (by simp [Node.childNodes]) r hr
            omega)).1
        have hl1 : l1.length = u1.length + 1 := by rw [e1]; simp [Node.litLines]
        have hl0 : l0.length = u0.length + 1 := by rw [e0]; simp [Node.litLines]
        refine ⟨k - 1, k - ((u0.length : Int) + 1) - 1, by omega, ?_, by omega, by omega,
          ?_, ?_⟩
        · have e : k.toNat = (pre ++ l1 ++ l0).length + 0 := by
            simp only [List.length_append, hl1, hl0]
            omega
          have hl' : lines = (pre ++ l1 ++ l0) ++
              [⟨'O', [v, 2, k - 1, k - ((u0.length : Int) + 1) - 1]⟩] ++ post := by
            rw [hl]
            simp only [List.append_assoc]
          rw [e, hl', getElem?_segment _ _ _ _ (by simp)]
          rfl
        · refine andBlock_lineAt lines (pre ++ l1) ([⟨'O', [v, 2, k - 1,
            k - ((u0.length : Int) + 1) - 1]⟩] ++ post) ntl c0.branchChildren u0 (k - 1) i0
            ?_ ?_ hb0
          · rw [hl, ← e0]
            simp only [List.append_assoc]
          · simp only [List.length_append, hl1]
            push_cast
            omega
        · refine andBlock_lineAt lines pre (l0 ++ [⟨'O', [v, 2, k - 1,
            k - ((u0.length : Int) + 1) - 1]⟩] ++ post) ntl c1.branchChildren u1
            (k - ((u0.length : Int) + 1) - 1) i1 ?_ ?_ hb1
          · rw [hl, ← e1]
            simp only [List.append_assoc]
          · omega
  | andNode a cs u s =>
    simp only [Node.addr] at hk
    simp only [Node.nbLines, Nat.cast_add, Nat.cast_one] at hp hch
    simp only [Node.printNNF, hk, Option.getD_some] at hls
    cases hc : Node.childLineIndexes ntl cs with
    | none => rw [hc] at hls; simp at hls
    | some ks =>
      rw [hc] at hls
      simp only [Option.some.injEq] at hls
      subst hls
      have hb := (Node.childLineIndexes_refs ntl (fun r => 0 ≤ r ∧ r < k) cs ks hc
        (fun d hd r hr => by
          have := hch d (by simpa [Node.childNodes] using hd) r hr
          omega)).1
      refine andBlock_lineAt lines pre post ntl cs u k ks ?_ (by omega) hb
      rw [hl]
      simp

/-! ### The parser reads a text whose line indexes are below the lines that hold them -/

theorem parseAndLoop_isSome (allNodes : List Node) :
    ∀ (fields : List Int) (children : List Node) (unitLits : List Int) (seen : Finset Int),
      (∀ r ∈ fields, 0 ≤ r ∧ r < (allNodes.length : Int)) →
      (parseAndLoop allNodes fields children unitLits seen).isSome = true
  | [], _, _, _, _ => rfl
  | idx :: rest, children, unitLits, seen, h => by
    obtain ⟨h0, h1⟩ := h idx (List.mem_cons_self _ _)
    have hrest : ∀ r ∈ rest, 0 ≤ r ∧ r < (allNodes.length : Int) :=
      fun r hr => h r (List.mem_cons_of_mem _ hr)
    have hlt : idx.toNat < allNodes.length := by omega
    simp only [parseAndLoop, if_neg (not_lt.mpr h0)]
    split
    · rename_i heq
      rw [List.getElem?_eq_getElem hlt] at heq
      cases heq
    · exact parseAndLoop_isSome allNodes rest _ _ _ hrest
    · exact parseAndLoop_isSome allNodes rest _ _ _ hrest

theorem parseLine_isSome (allNodes : List Node) (next : Nat) (line : NNFLine)
    (hs : line.Shape) (hr : ∀ r ∈ line.refs, 0 ≤ r ∧ r < (allNodes.length : Int)) :
    (parseLine allNodes next line).isSome = true := by
  obtain ⟨kind, args⟩ := line
  rcases hs with ⟨hk, ha⟩ | ⟨hk, ha⟩ | ⟨hk, ha⟩
  · simp only at hk ha
    subst hk
    cases args with
    | nil => simp at ha
    | cons lit rest => simp [parseLine]
  · simp only at hk ha
    subst hk
    cases args with
    | nil => simp at ha
    | cons size fields =>
      simp only [NNFLine.refs, if_true, List.drop_succ_cons, List.drop_zero] at hr
      simp only [parseLine, if_true]
      by_cases hz : size = 0
      · rw [if_pos hz]; rfl
      · rw [if_neg hz]
        have := parseAndLoop_isSome allNodes fields [] [] ∅ hr
        obtain ⟨res, hres⟩ := Option.isSome_iff_exists.mp this
        rw [hres]
        rfl
  · simp only at hk ha
    subst hk
    rcases ha with ha | ha
    · subst ha
      simp [parseLine]
    · match args, ha with
      | [var, sz, l, r], _ =>
        have hrefs : ∀ q ∈ [l, r], 0 ≤ q ∧ q < (allNodes.length : Int) := by
          intro q hq
          exact hr q (by simpa [NNFLine.refs] using hq)
        obtain ⟨l0, l1⟩ := hrefs l (by simp)
        obtain ⟨r0, r1⟩ := hrefs r (by simp)
        have hlt : l.toNat < allNodes.length := by omega
        have hrt : r.toNat < allNodes.length := by omega
        have hA : ¬ ('O' = 'A') := by decide
        simp only [parseLine, if_neg hA, if_true]
        by_cases hz : var = 0
        · rw [if_pos hz]; rfl
        · rw [if_neg hz]
          have hneg : ¬ (l < 0 ∨ r < 0) := by omega
          simp only [if_neg hneg, List.getElem?_eq_getElem hlt, List.getElem?_eq_getElem hrt]
          rfl

theorem parseLines_isSome : ∀ (lines : List NNFLine) (allNodes : List Node) (next : Nat),
    (∀ l ∈ lines, l.Shape) → RefsBelowFrom allNodes.length lines →
    (parseLines lines allNodes next).isSome = true
  | [], _, _, _, _ => rfl
  | line :: rest, allNodes, next, hs, hr => by
    obtain ⟨h1, h2⟩ := refsBelowFrom_cons hr
    have := parseLine_isSome allNodes next line (hs line (List.mem_cons_self _ _)) h1
    obtain ⟨res, hres⟩ := Option.isSome_iff_exists.mp this
    simp only [parseLines, hres]
    have hlen := parseLine_length hres
    exact parseLines_isSome rest res.1 res.2 (fun l hl => hs l (List.mem_cons_of_mem _ hl))
      (by rw [hlen]; exact h2)

/-! ### The lines of the children are before the lines of the node -/

theorem IndexOk.lookup_lt {root : Node} {st : IndexState} (h : IndexOk root st) {a : Nat}
    {v : Int} (hv : st.nodeToLine.lookup a = some v) : 2 ≤ v ∧ v < st.lineIndex := by
  obtain ⟨y, hy, hya⟩ := h.keys a (by rw [hv]; rfl)
  obtain ⟨i, hi, e⟩ := List.getElem_of_mem hy
  have hget : st.allNodes[i]? = some y := by rw [List.getElem?_eq_getElem hi, e]
  have hp := h.pos i y hget
  rw [hya, hv] at hp
  simp only [Option.some.injEq] at hp
  have hline := h.line
  have h1 : st.allNodes.take (i + 1) = st.allNodes.take i ++ [y] := by
    rw [List.take_succ, hget]
    rfl
  have h2 := congrArg (fun l => (l.map Node.nbLines).sum)
    (List.take_append_drop (i + 1) st.allNodes)
  simp only [List.map_append, List.sum_append] at h2
  have h3 : ((st.allNodes.take (i + 1)).map Node.nbLines).sum
      = ((st.allNodes.take i).map Node.nbLines).sum + y.nbLines := by
    rw [h1]
    simp
  have h4 : 1 ≤ y.nbLines := by
    cases y <;> simp [Node.nbLines]
  omega

theorem IndexOk.lineIndexFor_lt {root : Node} {st : IndexState} (h : IndexOk root st)
    {c : Node} {r : Int} (hr : Node.lineIndexFor st.nodeToLine c = some r) :
    0 ≤ r ∧ r < st.lineIndex := by
  have hline := h.line
  unfold Node.lineIndexFor at hr
  split_ifs at hr
  · simp only [Option.some.injEq] at hr
    omega
  · simp only [Option.some.injEq] at hr
    omega
  · have := h.lookup_lt hr
    omega

theorem IndexState.Indexed.lineIndexFor_cons {st : IndexState} {c : Node} (h : st.Indexed c)
    {a : Nat} (ha : st.nodeToLine.lookup a = none) (k : Int) :
    Node.lineIndexFor ((a, k) :: st.nodeToLine) c = Node.lineIndexFor st.nodeToLine c := by
  unfold Node.lineIndexFor
  by_cases hf : c.isFalseNode = true
  · rw [if_pos hf, if_pos hf]
  · rw [if_neg hf, if_neg hf]
    by_cases ht : c.isTrueNode = true
    · rw [if_pos ht, if_pos ht]
    · rw [if_neg ht, if_neg ht]
      rcases h with h | h | h
      · exact absurd h ht
      · exact absurd h hf
      · have hne : ¬ c.addr = a := by
          intro e
          rw [e, ha] at h
          cases h
        have e' : (c.addr == a) = false := by simpa using hne
        rw [List.lookup_cons, e']

/-- The step that ends `indexNodes` for a Lit, an Or or an And node keeps the lines of the
children before the lines of the node. -/
theorem IndexState.Ordered.add_node {root : Node} {st : IndexState} (ho : st.Ordered)
    (h : IndexOk root st) {x : Node} (hnew : st.nodeToLine.lookup x.addr = none)
    (hch : ∀ c ∈ x.childNodes, st.Indexed c) (k : Int)
    (hk : k + 1 = st.lineIndex + (x.nbLines : Int)) :
    IndexState.Ordered ⟨(x.addr, k) :: st.nodeToLine, st.allNodes ++ [x], k + 1⟩ := by
  intro y hy ky hky c hc r hr
  simp only at hy hky hr
  simp only [List.mem_append, List.mem_singleton] at hy
  rcases hy with hy | rfl
  · have hs := h.lookup_of_mem hy
    have hne : ¬ y.addr = x.addr := by
      intro e
      rw [e, hnew] at hs
      cases hs
    have e' : (y.addr == x.addr) = false := by simpa using hne
    rw [List.lookup_cons, e'] at hky
    rw [(h.closed y hy c hc).lineIndexFor_cons hnew k] at hr
    exact ho y hy ky hky c hc r hr
  · rw [List.lookup_cons] at hky
    simp only [beq_self_eq_true, Option.some.injEq] at hky
    rw [(hch c hc).lineIndexFor_cons hnew k] at hr
    have := h.lineIndexFor_lt hr
    omega

mutual
/-- The function `indexNodes` keeps the lines of the children before the lines of the
node. -/
theorem Node.indexNodes_ordered (root : Node) (hok : root.AddrOk) :
    ∀ (x : Node) (st : IndexState), x ∈ root.subnodes → IndexOk root st → st.Ordered →
      (x.indexNodes st).Ordered
  | .falseNode a, st, _, _, ho => by
    simp only [Node.indexNodes, ite_self]
    exact ho
  | .trueNode a, st, _, _, ho => by
    simp only [Node.indexNodes, ite_self]
    exact ho
  | .litNode a l, st, hx, h, ho => by
    simp only [Node.indexNodes]
    by_cases hs : (st.nodeToLine.lookup a).isSome = true
    · rw [if_pos hs]
      exact ho
    · rw [if_neg hs]
      have hnew : st.nodeToLine.lookup (Node.litNode a l).addr = none := by
        cases hl : st.nodeToLine.lookup (Node.litNode a l).addr with
        | none => rfl
        | some v =>
          exfalso
          apply hs
          simp only [Node.addr] at hl
          rw [hl]
          rfl
      exact ho.add_node h hnew (by simp [Node.childNodes]) st.lineIndex (by simp [Node.nbLines])
  | .orNode a v u0 c0 u1 c1 s, st, hx, h, ho => by
    simp only [Node.indexNodes]
    by_cases hs : (st.nodeToLine.lookup a).isSome = true
    · rw [if_pos hs]
      exact ho
    · rw [if_neg hs]
      have hc0 : c0 ∈ (Node.orNode a v u0 c0 u1 c1 s).childNodes := by simp [Node.childNodes]
      have hc1 : c1 ∈ (Node.orNode a v u0 c0 u1 c1 s).childNodes := by simp [Node.childNodes]
      have hx0 := Node.subnodes_trans root _ hx c0 (Node.childNodes_mem_subnodes hc0).1
      have hx1 := Node.subnodes_trans root _ hx c1 (Node.childNodes_mem_subnodes hc1).1
      obtain ⟨k0, m0, i0, n0⟩ := Node.indexNodes_ok root hok c0 st hx0 h
      obtain ⟨k1, m1, i1, n1⟩ := Node.indexNodes_ok root hok c1 (c0.indexNodes st) hx1 k0
      have o0 := Node.indexNodes_ordered root hok c0 st hx0 h ho
      have o1 := Node.indexNodes_ordered root hok c1 (c0.indexNodes st) hx1 k0 o0
      have hadd : ∀ y ∈ (c1.indexNodes (c0.indexNodes st)).allNodes, y ∈ st.allNodes ∨
          ∃ c ∈ (Node.orNode a v u0 c0 u1 c1 s).childNodes, y ∈ c.subnodes := by
        intro y hy
        rcases n1 y hy with hy | hy
        · rcases n0 y hy with hy | hy
          · exact Or.inl hy
          · exact Or.inr ⟨c0, hc0, hy⟩
        · exact Or.inr ⟨c1, hc1, hy⟩
      have hnew := IndexOk.fresh hok k1 h hx (by simpa [Node.addr] using hs) hadd
      have hch : ∀ c ∈ (Node.orNode a v u0 c0 u1 c1 s).childNodes,
          (c1.indexNodes (c0.indexNodes st)).Indexed c := by
        intro c hc
        simp only [Node.childNodes, List.mem_cons, List.mem_singleton, List.not_mem_nil,
          or_false] at hc
        rcases hc with rfl | rfl
        · exact i0.of_keys m1
        · exact i1
      exact o1.add_node k1 hnew hch _ (by simp [Node.nbLines]; ring)
  | .andNode a cs u s, st, hx, h, ho => by
    simp only [Node.indexNodes]
    by_cases hs : (st.nodeToLine.lookup a).isSome = true
    · rw [if_pos hs]
      exact ho
    · rw [if_neg hs]
      have hxs : ∀ c ∈ cs, c ∈ root.subnodes := fun c hc =>
        Node.subnodes_trans root _ hx c (Node.child_mem_subnodes_and a cs u s c hc)
      obtain ⟨k1, m1, i1, n1⟩ := Node.indexNodesAll_ok root hok cs st hxs h
      have o1 := Node.indexNodesAll_ordered root hok cs st hxs h ho
      have hadd : ∀ y ∈ (Node.indexNodesAll cs st).allNodes, y ∈ st.allNodes ∨
          ∃ c ∈ (Node.andNode a cs u s).childNodes, y ∈ c.subnodes := n1
      have hnew := IndexOk.fresh hok k1 h hx (by simpa [Node.addr] using hs) hadd
      exact o1.add_node k1 hnew i1 _ (by simp [Node.nbLines]; ring)
theorem Node.indexNodesAll_ordered (root : Node) (hok : root.AddrOk) :
    ∀ (xs : List Node) (st : IndexState), (∀ x ∈ xs, x ∈ root.subnodes) → IndexOk root st →
      st.Ordered → (Node.indexNodesAll xs st).Ordered
  | [], st, _, _, ho => by
    simp only [Node.indexNodesAll]
    exact ho
  | x :: xs, st, hxs, h, ho => by
    simp only [Node.indexNodesAll]
    have hx := hxs x (List.mem_cons_self _ _)
    exact Node.indexNodesAll_ordered root hok xs (x.indexNodes st)
      (fun c hc => hxs c (List.mem_cons_of_mem _ hc))
      (Node.indexNodes_ok root hok x st hx h).1
      (Node.indexNodes_ordered root hok x st hx h ho)
end

/-- C39: for every graph whose addresses identify its nodes, `Graph::print` writes a text in
which every line index an `A` or `O` line holds is the index of a line before that line;
the parser reads the whole text (no lookup in its table of nodes fails); and for every node
of the graph the line index written for it (`0` for `False`, `1` for `True`, the line of
`indexNodes` otherwise) is the index of the line of that node, whose line indexes are, in
order, the line indexes of its children, of the lines of its unit literals and, for an Or
node, of the `A` lines of its two branches, all before the line. -/
theorem Graph.print_refs (g : Graph) (hok : g.root.AddrOk) :
    ∃ text, g.print = some text ∧
      (∀ (i : Nat) (line : NNFLine), text.lines[i]? = some line →
        ∀ r ∈ line.refs, 0 ≤ r ∧ r < (i : Int)) ∧
      (∀ next : Nat, (parseLines text.lines [] next).isSome = true) ∧
      ∀ x ∈ g.root.subnodes,
        ∃ k : Int, Node.lineIndexFor (g.root.indexNodes ⟨[], [], 2⟩).nodeToLine x = some k ∧
          x.LineAt text.lines (g.root.indexNodes ⟨[], [], 2⟩).nodeToLine k := by
  obtain ⟨hst, _, hroot, _⟩ := Node.indexNodes_ok g.root hok g.root ⟨[], [], 2⟩
    g.root.self_mem_subnodes (IndexOk.init g.root)
  have hord := Node.indexNodes_ordered g.root hok g.root ⟨[], [], 2⟩
    g.root.self_mem_subnodes (IndexOk.init g.root)
    (fun x hx => absurd hx (List.not_mem_nil x))
  obtain ⟨lines, hl, hp⟩ := Node.printAll_some (g.root.indexNodes ⟨[], [], 2⟩).nodeToLine
    (g.root.indexNodes ⟨[], [], 2⟩).allNodes
    (fun x hx => Node.printNNF_some _ x (hst.closed x hx))
  have hpos : ∀ (i : Nat) (x : Node), (g.root.indexNodes ⟨[], [], 2⟩).allNodes[i]? = some x →
      ∃ k : Int, (g.root.indexNodes ⟨[], [], 2⟩).nodeToLine.lookup x.addr = some k ∧
        (((2 + (((g.root.indexNodes ⟨[], [], 2⟩).allNodes.take i).map Node.nbLines).sum
          : Nat) : Int)) + (x.nbLines : Int) = k + 1 := by
    intro i x hget
    refine ⟨_, hst.pos i x hget, ?_⟩
    have h5 : (g.root.indexNodes ⟨[], [], 2⟩).allNodes.take (i + 1)
        = (g.root.indexNodes ⟨[], [], 2⟩).allNodes.take i ++ [x] := by
      rw [List.take_succ, hget]
      rfl
    rw [h5]
    simp only [List.map_append, List.sum_append, List.map_cons, List.map_nil, List.sum_cons,
      List.sum_nil]
    push_cast
    ring
  have hmem : ∀ (i : Nat) (x : Node), (g.root.indexNodes ⟨[], [], 2⟩).allNodes[i]? = some x →
      x ∈ (g.root.indexNodes ⟨[], [], 2⟩).allNodes := by
    intro i x hget
    obtain ⟨hlt, e⟩ := List.getElem?_eq_some_iff.mp hget
    rw [← e]
    exact List.getElem_mem hlt
  obtain ⟨hrefs, hshape⟩ := Node.printAll_refsBelow _ _ 2 lines hl (by
    intro i x ls hget hls
    obtain ⟨k, hk, hpk⟩ := hpos i x hget
    exact Node.printNNF_refsBelow _ x k _ ls hk hls hpk (hord x (hmem i x hget) k hk))
  have hall : RefsBelowFrom 0 (([⟨'O', [0, 0]⟩, ⟨'A', [0]⟩] : List NNFLine) ++ lines) := by
    refine refsBelowFrom_append ?_ (by simpa using hrefs)
    intro i line hi r hr
    obtain ⟨hlt, e⟩ := List.getElem?_eq_some_iff.mp hi
    simp only [List.length_cons, List.length_nil] at hlt
    have hcases : i = 0 ∨ i = 1 := by omega
    rcases hcases with rfl | rfl
    · simp only [List.getElem_cons_zero] at e
      rw [← e] at hr
      simp [NNFLine.refs] at hr
    · simp only [List.getElem_cons_succ, List.getElem_cons_zero] at e
      rw [← e] at hr
      simp [NNFLine.refs] at hr
  refine ⟨⟨(g.root.indexNodes ⟨[], [], 2⟩).lineIndex, g.root.nbDescendants, g.nbVars,
    ([⟨'O', [0, 0]⟩, ⟨'A', [0]⟩] : List NNFLine) ++ lines⟩, ?_, ?_, ?_, ?_⟩
  · unfold Graph.print
    simp only [hl]
  · intro i line hi r hr
    simpa using hall i line hi r hr
  · intro next
    refine parseLines_isSome _ [] next ?_ hall
    intro l hl'
    rcases List.mem_append.mp hl' with hl' | hl'
    · simp only [List.mem_cons, List.mem_singleton, List.not_mem_nil, or_false] at hl'
      rcases hl' with rfl | rfl
      · exact Or.inr (Or.inr ⟨rfl, Or.inl rfl⟩)
      · exact Or.inr (Or.inl ⟨rfl, by simp⟩)
    · exact hshape l hl'
  · intro x hx
    by_cases hf : x.isFalseNode = true
    · refine ⟨0, by simp [Node.lineIndexFor, hf], ?_⟩
      cases x <;> simp [Node.isFalseNode] at hf
      exact ⟨rfl, by simp⟩
    by_cases ht : x.isTrueNode = true
    · refine ⟨1, by simp [Node.lineIndexFor, hf, ht], ?_⟩
      cases x <;> simp [Node.isTrueNode] at ht
      exact ⟨rfl, by simp⟩
    have hf' : x.isFalseNode = false := by simpa using hf
    have ht' : x.isTrueNode = false := by simpa using ht
    have hi := hst.indexed_subnodes hok g.root g.root.self_mem_subnodes hroot x hx
    have hm := hst.mem_of_indexed hok hx hi ht' hf'
    obtain ⟨i, hlt, e⟩ := List.getElem_of_mem hm
    have hget : (g.root.indexNodes ⟨[], [], 2⟩).allNodes[i]? = some x := by
      rw [List.getElem?_eq_getElem hlt, e]
    obtain ⟨ls, pre, post, h1, h2, h3⟩ := hp i x hget
    obtain ⟨k, hk, hpk⟩ := hpos i x hget
    refine ⟨k, by simp [Node.lineIndexFor, hf, ht, hk], ?_⟩
    refine Node.printNNF_lineAt _ _ (([⟨'O', [0, 0]⟩, ⟨'A', [0]⟩] : List NNFLine) ++ pre) post
      ls x k hk h1 ?_ ?_ (hord x hm k hk) ht' hf'
    · simp only [h2, List.append_assoc]
    · rw [← hpk]
      simp only [List.length_append, List.length_cons, List.length_nil, h3]

/-- The graph `And([Or(1, And([2]), And([-2])), Lit(3)], unit literals [4])`: the text has
14 lines and its last line, the line of the root, is `A 3 10 11 12`. -/
theorem Graph.print_refs_witness :
    andOverOrGraph.root.AddrOk ∧
      andOverOrGraph.print.map (fun text => text.lines[13]?) =
        some (some ⟨'A', [3, 10, 11, 12]⟩) ∧
      (andOverOrGraph.print.map
        (fun text => (parseLines text.lines [] 100).isSome)) = some true := by
  have hok : andOverOrGraph.root.AddrOk := by
    intro a ha b hb
    simp only [andOverOrGraph, Graph.make, Node.subnodes, Node.subnodesAll, List.mem_cons,
      List.mem_append, List.mem_singleton, List.not_mem_nil, or_false, List.append_nil] at ha hb
    rcases ha with rfl | (rfl | rfl | rfl) | rfl <;>
      rcases hb with rfl | (rfl | rfl | rfl) | rfl <;> simp [Node.addr]
  refine ⟨hok, by decide, ?_⟩
  obtain ⟨text, h, _, hparse, _⟩ := Graph.print_refs andOverOrGraph hok
  rw [h, Option.map_some', hparse 100]
